import Mathlib

/-!
# mg-dbx-bdb: composite-key codec, point operations and cursors

A shallow embedding of the M-mode key codec of `mg-dbx-bdb.cpp`
(`dbx_ibuffer_add`, `dbx_is_number`, `dbx_set_number`, `dbx_split_key`), of the
point operations and of the cursor functions, over an ordered byte-keyed store
that stands for the Berkeley DB B-tree and the LMDB database.

Conventions of the embedding:
* a byte is a natural number below 256 and a buffer is a list of bytes;
* `svalue` (pointer and length into a buffer) is held by value as the
  `len_used` bytes found at `buf_addr`;
* C `int` is a mathematical integer wrapped to 32 bits where the source
  converts, `unsigned long` is taken modulo `2 ^ 64` (LP64).
-/

namespace MgDbx

/-- A buffer of bytes. -/
abbrev Bytes := List Nat

/-! ## Constants of mg-dbx-bdb.h -/

def DBX_DTYPE_NONE : Nat := 0
def DBX_DTYPE_STR : Nat := 1
def DBX_DTYPE_INT : Nat := 4
def DBX_KEYTYPE_INT : Nat := 1
def DBX_KEYTYPE_STR : Nat := 2
def DBX_KEYTYPE_M : Nat := 3
def DBX_MAXARGS : Nat := 64
def CACHE_MAXSTRLEN : Nat := 32767
def CACHE_SUCCESS : Int := 0
def CACHE_ERUNDEF : Int := 9
def YDB_NODE_END : Int := 0x7fffffff - 3

/-! ## Byte-wise order of the ordered stores

Both stores compare keys as unsigned byte strings, a proper initial segment
sorting first (the default comparison of a Berkeley DB B-tree and of LMDB). -/

/-- Byte-wise lexicographic "strictly below". -/
def bytesLt : Bytes → Bytes → Bool
  | [], [] => false
  | [], _ :: _ => true
  | _ :: _, [] => false
  | a :: as, b :: bs => decide (a < b) || (decide (a = b) && bytesLt as bs)

/-- Byte-wise lexicographic "below or equal". -/
def bytesLe (a b : Bytes) : Bool := !(bytesLt b a)

/-! ## C library helpers -/

/-- The decimal digits of `n` as ASCII, written in front of `acc`; the numbers
below `10 ^ fuel` are written in full. -/
def natTextAux : Nat → Nat → Bytes → Bytes
  | 0, _, acc => acc
  | fuel + 1, n, acc =>
    if n / 10 = 0 then (n % 10 + 48) :: acc
    else natTextAux fuel (n / 10) ((n % 10 + 48) :: acc)

/-- The decimal digits of a natural number, most significant first, as ASCII. -/
def natText (n : Nat) : Bytes := natTextAux (n + 1) n []

/-- The text written by `sprintf(buffer, "%d", n)`. -/
def intText (n : Int) : Bytes :=
  if n < 0 then 45 :: natText n.natAbs else natText n.natAbs

/-- The characters `isspace` accepts in the C locale. -/
def isspace (c : Nat) : Bool := c = 32 || (9 ≤ c && c ≤ 13)

/-- ASCII decimal digit test. -/
def isdigit (c : Nat) : Bool := 48 ≤ c && c ≤ 57

/-- The value of the leading run of decimal digits, with `acc` already read. -/
def digitsValue : Nat → Bytes → Nat
  | acc, [] => acc
  | acc, c :: cs => if isdigit c then digitsValue (acc * 10 + (c - 48)) cs else acc

/-- The library call `strtol(s, NULL, 10)` with a 64-bit `long`: leading white
space, an optional sign, the leading digits, saturating at the ends of the range. -/
def strtol (s : Bytes) : Int :=
  let t := s.dropWhile isspace
  if t.head? = some 45 then max (-(2 ^ 63 : Int)) (-(digitsValue 0 t.tail : Int))
  else if t.head? = some 43 then min (2 ^ 63 - 1 : Int) (digitsValue 0 t.tail : Int)
  else min (2 ^ 63 - 1 : Int) (digitsValue 0 t : Int)

/-- The conversion `(int) x` of a `long`: the value wrapped to 32 bits. -/
def toInt32 (x : Int) : Int := (x + 2 ^ 31) % 2 ^ 32 - 2 ^ 31

/-- The conversion `(unsigned long) x`. -/
def toULong (x : Int) : Nat := (x % 2 ^ 64).toNat

/-- The bytes of a C string: what precedes the first NUL. -/
def cstr (s : Bytes) : Bytes := s.takeWhile (fun c => c != 0)

/-- The result of `strstr(s, ".")` on a C string: the text before the first '.',
and the text after it when there is one. -/
def splitAtDot : Bytes → Bytes × Option Bytes
  | [] => ([], none)
  | c :: cs =>
    if c = 46 then ([], some cs)
    else let r := splitAtDot cs; (c :: r.1, r.2)

/-! ## Data model -/

/-- The fields of `DBXVAL` that the key codec and the cursors use. `text`
stands for `svalue`: the `len_used` bytes at `buf_addr`. -/
structure DBXVAL where
  type : Nat := 0
  int32 : Int := 0
  text : Bytes := []
  csize : Nat := 0
  deriving DecidableEq, Repr, Inhabited

/-- The key assembly area `DBXKEY`: `ibuffer` holds the `ibuffer_used` bytes in
use, `args` is the descriptor array. -/
structure DBXKEY where
  ibuffer : Bytes := []
  ibuffer_size : Nat := CACHE_MAXSTRLEN
  argc : Nat := 0
  args : Nat → DBXVAL := fun _ => default

/-- The count `ibuffer_used`. -/
def DBXKEY.ibuffer_used (k : DBXKEY) : Nat := k.ibuffer.length

/-- A descriptor array such as `args[DBX_MAXARGS]`, by index. The array of the
source has `DBX_MAXARGS` entries; the callers refuse a request of that many
arguments, and `dbx_split_key` writes `keys[keyn]` without a test of `keyn`. The
embedding sets no bound on the index: an index of `DBX_MAXARGS` or more stands for
the memory after the array. -/
abbrev ArgArray := Nat → DBXVAL

/-- Read of `args[n]`. -/
def getArg (args : ArgArray) (n : Nat) : DBXVAL := args n

/-- Write of `args[n] = v` into a descriptor array. -/
def setArg (args : ArgArray) (n : Nat) (v : DBXVAL) : ArgArray :=
  fun i => if i = n then v else args i

/-- Write of one byte at index `i` of a buffer. -/
def setByte (b : Bytes) (i : Nat) (v : Nat) : Bytes := b.set i v

/-! ## dbx_set_size, dbx_is_number, dbx_set_number -/

/-- `dbx_set_size(str, data_len, 1)`: the low 32 bits of `data_len`, most
significant byte first. -/
def dbx_set_size (data_len : Nat) : Bytes :=
  [(data_len / 2 ^ 24) % 256, (data_len / 2 ^ 16) % 256, (data_len / 2 ^ 8) % 256,
    data_len % 256]

/-- The scanning loop of `dbx_is_number`, from index `neg` on: `dp` records that a
'.' was seen; the result is `(num, dp)`. -/
def is_number_scan : Bool → Bytes → Bool × Bool
  | dp, [] => (true, dp)
  | dp, c :: cs =>
    if c = 46 ∧ dp = false then is_number_scan true cs
    else if c < 48 ∨ c > 57 then (false, dp)
    else is_number_scan dp cs

/-- The tests of `dbx_is_number` on the text of a descriptor: `(num, dp)`, with
`num` false at once for a length of 0 or above 32. -/
def is_number_flags (text : Bytes) : Bool × Bool :=
  if text.length = 0 ∨ text.length > 32 then (false, false)
  else
    let neg : Nat := if text.head? = some 45 then 1 else 0
    is_number_scan false (text.drop neg)

/-- `dbx_is_number(pval)`: the result `num` and the descriptor, whose type and
`int32` are rewritten when the text is a number without a decimal point. -/
def dbx_is_number (pval : DBXVAL) : Bool × DBXVAL :=
  let r := is_number_flags pval.text
  if r.1 = true ∧ r.2 = false then
    (r.1, { pval with int32 := toInt32 (strtol (cstr pval.text)), type := DBX_DTYPE_INT })
  else (r.1, pval)

/-- The first part of `dbx_set_number`: the values of `num` and `dec`. -/
def set_number_parts (pval : DBXVAL) : Int × Int :=
  if pval.type = DBX_DTYPE_INT then (pval.int32, 0)
  else
    let buffer := cstr pval.text
    let sp := splitAtDot buffer
    match sp.2 with
    | some p =>
      let decstr := (p ++ [48, 48, 48, 48, 48, 48, 48, 48, 48]).take 9
      (toInt32 (strtol sp.1), toInt32 (strtol decstr))
    | none => (toInt32 (strtol buffer), 0)

/-- The second part of `dbx_set_number`: the ten bytes written at `px` for the
values `num` and `dec`. -/
def set_number_bytes (num dec : Int) : Bytes :=
  if num < 0 then
    [0x00, 0x01] ++ dbx_set_size ((0xffffffff + 2 ^ 64 - toULong (toInt32 (num * -1))) % 2 ^ 64)
      ++ dbx_set_size ((0xffffffff + 2 ^ 64 - toULong dec) % 2 ^ 64)
  else
    [0x00, 0x02] ++ dbx_set_size (toULong num) ++ dbx_set_size (toULong dec)

/-- `dbx_set_number(pval, px)`: the ten bytes written at `px`. -/
def dbx_set_number (pval : DBXVAL) : Bytes :=
  set_number_bytes (set_number_parts pval).1 (set_number_parts pval).2

/-! ## dbx_ibuffer_add -/

/-- The `len` bytes at `p` once the loop `p[n + 8] = p[n]` has moved the text
`buffer` eight bytes up: the first eight bytes of the text are still in their
place, and the bytes after them are the start of the moved text. This is what
`dbx_set_number` reads for a stringified number, `svalue.buf_addr` being set to
`p + 8` only after its call. -/
def shifted_text (buffer : Bytes) : Bytes :=
  buffer.take 8 ++ buffer.take (buffer.length - 8)

/-- The writes of `dbx_ibuffer_add` for argument `argn`, whose descriptor is `a0`
on entry and whose bytes are `buffer`: the bytes left from the starting position
`ibuffer + ibuffer_used` on (every write of the function falls there), and the
descriptor on exit but for its cumulative size. The byte at `p` is taken not to be
'^' when the name is empty. -/
def ibuffer_add_slot (key_type : Nat) (a0 : DBXVAL) (argn : Nat) (buffer : Bytes) :
    Bytes × DBXVAL :=
  let lead : Bytes :=
    if key_type = DBX_KEYTYPE_M then
      (if a0.type = DBX_DTYPE_INT then dbx_set_number a0 else [0x00, 0x03])
    else []
  let a1 : DBXVAL := { a0 with text := buffer }
  if key_type = DBX_KEYTYPE_M then
    let r2 : Bytes × DBXVAL :=
      if a1.type = DBX_DTYPE_STR ∧ (dbx_is_number a1).1 = true then
        (dbx_set_number { (dbx_is_number a1).2 with text := shifted_text buffer } ++ buffer,
          (dbx_is_number a1).2)
      else (lead ++ buffer, a1)
    let r3 : Bytes × DBXVAL :=
      if argn = 0 ∧ r2.2.text.head? = some 94 then
        (r2.1.take (r2.1.length - r2.2.text.length) ++ r2.2.text.tail,
          { r2.2 with text := r2.2.text.tail })
      else r2
    let buf4 : Bytes :=
      if r3.2.text.length = 0 then setByte r3.1 (r3.1.length - 1) 0x00 else r3.1
    (buf4, r3.2)
  else
    let a2 : DBXVAL :=
      if a1.type = DBX_DTYPE_STR ∧ (dbx_is_number a1).1 = true then
        { (dbx_is_number a1).2 with int32 := toInt32 (strtol (cstr a1.text)) }
      else a1
    (lead ++ buffer, a2)

/-- `dbx_ibuffer_add(pmeth, pkey, isolate, argn, str, buffer, buffer_len, context)`:
appends argument `argn`, whose bytes are `buffer`, to the key area; the caller has
set `args[argn].type` (and `num.int32` for an integer). The result is the key area
and the returned length; the cumulative size recorded is `ibuffer_used` on exit.
The allocation of a larger buffer is taken to succeed. -/
def dbx_ibuffer_add (key_type : Nat) (pkey : DBXKEY) (argn : Nat) (buffer : Bytes) :
    DBXKEY × Nat :=
  let size1 :=
    if pkey.ibuffer_used + buffer.length + 32 > pkey.ibuffer_size then
      pkey.ibuffer_used + buffer.length + CACHE_MAXSTRLEN
    else pkey.ibuffer_size
  let slot := ibuffer_add_slot key_type (getArg pkey.args argn) argn buffer
  let buf := pkey.ibuffer ++ slot.1
  ({ ibuffer := buf, ibuffer_size := size1, argc := argn,
     args := setArg pkey.args argn { slot.2 with csize := buf.length } },
    slot.2.text.length)

/-- An argument of a call: a JavaScript 32-bit integer, or the bytes of a string
or of a Buffer. -/
inductive JsValue where
  | int32 (n : Int)
  | str (s : Bytes)
  deriving DecidableEq, Repr

/-- One turn of the argument loop of `DBX_DBNAME::GlobalReference`: the type (and
value) of `args[nx]` is set and the argument appended. -/
def add_argument (key_type : Nat) (pkey : DBXKEY) (nx : Nat) (a : JsValue) : DBXKEY :=
  match a with
  | JsValue.int32 n =>
    let v : DBXVAL := { getArg pkey.args nx with type := DBX_DTYPE_INT, int32 := n }
    (dbx_ibuffer_add key_type { pkey with args := setArg pkey.args nx v } nx (intText n)).1
  | JsValue.str s =>
    let v : DBXVAL := { getArg pkey.args nx with type := DBX_DTYPE_STR }
    (dbx_ibuffer_add key_type { pkey with args := setArg pkey.args nx v } nx s).1

/-- The argument loop of `GlobalReference` from index `nx` on. -/
def add_arguments (key_type : Nat) : DBXKEY → Nat → List JsValue → DBXKEY
  | pkey, _, [] => pkey
  | pkey, nx, a :: as => add_arguments key_type (add_argument key_type pkey nx a) (nx + 1) as

/-- `DBX_DBNAME::GlobalReference` in M mode: the key area after the name and the
arguments have been appended, with `argc` the number of slots. No statement of the
source assigns the type of the name slot, and the memory of a request comes from
`dbx_malloc` without being cleared: the type is taken to be `DBX_DTYPE_NONE`, the
value of memory that was never written, so the name is written after the lead
00 03 whatever its text. -/
def GlobalReference (name : Bytes) (args : List JsValue) : DBXKEY :=
  let k0 : DBXKEY :=
    { ibuffer := [], argc := 0, args := setArg (fun _ => default) 0 { type := DBX_DTYPE_NONE } }
  let k1 := (dbx_ibuffer_add DBX_KEYTYPE_M k0 0 name).1
  let k2 := add_arguments DBX_KEYTYPE_M k1 1 args
  { k2 with argc := 1 + args.length }

/-! ## dbx_split_key -/

/-- The loop variables of `dbx_split_key`. -/
structure SplitState where
  n : Nat := 0
  nstart : Nat := 0
  nend : Nat := 0
  keyn : Nat := 0
  keys : ArgArray := fun _ => default

/-- The assignment of length and cumulative size to the slot before `keyn`. A
length is `nend - nstart`, which is not negative on a key the codec wrote. -/
def close_slot (keys : ArgArray) (keyn : Nat) (key : Bytes) (nstart nend : Nat) :
    ArgArray :=
  if keyn > 0 then
    setArg keys (keyn - 1)
      { getArg keys (keyn - 1) with text := (key.drop nstart).take (nend - nstart), csize := nend }
  else keys

/-- The `while (n < key_len)` loop of `dbx_split_key`; every turn advances `n`, so
`key_len` turns are enough. A byte read at index `key_len` is taken as 0. -/
def split_key_loop (key : Bytes) (key_len : Nat) : Nat → SplitState → SplitState
  | 0, s => s
  | fuel + 1, s =>
    if s.n < key_len then
      let c0 := key.getD s.n 0
      let c1 := key.getD (s.n + 1) 0
      if c0 = 0x00 ∧ (c1 = 0x01 ∨ c1 = 0x02) then
        let keys1 := close_slot s.keys s.keyn key s.nstart s.n
        let nstart := s.n + 10
        let keys2 := setArg keys1 s.keyn
          { getArg keys1 s.keyn with
            text := [], int32 := toInt32 (strtol (key.drop nstart)), type := DBX_DTYPE_INT }
        split_key_loop key key_len fuel
          { n := s.n + 10 + 1, nstart := nstart, nend := s.n, keyn := s.keyn + 1, keys := keys2 }
      else if c0 = 0x00 ∧ c1 = 0x03 then
        let keys1 := close_slot s.keys s.keyn key s.nstart s.n
        let nstart := s.n + 2
        let keys2 := setArg keys1 s.keyn
          { getArg keys1 s.keyn with text := [], type := DBX_DTYPE_STR }
        split_key_loop key key_len fuel
          { n := s.n + 2 + 1, nstart := nstart, nend := s.n, keyn := s.keyn + 1, keys := keys2 }
      else split_key_loop key key_len fuel { s with n := s.n + 1 }
    else s

/-- The closing loop of `dbx_split_key`, which tests `keys[keyn].type` on every
turn and marks a slot whose text holds a '.' as a string. -/
def split_key_types (keys : ArgArray) (keyn : Nat) : Nat → ArgArray
  | 0 => keys
  | n + 1 =>
    let ks := split_key_types keys keyn n
    if (getArg ks keyn).type = DBX_DTYPE_INT ∧ (splitAtDot (cstr (getArg ks n).text)).2.isSome then
      setArg ks n { getArg ks n with type := DBX_DTYPE_STR }
    else ks

/-- `dbx_split_key(keys, key, key_len)`: the descriptor array after the call and
the number `keyn` of slots found. -/
def dbx_split_key (keys : ArgArray) (key : Bytes) (key_len : Nat) : ArgArray × Nat :=
  let s := split_key_loop key key_len key_len { keys := keys }
  let keys1 := close_slot s.keys s.keyn key s.nstart key_len
  (split_key_types keys1 s.keyn s.keyn, s.keyn)

/-- The texts of the slots that `dbx_split_key` finds in `key`, in a descriptor
array whose entries were all unset before the call. -/
def split_texts (key : Bytes) : List Bytes :=
  let r := dbx_split_key (fun _ => default) key key.length
  (List.range r.2).map (fun i => (getArg r.1 i).text)

/-! ## M order of subscripts and the bytes of one subscript -/

/-- The number that the pair `(num, dec)` of `dbx_set_number` stands for, times
`10 ^ 9`. -/
def scaledValue (num dec : Int) : Int :=
  if num < 0 then num * 10 ^ 9 - dec else num * 10 ^ 9 + dec

/-- Every byte is an ASCII decimal digit. -/
def allDigits (s : Bytes) : Prop := ∀ c ∈ s, 48 ≤ c ∧ c ≤ 57

/-- The text of an argument: the digits of an integer, the bytes of a string. -/
def JsValue.text : JsValue → Bytes
  | JsValue.int32 n => intText n
  | JsValue.str s => s

/-- The pair `(num, dec)` that `dbx_set_number` computes for a string argument that
`dbx_is_number` has accepted: a text with a decimal point is read after it has
been moved eight bytes up. -/
def strParts (s : Bytes) : Int × Int :=
  set_number_parts
    { (dbx_is_number { type := DBX_DTYPE_STR, text := s }).2 with text := shifted_text s }

/-- The bytes that an argument after the name adds to the key. -/
def slotBytes : JsValue → Bytes
  | JsValue.int32 n => set_number_bytes n 0 ++ intText n
  | JsValue.str s =>
    if (is_number_flags s).1 = true then set_number_bytes (strParts s).1 (strParts s).2 ++ s
    else if s = [] then [0x00, 0x00] else [0x00, 0x03] ++ s

/-- The number that a decimal text (an optional '-', digits, an optional '.' and
digits) stands for. -/
def decimalValue (s : Bytes) : ℚ :=
  let neg : Bool := decide (s.head? = some 45)
  let sp := splitAtDot (if neg then s.tail else s)
  let ip : ℚ := (digitsValue 0 sp.1 : ℚ)
  let fp : ℚ :=
    match sp.2 with
    | some f => (digitsValue 0 f : ℚ) / (10 : ℚ) ^ f.length
    | none => 0
  if neg then -(ip + fp) else ip + fp

/-- The numeric value of a subscript in M order: an integer, or a string that is
the text of a decimal number; `none` for any other string. -/
def numericValue : JsValue → Option ℚ
  | JsValue.int32 n => some (n : ℚ)
  | JsValue.str s => if (is_number_flags s).1 = true then some (decimalValue s) else none

/-- M order of two subscripts: every numeric subscript before every string
subscript, numerics by value, strings by byte order. -/
def mPrecedes (a b : JsValue) : Prop :=
  match numericValue a, numericValue b with
  | some x, some y => x < y
  | some _, none => True
  | none, some _ => False
  | none, none => bytesLt a.text b.text = true

/-- Two subscripts that are texts of one and the same number. -/
def sameNumber (a b : JsValue) : Prop :=
  ∃ v : ℚ, numericValue a = some v ∧ numericValue b = some v

/-- The decimal texts that the ten-byte numeric slot holds without loss: an
integer part below `2 ^ 31` and, for a text with a decimal point, at most eight
bytes in all (so at most nine fractional digits), and no negative number that is
strictly between -1 and 0. -/
def regularDecimal (s : Bytes) : Bool :=
  let neg : Bool := decide (s.head? = some 45)
  let sp := splitAtDot (if neg then s.tail else s)
  decide (digitsValue 0 sp.1 < 2 ^ 31) &&
    (match sp.2 with
    | some f => decide (s.length ≤ 8) && decide (f.length ≤ 9) &&
        (!neg || decide (digitsValue 0 sp.1 ≠ 0) || decide (digitsValue 0 f = 0))
    | none => true)

/-- The subscripts for which the order of the keys is stated: a 32-bit integer
other than the minimum, a regular decimal text, or a non-empty string that is not
the text of a number. -/
def regularSubscript : JsValue → Bool
  | JsValue.int32 n => decide (-2 ^ 31 < n) && decide (n < 2 ^ 31)
  | JsValue.str s => if (is_number_flags s).1 = true then regularDecimal s else decide (s ≠ [])

/-- The pair `(num, dec)` that the code holds for a numeric subscript. -/
def codeParts : JsValue → Int × Int
  | JsValue.int32 n => (n, 0)
  | JsValue.str s => strParts s

/-! ## Keys that `dbx_split_key` reads back -/

/-- The name as it is stored: without one leading '^'. -/
def stripName (name : Bytes) : Bytes := if name.head? = some 94 then name.tail else name

/-- A text that `dbx_split_key` reads back: not empty, and without a zero byte. -/
def decodableText (s : Bytes) : Bool := decide (s ≠ []) && s.all (fun c => decide (c ≠ 0))

/-- An argument whose text `dbx_split_key` reads back: an integer, or a string
that is not empty and holds no zero byte. -/
def decodableArg : JsValue → Bool
  | JsValue.int32 _ => true
  | JsValue.str s => decodableText s

/-- The lead of a slot: 00 03, or ten bytes that start with 00 01 or 00 02. -/
def isLead (h : Bytes) : Prop :=
  h = [0x00, 0x03] ∨ (h.length = 10 ∧ ∃ b r, h = 0x00 :: b :: r ∧ (b = 0x01 ∨ b = 0x02))

/-- The state of `dbx_split_key` after it has met the lead of a slot at `s.n`, of
`hlen` bytes, and passed over the `tlen` bytes of its text. -/
def open_slot (key : Bytes) (s : SplitState) (hlen tlen : Nat) : SplitState :=
  let keys1 := close_slot s.keys s.keyn key s.nstart s.n
  let nstart := s.n + hlen
  let keys2 :=
    if hlen = 10 then
      setArg keys1 s.keyn
        { getArg keys1 s.keyn with
          text := [], int32 := toInt32 (strtol (key.drop nstart)), type := DBX_DTYPE_INT }
    else setArg keys1 s.keyn { getArg keys1 s.keyn with text := [], type := DBX_DTYPE_STR }
  { n := s.n + hlen + tlen, nstart := nstart, nend := s.n, keyn := s.keyn + 1, keys := keys2 }

/-- The state of `dbx_split_key` after a run of slots, each given by its lead and
its text. -/
def run_slots (key : Bytes) : SplitState → List (Bytes × Bytes) → SplitState
  | s, [] => s
  | s, ht :: rest => run_slots key (open_slot key s ht.1.length ht.2.length) rest

/-- The bytes of a run of slots. -/
def slotsBytes (slots : List (Bytes × Bytes)) : Bytes :=
  (slots.map (fun ht => ht.1 ++ ht.2)).flatten

/-- The lead that `dbx_ibuffer_add` writes for the name or an argument. -/
def slotLead (a : JsValue) : Bytes :=
  match a with
  | JsValue.int32 n => set_number_bytes n 0
  | JsValue.str s =>
    if (is_number_flags s).1 = true then set_number_bytes (strParts s).1 (strParts s).2
    else [0x00, 0x03]

/-- The bytes of a buffer from index `a` up to index `b`. -/
def slice (key : Bytes) (a b : Nat) : Bytes := (key.drop a).take (b - a)

/-- The texts that `dbx_split_key` returns when its loop has ended in state `s`. -/
def final_texts (key : Bytes) (s : SplitState) : List Bytes :=
  (List.range s.keyn).map
    (fun j => (getArg (close_slot s.keys s.keyn key s.nstart key.length) j).text)

/-- The texts of the slots before the last one that `dbx_split_key` has met. -/
def closed_texts (s : SplitState) : List Bytes :=
  (List.range (s.keyn - 1)).map (fun j => (getArg s.keys j).text)

/-- The lead and the text of the name slot of a reference: the lead is 00 03
whatever the text, the type of the slot being neither that of an integer nor that
of a string. -/
def nameSlot (name : Bytes) : Bytes × Bytes :=
  ([0x00, 0x03], stripName name)

/-- The lead and the text of the slot of an argument. -/
def argSlot (a : JsValue) : Bytes × Bytes := (slotLead a, a.text)

/-! ## The ordered store and the point operations

The store stands for the database of either backend, a Berkeley DB B-tree or an
LMDB database, which are libraries outside the repository: a list of records kept
in ascending byte order of their keys, one record per key. A cursor is placed by
key: the step to the next (previous) record finds the first key above (the last key
below) its place. `db_get`, `c_set_range`, `c_next`, `c_prev`, `c_first` and
`c_last` say which record the backend finds; what the caller gets of it is said by
`cursor_get`, and which records a read sees by `read_store`. Where a function is
written without them, its reads are taken to fit the memory of the caller and its
store is the one that its reads see. -/

def DBX_DBTYPE_BDB : Nat := 1
def DBX_DBTYPE_LMDB : Nat := 2

/-- A record: the key and the data. -/
abbrev Record := Bytes × Bytes

/-- The records of a database, in ascending order of their keys. -/
abbrev Store := List Record

/-- The keys ascend strictly; every store that `db_put` and `db_del` build from one
that has this property has it too. -/
def storeSorted (s : Store) : Prop := s.Pairwise (fun a b => bytesLt a.1 b.1 = true)

/-- The record of key `k` (`DB->get`, `mdb_get`). -/
def db_get (s : Store) (k : Bytes) : Option Bytes :=
  (s.find? (fun r => decide (r.1 = k))).map (fun r => r.2)

/-- The store after the record `(k, v)` is written (`DB->put`, `mdb_put` with flags
0): a record of the same key is replaced. -/
def db_put : Store → Bytes → Bytes → Store
  | [], k, v => [(k, v)]
  | r :: rest, k, v =>
    if bytesLt k r.1 = true then (k, v) :: r :: rest
    else if r.1 = k then (k, v) :: rest
    else r :: db_put rest k v

/-- The store after the record of key `k` is deleted (`DB->del`, `mdb_del`). -/
def db_del (s : Store) (k : Bytes) : Store := s.filter (fun r => decide (r.1 ≠ k))

/-- The first record whose key is not below `k` (`DB_SET_RANGE`, `MDB_SET_RANGE`). -/
def c_set_range (s : Store) (k : Bytes) : Option Record := s.find? (fun r => bytesLe k r.1)

/-- The first record above the place `cur` of the cursor (`DB_NEXT`, `MDB_NEXT`). -/
def c_next (s : Store) (cur : Bytes) : Option Record := s.find? (fun r => bytesLt cur r.1)

/-- The last record below the place `cur` of the cursor (`DB_PREV`, `MDB_PREV`). -/
def c_prev (s : Store) (cur : Bytes) : Option Record :=
  (s.filter (fun r => bytesLt r.1 cur)).getLast?

/-- The first record (`DB_FIRST`, `MDB_FIRST`). -/
def c_first (s : Store) : Option Record := s.head?

/-- The last record (`DB_LAST`, `MDB_LAST`). -/
def c_last (s : Store) : Option Record := s.getLast?

/-- The length `len_alloc` of the output buffers of a request
(`dbx_request_memory_alloc`). -/
def OUTPUT_LEN_ALLOC : Nat := 32000

/-- The return code of Berkeley DB for a user buffer that is too small. -/
def DB_BUFFER_SMALL : Int := -30999

/-- A read of a cursor, `found` being the record at which the backend places the
cursor. Berkeley DB copies key and data into memory of the caller
(`DB_DBT_USERMEM`) of `key_ulen` and `data_ulen` bytes, and returns
`DB_BUFFER_SMALL` when either does not fit, which the callers treat as any other
failed read. LMDB hands back the addresses of key and data in its map. -/
def cursor_get (dbtype key_ulen data_ulen : Nat) (found : Option Record) : Option Record :=
  match found with
  | none => none
  | some r =>
    if dbtype = DBX_DBTYPE_BDB ∧ (r.1.length > key_ulen ∨ r.2.length > data_ulen) then none
    else some r

/-- Every key and every data of the store fit the `OUTPUT_LEN_ALLOC` bytes of an
output buffer of a request. -/
def fitStore (s : Store) : Prop :=
  ∀ r ∈ s, r.1.length ≤ OUTPUT_LEN_ALLOC ∧ r.2.length ≤ OUTPUT_LEN_ALLOC

/-- The records that the reads of a point operation see. Berkeley DB is read
without a transaction: the reads see the database. LMDB is read through the
read-only transaction `ptxnro` after `lmdb_start_ro_transaction`, which begins or
renews the transaction only when the count `tlevelro` of the connection is 0: when
the count is not 0 (a cursor handle of the connection is open), the reads see
`seen`, the records the database held when the transaction was last begun or
renewed. -/
def read_store (dbtype : Nat) (tlevelro : Int) (seen store : Store) : Store :=
  if dbtype = DBX_DBTYPE_LMDB ∧ tlevelro ≠ 0 then seen else store

/-- `bdb_key_compare(key1, key2, compare_max, DBX_KEYTYPE_M)` and
`lmdb_key_compare`, which is the same function: 0 when the keys agree on the first
`compare_max` bytes and neither goes on with a byte other than 0 (for
`compare_max = 0`: when the keys are equal and not empty), -1 otherwise. -/
def bdb_key_compare (key1 key2 : Bytes) (compare_max : Nat) : Int :=
  if compare_max > 0 then
    if key1.length < compare_max ∨ key2.length < compare_max then -1
    else if key1.length > compare_max ∧ key1.getD compare_max 0 ≠ 0 then -1
    else if key2.length > compare_max ∧ key2.getD compare_max 0 ≠ 0 then -1
    else if key1.take compare_max = key2.take compare_max then 0 else -1
  else
    if key1.length = 0 then -1
    else if key1.length ≠ key2.length then -1
    else if key1.take key1.length = key2.take key1.length then 0 else -1

/-- `dbx_set` in M mode, on either backend: the record of the key made of all
arguments but the last is written with the text of the last argument as data. The
write is taken to succeed. -/
def dbx_set (store : Store) (pkey : DBXKEY) : Store :=
  db_put store (pkey.ibuffer.take (getArg pkey.args (pkey.argc - 2)).csize)
    (getArg pkey.args (pkey.argc - 1)).text

/-- `dbx_get` in M mode, `store` being the records that the read sees
(`read_store`): the data of the record of the key, the empty string when there is
none (`CACHE_ERUNDEF`), an error when the data do not fit the output buffer of
`OUTPUT_LEN_ALLOC` bytes (the error is that of Berkeley DB; on LMDB the data are
copied without a test of length, and longer data overrun the buffer). -/
def dbx_get (store : Store) (pkey : DBXKEY) : Except Int Bytes :=
  match db_get store (pkey.ibuffer.take (getArg pkey.args (pkey.argc - 1)).csize) with
  | none => Except.ok []
  | some d => if d.length ≤ OUTPUT_LEN_ALLOC then Except.ok d else Except.error DB_BUFFER_SMALL

/-- `dbx_defined` in M mode on the backend `dbtype`, `store` being the records
that the reads see (`read_store`): the number `n` returned as text. The read of the
record itself counts as found unless the backend reports "not found"; the reads of
the cursor are made into the key area, of `ibuffer_size` bytes, and the output
buffer. -/
def dbx_defined (dbtype : Nat) (store : Store) (pkey : DBXKEY) : Nat :=
  let csize := (getArg pkey.args (pkey.argc - 1)).csize
  let key0 := pkey.ibuffer.take csize
  let n : Nat := if db_get store key0 = none then 0 else 1
  match cursor_get dbtype pkey.ibuffer_size OUTPUT_LEN_ALLOC (c_set_range store key0) with
  | none => n
  | some r1 =>
    let r2 : Option Record :=
      if n ≠ 0 ∧ r1.1.length = csize ∧ bdb_key_compare r1.1 key0 csize = 0 then
        cursor_get dbtype pkey.ibuffer_size OUTPUT_LEN_ALLOC (c_next store r1.1)
      else some r1
    match r2 with
    | none => n
    | some r =>
      if r.1.length > csize ∧ bdb_key_compare r.1 key0 csize = 0 then n + 10 else n

/-- The `for (;;)` loop of `dbx_delete`: the record under the cursor is deleted and
the cursor moved on, until the read of the next record fails or the key read no
longer agrees with `key0`. Every turn deletes a record, so as many turns as there
are records are enough. -/
def delete_loop (dbtype key_ulen : Nat) (key0 : Bytes) (csize : Nat) :
    Nat → Store → Bytes → Store
  | 0, store, _ => store
  | fuel + 1, store, key =>
    let store1 := db_del store key
    match cursor_get dbtype key_ulen OUTPUT_LEN_ALLOC (c_next store1 key) with
    | none => store1
    | some r =>
      if bdb_key_compare r.1 key0 csize ≠ 0 then store1
      else delete_loop dbtype key_ulen key0 csize fuel store1 r.1

/-- `dbx_delete` in M mode on the backend `dbtype`: the store after the call. The
reads of the cursor are made into the key area, of `ibuffer_size` bytes, and the
output buffer; on LMDB they are made in the transaction of the write. -/
def dbx_delete (dbtype : Nat) (store : Store) (pkey : DBXKEY) : Store :=
  let csize := (getArg pkey.args (pkey.argc - 1)).csize
  let key0 := pkey.ibuffer.take csize
  let store1 := db_del store key0
  match cursor_get dbtype pkey.ibuffer_size OUTPUT_LEN_ALLOC (c_set_range store1 key0) with
  | none => store1
  | some r =>
    if bdb_key_compare r.1 key0 csize = 0 then
      delete_loop dbtype pkey.ibuffer_size key0 csize store1.length store1 r.1
    else store1

/-- The test that `dbx_defined` makes on the record after the key `k`: its key is
longer than `k` and compares as 0 with it over the length of `k`. -/
def zeroExt (k z : Bytes) : Bool :=
  decide (z.length > k.length ∧ bdb_key_compare z k k.length = 0)

/-- A run of slots as the codec writes them for texts that `dbx_split_key` reads
back. -/
def wfSlots (slots : List (Bytes × Bytes)) : Prop :=
  ∀ ht ∈ slots, isLead ht.1 ∧ decodableText ht.2 = true

/-- A buffer that is empty or starts with a zero byte. -/
def startsZero (x : Bytes) : Prop := x = [] ∨ ∃ y, x = 0 :: y

/-- A key that the codec wrote for a reference whose name and subscripts it reads
back. -/
def codecKey (key : Bytes) : Prop :=
  ∃ (name : Bytes) (subs : List JsValue), decodableText (stripName name) = true ∧
    (∀ a ∈ subs, decodableArg a = true) ∧ key = (GlobalReference name subs).ibuffer

/-- A store all of whose keys the codec wrote. -/
def codecStore (s : Store) : Prop := ∀ r ∈ s, codecKey r.1

/-- A record is stored under the reference itself. -/
def hasRecord (s : Store) (name : Bytes) (subs : List JsValue) : Prop :=
  ∃ r ∈ s, r.1 = (GlobalReference name subs).ibuffer

/-- A record is stored under the reference extended by at least one further
subscript. -/
def hasDescendant (s : Store) (name : Bytes) (subs : List JsValue) : Prop :=
  ∃ r ∈ s, ∃ more : List JsValue, more ≠ [] ∧
    r.1 = (GlobalReference name (subs ++ more)).ibuffer

/-! ## next and previous

`bdb_next` and `lmdb_next`, `bdb_previous` and `lmdb_previous` in M mode, called
with `context == 0` (from `dbx_next` and `dbx_previous`). The local array
`mkeys[DBX_MAXARGS]` of these functions is not initialised: its content on entry
is the parameter `mkeys0`. -/

/-- The memory `buf` after a key `k` has been written at its start (a cursor `get`
into `DB_DBT_USERMEM` memory, or a `memcpy`): the bytes after the key stay. -/
def storeKey (buf k : Bytes) : Bytes := k ++ buf.drop k.length

/-- Write of one byte at index `i` of a memory area of which `buf` is the part
written so far; a byte never written is taken as 0. -/
def pokeByte (buf : Bytes) (i v : Nat) : Bytes :=
  if i < buf.length then buf.set i v else buf ++ List.replicate (i - buf.length) 0 ++ [v]

/-- `strncmp(a, b, n) == 0` on two areas of at least `n` bytes: the comparison
stops at a NUL. -/
def strncmp_eq (a b : Bytes) (n : Nat) : Bool := decide (cstr (a.take n) = cstr (b.take n))

/-- The variables of the `for (n = 0; n < 10; n ++)` loop of `bdb_next` and
`lmdb_next`: the memory at `key.data`, which is that of `pkeyval`, `key.size`, the
array `mkeys` and `pkeyval->svalue.len_used`. -/
structure NextState where
  buf : Bytes
  size : Nat
  mkeys : ArgArray
  len_used : Nat

/-- The loop of `bdb_next` (`dbtype` 1) and of `lmdb_next` (`dbtype` 2), which
differ in two places: `bdb_next` reads key and data into the memory of `pkeyval` and
`pdataval`, of `OUTPUT_LEN_ALLOC` bytes each when the caller is `dbx_next`, and a
read that does not fit fails; `lmdb_next` sets `pkeyval->svalue.len_used` to the
size of every key read and copies the key, and at the end the data, into that
memory without a test of length (a longer key or data overruns it, which the
embedding does not follow). The result is `rc` and the bytes of `pkeyval` at the
exit of the loop; when the ten turns are used up, `rc` is that of the last read. -/
def next_loop (dbtype : Nat) (store : Store) (pkey : DBXKEY) :
    Nat → NextState → Int × Bytes
  | 0, s => (CACHE_SUCCESS, s.buf.take s.len_used)
  | fuel + 1, s =>
    match cursor_get dbtype OUTPUT_LEN_ALLOC OUTPUT_LEN_ALLOC
        (c_set_range store (s.buf.take s.size)) with
    | none => (YDB_NODE_END, s.buf.take s.len_used)
    | some r =>
      let buf1 := storeKey s.buf r.1
      let len1 := if dbtype = DBX_DBTYPE_LMDB then r.1.length else s.len_used
      if buf1.getD 0 0 ≠ 0 then (YDB_NODE_END, buf1.take len1)
      else
        let fixed_comp : Int :=
          if pkey.argc < 2 then 0
          else bdb_key_compare r.1 pkey.ibuffer (getArg pkey.args (pkey.argc - 2)).csize
        if fixed_comp = 0 then
          let sp := dbx_split_key s.mkeys r.1 r.1.length
          if sp.2 ≥ pkey.argc then
            let seed := getArg pkey.args (pkey.argc - 1)
            let m := getArg sp.1 (pkey.argc - 1)
            if seed.text.length = m.text.length ∧
                strncmp_eq seed.text m.text seed.text.length = true then
              next_loop dbtype store pkey fuel
                { buf := pokeByte (pokeByte buf1 seed.csize 0x00) (seed.csize + 1) 0xff,
                  size := seed.csize + 2, mkeys := sp.1, len_used := len1 }
            else (CACHE_SUCCESS, m.text)
          else
            next_loop dbtype store pkey fuel
              { buf := buf1, size := r.1.length, mkeys := sp.1, len_used := len1 }
        else (YDB_NODE_END, buf1.take len1)

/-- The end of `bdb_next` and `lmdb_next`: the length is set to 0 when `rc` is not
`CACHE_SUCCESS`, and `rc` to `YDB_NODE_END` when the length is 0. -/
def next_exit (r : Int × Bytes) : Int × Bytes :=
  let out : Bytes := if r.1 ≠ CACHE_SUCCESS then [] else r.2
  (if out.length = 0 then YDB_NODE_END else r.1, out)

/-- `bdb_next(pmeth, pkey, pkeyval, pdataval, 0)` in M mode: `rc` and the bytes
returned in `pkeyval`. -/
def bdb_next (store : Store) (pkey : DBXKEY) (mkeys0 : ArgArray) : Int × Bytes :=
  next_exit (next_loop DBX_DBTYPE_BDB store pkey 10
    { buf := pkey.ibuffer, size := pkey.ibuffer_used, mkeys := mkeys0, len_used := 0 })

/-- `lmdb_next(pmeth, pkey, pkeyval, pdataval, 0)` in M mode: `rc` and the bytes
returned in `pkeyval`. -/
def lmdb_next (store : Store) (pkey : DBXKEY) (mkeys0 : ArgArray) : Int × Bytes :=
  next_exit (next_loop DBX_DBTYPE_LMDB store pkey 10
    { buf := pkey.ibuffer, size := pkey.ibuffer_used, mkeys := mkeys0, len_used := 0 })

/-- The reads of `bdb_previous` (`dbtype` 1) and `lmdb_previous` (`dbtype` 2) in M
mode: the key of the record read when the last read succeeded, and `fixed_comp`.
`lmdb_previous` has no read of the last record when `MDB_SET_RANGE` finds
nothing. -/
def previous_read (dbtype : Nat) (store : Store) (pkey : DBXKEY) : Option Bytes × Int :=
  let seed := getArg pkey.args (pkey.argc - 1)
  let fc : Bytes → Int := fun k =>
    if pkey.argc < 2 then 0
    else bdb_key_compare k pkey.ibuffer (getArg pkey.args (pkey.argc - 2)).csize
  if pkey.argc < 2 ∧ seed.text.length = 0 then
    ((c_last store).map (fun r => r.1), 0)
  else
    let buf : Bytes :=
      if seed.text.length = 0 then pokeByte pkey.ibuffer (seed.csize - 1) 0xff
      else pkey.ibuffer
    match c_set_range store (buf.take pkey.ibuffer_used) with
    | some r =>
      match c_prev store r.1 with
      | some r2 => (some r2.1, fc r2.1)
      | none => (none, fc r.1)
    | none =>
      if dbtype = DBX_DBTYPE_BDB then
        match c_last store with
        | some r2 => (some r2.1, fc r2.1)
        | none => (none, fc (buf.take pkey.ibuffer_used))
      else (none, 0)

/-- The end of `bdb_previous` and `lmdb_previous` with `context == 0`: the key read
is split into `mkeys` and the bytes designated by `mkeys[argc - 1]` are returned,
whether or not the key has that many slots. -/
def previous_exit (pkey : DBXKEY) (mkeys0 : ArgArray) (r : Option Bytes × Int) : Int × Bytes :=
  match r.1 with
  | some k =>
    if r.2 = 0 then
      (CACHE_SUCCESS, (getArg (dbx_split_key mkeys0 k k.length).1 (pkey.argc - 1)).text)
    else (YDB_NODE_END, [])
  | none => (YDB_NODE_END, [])

/-- `bdb_previous(pmeth, pkey, pkeyval, pdataval, 0)` in M mode: `rc` and the bytes
returned in `pkeyval`. -/
def bdb_previous (store : Store) (pkey : DBXKEY) (mkeys0 : ArgArray) : Int × Bytes :=
  previous_exit pkey mkeys0 (previous_read DBX_DBTYPE_BDB store pkey)

/-- `lmdb_previous(pmeth, pkey, pkeyval, pdataval, 0)` in M mode: `rc` and the
bytes returned in `pkeyval`. -/
def lmdb_previous (store : Store) (pkey : DBXKEY) (mkeys0 : ArgArray) : Int × Bytes :=
  previous_exit pkey mkeys0 (previous_read DBX_DBTYPE_LMDB store pkey)

/-! ## The multilevel cursor

`dbx_cursor_reset`, `dbx_global_query` and the multilevel branch of `mcursor::Next`
and `mcursor::Previous` in M mode, without `getdata`. The keys and the data read
are taken to fit the buffers. -/

def YDB_OK : Int := 0

/-- The return code of a cursor read that finds no record (`DB_NOTFOUND`); only
its being different from `CACHE_SUCCESS` is used. -/
def DB_NOTFOUND : Int := -30988

/-- The part of `DBXQR` that the multilevel cursor uses, its member `key`:
`ibuffer` is the memory of the key area as far as it has been written (the first
`ibuffer_used` bytes are in use), `args` the descriptor array. -/
structure DBXQR where
  ibuffer : Bytes := []
  ibuffer_used : Nat := 0
  argc : Nat := 0
  args : ArgArray := fun _ => default

/-- The fields of `mcursor` that the multilevel cursor uses. `pcursor` tells that
the backend cursor is open and `place` is the key of the record it stands on. -/
structure mcursor where
  dbtype : Nat
  pcursor : Bool
  place : Option Bytes
  pqr_prev : DBXQR
  pqr_next : DBXQR
  fixed_key_len : Nat
  counter : Nat
  context : Nat

/-- One turn of the key loop of `dbx_cursor_reset`: an integer is written with the
text of `pmeth->key.args[nx].num.int32`, whose value `pmeth_int32 nx` is that of
an earlier request. -/
def reset_key (pmeth_int32 : Nat → Int) (pkey : DBXKEY) (nx : Nat) (a : JsValue) : DBXKEY :=
  match a with
  | JsValue.int32 n =>
    let v : DBXVAL := { getArg pkey.args nx with type := DBX_DTYPE_INT, int32 := n }
    (dbx_ibuffer_add DBX_KEYTYPE_M { pkey with args := setArg pkey.args nx v } nx
      (intText (pmeth_int32 nx))).1
  | JsValue.str s =>
    let v : DBXVAL := { getArg pkey.args nx with type := DBX_DTYPE_STR }
    (dbx_ibuffer_add DBX_KEYTYPE_M { pkey with args := setArg pkey.args nx v } nx s).1

/-- The key loop of `dbx_cursor_reset` from index `nx` on. -/
def reset_keys (pmeth_int32 : Nat → Int) : DBXKEY → Nat → List JsValue → DBXKEY
  | pkey, _, [] => pkey
  | pkey, nx, a :: as => reset_keys pmeth_int32 (reset_key pmeth_int32 pkey nx a) (nx + 1) as

/-- `dbx_cursor_reset` in M mode for a cursor made by `mglobalquery` from the
properties `global` and `key` and the option `multilevel`: the cursor, or `none`
when the function returns -1. `mem_prev` and `mem_next` are the contents of the
two key areas when they are allocated. The type of the name slot, which the
function does not assign, is taken to be `DBX_DTYPE_NONE`, the value of memory that
was never written. -/
def dbx_cursor_reset (dbtype : Nat) (global : Bytes) (key : List JsValue) (multilevel : Bool)
    (pmeth_int32 : Nat → Int) (mem_prev mem_next : Bytes) : Option mcursor :=
  let written := cstr global
  let global_name := if written.head? = some 94 then written.tail else written
  let k0 : DBXKEY :=
    { ibuffer := [], argc := 0, args := setArg (fun _ => default) 0 { type := DBX_DTYPE_NONE } }
  let k1 := (dbx_ibuffer_add DBX_KEYTYPE_M k0 0 global_name).1
  let mem1 := if global_name.head? = some 94 then pokeByte mem_prev k1.ibuffer.length 0
    else mem_prev
  let k2 := reset_keys pmeth_int32 k1 1 key
  if global_name.length = 0 then none
  else some
    { dbtype := dbtype, pcursor := true, place := none,
      pqr_prev :=
        { ibuffer := storeKey mem1 k2.ibuffer, ibuffer_used := k2.ibuffer.length,
          argc := 1 + key.length, args := k2.args },
      pqr_next := { ibuffer := mem_next },
      fixed_key_len := k2.ibuffer.length, counter := 0,
      context := if multilevel then 2 else 1 }

/-- The variables of the loops of `dbx_global_query`: the place of the backend
cursor, the area `pqr_next`, the bytes of `key` and `rc`. -/
structure QueryState where
  place : Option Bytes
  qr : DBXQR
  key : Bytes
  rc : Int

/-- The assignment `pqr_next->key.args[0].svalue.len_used = 0`. -/
def clear_name (qr : DBXQR) : DBXQR :=
  { qr with args := setArg qr.args 0 { getArg qr.args 0 with text := [] } }

/-- The state after a read has found the record of key `k`: Berkeley DB writes
the key into the memory of `pqr_next`, LMDB hands out the key in its own
memory. -/
def key_read (dbtype : Nat) (s : QueryState) (k : Bytes) : QueryState :=
  { place := some k,
    qr := if dbtype = DBX_DBTYPE_BDB then { s.qr with ibuffer := storeKey s.qr.ibuffer k }
      else s.qr,
    key := k, rc := CACHE_SUCCESS }

/-- The state after a key has been accepted:
`dbx_split_key(&(pqr_next->key.args[0]), key.data, key.size)`. -/
def key_found (s : QueryState) : QueryState :=
  let sp := dbx_split_key s.qr.args s.key s.key.length
  { s with qr := { s.qr with args := sp.1, argc := sp.2, ibuffer_used := s.key.length } }

/-- The step of a placed cursor to the next record; a cursor that is not placed
goes to the first record. -/
def c_step_next (store : Store) (place : Option Bytes) : Option Record :=
  match place with
  | none => c_first store
  | some k => c_next store k

/-- The step of a placed cursor to the previous record; a cursor that is not
placed goes to the last record. -/
def c_step_prev (store : Store) (place : Option Bytes) : Option Record :=
  match place with
  | none => c_last store
  | some k => c_prev store k

/-- The loop `for (n = (*counter); n < ((*counter) + 5); n ++)` of
`dbx_global_query` for `dir == 1`, with `turns` turns left. -/
def query_forward (dbtype : Nat) (store : Store) (key0 : Bytes) (fixed_key_len : Nat) :
    Nat → Nat → QueryState → QueryState
  | 0, _, s => s
  | turns + 1, n, s =>
    match (if n = 0 then c_set_range store s.key else c_step_next store s.place) with
    | none => { s with rc := DB_NOTFOUND, qr := clear_name s.qr }
    | some r =>
      let s1 := key_read dbtype s r.1
      if bdb_key_compare r.1 key0 fixed_key_len = 0 then
        if bdb_key_compare r.1 key0 0 = 0 then
          query_forward dbtype store key0 fixed_key_len turns (n + 1) s1
        else key_found s1
      else { s1 with qr := clear_name s1.qr }

/-- The first read of the loop for `dir != 1` when `n == 0`: the bytes 00 ff are
written after the key, `MDB_SET_RANGE` (`DB_SET_RANGE`) is tried and, when it
finds nothing, the last record is read. The result is the memory of `pqr_next`
and the record read. -/
def query_last (store : Store) (s : QueryState) : Bytes × Option Record :=
  let mem := pokeByte (pokeByte s.qr.ibuffer s.qr.ibuffer_used 0x00) (s.qr.ibuffer_used + 1) 0xff
  match c_set_range store (mem.take (s.qr.ibuffer_used + 2)) with
  | some r => (mem, some r)
  | none => (mem, c_last store)

/-- The loop of `dbx_global_query` for `dir != 1`, with `turns` turns left. A key
that does not agree with `key0` makes the loop go on. -/
def query_backward (dbtype : Nat) (store : Store) (key0 : Bytes) (fixed_key_len : Nat) :
    Nat → Nat → QueryState → QueryState
  | 0, _, s => s
  | turns + 1, n, s =>
    let rd : Bytes × Option Record :=
      if n = 0 then query_last store s else (s.qr.ibuffer, c_step_prev store s.place)
    let s0 : QueryState := { s with qr := { s.qr with ibuffer := rd.1 } }
    match rd.2 with
    | none => { s0 with rc := DB_NOTFOUND, qr := clear_name s0.qr }
    | some r =>
      let s1 := key_read dbtype s0 r.1
      if bdb_key_compare r.1 key0 fixed_key_len = 0 then
        if bdb_key_compare r.1 key0 0 = 0 then
          query_backward dbtype store key0 fixed_key_len turns (n + 1) s1
        else key_found s1
      else query_backward dbtype store key0 fixed_key_len turns (n + 1) s1

/-- The result of `dbx_global_query`: `eod`, the place of the backend cursor, the
area `pqr_next` and `*counter`. -/
structure QueryResult where
  eod : Int
  place : Option Bytes
  pqr_next : DBXQR
  counter : Nat

/-- The end of `dbx_global_query`, after the loop has left the state `s`: a length
of 0 of the name slot makes `rc` `YDB_NODE_END`, any other length counts the call. -/
def query_exit (counter : Nat) (s : QueryState) : QueryResult :=
  let ended : Bool := decide ((getArg s.qr.args 0).text.length = 0)
  let rc : Int := if ended then YDB_NODE_END else s.rc
  let counter1 : Nat := if ended then counter else counter + 1
  if rc = YDB_NODE_END ∨ rc ≠ YDB_OK then
    { eod := 1, place := s.place, pqr_next := { s.qr with argc := 0 }, counter := counter1 }
  else { eod := 0, place := s.place, pqr_next := s.qr, counter := counter1 }

/-- The start of `dbx_global_query` in M mode: the key of `pqr_prev` is copied
into the area `pqr_next`, where `key` points. -/
def query_entry (place : Option Bytes) (pqr_next pqr_prev : DBXQR) : QueryState :=
  let key0 := pqr_prev.ibuffer.take pqr_prev.ibuffer_used
  let qr0 : DBXQR :=
    { pqr_next with ibuffer := storeKey pqr_next.ibuffer key0,
                    ibuffer_used := pqr_prev.ibuffer_used }
  { place := place, qr := qr0, key := qr0.ibuffer.take qr0.ibuffer_used, rc := CACHE_SUCCESS }

/-- `dbx_global_query(pmeth, pqr_next, pqr_prev, dir, getdata, &fixed_key_len,
&counter)` in M mode on the backend `dbtype`; `key0` is the key of `pqr_prev`. -/
def dbx_global_query (dbtype : Nat) (store : Store) (place : Option Bytes)
    (pqr_next pqr_prev : DBXQR) (dir : Int) (fixed_key_len counter : Nat) : QueryResult :=
  let key0 := pqr_prev.ibuffer.take pqr_prev.ibuffer_used
  let s0 := query_entry place pqr_next pqr_prev
  if dir = 1 then
    query_exit counter (query_forward dbtype store key0 fixed_key_len 5 counter s0)
  else query_exit counter (query_backward dbtype store key0 fixed_key_len 5 counter s0)

/-- The bytes that the descriptor `args[n]` of an area designates when they are
read: on Berkeley DB the descriptors point into the key area itself, at
`ibuffer + csize - len_used`; on LMDB they point at the key in the memory of the
database (and those that `dbx_cursor_reset` set at bytes of the key area that are
never written again). -/
def arg_bytes (dbtype : Nat) (qr : DBXQR) (n : Nat) : Bytes :=
  let a := getArg qr.args n
  if dbtype = DBX_DBTYPE_BDB then slice qr.ibuffer (a.csize - a.text.length) a.csize
  else a.text

/-- The array `key` of the object that the multilevel branch returns: the texts of
the slots after the name. -/
def query_key (dbtype : Nat) (qr : DBXQR) : List Bytes :=
  (List.range (qr.argc - 1)).map (fun i => arg_bytes dbtype qr (i + 1))

/-- The multilevel branch (`context == 2`) that `mcursor::Next` (`dir` 1) and
`mcursor::Previous` (`dir` -1) share: the cursor after the call and the value
returned, `none` for null. -/
def mcursor_step (store : Store) (dir : Int) (cx : mcursor) : mcursor × Option (List Bytes) :=
  if cx.pcursor = false then (cx, none)
  else
    let r := dbx_global_query cx.dbtype store cx.place cx.pqr_next cx.pqr_prev dir
      cx.fixed_key_len cx.counter
    let cx1 : mcursor :=
      { cx with place := r.place, counter := r.counter, pqr_next := cx.pqr_prev,
                pqr_prev := r.pqr_next }
    if r.eod = CACHE_SUCCESS then (cx1, some (query_key cx.dbtype r.pqr_next))
    else ({ cx1 with pcursor := false, place := none }, none)

/-- `mcursor::Next` on a multilevel cursor. -/
def mcursor.Next (store : Store) (cx : mcursor) : mcursor × Option (List Bytes) :=
  mcursor_step store 1 cx

/-- `mcursor::Previous` on a multilevel cursor. -/
def mcursor.Previous (store : Store) (cx : mcursor) : mcursor × Option (List Bytes) :=
  mcursor_step store (-1) cx

/-- The values returned by `count` successive calls of `mcursor::Next` (`dir` 1) or
`mcursor::Previous` (`dir` -1). -/
def cursor_run (store : Store) (dir : Int) : Nat → mcursor → List (Option (List Bytes))
  | 0, _ => []
  | count + 1, cx =>
    (mcursor_step store dir cx).2 :: cursor_run store dir count (mcursor_step store dir cx).1

/-! ## The subscripts of a level, for `next` -/

/-- An integer argument is a 32-bit integer. -/
def int32Value : JsValue → Bool
  | JsValue.int32 n => decide (-2 ^ 31 ≤ n) && decide (n < 2 ^ 31)
  | JsValue.str _ => true

/-- A subscript that JavaScript passes and `dbx_split_key` reads back: a 32-bit
integer, or a string that is not empty and holds no zero byte. -/
def subscriptArg (a : JsValue) : Bool := decodableArg a && int32Value a

/-- A key that the codec wrote for a reference made of such subscripts. -/
def subscriptKey (key : Bytes) : Prop :=
  ∃ (name : Bytes) (subs : List JsValue), decodableText (stripName name) = true ∧
    (∀ a ∈ subs, subscriptArg a = true) ∧ key = (GlobalReference name subs).ibuffer

/-- A store all of whose keys are such keys. -/
def subscriptStore (s : Store) : Prop := ∀ r ∈ s, subscriptKey r.1

/-- The seed of `next`: a subscript, or the empty string. -/
def seedArg (a : JsValue) : Prop := subscriptArg a = true ∨ a = JsValue.str []

/-- The subscript `a` stands right after the subscripts `subs` in the key of some
record of the global `name`. -/
def storedUnder (s : Store) (name : Bytes) (subs : List JsValue) (a : JsValue) : Prop :=
  subscriptArg a = true ∧
    ∃ more : List JsValue, ∃ r ∈ s, r.1 = (GlobalReference name (subs ++ a :: more)).ibuffer

/-- Key order of two subscripts at the same position: the order of the bytes they
add to the key. -/
def keyBelow (a b : JsValue) : Prop := bytesLt (slotBytes a) (slotBytes b) = true

/-- What the specification asks of the result `res` of `next` for the reference
`(name, subs, seed)`: the text of the smallest subscript, in key order, that is
stored after `subs` and lies strictly after the seed, or the empty result with
`YDB_NODE_END` when there is none. -/
def nextResult (s : Store) (name : Bytes) (subs : List JsValue) (seed : JsValue)
    (res : Int × Bytes) : Prop :=
  (res = (YDB_NODE_END, []) ∧ ∀ a, storedUnder s name subs a → ¬ keyBelow seed a) ∨
  (∃ b, storedUnder s name subs b ∧ keyBelow seed b ∧ res = (CACHE_SUCCESS, b.text) ∧
    ∀ a, storedUnder s name subs a → keyBelow seed a → ¬ keyBelow a b)

/-! ## The enlargement of the key area

The first step of `dbx_ibuffer_add`, with the outcome of `dbx_malloc` as a
parameter. -/

/-- `dbx_ibuffer_add` with the result of `dbx_malloc` given by `malloc_ok`: when
fewer than 32 bytes would be left after the argument, an area of `ibuffer_used +
len + CACHE_MAXSTRLEN` bytes is asked for; the function gives up, returning 0 and
leaving the key area as it was (`none`), only when that request fails. The length
of the key is compared with nothing else. -/
def dbx_ibuffer_add_alloc (malloc_ok : Bool) (key_type : Nat) (pkey : DBXKEY) (argn : Nat)
    (buffer : Bytes) : Option (DBXKEY × Nat) :=
  if pkey.ibuffer_used + buffer.length + 32 > pkey.ibuffer_size ∧ malloc_ok = false then none
  else some (dbx_ibuffer_add key_type pkey argn buffer)

/-! ## The cursor handle

The methods of the class `mcursor` (`mg-cursor.cpp`) in M mode with the functions
they call: `dbx_cursor_init`, `dbx_cursor_reset`, the read transactions of LMDB,
`bdb_next`, `lmdb_next`, `bdb_previous` and `lmdb_previous` called with
`context == 1`, `dbx_global_order` and `dbx_global_directory`. The connection is
taken to be open and the backends to report no error but "not found"; the options
`getdata` and `format` are left out. -/

/-- The fields of `DBXCON` that the cursor handles change: the depth `tlevelro` of
read transactions on LMDB, the flag `tstatusro` (1 when the read transaction has
been reset and is to be renewed), whether the read transaction `ptxnro` is live
(begun or renewed, and not reset), and the number of tasks handed to the worker
queue by `dbx_queue_task`. -/
structure DBXCON where
  tlevelro : Int := 0
  tstatusro : Int := 0
  ro_live : Bool := false
  queued : Nat := 0
  deriving DecidableEq, Repr

/-- `lmdb_start_ro_transaction`: the transaction is renewed or begun when the depth
is 0, and the depth goes up by one. -/
def lmdb_start_ro_transaction (pcon : DBXCON) : DBXCON :=
  if pcon.tlevelro ≠ 0 then { pcon with tlevelro := pcon.tlevelro + 1 }
  else if pcon.tstatusro = 1 then
    { pcon with tlevelro := pcon.tlevelro + 1, tstatusro := 0, ro_live := true }
  else { pcon with tlevelro := pcon.tlevelro + 1, ro_live := true }

/-- `lmdb_commit_ro_transaction`: the transaction is reset unless the depth is above
1, and the depth goes down by one. -/
def lmdb_commit_ro_transaction (pcon : DBXCON) : DBXCON :=
  if pcon.tlevelro > 1 then { pcon with tlevelro := pcon.tlevelro - 1 }
  else { pcon with tlevelro := pcon.tlevelro - 1, tstatusro := 1, ro_live := false }

/-- `lmdb_start_qro_transaction`: `lmdb_start_ro_transaction`, the transaction of the
connection being handed to the caller. -/
def lmdb_start_qro_transaction (pcon : DBXCON) : DBXCON := lmdb_start_ro_transaction pcon

/-- `lmdb_commit_qro_transaction`: `lmdb_commit_ro_transaction`. -/
def lmdb_commit_qro_transaction (pcon : DBXCON) : DBXCON := lmdb_commit_ro_transaction pcon

/-- `DBX_DBNAME::dbx_queue_task`: one more task in the worker queue. -/
def dbx_queue_task (pcon : DBXCON) : DBXCON := { pcon with queued := pcon.queued + 1 }

/-- The object of class `mcursor`: the fields held in `cx`, whether `pqr_prev` and
`pqr_next` are allocated (they are allocated and freed together), whether `psql` is
set, and the bytes of `pqr_prev->global_name`. -/
structure CursorHandle where
  cx : mcursor
  qr_set : Bool
  psql : Bool
  global_name : Bytes

/-- `dbx_cursor_init` on a new object of a connection to the backend `dbtype`;
`fixed_key_len`, which the function does not assign, is taken to be 0. -/
def dbx_cursor_init (dbtype : Nat) : CursorHandle :=
  { cx := { dbtype := dbtype, pcursor := false, place := none, pqr_prev := {}, pqr_next := {},
            fixed_key_len := 0, counter := 0, context := 0 },
    qr_set := false, psql := false, global_name := [] }

/-- An argument of a method of the handle: a function, or any other value. -/
inductive JsArg where
  | function
  | value (v : JsValue)
  deriving DecidableEq, Repr

/-- `DBX_CALLBACK_FUN(pmeth->jsargc, cb, async)`: the number of arguments without a
trailing function, and whether there is one. -/
def DBX_CALLBACK_FUN (args : List JsArg) : Nat × Bool :=
  if args.length > 0 ∧ args.getLast? = some JsArg.function then (args.length - 1, true)
  else (args.length, false)

/-- The errors that the methods of the handle throw: "Too many arguments on Next"
(on Previous, on Execute, and "Too many arguments" of Close), "Cursor based
operations cannot be invoked asynchronously", "Closing a cursor template does not
take any arguments". -/
inductive DbxError where
  | too_many_arguments
  | cursor_async
  | close_arguments
  deriving DecidableEq, Repr

/-- What a method of the handle hands back to JavaScript: nothing (`undefined`), null,
a string, the array `key` of an object, an object of another kind, or an exception. -/
inductive JsReturn where
  | undefined
  | null
  | text (s : Bytes)
  | keys (ks : List Bytes)
  | object
  | exception (e : DbxError)
  deriving DecidableEq, Repr

/-- The state after a method of the handle: the connection, the handle and what is
handed back. -/
structure CallResult where
  pcon : DBXCON
  h : CursorHandle
  ret : JsReturn

/-- The release of the backend cursor of a handle: Berkeley DB closes the cursor,
LMDB closes the cursor and commits the read transaction of the handle. -/
def release_cursor (pcon : DBXCON) (h : CursorHandle) : DBXCON × CursorHandle :=
  if h.cx.pcursor = true then
    (if h.cx.dbtype = DBX_DBTYPE_LMDB then lmdb_commit_qro_transaction pcon else pcon,
      { h with cx := { h.cx with pcursor := false, place := none } })
  else (pcon, h)

/-- The properties of the query object and of the options object that
`dbx_cursor_reset` reads: `sql`, `global` and `key`, the booleans `multilevel` and
`globaldirectory`. A `key` that is not an array is the empty list. -/
structure QueryArgs where
  sql : Option Bytes := none
  global : Option Bytes := none
  key : List JsValue := []
  multilevel : Bool := false
  globaldirectory : Bool := false

/-- The first step of `dbx_cursor_reset`: an open cursor is closed (on LMDB with the
commit of its read transaction), and a cursor is opened (on LMDB after the start of
a read transaction). -/
def reopen_cursor (pcon : DBXCON) (h : CursorHandle) : DBXCON × CursorHandle :=
  if h.cx.dbtype = DBX_DBTYPE_BDB then
    (pcon, { h with cx := { h.cx with pcursor := true, place := none } })
  else if h.cx.dbtype = DBX_DBTYPE_LMDB then
    (lmdb_start_qro_transaction
        (if h.cx.pcursor = true then lmdb_commit_qro_transaction pcon else pcon),
      { h with cx := { h.cx with pcursor := true, place := none } })
  else (pcon, h)

/-- `dbx_cursor_reset` in M mode on the handle `h`, called with at least one
argument: the connection and the handle after the call, and the value returned.
`mem_prev` and `mem_next` are the contents of the two key areas when they are
allocated by this call. The type of the name slot, which the function does not
assign, is taken to be `DBX_DTYPE_NONE` in an area allocated by this call. -/
def dbx_cursor_reset_cx (pcon : DBXCON) (h : CursorHandle) (q : QueryArgs)
    (pmeth_int32 : Nat → Int) (mem_prev mem_next : Bytes) : DBXCON × CursorHandle × Int :=
  let o := reopen_cursor pcon h
  match q.sql with
  | some _ =>
    (o.1, { o.2 with psql := true, cx := { o.2.cx with context := 11, counter := 0 } }, 0)
  | none =>
    let prev0 : DBXQR := if h.qr_set = true then h.cx.pqr_prev
      else { ibuffer := mem_prev, args := setArg (fun _ => default) 0 { type := DBX_DTYPE_NONE } }
    let next0 : DBXQR := if h.qr_set = true then h.cx.pqr_next else { ibuffer := mem_next }
    match q.global with
    | none =>
      (o.1, { o.2 with qr_set := true,
                       cx := { o.2.cx with pqr_prev := { prev0 with ibuffer_used := 0 },
                                           pqr_next := next0 } }, -1)
    | some g =>
      let written := cstr g
      let global_name := if written.head? = some 94 then written.tail else written
      let k0 : DBXKEY := { ibuffer := [], argc := 0, args := prev0.args }
      let k1 := (dbx_ibuffer_add DBX_KEYTYPE_M k0 0 global_name).1
      let mem1 := if global_name.head? = some 94 then pokeByte prev0.ibuffer k1.ibuffer.length 0
        else prev0.ibuffer
      let k2 := reset_keys pmeth_int32 k1 1 q.key
      let context : Nat := if q.globaldirectory = true then 9 else if q.multilevel = true then 2
        else 1
      (o.1,
        { o.2 with
          qr_set := true, global_name := global_name,
          cx := { o.2.cx with
            pqr_prev :=
              { ibuffer := storeKey mem1 k2.ibuffer, ibuffer_used := k2.ibuffer.length,
                argc := 1 + q.key.length, args := k2.args },
            pqr_next := next0, fixed_key_len := k2.ibuffer.length, counter := 0,
            context := context } },
        if context ≠ 9 ∧ global_name.length = 0 then -1 else 0)

/-- The key and the descriptor array of `mkeys` that the loop of `bdb_next` and
`lmdb_next` hands to the branch "next key found", or `rc` and the bytes of
`pkeyval` when the loop ends in another way. -/
inductive NextEnd where
  | stop (rc : Int) (out : Bytes)
  | hit (key : Bytes) (mkeys : ArgArray)

/-- The loop of `bdb_next` (`dbtype` 1) and of `lmdb_next` (`dbtype` 2) as far as
the branch "next key found". `bdb_next` reads the key into the memory of
`pmeth->output_val`, of `OUTPUT_LEN_ALLOC` bytes, and the data into that of
`pqr_prev->data`, of `CACHE_MAXSTRLEN` bytes, and a read that does not fit fails;
`lmdb_next` copies them there without a test of length. -/
def next_scan (dbtype : Nat) (store : Store) (pkey : DBXKEY) : Nat → NextState → NextEnd
  | 0, s => NextEnd.stop CACHE_SUCCESS (s.buf.take s.len_used)
  | fuel + 1, s =>
    match cursor_get dbtype OUTPUT_LEN_ALLOC CACHE_MAXSTRLEN
        (c_set_range store (s.buf.take s.size)) with
    | none => NextEnd.stop YDB_NODE_END (s.buf.take s.len_used)
    | some r =>
      let buf1 := storeKey s.buf r.1
      let len1 := if dbtype = DBX_DBTYPE_LMDB then r.1.length else s.len_used
      if buf1.getD 0 0 ≠ 0 then NextEnd.stop YDB_NODE_END (buf1.take len1)
      else
        let fixed_comp : Int :=
          if pkey.argc < 2 then 0
          else bdb_key_compare r.1 pkey.ibuffer (getArg pkey.args (pkey.argc - 2)).csize
        if fixed_comp = 0 then
          let sp := dbx_split_key s.mkeys r.1 r.1.length
          if sp.2 ≥ pkey.argc then
            let seed := getArg pkey.args (pkey.argc - 1)
            let m := getArg sp.1 (pkey.argc - 1)
            if seed.text.length = m.text.length ∧
                strncmp_eq seed.text m.text seed.text.length = true then
              next_scan dbtype store pkey fuel
                { buf := pokeByte (pokeByte buf1 seed.csize 0x00) (seed.csize + 1) 0xff,
                  size := seed.csize + 2, mkeys := sp.1, len_used := len1 }
            else NextEnd.hit r.1 sp.1
          else
            next_scan dbtype store pkey fuel
              { buf := buf1, size := r.1.length, mkeys := sp.1, len_used := len1 }
        else NextEnd.stop YDB_NODE_END (buf1.take len1)

/-- The key of `pqr_prev` as the functions of `next` and `previous` take it: the
bytes in use, the number of slots and the descriptors. -/
def qr_key (qr : DBXQR) : DBXKEY :=
  { ibuffer := qr.ibuffer.take qr.ibuffer_used, argc := qr.argc, args := qr.args }

/-- The branch for `context != 0` once a key has been accepted: the first
`mkeys[argc - 1].csize` bytes of the key read become the key of `pkey`, which is
split anew, and the bytes of its last slot are returned. The result is the bytes of
`pkeyval` and `pkey` after the call. -/
def accept_key (qr : DBXQR) (key : Bytes) (mkeys : ArgArray) : Bytes × DBXQR :=
  let m := getArg mkeys (qr.argc - 1)
  let newkey := key.take m.csize
  let sp := dbx_split_key qr.args newkey newkey.length
  ((getArg sp.1 (sp.2 - 1)).text,
    { qr with ibuffer := storeKey qr.ibuffer newkey, ibuffer_used := m.csize, argc := sp.2,
              args := sp.1 })

/-- `bdb_next` and `lmdb_next` called with `context == 1` on the key of `pqr_prev`:
`rc`, the bytes returned in `pkeyval`, and the key of `pqr_prev` after the call. -/
def next_cx (dbtype : Nat) (store : Store) (qr : DBXQR) (mkeys0 : ArgArray) :
    Int × Bytes × DBXQR :=
  match next_scan dbtype store (qr_key qr) 10
      { buf := (qr_key qr).ibuffer, size := (qr_key qr).ibuffer_used, mkeys := mkeys0,
        len_used := 0 } with
  | NextEnd.stop rc out => ((next_exit (rc, out)).1, (next_exit (rc, out)).2, qr)
  | NextEnd.hit key mkeys =>
    let a := accept_key qr key mkeys
    ((next_exit (CACHE_SUCCESS, a.1)).1, (next_exit (CACHE_SUCCESS, a.1)).2, a.2)

/-- `bdb_previous` and `lmdb_previous` called with `context == 1` on the key of
`pqr_prev`: `rc`, the bytes returned in `pkeyval`, and the key of `pqr_prev` after
the call. The key read is split into `mkeys` and `mkeys[argc - 1]` is used whether
or not the key has that many slots. -/
def previous_cx (dbtype : Nat) (store : Store) (qr : DBXQR) (mkeys0 : ArgArray) :
    Int × Bytes × DBXQR :=
  let r := previous_read dbtype store (qr_key qr)
  match r.1 with
  | some k =>
    if r.2 = 0 then
      let a := accept_key qr k (dbx_split_key mkeys0 k k.length).1
      (CACHE_SUCCESS, a.1, a.2)
    else (YDB_NODE_END, [], qr)
  | none => (YDB_NODE_END, [], qr)

/-- `dbx_global_order(pmeth, pqr_prev, dir, getdata, &counter)`: `eod` and the key of
`pqr_prev` after the call. -/
def dbx_global_order (dbtype : Nat) (store : Store) (qr : DBXQR) (dir : Int)
    (mkeys0 : ArgArray) : Int × DBXQR :=
  let r := if dir = 1 then next_cx dbtype store qr mkeys0 else previous_cx dbtype store qr mkeys0
  (if r.1 = YDB_NODE_END ∨ r.2.1.length = 0 ∨ (r.1 ≠ CACHE_SUCCESS ∧ r.1 ≠ YDB_NODE_END) then 1
    else 0, r.2.2)

/-- The bytes that `strncpy(dest, src, n)` writes: the bytes of `src` up to a NUL,
then zeros. -/
def strncpy (src : Bytes) (n : Nat) : Bytes :=
  cstr (src.take n) ++ List.replicate (n - (cstr (src.take n)).length) 0

/-- `dbx_global_directory(pmeth, pqr_prev, dir, &counter)`: `eod`, the key of
`pqr_prev` and the bytes of `pqr_prev->global_name` after the call. A '^' is put in
front of the name before the read, and the name read replaces it. The memory of
`global_name` has 128 bytes and the copies are made without a test of length: the
name, with the '^' or the NUL that is put after it, is taken to fit (a name of 128
bytes or more overruns the memory, which the embedding does not follow). -/
def dbx_global_directory (dbtype : Nat) (store : Store) (qr : DBXQR) (global_name : Bytes)
    (dir : Int) (mkeys0 : ArgArray) : Int × DBXQR × Bytes :=
  let name1 := if global_name.head? = some 94 then global_name else 94 :: global_name
  let r := if dir = 1 then next_cx dbtype store qr mkeys0 else previous_cx dbtype store qr mkeys0
  if r.1 = CACHE_SUCCESS then (0, r.2.2, strncpy r.2.1 r.2.1.length) else (1, r.2.2, name1)

/-- `dbx_sql_row`, whose body is `return 0`. -/
def dbx_sql_row : Int := 0

/-- The labels `Next_EOD` and `Previous_EOD`: the backend cursor of the handle, when
there is one, is released and cleared, and null is handed back. -/
def cursor_eod (pcon : DBXCON) (h : CursorHandle) : CallResult :=
  { pcon := (release_cursor pcon h).1, h := (release_cursor pcon h).2, ret := JsReturn.null }

/-- The branch `cx->context == 1` (order mode) of `mcursor::Next` (`dir` 1) and
`mcursor::Previous` (`dir` -1): at the end of the data `Next` goes to `Next_EOD`,
`Previous` hands back null without going to `Previous_EOD`. -/
def call_order (dir : Int) (store : Store) (mkeys0 : ArgArray) (pcon : DBXCON)
    (h : CursorHandle) : CallResult :=
  if h.cx.pqr_prev.argc < 1 then cursor_eod pcon h
  else
    let r := dbx_global_order h.cx.dbtype store h.cx.pqr_prev dir mkeys0
    let h1 : CursorHandle := { h with cx := { h.cx with pqr_prev := r.2 } }
    if r.1 ≠ 0 then
      if dir = 1 then cursor_eod pcon h1 else { pcon := pcon, h := h1, ret := JsReturn.null }
    else { pcon := pcon, h := h1, ret := JsReturn.text (getArg r.2.args (r.2.argc - 1)).text }

/-- The branch `cx->context == 2` (multilevel mode) of `mcursor::Next` and
`mcursor::Previous`. -/
def call_query (dir : Int) (store : Store) (pcon : DBXCON) (h : CursorHandle) : CallResult :=
  match (mcursor_step store dir h.cx).2 with
  | some ks =>
    { pcon := pcon, h := { h with cx := (mcursor_step store dir h.cx).1 }, ret := JsReturn.keys ks }
  | none =>
    { pcon := (release_cursor pcon h).1, h := { h with cx := (mcursor_step store dir h.cx).1 },
      ret := JsReturn.null }

/-- The branch `cx->context == 9` (directory mode) of `mcursor::Next` and
`mcursor::Previous`. -/
def call_directory (dir : Int) (store : Store) (mkeys0 : ArgArray) (pcon : DBXCON)
    (h : CursorHandle) : CallResult :=
  let r := dbx_global_directory h.cx.dbtype store h.cx.pqr_prev h.global_name dir mkeys0
  let h1 : CursorHandle := { h with cx := { h.cx with pqr_prev := r.2.1 }, global_name := r.2.2 }
  if r.1 ≠ 0 then cursor_eod pcon h1
  else { pcon := pcon, h := h1, ret := JsReturn.text r.2.2 }

/-- The branch `cx->context == 11` (SQL mode) of `mcursor::Next` and
`mcursor::Previous`: at the end of the rows `Previous` goes to `Previous_EOD`, `Next`
hands back null without going to `Next_EOD`. -/
def call_sql (dir : Int) (pcon : DBXCON) (h : CursorHandle) : CallResult :=
  if h.psql = false then cursor_eod pcon h
  else if dbx_sql_row ≠ 0 then
    if dir = 1 then { pcon := pcon, h := h, ret := JsReturn.null } else cursor_eod pcon h
  else { pcon := pcon, h := h, ret := JsReturn.object }

/-- The branch of the mode of the handle. -/
def call_mode (dir : Int) (store : Store) (mkeys0 : ArgArray) (pcon : DBXCON)
    (h : CursorHandle) : CallResult :=
  if h.cx.context = 1 then call_order dir store mkeys0 pcon h
  else if h.cx.context = 2 then call_query dir store pcon h
  else if h.cx.context = 9 then call_directory dir store mkeys0 pcon h
  else if h.cx.context = 11 then call_sql dir pcon h
  else { pcon := pcon, h := h, ret := JsReturn.undefined }

/-- `mcursor::Next` (`dir` 1) and `mcursor::Previous` (`dir` -1): a handle without a
backend cursor goes to the end label at once; then come the test of the number of
arguments, the test of the trailing function, and the branch of the mode. `mkeys0`
is the content of the local array `mkeys` of the `next` and `previous` functions on
entry. The reads of the order and directory modes place the backend cursor anew on
every call; the place they leave is not recorded. -/
def mcursor_call (dir : Int) (store : Store) (mkeys0 : ArgArray) (pcon : DBXCON)
    (h : CursorHandle) (args : List JsArg) : CallResult :=
  if h.cx.pcursor = false then cursor_eod pcon h
  else if (DBX_CALLBACK_FUN args).1 ≥ DBX_MAXARGS then
    { pcon := pcon, h := h, ret := JsReturn.exception DbxError.too_many_arguments }
  else if (DBX_CALLBACK_FUN args).2 = true then
    { pcon := pcon, h := h, ret := JsReturn.exception DbxError.cursor_async }
  else call_mode dir store mkeys0 pcon h

/-- `mcursor::Next`. -/
def mcursor_Next (store : Store) (mkeys0 : ArgArray) (pcon : DBXCON) (h : CursorHandle)
    (args : List JsArg) : CallResult :=
  mcursor_call 1 store mkeys0 pcon h args

/-- `mcursor::Previous`. -/
def mcursor_Previous (store : Store) (mkeys0 : ArgArray) (pcon : DBXCON) (h : CursorHandle)
    (args : List JsArg) : CallResult :=
  mcursor_call (-1) store mkeys0 pcon h args

/-- `mcursor::Close`: with no argument, the areas `pqr_next` and `pqr_prev` and
`psql` are freed and cleared, and the backend cursor, when there is one, is
released and cleared. -/
def mcursor_Close (pcon : DBXCON) (h : CursorHandle) (args : List JsArg) : CallResult :=
  if args.length ≥ DBX_MAXARGS then
    { pcon := pcon, h := h, ret := JsReturn.exception DbxError.too_many_arguments }
  else if args.length > 0 then
    { pcon := pcon, h := h, ret := JsReturn.exception DbxError.close_arguments }
  else
    { pcon := (release_cursor pcon h).1,
      h := { (release_cursor pcon h).2 with qr_set := false, psql := false },
      ret := JsReturn.undefined }

/-- `mcursor::Execute`: with a trailing function the request is handed to the
worker queue, without one `dbx_sql_execute` (whose body is `return 0`) is called
and an object handed back. -/
def mcursor_Execute (pcon : DBXCON) (h : CursorHandle) (args : List JsArg) : CallResult :=
  if (DBX_CALLBACK_FUN args).1 ≥ DBX_MAXARGS then
    { pcon := pcon, h := h, ret := JsReturn.exception DbxError.too_many_arguments }
  else if (DBX_CALLBACK_FUN args).2 = true then
    { pcon := dbx_queue_task pcon, h := h, ret := JsReturn.undefined }
  else { pcon := pcon, h := h, ret := JsReturn.object }

/-- The values handed back by `count` successive calls of `mcursor::Next` (`dir` 1)
or `mcursor::Previous` (`dir` -1) without arguments. -/
def handle_run (dir : Int) (store : Store) (mkeys0 : ArgArray) :
    Nat → DBXCON → CursorHandle → List JsReturn
  | 0, _, _ => []
  | count + 1, pcon, h =>
    (mcursor_call dir store mkeys0 pcon h []).ret ::
      handle_run dir store mkeys0 count (mcursor_call dir store mkeys0 pcon h []).pcon
        (mcursor_call dir store mkeys0 pcon h []).h

/-- The connection and the handle after `count` successive calls of `mcursor::Next`
(`dir` 1) or `mcursor::Previous` (`dir` -1) without arguments. -/
def handle_after (dir : Int) (store : Store) (mkeys0 : ArgArray) :
    Nat → DBXCON → CursorHandle → DBXCON × CursorHandle
  | 0, pcon, h => (pcon, h)
  | count + 1, pcon, h =>
    handle_after dir store mkeys0 count (mcursor_call dir store mkeys0 pcon h []).pcon
      (mcursor_call dir store mkeys0 pcon h []).h

/-! ## increment

`DBX_DBNAME::Increment`, the last turn of the argument loop of
`DBX_DBNAME::GlobalReference` when `pmeth->increment` is set, and `dbx_increment`,
in M mode. A `double` is held as the decimal number it stands for and the sum is
exact; this is what the C operations give on the values of the theorems below,
which are multiples of a small power of ten with fewer than sixteen digits. -/

/-- A decimal number: `mant * 10 ^ exp`, negative when `neg` is set (zero keeps its
sign, as a `double` does). -/
structure DecNum where
  neg : Bool := false
  mant : Nat := 0
  exp : Int := 0
  deriving DecidableEq, Repr

/-- The leading run of decimal digits of a text, and what follows it. -/
def spanDigits : Bytes → Bytes × Bytes
  | [] => ([], [])
  | c :: cs => if isdigit c then ((c :: (spanDigits cs).1), (spanDigits cs).2) else ([], c :: cs)

/-- The exponent part that `strtod` reads after the digits: 'e' or 'E', an optional
sign and at least one digit; 0 when the text does not go on in this way. -/
def strtod_exponent (s : Bytes) : Int :=
  match s with
  | c :: t =>
    if c = 101 ∨ c = 69 then
      match t with
      | 45 :: u => if (spanDigits u).1 = [] then 0 else -(digitsValue 0 u : Int)
      | 43 :: u => if (spanDigits u).1 = [] then 0 else (digitsValue 0 u : Int)
      | u => if (spanDigits u).1 = [] then 0 else (digitsValue 0 u : Int)
    else 0
  | [] => 0

/-- The library call `strtod(s, NULL)` on a decimal text: white space, an optional
sign, digits with an optional '.', an optional exponent; 0 when no digit is found.
The hexadecimal form and the words for infinity and NaN are not modelled. -/
def strtod (s : Bytes) : DecNum :=
  let t := s.dropWhile isspace
  let neg : Bool := decide (t.head? = some 45)
  let u := if t.head? = some 45 ∨ t.head? = some 43 then t.tail else t
  let ip := spanDigits u
  let fp : Bytes × Bytes := if ip.2.head? = some 46 then spanDigits ip.2.tail else ([], ip.2)
  if ip.1 = [] ∧ fp.1 = [] then {}
  else
    { neg := neg, mant := digitsValue 0 (ip.1 ++ fp.1),
      exp := strtod_exponent fp.2 - (fp.1.length : Int) }

/-- The signed mantissa of a number at the exponent `e`, which is not above its
own. -/
def DecNum.scaled (a : DecNum) (e : Int) : Int :=
  (if a.neg then -1 else 1) * ((a.mant : Int) * 10 ^ (a.exp - e).toNat)

/-- The sum `a + b` of two `double` values. -/
def DecNum.add (a b : DecNum) : DecNum :=
  let e := min a.exp b.exp
  let m := a.scaled e + b.scaled e
  { neg := decide (m < 0) || (decide (m = 0) && a.neg && b.neg), mant := m.natAbs, exp := e }

/-- A run of digits without its trailing zeros. -/
def stripZeros (d : Bytes) : Bytes := (d.reverse.dropWhile (fun c => c == 48)).reverse

/-- The six significant digits of a positive number and the exponent of the first
of them, as `printf` rounds them: to the nearest, a tie to the even digit. A
decimal with more than six digits that lies half way between two texts is in
general not a `double`: `printf` then rounds the `double` nearest to it, which lies
on one side (1.000005 is printed 1.00001), and this case is not modelled. -/
def six_digits (mant : Nat) (exp : Int) : Nat × Int :=
  let len := (natText mant).length
  if len ≤ 6 then (mant * 10 ^ (6 - len), (len : Int) - 1 + exp)
  else
    let cut := len - 6
    let q := mant / 10 ^ cut
    let r := mant % 10 ^ cut
    let q1 := if r > 10 ^ cut / 2 ∨ (r = 10 ^ cut / 2 ∧ q % 2 = 1) then q + 1 else q
    if q1 = 10 ^ 6 then (10 ^ 5, (len : Int) + exp) else (q1, (len : Int) - 1 + exp)

/-- The text written by `sprintf(buffer, "%g", value)`: six significant digits
without trailing zeros, in the exponent form when the exponent is below -4 or not
below 6. -/
def format_g (x : DecNum) : Bytes :=
  let sign : Bytes := if x.neg then [45] else []
  if x.mant = 0 then sign ++ [48]
  else
    let sd := six_digits x.mant x.exp
    let d := natText sd.1
    if sd.2 < -4 ∨ sd.2 ≥ 6 then
      let frac := stripZeros (d.drop 1)
      let e := natText sd.2.natAbs
      sign ++ d.take 1 ++ (if frac = [] then [] else 46 :: frac) ++ [101] ++
        (if sd.2 < 0 then [45] else [43]) ++ (if e.length < 2 then 48 :: e else e)
    else if sd.2 ≥ 0 then
      let frac := stripZeros (d.drop (sd.2.toNat + 1))
      sign ++ d.take (sd.2.toNat + 1) ++ (if frac = [] then [] else 46 :: frac)
    else
      sign ++ [48, 46] ++ List.replicate ((-sd.2).toNat - 1) 48 ++ stripZeros d

/-- The local array `buffer[64]` of `GlobalReference` after the arguments `args`:
`stack0` is its content on entry, which is not initialised, and every integer
argument writes its digits and a NUL at its start. -/
def reference_buffer (stack0 : Bytes) : List JsValue → Bytes
  | [] => stack0
  | JsValue.int32 n :: rest => reference_buffer (storeKey stack0 (intText n ++ [0])) rest
  | JsValue.str _ :: rest => reference_buffer stack0 rest

/-- The increment `num.real` that `GlobalReference` computes from the last
argument `last`, the arguments before it being `args`: the text of an argument
shorter than 32 bytes is copied over the start of `buffer` with `strncpy`, which
writes no NUL after it, and `strtod` reads `buffer`; a longer argument counts
as 1. -/
def increment_value (stack0 : Bytes) (args : List JsValue) (last : JsValue) : DecNum :=
  let buffer := reference_buffer stack0 (args ++ [last])
  if last.text.length < 32 then
    strtod (cstr (storeKey buffer (strncpy last.text last.text.length)))
  else strtod [49]

/-- `dbx_increment` on the backend `dbtype`, for the key area `pkey` that holds the
reference and, as its last slot, the increment, whose value is `delta`: the store
after the call and the text left in `pmeth->output_val`. `out0` is the content of
the output buffer on entry (zeros when the memory of the request has just been
allocated, the bytes of the last result when the memory of the connection is
used): Berkeley DB reads 0 bytes when the node is not defined, LMDB leaves the
buffer as it is. The value read is taken to fit the buffer. -/
def dbx_increment (dbtype : Nat) (store : Store) (pkey : DBXKEY) (delta : DecNum)
    (out0 : Bytes) : Store × Bytes :=
  let key := pkey.ibuffer.take (getArg pkey.args (pkey.argc - 2)).csize
  let buf : Bytes :=
    match db_get store key with
    | some v => v ++ [0]
    | none => if dbtype = DBX_DBTYPE_LMDB then out0 else [0]
  let text := format_g ((strtod (cstr buf)).add delta)
  (db_put store key text, text)

/-- `DBX_DBNAME::Increment` without a trailing function, on the global `name` with
the subscripts `subs` and the increment `by_`: the store after the call and the
string handed back. -/
def Increment (dbtype : Nat) (store : Store) (name : Bytes) (subs : List JsValue)
    (by_ : JsValue) (stack0 out0 : Bytes) : Store × Bytes :=
  dbx_increment dbtype store (GlobalReference name (subs ++ [by_]))
    (increment_value stack0 subs by_) out0

/-! ## The names of a store, for the directory cursor -/

/-- A global name that the directory cursor lists: not empty once its leading '^'
is taken off, without a zero byte, and of fewer than 128 bytes (the name read is
copied into the 128 bytes of `pqr_prev->global_name`, with a NUL after it, without
a test of length). -/
def plainName (name : Bytes) : Bool :=
  decodableText (stripName name) && decide ((stripName name).length < 128)

/-- The key `key` is that of a record of the global `t`, the name without its
'^': the codec wrote it for a plain name and subscripts that JavaScript passes
and `dbx_split_key` reads back. -/
def namedBy (key t : Bytes) : Prop :=
  ∃ (name : Bytes) (subs : List JsValue), plainName name = true ∧
    (∀ a ∈ subs, subscriptArg a = true) ∧ stripName name = t ∧
    key = (GlobalReference name subs).ibuffer

/-- A store all of whose keys are such keys. -/
def directoryStore (s : Store) : Prop := ∀ r ∈ s, ∃ t, namedBy r.1 t

/-- The global `t` has at least one record. -/
def hasName (s : Store) (t : Bytes) : Prop := ∃ r ∈ s, namedBy r.1 t

/-- The name read in a key with a two-byte lead: the bytes after the lead up to
the next zero byte. -/
def keyName (key : Bytes) : Bytes := cstr (key.drop 2)

/-- The key from which the directory cursor searches once the name `t` has been
listed, and 00 00, the key of the empty name, at the start. -/
def seedKey (t : Bytes) : Bytes := if t = [] then [0, 0] else [0, 3] ++ t

/-- The key area of a directory cursor that has listed the name `t` last, or
nothing yet when `t` is empty. -/
def DirState (qr : DBXQR) (t : Bytes) : Prop :=
  qr.argc = 1 ∧ (getArg qr.args 0).text = t ∧ (getArg qr.args 0).csize = t.length + 2 ∧
    qr.ibuffer_used = t.length + 2 ∧ qr.ibuffer.take qr.ibuffer_used = seedKey t ∧
    (t = [] ∨ decodableText t = true)

/-! ## The read transaction of a connection

The calls that `lmdb_start_ro_transaction` and `lmdb_commit_ro_transaction` make
to the backend, and runs of the two functions on one connection. -/

/-- The calls to LMDB made by the two functions: `mdb_txn_begin`, `mdb_txn_renew`
and `mdb_txn_reset`. -/
inductive TxnCall where
  | txn_begin
  | txn_renew
  | txn_reset
  deriving DecidableEq, Repr

/-- The call that `lmdb_start_ro_transaction` makes: none when the depth is not 0,
`mdb_txn_renew` when `tstatusro` is 1, `mdb_txn_begin` otherwise. -/
def start_ro_call (pcon : DBXCON) : Option TxnCall :=
  if pcon.tlevelro ≠ 0 then none
  else if pcon.tstatusro = 1 then some TxnCall.txn_renew
  else some TxnCall.txn_begin

/-- The call that `lmdb_commit_ro_transaction` makes: none when the depth is above
1, `mdb_txn_reset` otherwise. -/
def commit_ro_call (pcon : DBXCON) : Option TxnCall :=
  if pcon.tlevelro > 1 then none else some TxnCall.txn_reset

/-- A call of one of the two functions. -/
inductive RoOp where
  | start
  | commit
  deriving DecidableEq, Repr

/-- One call in a run: the depth `tlevelro` before it, the function called, the
call it made to the backend, and the depth after it. -/
structure RoEvent where
  before : Int
  op : RoOp
  call : Option TxnCall
  after : Int
  deriving DecidableEq, Repr

/-- The connection after a call. -/
def ro_step (op : RoOp) (pcon : DBXCON) : DBXCON :=
  match op with
  | RoOp.start => lmdb_start_ro_transaction pcon
  | RoOp.commit => lmdb_commit_ro_transaction pcon

/-- The record of a call. -/
def ro_event (op : RoOp) (pcon : DBXCON) : RoEvent :=
  { before := pcon.tlevelro, op := op,
    call := (match op with
      | RoOp.start => start_ro_call pcon
      | RoOp.commit => commit_ro_call pcon),
    after := (ro_step op pcon).tlevelro }

/-- The records of a run of calls on one connection. -/
def ro_run : List RoOp → DBXCON → List RoEvent
  | [], _ => []
  | op :: rest, pcon => ro_event op pcon :: ro_run rest (ro_step op pcon)

/-- The connection after a run of calls. -/
def ro_final : List RoOp → DBXCON → DBXCON
  | [], pcon => pcon
  | op :: rest, pcon => ro_final rest (ro_step op pcon)

/-- A run is properly nested from depth `d`: no commit without an open start, and
every start committed at the end. -/
def nestedFrom : Nat → List RoOp → Bool
  | d, [] => decide (d = 0)
  | d, RoOp.start :: rest => nestedFrom (d + 1) rest
  | 0, RoOp.commit :: _ => false
  | d + 1, RoOp.commit :: rest => nestedFrom d rest

/-- The calls of `mdb_txn_begin` and `mdb_txn_renew` of a run, in order. -/
def startCalls (tr : List RoEvent) : List TxnCall :=
  (tr.filterMap (fun e => e.call)).filter (fun c => decide (c ≠ TxnCall.txn_reset))

/-! ## The instance mutex

`dbx_mutex_create`, `dbx_mutex_lock` and `dbx_mutex_unlock` in the build for
POSIX threads, and the calls that the point operations make to them. A thread is
named by the value of `dbx_current_thread_id()`. -/

/-- The structure `DBXMUTEX`: `created`, `stack`, the owner `thid`, and the state of
the mutex `h_mutex` of the operating system, the thread that holds it or `none`
when it is not locked. -/
structure DBXMUTEX where
  created : Nat := 0
  stack : Int := 0
  h_mutex : Option Nat := none
  thid : Nat := 0
  deriving DecidableEq, Repr

/-- `dbx_mutex_create`: nothing when the mutex is created already; else
`pthread_mutex_init`, taken to succeed, and the fields are set. -/
def dbx_mutex_create (m : DBXMUTEX) : DBXMUTEX × Int :=
  if m.created ≠ 0 then (m, 0)
  else ({ created := 1, stack := 0, h_mutex := none, thid := 0 }, 0)

/-- `dbx_mutex_lock(p_mutex, timeout)` called by the thread `tid`: the mutex after
the call and the value returned, or `none` when `pthread_mutex_lock` does not
return because the mutex of the operating system is held. -/
def dbx_mutex_lock (m : DBXMUTEX) (tid : Nat) : Option (DBXMUTEX × Int) :=
  if m.created = 0 then some (m, -1)
  else if m.thid = tid then some ({ m with stack := m.stack + 1 }, 0)
  else
    match m.h_mutex with
    | none => some ({ m with h_mutex := some tid, thid := tid, stack := 0 }, 0)
    | some _ => none

/-- `dbx_mutex_unlock(p_mutex)` called by the thread `tid`: the mutex after the call
and the value returned. The mutex is made by `pthread_mutex_init` with no
attributes, so it is of the default kind, for which `pthread_mutex_unlock` keeps no
owner: it returns 0 and leaves the mutex free, whether the caller holds it or not. -/
def dbx_mutex_unlock (m : DBXMUTEX) (tid : Nat) : DBXMUTEX × Int :=
  if m.created = 0 then (m, -1)
  else if m.thid = tid ∧ m.stack ≠ 0 then ({ m with stack := m.stack - 1 }, 0)
  else ({ m with thid := 0, stack := 0, h_mutex := none }, 0)

/-- The mutex and the values returned after `n` calls of `dbx_mutex_lock` by the
thread `tid`. -/
def lock_run : Nat → DBXMUTEX → Nat → Option (DBXMUTEX × List Int)
  | 0, m, _ => some (m, [])
  | n + 1, m, tid =>
    match dbx_mutex_lock m tid with
    | none => none
    | some r =>
      match lock_run n r.1 tid with
      | none => none
      | some q => some (q.1, r.2 :: q.2)

/-- The mutex and the values returned after `n` calls of `dbx_mutex_unlock` by the
thread `tid`. -/
def unlock_run : Nat → DBXMUTEX → Nat → DBXMUTEX × List Int
  | 0, m, _ => (m, [])
  | n + 1, m, tid =>
    ((unlock_run n (dbx_mutex_unlock m tid).1 tid).1,
      (dbx_mutex_unlock m tid).2 :: (unlock_run n (dbx_mutex_unlock m tid).1 tid).2)

/-- `DBX_DB_LOCK(rc, 0)`: `dbx_mutex_lock` when `pcon->use_mutex` is set. The
functions of `mg-dbx-bdb.cpp` pass the result variable as a first argument; the
macro is taken as `DBX_DB_LOCK_EX` of the header. -/
def DBX_DB_LOCK (use_mutex : Bool) (m : DBXMUTEX) (tid : Nat) : Option DBXMUTEX :=
  if use_mutex = true then (dbx_mutex_lock m tid).map (fun r => r.1) else some m

/-- `DBX_DB_UNLOCK(rc)`: `dbx_mutex_unlock` when `pcon->use_mutex` is set. -/
def DBX_DB_UNLOCK (use_mutex : Bool) (m : DBXMUTEX) (tid : Nat) : DBXMUTEX :=
  if use_mutex = true then (dbx_mutex_unlock m tid).1 else m

/-- The point operations that the request executor runs. -/
inductive PointOp where
  | dbx_get
  | dbx_set
  | dbx_defined
  | dbx_delete
  | dbx_next
  | dbx_previous
  | dbx_increment
  | dbx_lock
  | dbx_unlock
  | dbx_merge
  deriving DecidableEq, Repr

/-- The instance mutex after a point operation run by the thread `tid`. Every one
of these functions starts with `DBX_DB_LOCK(rc, 0)` and leaves through its exit
label, at once when `dbx_global_reference` fails (`reference_ok` false) or after
its work, which makes no call to the mutex. At the exit label stands
`DBX_DB_UNLOCK(rc)`, except in `dbx_merge`, whose exit label is followed by
`return 0`. The result is `none` when the lock does not return. -/
def point_op_mutex (op : PointOp) (reference_ok : Bool) (use_mutex : Bool) (m : DBXMUTEX)
    (tid : Nat) : Option DBXMUTEX :=
  match DBX_DB_LOCK use_mutex m tid with
  | none => none
  | some m1 =>
    let m2 := if reference_ok = true then m1 else m1
    match op with
    | PointOp.dbx_merge => some m2
    | _ => some (DBX_DB_UNLOCK use_mutex m2 tid)

/-! ## The task queue of the worker pool

`dbx_pool_add_task` and `dbx_pool_get_task` in the build for POSIX threads, on the
global variables `tasks`, `bottom_task`, `dbx_total_tasks` and
`dbx_request_errors`. Both functions work with `dbx_task_queue_mutex` held, so
their calls come one after the other. A task is named by its address; the address
0 is `NULL`. -/

/-- The fields `pmeth` and `next` of `struct dbx_pool_task` (`task_id` is always 6
and `parent_tid` is not read by the two functions). -/
structure dbx_pool_task where
  pmeth : Nat := 0
  next : Nat := 0
  deriving DecidableEq, Repr

/-- The memory of the tasks, by address, and the global variables of the queue. -/
structure PoolState where
  heap : Nat → dbx_pool_task := fun _ => {}
  tasks : Nat := 0
  bottom_task : Nat := 0
  dbx_total_tasks : Int := 0
  dbx_request_errors : Int := 0

/-- The memory after a task has been written at the address `p`. -/
def heap_write (heap : Nat → dbx_pool_task) (p : Nat) (t : dbx_pool_task) :
    Nat → dbx_pool_task :=
  fun a => if a = p then t else heap a

/-- `dbx_pool_add_task(pmeth)`: `enqueue_task` is the address that `dbx_malloc`
returns, 0 when it fails. The result is the state and the address returned. -/
def dbx_pool_add_task (s : PoolState) (pmeth : Nat) (enqueue_task : Nat) : PoolState × Nat :=
  if enqueue_task = 0 then ({ s with dbx_request_errors := s.dbx_request_errors + 1 }, 0)
  else
    let heap1 := heap_write s.heap enqueue_task { pmeth := pmeth, next := 0 }
    if s.dbx_total_tasks = 0 then
      ({ s with heap := heap1, tasks := enqueue_task, bottom_task := enqueue_task,
                dbx_total_tasks := s.dbx_total_tasks + 1 }, enqueue_task)
    else
      ({ s with
          heap := heap_write heap1 s.bottom_task
            { heap1 s.bottom_task with next := enqueue_task },
          bottom_task := enqueue_task, dbx_total_tasks := s.dbx_total_tasks + 1 },
        enqueue_task)

/-- `dbx_pool_get_task()`: the state and the address returned, 0 when there is no
task. -/
def dbx_pool_get_task (s : PoolState) : PoolState × Nat :=
  if s.dbx_total_tasks > 0 then
    let task := s.tasks
    let tasks1 := (s.heap task).next
    ({ s with tasks := tasks1, bottom_task := if tasks1 = 0 then 0 else s.bottom_task,
              dbx_total_tasks := s.dbx_total_tasks - 1 }, task)
  else (s, 0)

/-- A call of one of the two functions: `add pmeth enqueue_task`, with the address
that `dbx_malloc` returns in the call, or `get`. -/
inductive PoolOp where
  | add (pmeth enqueue_task : Nat)
  | get
  deriving DecidableEq, Repr

/-- The state after a run of calls. -/
def pool_state : List PoolOp → PoolState → PoolState
  | [], s => s
  | PoolOp.add pmeth p :: rest, s => pool_state rest (dbx_pool_add_task s pmeth p).1
  | PoolOp.get :: rest, s => pool_state rest (dbx_pool_get_task s).1

/-- What the calls of `dbx_pool_get_task` in a run return, in order: `none` for
`NULL`, else the address of the task and the `pmeth` read in it. -/
def pool_gets : List PoolOp → PoolState → List (Option (Nat × Nat))
  | [], _ => []
  | PoolOp.add pmeth p :: rest, s => pool_gets rest (dbx_pool_add_task s pmeth p).1
  | PoolOp.get :: rest, s =>
    (if (dbx_pool_get_task s).2 = 0 then none
      else some ((dbx_pool_get_task s).2, (s.heap (dbx_pool_get_task s).2).pmeth)) ::
      pool_gets rest (dbx_pool_get_task s).1

/-- The queue as the specification has it, a list of tasks (address and `pmeth`) in
the order of their submission: the list after a run of calls. An `add` whose
allocation fails adds nothing. -/
def fifo_state : List PoolOp → List (Nat × Nat) → List (Nat × Nat)
  | [], q => q
  | PoolOp.add pmeth p :: rest, q => fifo_state rest (if p = 0 then q else q ++ [(p, pmeth)])
  | PoolOp.get :: rest, q => fifo_state rest q.tail

/-- What the calls of `get` return on the list of the specification: the first task
of the list, `none` when the list is empty. -/
def fifo_gets : List PoolOp → List (Nat × Nat) → List (Option (Nat × Nat))
  | [], _ => []
  | PoolOp.add pmeth p :: rest, q => fifo_gets rest (if p = 0 then q else q ++ [(p, pmeth)])
  | PoolOp.get :: rest, q => q.head? :: fifo_gets rest q.tail

/-- The allocations of a run are sound: no `add` is given the address of a task
that is still in the queue. -/
def freshOps : List PoolOp → List (Nat × Nat) → Prop
  | [], _ => True
  | PoolOp.add pmeth p :: rest, q =>
    p ∉ q.map (fun t => t.1) ∧ freshOps rest (if p = 0 then q else q ++ [(p, pmeth)])
  | PoolOp.get :: rest, q => freshOps rest q.tail

/-- The tasks linked from the address `p` by their field `next`, up to `NULL`, are
those of the list `q`, in order. -/
def linked (heap : Nat → dbx_pool_task) : Nat → List (Nat × Nat) → Prop
  | p, [] => p = 0
  | p, t :: rest => p = t.1 ∧ t.1 ≠ 0 ∧ (heap t.1).pmeth = t.2 ∧ linked heap (heap t.1).next rest

/-- The queue of the code holds the list `q`: the tasks linked from `tasks` are
those of `q`, `dbx_total_tasks` is their number, and `bottom_task` is the last of
them, `NULL` when there is none. -/
def PoolInv (s : PoolState) (q : List (Nat × Nat)) : Prop :=
  linked s.heap s.tasks q ∧ s.dbx_total_tasks = q.length ∧
    s.bottom_task = ((q.map (fun t => t.1)).getLast?).getD 0 ∧
    (q.map (fun t => t.1)).Nodup

/-! ## The reads of one call of next -/

/-- The loop of `bdb_next` (`dbtype` 1) and of `lmdb_next` (`dbtype` 2) once more,
with two counts in place of the result: the number of times the loop takes the
branch "current key returned - get next", which writes 00 ff after the key
of the seed and goes on to another read, and the number of reads (`DB_SET_RANGE`,
`MDB_SET_RANGE`) that the call makes. -/
def next_counts (dbtype : Nat) (store : Store) (pkey : DBXKEY) :
    Nat → NextState → Nat × Nat
  | 0, _ => (0, 0)
  | fuel + 1, s =>
    match cursor_get dbtype OUTPUT_LEN_ALLOC OUTPUT_LEN_ALLOC
        (c_set_range store (s.buf.take s.size)) with
    | none => (0, 1)
    | some r =>
      let buf1 := storeKey s.buf r.1
      let len1 := if dbtype = DBX_DBTYPE_LMDB then r.1.length else s.len_used
      if buf1.getD 0 0 ≠ 0 then (0, 1)
      else
        let fixed_comp : Int :=
          if pkey.argc < 2 then 0
          else bdb_key_compare r.1 pkey.ibuffer (getArg pkey.args (pkey.argc - 2)).csize
        if fixed_comp = 0 then
          let sp := dbx_split_key s.mkeys r.1 r.1.length
          if sp.2 ≥ pkey.argc then
            let seed := getArg pkey.args (pkey.argc - 1)
            let m := getArg sp.1 (pkey.argc - 1)
            if seed.text.length = m.text.length ∧
                strncmp_eq seed.text m.text seed.text.length = true then
              ((next_counts dbtype store pkey fuel
                { buf := pokeByte (pokeByte buf1 seed.csize 0x00) (seed.csize + 1) 0xff,
                  size := seed.csize + 2, mkeys := sp.1, len_used := len1 }).1 + 1,
               (next_counts dbtype store pkey fuel
                { buf := pokeByte (pokeByte buf1 seed.csize 0x00) (seed.csize + 1) 0xff,
                  size := seed.csize + 2, mkeys := sp.1, len_used := len1 }).2 + 1)
            else (0, 1)
          else
            ((next_counts dbtype store pkey fuel
              { buf := buf1, size := r.1.length, mkeys := sp.1, len_used := len1 }).1,
             (next_counts dbtype store pkey fuel
              { buf := buf1, size := r.1.length, mkeys := sp.1, len_used := len1 }).2 + 1)
        else (0, 1)

/-- The two counts for one call of `bdb_next` or `lmdb_next` with `context == 0`. -/
def next_call_counts (dbtype : Nat) (store : Store) (pkey : DBXKEY) (mkeys0 : ArgArray) :
    Nat × Nat :=
  next_counts dbtype store pkey 10
    { buf := pkey.ibuffer, size := pkey.ibuffer_used, mkeys := mkeys0, len_used := 0 }

/-! ## dbx_ibuffer_add, statement by statement

`dbx_ibuffer_add` in M mode once more, on the memory of the key area: every write
is made at its index in the area. The allocation of a larger area is taken to
succeed. -/

/-- The memory of a key area, by index from `pkey->ibuffer`. -/
abbrev Mem := Nat → Nat

/-- The memory after the bytes `bs` have been written from index `i` on. -/
def mem_write (mem : Mem) (i : Nat) (bs : Bytes) : Mem :=
  fun a => if i ≤ a ∧ a < i + bs.length then bs.getD (a - i) 0 else mem a

/-- The `n` bytes of the memory from index `i` on. -/
def mem_read (mem : Mem) (i n : Nat) : Bytes := (List.range n).map (fun k => mem (i + k))

/-- The variables of `dbx_ibuffer_add`: the memory of the key area,
`ibuffer_used`, `ibuffer_size`, the descriptor `args[argn]` (its field `text` is not
used here: the bytes it designates are the `len_used` bytes at `buf_addr`), the
local pointer `p` as an index of the area, and `svalue.buf_addr`, `svalue.len_used`
of the descriptor. -/
structure AddMem where
  mem : Mem
  ibuffer_used : Nat
  ibuffer_size : Nat
  arg : DBXVAL
  p : Nat
  buf_addr : Nat
  len_used : Nat

/-- The first half of `dbx_ibuffer_add`, down to `pkey->argc = argn`: the area is
made larger when fewer than `len + 32` bytes are left (`mem0` is the memory of the
area after the move, when there is one), the lead of the argument is written in M
mode, then the bytes of the argument; `nul` tells that the bytes come from a
JavaScript string, which `dbx_write_char8` writes with a NUL after it, and not from
`buffer`. -/
def add_text (key_type : Nat) (mem0 : Mem) (used0 size0 : Nat) (a0 : DBXVAL)
    (buffer : Bytes) (nul : Bool) : AddMem :=
  let len := buffer.length
  let size1 := if used0 + len + 32 > size0 then used0 + len + CACHE_MAXSTRLEN else size0
  let p := used0
  let mem1 :=
    if key_type = DBX_KEYTYPE_M then
      (if a0.type = DBX_DTYPE_INT then mem_write mem0 p (dbx_set_number a0)
        else mem_write mem0 p [0x00, 0x03])
    else mem0
  let p1 :=
    if key_type = DBX_KEYTYPE_M then (if a0.type = DBX_DTYPE_INT then p + 10 else p + 2)
    else p
  let mem2 := mem_write mem1 p1 (if nul = true then buffer ++ [0] else buffer)
  { mem := mem2, ibuffer_used := p1 + len, ibuffer_size := size1,
    arg := { a0 with csize := p1 + len }, p := p1, buf_addr := p1, len_used := len }

/-- The descriptor as `dbx_is_number` and `dbx_set_number` see it: its bytes are
the `len_used` bytes at `buf_addr`. -/
def arg_seen (s : AddMem) : DBXVAL := { s.arg with text := mem_read s.mem s.buf_addr s.len_used }

/-- The block of `dbx_ibuffer_add` for a stringified number in M mode: the loop
`p[n + 8] = p[n]`, from the last byte down, moves the text eight bytes up, then
`dbx_set_number(&pkey->args[argn], p - 2)` writes the ten bytes of the number, and
only then are `p` and `buf_addr` moved. -/
def add_number (key_type : Nat) (len : Nat) (s : AddMem) : AddMem :=
  if key_type = DBX_KEYTYPE_M ∧ s.arg.type = DBX_DTYPE_STR ∧ (dbx_is_number (arg_seen s)).1 = true
  then
    let s1 : AddMem := { s with arg := (dbx_is_number (arg_seen s)).2 }
    let s2 : AddMem := { s1 with mem := mem_write s1.mem (s1.p + 8) (mem_read s1.mem s1.p len) }
    let s3 : AddMem := { s2 with mem := mem_write s2.mem (s2.p - 2) (dbx_set_number (arg_seen s2)) }
    { s3 with p := s3.p + 8, ibuffer_used := s3.ibuffer_used + 8, buf_addr := s3.p + 8,
              arg := { s3.arg with csize := s3.ibuffer_used + 8 } }
  else s

/-- The block of `dbx_ibuffer_add` for the '^' of a name in M mode: the loop
`p[n - 1] = p[n]`, from the second byte up, moves the text one byte down, and a NUL
is written at `p[len]` for the lowered `len`. The result is the state and the value
of the local `len`, an `int`; `len_used` is unsigned. -/
def add_caret (key_type : Nat) (argn : Nat) (len : Nat) (s : AddMem) : AddMem × Int :=
  if key_type = DBX_KEYTYPE_M ∧ argn = 0 ∧ s.mem s.p = 94 then
    let mem1 := mem_write s.mem s.p (mem_read s.mem (s.p + 1) (len - 1))
    ({ s with mem := mem_write mem1 (s.p + len - 1) [0x00],
              len_used := if len = 0 then 2 ^ 32 - 1 else len - 1,
              ibuffer_used := s.ibuffer_used - 1,
              arg := { s.arg with csize := s.ibuffer_used - 1 } },
      (len : Int) - 1)
  else (s, len)

/-- The block of `dbx_ibuffer_add` for the empty string in M mode:
`pkey->ibuffer[pkey->ibuffer_used - 1] = 0x00`. -/
def add_empty (key_type : Nat) (s : AddMem) : AddMem :=
  if key_type = DBX_KEYTYPE_M ∧ s.len_used = 0 then
    { s with mem := mem_write s.mem (s.ibuffer_used - 1) [0x00] }
  else s

/-- The block of `dbx_ibuffer_add` for the other key types: the value of a
stringified number is read with `strtol`. -/
def add_other (key_type : Nat) (s : AddMem) : AddMem :=
  if ¬ key_type = DBX_KEYTYPE_M ∧ s.arg.type = DBX_DTYPE_STR ∧
      (dbx_is_number (arg_seen s)).1 = true then
    { s with arg := { (dbx_is_number (arg_seen s)).2 with
                      int32 := toInt32 (strtol (cstr (mem_read s.mem s.buf_addr s.len_used))) } }
  else s

/-- `dbx_ibuffer_add(pmeth, pkey, isolate, argn, str, buffer, buffer_len, context)`
on the memory of the key area, for the argument `argn`, whose descriptor is `a0` on
entry and whose bytes are `buffer`: the state on exit and the value returned. The
allocation of a larger area is taken to succeed. -/
def dbx_ibuffer_add_mem (key_type : Nat) (mem0 : Mem) (used0 size0 : Nat) (a0 : DBXVAL)
    (argn : Nat) (buffer : Bytes) (nul : Bool) : AddMem × Int :=
  let s1 := add_text key_type mem0 used0 size0 a0 buffer nul
  let s2 := add_number key_type buffer.length s1
  let r3 := add_caret key_type argn buffer.length s2
  let s4 := add_empty key_type r3.1
  (add_other key_type s4, r3.2)

/-! ## Global Handles: the fixed subscripts and the indices of args[]

`dbx_global_reset` keeps the name and the fixed subscripts of a Global Handle
(`gx->global_name`, and the linked list `gx->pkey`, one `DBXVAL` per subscript);
`DBX_DBNAME::GlobalReference` with a `DBXGREF` assembles the name, the fixed
subscripts and the arguments of the call in `pmeth->key.args[]`, an array of
`DBX_MAXARGS` entries. Here the indices of that array are followed. -/

/-- `DBX_TO_STRING` of an argument, as bytes. -/
def js_text : JsValue → Bytes
  | JsValue.int32 n => intText n
  | JsValue.str s => s

/-- `DBXGREF`: the name of a Global Handle and the list of its fixed subscripts
(`pkey`, linked by `pnext`). -/
structure DBXGREF where
  global : Bytes
  pkey : List JsValue
  deriving DecidableEq, Repr

/-- `dbx_global_reset(args, isolate, pcon, pmeth, pgx, argc_offset, context)`:
`name` is `args[argc_offset]` and `subs` are the arguments after it, up to
`pmeth->jsargc`. The result is none when the function returns -1 (empty name);
otherwise the name is kept without its '^' in M mode (it is left empty for the
other key types), and every argument after it is appended to the list, whatever
their number. -/
def dbx_global_reset (key_type : Nat) (name : JsValue) (subs : List JsValue) :
    Option DBXGREF :=
  let global_name := cstr (js_text name)
  if global_name.head? = none then none
  else
    some
      { global :=
          if key_type = DBX_KEYTYPE_M then
            (if global_name.head? = some 94 then global_name.tail else global_name)
          else [],
        pkey := subs }

/-- The indices `nx` of `pmeth->key.args[nx]` in a loop of `GlobalReference` that
takes one entry for each element and starts at `nx`: the loop `while (pval)` over
the fixed subscripts, and the loop `for (; n < pmeth->jsargc; n ++, nx ++)` over the
arguments of the call. -/
def arg_indices {α : Type} (nx : Nat) : List α → List Nat
  | [] => []
  | _ :: rest => nx :: arg_indices (nx + 1) rest

/-- `DBX_DBNAME::GlobalReference(c, args, pmeth, pgref, context)`: the indices at
which `pmeth->key.args[]` is written, in the order of the writes; `args` are the
first `pmeth->jsargc` arguments of the call. In M mode the name takes entry 0 (the
name of the handle, or else the first argument), the fixed subscripts of the handle
the entries after it, and the arguments of the call the entries after those. -/
def GlobalReference_indices (key_type : Nat) (pgref : Option DBXGREF) (args : List JsArg) :
    List Nat :=
  if key_type = DBX_KEYTYPE_M then
    match pgref with
    | some g => 0 :: (arg_indices 1 g.pkey ++ arg_indices (1 + g.pkey.length) args)
    | none => 0 :: arg_indices 1 args.tail
  else arg_indices 0 args

/-- The start of a method of a Global Handle, such as `mglobal::GetEx`: the
trailing function is taken off the count of arguments, a call of `DBX_MAXARGS`
arguments or more is refused with "Too many arguments", and `GlobalReference` is
called with the name and fixed subscripts of the handle. The result is the list of
the indices of `pmeth->key.args[]` that are written. -/
def mglobal_reference (key_type : Nat) (gx : DBXGREF) (args : List JsArg) :
    Except DbxError (List Nat) :=
  let jsargc := (DBX_CALLBACK_FUN args).1
  if jsargc ≥ DBX_MAXARGS then Except.error DbxError.too_many_arguments
  else Except.ok (GlobalReference_indices key_type (some gx) (args.take jsargc))

/-! ## dbx_open and dbx_close: the shared handle of a backend

The first connection of a process to a backend opens the database and publishes
its handle in `p_bdb_so_global` (`p_lmdb_so_global`); the later ones take the
published handle. The two branches of `dbx_open` and of `dbx_close`, for Berkeley
DB and for LMDB, treat the fields followed here in the same way. -/

/-- The fields of `DBXBDBSO` (and of `DBXLMDBSO`) that `dbx_open` and `dbx_close`
use: `loaded`, `no_connections`, `multiple_connections`, whether `pdb` is not NULL,
and, to follow the calls, the number of times the database has been closed
(`pdb->close`, or `mdb_dbi_close` and `mdb_env_close` for LMDB). -/
structure DBXSO where
  loaded : Nat
  no_connections : Int
  multiple_connections : Int
  pdb : Bool
  closed : Nat
  deriving DecidableEq, Repr

/-- The handle that `bdb_open` (`lmdb_open`) makes for a connection that has none,
when the library loads and the database opens: cleared memory, `loaded` set by the
loading of the library, `pdb` set by the opening of the database. -/
def bdb_open : DBXSO :=
  { loaded := 1, no_connections := 0, multiple_connections := 0, pdb := true, closed := 0 }

/-- `dbx_open(pmeth)` for a connection with database type and library path, on the
published handle `p_bdb_so_global` (none for NULL): the published handle after the
call, which is also the handle of the connection. -/
def dbx_open (p_bdb_so_global : Option DBXSO) : Option DBXSO :=
  match p_bdb_so_global with
  | some so =>
    some { so with no_connections := so.no_connections + 1,
                   multiple_connections := so.multiple_connections + 1 }
  | none => some { bdb_open with no_connections := bdb_open.no_connections + 1 }

/-- `dbx_close(pmeth)` for a connection whose handle `pcon->p_bdb_so` is the
published one (the connection has been opened): the handle after the call. The
pointer `pdb` is not cleared by the closing of the database. -/
def dbx_close (p_bdb_so : Option DBXSO) : Option DBXSO :=
  match p_bdb_so with
  | none => none
  | some so =>
    let so1 : DBXSO := { so with no_connections := so.no_connections - 1 }
    let no_connections := so1.no_connections
    if no_connections = 0 ∧ so1.multiple_connections = 0 then
      if so1.loaded ≠ 0 then
        some { so1 with closed := if so1.pdb = true then so1.closed + 1 else so1.closed,
                        loaded := 0 }
      else some so1
    else some so1

/-- A call of a connection: its opening or its closing. -/
inductive ConnOp where
  | op_open
  | op_close
  deriving DecidableEq, Repr

/-- The published handle after the calls `ops`, in their order. -/
def conn_run (g : Option DBXSO) : List ConnOp → Option DBXSO
  | [] => g
  | ConnOp.op_open :: rest => conn_run (dbx_open g) rest
  | ConnOp.op_close :: rest => conn_run (dbx_close g) rest

/-- Whether the calls `ops`, made while `open_now` connections are open, close only
connections that are open and leave none open. -/
def balanced : Nat → List ConnOp → Bool
  | open_now, [] => decide (open_now = 0)
  | open_now, ConnOp.op_open :: rest => balanced (open_now + 1) rest
  | 0, ConnOp.op_close :: _ => false
  | open_now + 1, ConnOp.op_close :: rest => balanced open_now rest

/-! ## The bytes of a key and their order -/

theorem getArg_setArg_same (args : ArgArray) (n : Nat) (v : DBXVAL) :
    getArg (setArg args n v) n = v := by
  simp [getArg, setArg]

theorem getArg_setArg_other (args : ArgArray) (n m : Nat) (v : DBXVAL) (h : m ≠ n) :
    getArg (setArg args n v) m = getArg args m := by
  simp [getArg, setArg, h]

theorem bytesLt_append_left (p x y : Bytes) : bytesLt (p ++ x) (p ++ y) = bytesLt x y := by
  induction p with
  | nil => rfl
  | cons a p ih => simp [bytesLt, ih]

theorem bytesLt_irrefl (x : Bytes) : bytesLt x x = false := by
  induction x with
  | nil => rfl
  | cons a x ih => simp [bytesLt, ih]

theorem bytesLt_asymm : ∀ (x y : Bytes), bytesLt x y = true → bytesLt y x = false
  | [], [], h => by simp [bytesLt] at h
  | [], _ :: _, _ => by simp [bytesLt]
  | _ :: _, [], h => by simp [bytesLt] at h
  | a :: x, b :: y, h => by
    simp only [bytesLt, Bool.or_eq_true, decide_eq_true_eq, Bool.and_eq_true] at h
    simp only [bytesLt, Bool.or_eq_false_iff, decide_eq_false_iff_not, Bool.and_eq_false_imp,
      decide_eq_true_eq]
    rcases h with h | ⟨h1, h2⟩
    · exact ⟨by omega, fun hc => by omega⟩
    · exact ⟨by omega, fun _ => bytesLt_asymm x y h2⟩

theorem set_size_lt (x y : Nat) (hy : y < 2 ^ 32) (h : x < y) (t1 t2 : Bytes) :
    bytesLt (dbx_set_size x ++ t1) (dbx_set_size y ++ t2) = true := by
  have e1 : ∀ z : Nat, z / 65536 = z / 256 / 256 := fun z => by
    rw [Nat.div_div_eq_div_mul]
  have e2 : ∀ z : Nat, z / 16777216 = z / 256 / 256 / 256 := fun z => by
    rw [Nat.div_div_eq_div_mul, Nat.div_div_eq_div_mul]
  simp only [dbx_set_size, bytesLt, List.cons_append, List.nil_append, Nat.reducePow, e1, e2,
    Bool.or_eq_true, Bool.and_eq_true, decide_eq_true_eq]
  omega

/-- Two four-byte fields in a row compare as the pair of their values. -/
theorem set_size_pair_lt (x1 y1 x2 y2 : Nat) (hx : x2 < 2 ^ 32) (hy : y2 < 2 ^ 32)
    (h : x1 < x2 ∨ (x1 = x2 ∧ y1 < y2)) (t1 t2 : Bytes) :
    bytesLt (dbx_set_size x1 ++ (dbx_set_size y1 ++ t1))
      (dbx_set_size x2 ++ (dbx_set_size y2 ++ t2)) = true := by
  rcases h with h | ⟨h1, h2⟩
  · exact set_size_lt x1 x2 hx h _ _
  · subst h1
    rw [bytesLt_append_left]
    exact set_size_lt y1 y2 hy h2 _ _

/-- The ten bytes of `dbx_set_number` order the pairs `(num, dec)` by the number
they stand for. -/
theorem set_number_bytes_lt (n1 d1 n2 d2 : Int)
    (hn1 : -2 ^ 31 < n1 ∧ n1 < 2 ^ 31) (hd1 : 0 ≤ d1 ∧ d1 < 10 ^ 9)
    (hn2 : -2 ^ 31 < n2 ∧ n2 < 2 ^ 31) (hd2 : 0 ≤ d2 ∧ d2 < 10 ^ 9)
    (h : scaledValue n1 d1 < scaledValue n2 d2) (t1 t2 : Bytes) :
    bytesLt (set_number_bytes n1 d1 ++ t1) (set_number_bytes n2 d2 ++ t2) = true := by
  unfold set_number_bytes
  unfold scaledValue at h
  by_cases hm0 : n1 < 0
  · by_cases hn0 : n2 < 0
    · rw [if_pos hm0, if_pos hn0] at h ⊢
      simp only [List.append_assoc, List.cons_append, List.nil_append, bytesLt,
        lt_self_iff_false, decide_False, decide_True, Bool.true_and, Bool.false_or]
      apply set_size_pair_lt
      · simp [toULong, toInt32]; omega
      · simp [toULong]; omega
      · simp [toULong, toInt32]; omega
    · rw [if_pos hm0, if_neg hn0]
      simp [bytesLt]
  · have hn0 : ¬ n2 < 0 := by
      intro hc; rw [if_neg hm0, if_pos hc] at h; omega
    rw [if_neg hm0, if_neg hn0] at h ⊢
    simp only [List.append_assoc, List.cons_append, List.nil_append, bytesLt,
      lt_self_iff_false, decide_False, decide_True, Bool.true_and, Bool.false_or]
    apply set_size_pair_lt
    · simp [toULong]; omega
    · simp [toULong]; omega
    · simp [toULong]; omega

theorem set_number_bytes_head (n d : Int) :
    ∃ b r, set_number_bytes n d = 0 :: b :: r ∧ (b = 1 ∨ b = 2) ∧ r.length = 8 := by
  unfold set_number_bytes
  split_ifs
  · exact ⟨1, _, rfl, Or.inl rfl, rfl⟩
  · exact ⟨2, _, rfl, Or.inr rfl, rfl⟩

theorem set_number_bytes_length (num dec : Int) : (set_number_bytes num dec).length = 10 := by
  obtain ⟨b, r, h, _, hr⟩ := set_number_bytes_head num dec
  rw [h]; simp [hr]

theorem dbx_set_number_length (v : DBXVAL) : (dbx_set_number v).length = 10 :=
  set_number_bytes_length _ _

theorem allDigits_cons {c : Nat} {cs : Bytes} :
    allDigits (c :: cs) ↔ (48 ≤ c ∧ c ≤ 57) ∧ allDigits cs := by
  simp [allDigits]

theorem digitsValue_acc (ds : Bytes) (h : allDigits ds) (acc : Nat) :
    digitsValue acc ds = acc * 10 ^ ds.length + digitsValue 0 ds := by
  induction ds generalizing acc with
  | nil => simp [digitsValue]
  | cons c cs ih =>
    obtain ⟨hc, hcs⟩ := allDigits_cons.mp h
    have hd : isdigit c = true := by simp [isdigit, hc]
    simp only [digitsValue, hd, if_true, List.length_cons]
    rw [ih hcs (acc * 10 + (c - 48)), ih hcs (0 * 10 + (c - 48))]
    ring

theorem digitsValue_lt (ds : Bytes) (h : allDigits ds) : digitsValue 0 ds < 10 ^ ds.length := by
  induction ds with
  | nil => simp [digitsValue]
  | cons c cs ih =>
    obtain ⟨hc, hcs⟩ := allDigits_cons.mp h
    have hd : isdigit c = true := by simp [isdigit, hc]
    simp only [digitsValue, hd, if_true, List.length_cons]
    rw [digitsValue_acc cs hcs]
    have := ih hcs
    have h10 : 10 ^ (cs.length + 1) = 10 * 10 ^ cs.length := by ring
    rw [h10]
    have hc9 : c - 48 ≤ 9 := by omega
    nlinarith

theorem digitsValue_append_zeros (ds : Bytes) (h : allDigits ds) (k : Nat) :
    digitsValue 0 (ds ++ List.replicate k 48) = digitsValue 0 ds * 10 ^ k := by
  induction k with
  | zero => simp
  | succ k ih =>
    have hz : allDigits (ds ++ List.replicate k 48) := by
      intro c hc
      rcases List.mem_append.mp hc with hc | hc
      · exact h c hc
      · rw [List.eq_of_mem_replicate hc]; omega
    have e : ds ++ List.replicate (k + 1) 48 = (ds ++ List.replicate k 48) ++ [48] := by
      rw [List.replicate_succ', List.append_assoc]
    rw [e]
    have happ : ∀ (xs : Bytes) (acc : Nat), allDigits xs →
        digitsValue acc (xs ++ [48]) = digitsValue acc xs * 10 := by
      intro xs
      induction xs with
      | nil => intro acc _; simp [digitsValue, isdigit]
      | cons c cs ihc =>
        intro acc hx
        obtain ⟨hc, hcs⟩ := allDigits_cons.mp hx
        have hd : isdigit c = true := by simp [isdigit, hc]
        simp only [List.cons_append, digitsValue, hd, if_true]
        exact ihc _ hcs
    rw [happ _ 0 hz, ih]
    ring

theorem scan_after_dot (cs : Bytes) (h : (is_number_scan true cs).1 = true) : allDigits cs := by
  induction cs with
  | nil => intro c hc; simp at hc
  | cons c cs ih =>
    simp only [is_number_scan, Bool.true_eq_false, and_false, if_false] at h
    by_cases hc : c < 48 ∨ c > 57
    · simp [hc] at h
    · rw [if_neg hc] at h
      exact allDigits_cons.mpr ⟨by omega, ih h⟩

/-- What `dbx_is_number` accepts after the sign: digits, with at most one '.'. -/
theorem scan_accepts (cs : Bytes) (dp : Bool) (h : is_number_scan false cs = (true, dp)) :
    (dp = false ∧ allDigits cs ∧ splitAtDot cs = (cs, none)) ∨
    (dp = true ∧ ∃ d1 d2, cs = d1 ++ 46 :: d2 ∧ allDigits d1 ∧ allDigits d2 ∧
      splitAtDot cs = (d1, some d2)) := by
  induction cs with
  | nil =>
    simp only [is_number_scan, Prod.mk.injEq, true_and] at h
    left; exact ⟨h.symm, by intro c hc; simp at hc, rfl⟩
  | cons c cs ih =>
    simp only [is_number_scan, and_true] at h
    by_cases hdot : c = 46
    · subst hdot
      simp only [if_true] at h
      right
      have h1 : (is_number_scan true cs).1 = true := by rw [h]
      have hdp : dp = true := by
        have : ∀ xs : Bytes, (is_number_scan true xs).1 = true → (is_number_scan true xs).2 = true := by
          intro xs
          induction xs with
          | nil => intro _; rfl
          | cons x xs ihx =>
            intro hx
            simp only [is_number_scan, Bool.true_eq_false, and_false, if_false] at hx ⊢
            by_cases hxc : x < 48 ∨ x > 57
            · simp [hxc] at hx
            · rw [if_neg hxc] at hx ⊢; exact ihx hx
        have h2 := this cs h1
        rw [h] at h2; simpa using h2
      exact ⟨hdp, [], cs, rfl, by intro c hc; simp at hc, scan_after_dot cs h1, by simp [splitAtDot]⟩
    · rw [if_neg hdot] at h
      by_cases hc : c < 48 ∨ c > 57
      · simp [hc] at h
      · rw [if_neg hc] at h
        rcases ih h with ⟨h1, h2, h3⟩ | ⟨h1, d1, d2, h2, h3, h4, h5⟩
        · left
          exact ⟨h1, allDigits_cons.mpr ⟨by omega, h2⟩, by simp [splitAtDot, hdot, h3]⟩
        · right
          exact ⟨h1, c :: d1, d2, by simp [h2], allDigits_cons.mpr ⟨by omega, h3⟩, h4,
            by simp [splitAtDot, hdot, h5]⟩

theorem cstr_of_no_zero (s : Bytes) (h : ∀ c ∈ s, c ≠ 0) : cstr s = s := by
  unfold cstr
  rw [List.takeWhile_eq_self_iff]
  intro c hc
  simpa using h c hc

theorem strtol_digits (ds : Bytes) (h : allDigits ds) (hv : digitsValue 0 ds < 2 ^ 63) :
    strtol ds = (digitsValue 0 ds : Int) := by
  unfold strtol
  cases ds with
  | nil => simp [digitsValue]
  | cons c cs =>
    obtain ⟨hc, _⟩ := allDigits_cons.mp h
    have hs : isspace c = false := by
      simp only [isspace, Bool.or_eq_false_iff, decide_eq_false_iff_not, Bool.and_eq_false_imp,
        decide_eq_true_eq]
      omega
    have h45 : c ≠ 45 := by omega
    have h43 : c ≠ 43 := by omega
    simp only [List.dropWhile, hs, List.head?_cons, Option.some.injEq, h45, h43, if_false]
    omega

theorem strtol_neg_digits (ds : Bytes) (hv : digitsValue 0 ds < 2 ^ 63) :
    strtol (45 :: ds) = -(digitsValue 0 ds : Int) := by
  unfold strtol
  have hs : isspace 45 = false := by decide
  simp only [List.dropWhile, hs, List.head?_cons, if_true, List.tail_cons]
  omega

theorem toInt32_of_range (x : Int) (h : -2 ^ 31 ≤ x ∧ x < 2 ^ 31) : toInt32 x = x := by
  unfold toInt32; omega

theorem natTextAux_ne_nil (fuel n : Nat) (acc : Bytes) (h : fuel ≠ 0 ∨ acc ≠ []) :
    natTextAux fuel n acc ≠ [] := by
  induction fuel generalizing n acc with
  | zero => simpa [natTextAux] using h
  | succ f ih =>
    simp only [natTextAux]
    split_ifs
    · simp
    · exact ih _ _ (Or.inr (by simp))

theorem intText_ne_nil (n : Int) : intText n ≠ [] := by
  unfold intText natText
  split_ifs
  · simp
  · exact natTextAux_ne_nil _ _ _ (Or.inl (by omega))

theorem dbx_is_number_fst (v : DBXVAL) : (dbx_is_number v).1 = (is_number_flags v.text).1 := by
  unfold dbx_is_number
  dsimp only
  split_ifs <;> rfl

theorem dbx_is_number_text (v : DBXVAL) : (dbx_is_number v).2.text = v.text := by
  unfold dbx_is_number
  dsimp only
  split_ifs <;> rfl

theorem shifted_text_short (s : Bytes) (h : s.length ≤ 8) : shifted_text s = s := by
  unfold shifted_text
  rw [List.take_of_length_le h, Nat.sub_eq_zero_of_le h]
  simp

theorem set_number_parts_is_number (v : DBXVAL) (h : v.type = DBX_DTYPE_STR) :
    set_number_parts { (dbx_is_number v).2 with text := shifted_text v.text } =
      strParts v.text := by
  unfold strParts dbx_is_number set_number_parts
  simp only []
  split_ifs <;> simp_all [DBX_DTYPE_STR, DBX_DTYPE_INT]

theorem flags_true_ne_nil (s : Bytes) (h : (is_number_flags s).1 = true) : s ≠ [] := by
  intro hs; subst hs; simp [is_number_flags] at h

/-- The bytes `dbx_ibuffer_add` writes for an integer argument after the name. -/
theorem ibuffer_add_slot_int (a0 : DBXVAL) (argn : Nat) (n : Int) (hn : argn ≠ 0)
    (ht : a0.type = DBX_DTYPE_INT) (hi : a0.int32 = n) :
    (ibuffer_add_slot DBX_KEYTYPE_M a0 argn (intText n)).1 = slotBytes (JsValue.int32 n) := by
  have hne := intText_ne_nil n
  have hlen : (intText n).length ≠ 0 := fun h => hne (List.length_eq_zero.mp h)
  simp [ibuffer_add_slot, ht, hn, slotBytes, DBX_DTYPE_INT, DBX_DTYPE_STR, hlen,
    dbx_set_number, set_number_parts, hi]

/-- The bytes `dbx_ibuffer_add` writes for a string argument after the name. -/
theorem ibuffer_add_slot_str (a0 : DBXVAL) (argn : Nat) (s : Bytes) (hn : argn ≠ 0)
    (ht : a0.type = DBX_DTYPE_STR) :
    (ibuffer_add_slot DBX_KEYTYPE_M a0 argn s).1 = slotBytes (JsValue.str s) := by
  by_cases hf : (is_number_flags s).1 = true
  · have hne := flags_true_ne_nil s hf
    have hlen : s.length ≠ 0 := fun h => hne (List.length_eq_zero.mp h)
    have hp := set_number_parts_is_number
      { type := DBX_DTYPE_STR, int32 := a0.int32, text := s, csize := a0.csize } rfl
    simp [ibuffer_add_slot, ht, hn, slotBytes, hf, dbx_is_number_fst, dbx_is_number_text, hlen,
      dbx_set_number, hp]
  · by_cases hs : s = []
    · subst hs
      simp [ibuffer_add_slot, ht, hn, slotBytes, hf, dbx_is_number_fst, DBX_DTYPE_INT,
        DBX_DTYPE_STR, setByte]
    · have hlen : s.length ≠ 0 := fun h => hs (List.length_eq_zero.mp h)
      simp [ibuffer_add_slot, ht, hn, slotBytes, hf, dbx_is_number_fst, DBX_DTYPE_INT,
        DBX_DTYPE_STR, hlen, hs]

theorem add_argument_ibuffer (pkey : DBXKEY) (nx : Nat) (a : JsValue) (hn : nx ≠ 0) :
    (add_argument DBX_KEYTYPE_M pkey nx a).ibuffer = pkey.ibuffer ++ slotBytes a := by
  cases a with
  | int32 n =>
    simp only [add_argument, dbx_ibuffer_add, getArg_setArg_same]
    rw [ibuffer_add_slot_int _ _ _ hn rfl rfl]
  | str s =>
    simp only [add_argument, dbx_ibuffer_add, getArg_setArg_same]
    rw [ibuffer_add_slot_str _ _ _ hn rfl]

theorem add_arguments_append (k : DBXKEY) (nx : Nat) (xs ys : List JsValue) :
    add_arguments DBX_KEYTYPE_M k nx (xs ++ ys) =
      add_arguments DBX_KEYTYPE_M (add_arguments DBX_KEYTYPE_M k nx xs) (nx + xs.length) ys := by
  induction xs generalizing k nx with
  | nil => simp [add_arguments]
  | cons x xs ih =>
    rw [List.cons_append, add_arguments, add_arguments, ih, List.length_cons]
    congr 1
    omega

theorem add_arguments_ibuffer (k : DBXKEY) (nx : Nat) (xs : List JsValue) (hn : nx ≠ 0) :
    (add_arguments DBX_KEYTYPE_M k nx xs).ibuffer = k.ibuffer ++ (xs.map slotBytes).flatten := by
  induction xs generalizing k nx with
  | nil => simp [add_arguments]
  | cons x xs ih =>
    simp only [add_arguments, List.map_cons, List.flatten_cons]
    rw [ih _ _ (by omega), add_argument_ibuffer _ _ _ hn, List.append_assoc]

/-- The key of a reference is the key of the name followed by the bytes of each
subscript in turn. -/
theorem GlobalReference_ibuffer (name : Bytes) (args : List JsValue) :
    (GlobalReference name args).ibuffer =
      (GlobalReference name []).ibuffer ++ (args.map slotBytes).flatten := by
  simp only [GlobalReference, add_arguments]
  rw [add_arguments_ibuffer _ _ _ (by decide)]

theorem GlobalReference_snoc (name : Bytes) (pre : List JsValue) (a : JsValue) :
    (GlobalReference name (pre ++ [a])).ibuffer =
      (GlobalReference name pre).ibuffer ++ slotBytes a := by
  rw [GlobalReference_ibuffer name (pre ++ [a]), GlobalReference_ibuffer name pre]
  simp

theorem take_nine_zeros (d : Bytes) (h : d.length ≤ 9) :
    (d ++ [48, 48, 48, 48, 48, 48, 48, 48, 48]).take 9 = d ++ List.replicate (9 - d.length) 48 := by
  have e : ([48, 48, 48, 48, 48, 48, 48, 48, 48] : Bytes) = List.replicate 9 48 := rfl
  rw [e, List.take_append_eq_append_take, List.take_of_length_le h, List.take_replicate]
  congr 2
  omega

theorem set_number_parts_str (v : DBXVAL) (h : v.type ≠ DBX_DTYPE_INT) (hz : cstr v.text = v.text)
    (a : Bytes) (b : Option Bytes) (hs : splitAtDot v.text = (a, b)) :
    set_number_parts v =
      match b with
      | some p => (toInt32 (strtol a),
          toInt32 (strtol ((p ++ [48, 48, 48, 48, 48, 48, 48, 48, 48]).take 9)))
      | none => (toInt32 (strtol v.text), 0) := by
  unfold set_number_parts
  rw [if_neg h]
  cases b <;> simp [hz, hs]

theorem allDigits_no_zero (d : Bytes) (h : allDigits d) : ∀ c ∈ d, c ≠ 0 := by
  intro c hc
  have := h c hc
  omega

theorem strParts_int (s : Bytes) (hf : is_number_flags s = (true, false)) :
    strParts s = (toInt32 (strtol (cstr s)), 0) := by
  simp [strParts, dbx_is_number, hf, set_number_parts, DBX_DTYPE_INT]

theorem strParts_dec (s : Bytes) (hf : is_number_flags s = (true, true))
    (hl : s.length ≤ 8) :
    strParts s = set_number_parts { type := DBX_DTYPE_STR, text := s } := by
  simp [strParts, dbx_is_number, hf, shifted_text_short s hl]

theorem scaled_cast_nonneg (n d : Int) (h : 0 ≤ n) :
    ((scaledValue n d : Int) : ℚ) / 10 ^ 9 = (n : ℚ) + (d : ℚ) / 10 ^ 9 := by
  unfold scaledValue
  rw [if_neg (by omega)]
  push_cast
  field_simp
  left; norm_num

theorem scaled_cast_neg (n d : Int) (h : n < 0) :
    ((scaledValue n d : Int) : ℚ) / 10 ^ 9 = (n : ℚ) - (d : ℚ) / 10 ^ 9 := by
  unfold scaledValue
  rw [if_pos h]
  push_cast
  field_simp
  left; norm_num

theorem frac_scaled (d2 : Bytes) (h : allDigits d2) (hl : d2.length ≤ 9) :
    ((digitsValue 0 (d2 ++ List.replicate (9 - d2.length) 48) : Nat) : ℚ) / 10 ^ 9 =
      (digitsValue 0 d2 : ℚ) / 10 ^ d2.length := by
  rw [digitsValue_append_zeros d2 h]
  have e : (10 : ℚ) ^ 9 = 10 ^ d2.length * 10 ^ (9 - d2.length) := by
    rw [← pow_add]; congr 1; omega
  rw [e]
  push_cast
  have h1 : (10 : ℚ) ^ d2.length ≠ 0 := by positivity
  have h2 : (10 : ℚ) ^ (9 - d2.length) ≠ 0 := by positivity
  field_simp
  ring

theorem frac_lt (d2 : Bytes) (h : allDigits d2) (hl : d2.length ≤ 9) :
    digitsValue 0 (d2 ++ List.replicate (9 - d2.length) 48) < 10 ^ 9 := by
  have hz : allDigits (d2 ++ List.replicate (9 - d2.length) 48) := by
    intro c hc
    rcases List.mem_append.mp hc with hc | hc
    · exact h c hc
    · rw [List.eq_of_mem_replicate hc]; omega
  have := digitsValue_lt _ hz
  have e : (d2 ++ List.replicate (9 - d2.length) 48).length = 9 := by
    simp only [List.length_append, List.length_replicate]; omega
  rwa [e] at this

theorem flags_cons (c : Nat) (t : Bytes) (hf : (is_number_flags (c :: t)).1 = true) :
    is_number_flags (c :: t) = is_number_scan false (if c = 45 then t else c :: t) := by
  have hlen : ¬ ((c :: t).length = 0 ∨ (c :: t).length > 32) := by
    intro h; unfold is_number_flags at hf; rw [if_pos h] at hf; simp at hf
  unfold is_number_flags
  rw [if_neg hlen]
  by_cases hc : c = 45 <;> simp [hc]

theorem strtol_frac (d2 : Bytes) (h : allDigits d2) (hl : d2.length ≤ 9) :
    toInt32 (strtol ((d2 ++ [48, 48, 48, 48, 48, 48, 48, 48, 48]).take 9)) =
      (digitsValue 0 (d2 ++ List.replicate (9 - d2.length) 48) : Int) := by
  have hz : allDigits (d2 ++ List.replicate (9 - d2.length) 48) := by
    intro c hc
    rcases List.mem_append.mp hc with hc | hc
    · exact h c hc
    · rw [List.eq_of_mem_replicate hc]; omega
  have hlt := frac_lt d2 h hl
  rw [take_nine_zeros d2 hl, strtol_digits _ hz (by omega), toInt32_of_range _ (by omega)]

/-- The accepted text of a negative number: '-' and then `t`. -/
theorem strParts_spec_neg (t : Bytes) (hf : (is_number_flags (45 :: t)).1 = true)
    (hr : regularDecimal (45 :: t) = true) :
    (-2 ^ 31 < (strParts (45 :: t)).1 ∧ (strParts (45 :: t)).1 < 2 ^ 31) ∧
    (0 ≤ (strParts (45 :: t)).2 ∧ (strParts (45 :: t)).2 < 10 ^ 9) ∧
    ((scaledValue (strParts (45 :: t)).1 (strParts (45 :: t)).2 : Int) : ℚ) / 10 ^ 9 =
      decimalValue (45 :: t) := by
  have hfl := flags_cons 45 t hf
  rw [if_pos rfl] at hfl
  rw [hfl] at hf
  rcases hsc : is_number_scan false t with ⟨b1, dp⟩
  simp only [hsc] at hf hfl
  subst hf
  rcases scan_accepts t dp hsc with ⟨hdp, hd, hsp⟩ | ⟨hdp, d1, d2, ht, hd1, hd2, hsp⟩
  · subst hdp
    have hv : digitsValue 0 t < 2 ^ 31 := by
      simpa [regularDecimal, hsp] using hr
    have hz : cstr (45 :: t) = 45 :: t := cstr_of_no_zero _ (by
      intro c hc
      rcases List.mem_cons.mp hc with hc | hc
      · omega
      · exact allDigits_no_zero t hd c hc)
    rw [strParts_int _ hfl, hz, strtol_neg_digits t (by omega), toInt32_of_range _ (by omega)]
    refine ⟨by constructor <;> omega, by constructor <;> norm_num, ?_⟩
    have hval : decimalValue (45 :: t) = -((digitsValue 0 t : ℚ) + 0) := by
      simp [decimalValue, hsp]
    rw [hval]
    by_cases h0 : digitsValue 0 t = 0
    · rw [h0]; simp [scaledValue]
    · rw [scaled_cast_neg _ _ (by omega)]; push_cast; ring
  · subst hdp
    have hr2 : digitsValue 0 d1 < 2 ^ 31 ∧ (45 :: t).length ≤ 8 ∧ d2.length ≤ 9 ∧
        (digitsValue 0 d1 ≠ 0 ∨ digitsValue 0 d2 = 0) := by
      simpa [regularDecimal, hsp, and_assoc] using hr
    obtain ⟨hv, hl8, hl, hslip⟩ := hr2
    have hz : cstr (45 :: t) = 45 :: t := cstr_of_no_zero _ (by
      intro c hc
      rcases List.mem_cons.mp hc with hc | hc
      · omega
      · rw [ht] at hc
        rcases List.mem_append.mp hc with hc | hc
        · exact allDigits_no_zero d1 hd1 c hc
        · rcases List.mem_cons.mp hc with hc | hc
          · omega
          · exact allDigits_no_zero d2 hd2 c hc)
    have hsp2 : splitAtDot (45 :: t) = (45 :: d1, some d2) := by
      simp [splitAtDot, hsp]
    rw [strParts_dec _ hfl hl8,
      set_number_parts_str { type := DBX_DTYPE_STR, text := 45 :: t }
        (by simp [DBX_DTYPE_STR, DBX_DTYPE_INT]) hz _ _ hsp2]
    simp only []
    rw [strtol_neg_digits d1 (by omega), toInt32_of_range _ (by omega), strtol_frac d2 hd2 hl]
    have hF := frac_lt d2 hd2 hl
    have hFq := frac_scaled d2 hd2 hl
    refine ⟨by constructor <;> omega, by constructor <;> omega, ?_⟩
    have hval : decimalValue (45 :: t) =
        -((digitsValue 0 d1 : ℚ) + (digitsValue 0 d2 : ℚ) / 10 ^ d2.length) := by
      simp [decimalValue, hsp]
    rw [hval, ← hFq]
    by_cases h0 : digitsValue 0 d1 = 0
    · have h2 : digitsValue 0 d2 = 0 := by
        rcases hslip with h | h
        · exact absurd h0 h
        · exact h
      have h3 : digitsValue 0 (d2 ++ List.replicate (9 - d2.length) 48) = 0 := by
        rw [digitsValue_append_zeros d2 hd2, h2]; simp
      rw [h0, h3]; simp [scaledValue]
    · rw [scaled_cast_neg _ _ (by omega)]; push_cast; ring

/-- The accepted text of a number without a sign. -/
theorem strParts_spec_pos (c : Nat) (t : Bytes) (hc : c ≠ 45)
    (hf : (is_number_flags (c :: t)).1 = true) (hr : regularDecimal (c :: t) = true) :
    (-2 ^ 31 < (strParts (c :: t)).1 ∧ (strParts (c :: t)).1 < 2 ^ 31) ∧
    (0 ≤ (strParts (c :: t)).2 ∧ (strParts (c :: t)).2 < 10 ^ 9) ∧
    ((scaledValue (strParts (c :: t)).1 (strParts (c :: t)).2 : Int) : ℚ) / 10 ^ 9 =
      decimalValue (c :: t) := by
  have hfl := flags_cons c t hf
  rw [if_neg hc] at hfl
  rw [hfl] at hf
  rcases hsc : is_number_scan false (c :: t) with ⟨b1, dp⟩
  simp only [hsc] at hf hfl
  subst hf
  rcases scan_accepts (c :: t) dp hsc with ⟨hdp, hd, hsp⟩ | ⟨hdp, d1, d2, ht, hd1, hd2, hsp⟩
  · subst hdp
    have hv : digitsValue 0 (c :: t) < 2 ^ 31 := by
      simpa [regularDecimal, hsp, hc] using hr
    have hz : cstr (c :: t) = c :: t := cstr_of_no_zero _ (allDigits_no_zero _ hd)
    rw [strParts_int _ hfl, hz, strtol_digits _ hd (by omega), toInt32_of_range _ (by omega)]
    refine ⟨by constructor <;> omega, by constructor <;> norm_num, ?_⟩
    have hval : decimalValue (c :: t) = (digitsValue 0 (c :: t) : ℚ) + 0 := by
      simp [decimalValue, hsp, hc]
    rw [hval, scaled_cast_nonneg _ _ (by omega)]; push_cast; ring
  · subst hdp
    have hr2 : digitsValue 0 d1 < 2 ^ 31 ∧ (c :: t).length ≤ 8 ∧ d2.length ≤ 9 := by
      have := hr
      simp only [regularDecimal, Bool.and_eq_true, decide_eq_true_eq] at this
      simpa [hsp, hc, and_assoc] using this
    obtain ⟨hv, hl8, hl⟩ := hr2
    have hz : cstr (c :: t) = c :: t := cstr_of_no_zero _ (by
      intro x hx
      rw [ht] at hx
      rcases List.mem_append.mp hx with hx | hx
      · exact allDigits_no_zero d1 hd1 x hx
      · rcases List.mem_cons.mp hx with hx | hx
        · omega
        · exact allDigits_no_zero d2 hd2 x hx)
    rw [strParts_dec _ hfl hl8,
      set_number_parts_str { type := DBX_DTYPE_STR, text := c :: t }
        (by simp [DBX_DTYPE_STR, DBX_DTYPE_INT]) hz _ _ hsp]
    simp only []
    rw [strtol_digits d1 hd1 (by omega), toInt32_of_range _ (by omega), strtol_frac d2 hd2 hl]
    have hF := frac_lt d2 hd2 hl
    have hFq := frac_scaled d2 hd2 hl
    refine ⟨by constructor <;> omega, by constructor <;> omega, ?_⟩
    have hval : decimalValue (c :: t) =
        (digitsValue 0 d1 : ℚ) + (digitsValue 0 d2 : ℚ) / 10 ^ d2.length := by
      simp [decimalValue, hsp, hc]
    rw [hval, ← hFq, scaled_cast_nonneg _ _ (by omega)]; push_cast; ring

/-- What the code computes for an accepted, regular decimal text: a pair within
the range of the slot that stands for the value of the text. -/
theorem strParts_spec (s : Bytes) (hf : (is_number_flags s).1 = true)
    (hr : regularDecimal s = true) :
    (-2 ^ 31 < (strParts s).1 ∧ (strParts s).1 < 2 ^ 31) ∧
    (0 ≤ (strParts s).2 ∧ (strParts s).2 < 10 ^ 9) ∧
    ((scaledValue (strParts s).1 (strParts s).2 : Int) : ℚ) / 10 ^ 9 = decimalValue s := by
  cases s with
  | nil => simp [is_number_flags] at hf
  | cons c t =>
    by_cases hc : c = 45
    · subst hc; exact strParts_spec_neg t hf hr
    · exact strParts_spec_pos c t hc hf hr

/-- A regular numeric subscript is written as the ten bytes of its pair and then
its text, and the pair stands for its value. -/
theorem numeric_slot (a : JsValue) (v : ℚ) (hr : regularSubscript a = true)
    (hv : numericValue a = some v) :
    slotBytes a = set_number_bytes (codeParts a).1 (codeParts a).2 ++ a.text ∧
    (-2 ^ 31 < (codeParts a).1 ∧ (codeParts a).1 < 2 ^ 31) ∧
    (0 ≤ (codeParts a).2 ∧ (codeParts a).2 < 10 ^ 9) ∧
    ((scaledValue (codeParts a).1 (codeParts a).2 : Int) : ℚ) / 10 ^ 9 = v := by
  cases a with
  | int32 n =>
    simp only [regularSubscript, Bool.and_eq_true, decide_eq_true_eq] at hr
    simp only [numericValue, Option.some.injEq] at hv
    refine ⟨rfl, hr, by simp [codeParts], ?_⟩
    subst hv
    simp only [codeParts]
    by_cases h0 : n < 0
    · rw [scaled_cast_neg _ _ h0]; simp
    · rw [scaled_cast_nonneg _ _ (by omega)]; simp
  | str s =>
    by_cases hf : (is_number_flags s).1 = true
    · simp only [regularSubscript, hf, if_true] at hr
      simp only [numericValue, hf, if_true, Option.some.injEq] at hv
      obtain ⟨h1, h2, h3⟩ := strParts_spec s hf hr
      exact ⟨by simp [slotBytes, hf, codeParts, JsValue.text], h1, h2, by rw [← hv]; exact h3⟩
    · simp [numericValue, hf] at hv

/-- A string subscript that is not a number, and not empty, is written as the lead
bytes 00 03 and its bytes. -/
theorem string_slot (a : JsValue) (hr : regularSubscript a = true) (hv : numericValue a = none) :
    slotBytes a = [0x00, 0x03] ++ a.text := by
  cases a with
  | int32 n => simp [numericValue] at hv
  | str s =>
    by_cases hf : (is_number_flags s).1 = true
    · simp [numericValue, hf] at hv
    · have hne : s ≠ [] := by simpa [regularSubscript, hf] using hr
      simp [slotBytes, hf, hne, JsValue.text]

theorem scaled_lt_of_value_lt (n1 d1 n2 d2 : Int) (v1 v2 : ℚ)
    (h1 : ((scaledValue n1 d1 : Int) : ℚ) / 10 ^ 9 = v1)
    (h2 : ((scaledValue n2 d2 : Int) : ℚ) / 10 ^ 9 = v2) :
    v1 < v2 ↔ scaledValue n1 d1 < scaledValue n2 d2 := by
  rw [← h1, ← h2]
  have hp : (0 : ℚ) < 10 ^ 9 := by positivity
  rw [div_lt_div_iff_of_pos_right hp]
  exact Int.cast_lt

/-- The order of the keys of two regular subscripts written after the same name
and the same earlier subscripts. -/
theorem slot_order (a b : JsValue) (ha : regularSubscript a = true)
    (hb : regularSubscript b = true) (p : Bytes) :
    (mPrecedes a b → bytesLt (p ++ slotBytes a) (p ++ slotBytes b) = true) ∧
    (bytesLt (p ++ slotBytes a) (p ++ slotBytes b) = true → mPrecedes a b ∨ sameNumber a b) := by
  rw [bytesLt_append_left]
  rcases hva : numericValue a with _ | va <;> rcases hvb : numericValue b with _ | vb
  · -- two strings
    rw [string_slot a ha hva, string_slot b hb hvb, bytesLt_append_left]
    simp only [mPrecedes, hva, hvb]
    exact ⟨id, Or.inl⟩
  · -- string, number
    obtain ⟨hsb, -, -, -⟩ := numeric_slot b vb hb hvb
    obtain ⟨x, r, hx, hx2, -⟩ := set_number_bytes_head (codeParts b).1 (codeParts b).2
    rw [string_slot a ha hva, hsb, hx]
    simp only [mPrecedes, hva, hvb]
    refine ⟨False.elim, fun h => ?_⟩
    simp only [List.cons_append, List.nil_append, bytesLt, lt_self_iff_false, decide_False,
      decide_True, Bool.true_and, Bool.false_or, Bool.or_eq_true, decide_eq_true_eq,
      Bool.and_eq_true] at h
    omega
  · -- number, string
    obtain ⟨hsa, -, -, -⟩ := numeric_slot a va ha hva
    obtain ⟨x, r, hx, hx2, -⟩ := set_number_bytes_head (codeParts a).1 (codeParts a).2
    rw [string_slot b hb hvb, hsa, hx]
    simp only [mPrecedes, hva, hvb]
    refine ⟨fun _ => ?_, fun _ => Or.inl trivial⟩
    simp only [List.cons_append, List.nil_append, bytesLt, lt_self_iff_false, decide_False,
      decide_True, Bool.true_and, Bool.false_or, Bool.or_eq_true, decide_eq_true_eq,
      Bool.and_eq_true]
    omega
  · -- two numbers
    obtain ⟨hsa, ha1, ha2, ha3⟩ := numeric_slot a va ha hva
    obtain ⟨hsb, hb1, hb2, hb3⟩ := numeric_slot b vb hb hvb
    have hiff := scaled_lt_of_value_lt _ _ _ _ va vb ha3 hb3
    have hiff2 := scaled_lt_of_value_lt _ _ _ _ vb va hb3 ha3
    rw [hsa, hsb]
    simp only [mPrecedes, hva, hvb]
    constructor
    · intro h
      exact set_number_bytes_lt _ _ _ _ ha1 ha2 hb1 hb2 (hiff.mp h) _ _
    · intro h
      rcases lt_trichotomy va vb with hlt | heq | hgt
      · exact Or.inl hlt
      · exact Or.inr ⟨va, by rw [hva], by rw [hvb, heq]⟩
      · have := set_number_bytes_lt _ _ _ _ hb1 hb2 ha1 ha2 (hiff2.mp hgt) b.text a.text
        rw [bytesLt_asymm _ _ this] at h
        exact absurd h (by simp)

/-! ## Reading a key back with `dbx_split_key` -/

/-- Once the fuel covers the bytes left, more fuel changes nothing. -/
theorem split_key_loop_fuel (key : Bytes) (key_len : Nat) :
    ∀ (f1 f2 : Nat) (s : SplitState), key_len - s.n ≤ f1 → key_len - s.n ≤ f2 →
      split_key_loop key key_len f1 s = split_key_loop key key_len f2 s := by
  intro f1
  induction f1 with
  | zero =>
    intro f2 s h1 _
    have hn : ¬ s.n < key_len := by omega
    cases f2 with
    | zero => rfl
    | succ f2 => simp [split_key_loop, hn]
  | succ f1 ih =>
    intro f2 s h1 h2
    cases f2 with
    | zero =>
      have hn : ¬ s.n < key_len := by omega
      simp [split_key_loop, hn]
    | succ f2 =>
      simp only [split_key_loop]
      split_ifs
      · exact ih _ _ (by simp only []; omega) (by simp only []; omega)
      · exact ih _ _ (by simp only []; omega) (by simp only []; omega)
      · exact ih _ _ (by simp only []; omega) (by simp only []; omega)
      · rfl

/-- One turn of the loop at a byte that is not zero. -/
theorem split_key_loop_skip_one (key : Bytes) (key_len fuel : Nat) (s : SplitState)
    (hf : key_len - s.n ≤ fuel) (hn : s.n < key_len) (hb : key.getD s.n 0 ≠ 0) :
    split_key_loop key key_len fuel s = split_key_loop key key_len fuel { s with n := s.n + 1 } := by
  cases fuel with
  | zero => omega
  | succ f =>
    rw [split_key_loop_fuel key key_len (f + 1) f { s with n := s.n + 1 }
      (by simp only []; omega) (by simp only []; omega)]
    simp only [split_key_loop, hn, if_true]
    rw [if_neg (fun h => hb h.1), if_neg (fun h => hb h.1)]

/-- The loop passes over bytes that are not zero without a change of state. -/
theorem split_key_loop_skip (key : Bytes) (key_len fuel : Nat) :
    ∀ (d : Nat) (s : SplitState), key_len - s.n ≤ fuel → s.n + d ≤ key_len →
      (∀ i, s.n ≤ i → i < s.n + d → key.getD i 0 ≠ 0) →
      split_key_loop key key_len fuel s =
        split_key_loop key key_len fuel { s with n := s.n + d } := by
  intro d
  induction d with
  | zero => intro s _ _ _; rfl
  | succ d ih =>
    intro s hf hd hb
    rw [split_key_loop_skip_one key key_len fuel s hf (by omega) (hb s.n (le_refl _) (by omega))]
    rw [ih { s with n := s.n + 1 } (by simp only []; omega) (by simp only []; omega)
      (fun i h1 h2 => hb i (by simp only [] at h1; omega) (by simp only [] at h2; omega))]
    simp only [Nat.add_assoc, Nat.add_comm 1 d]

theorem getD_append_offset (pre suf : Bytes) (i : Nat) :
    (pre ++ suf).getD (pre.length + i) 0 = suf.getD i 0 := by
  simp [List.getD_eq_getElem?_getD, List.getElem?_append_right]

theorem getD_ne_zero_of_mem (t : Bytes) (h : ∀ c ∈ t, c ≠ 0) (i : Nat) (hi : i < t.length) :
    t.getD i 0 ≠ 0 := by
  rw [List.getD_eq_getElem?_getD, List.getElem?_eq_getElem hi]
  exact h _ (List.getElem_mem hi)

theorem decodableText_spec (t : Bytes) (h : decodableText t = true) :
    t ≠ [] ∧ ∀ c ∈ t, c ≠ 0 := by
  simpa [decodableText] using h

theorem split_key_loop_done (key : Bytes) (key_len fuel : Nat) (s : SplitState)
    (h : key_len ≤ s.n) : split_key_loop key key_len fuel s = s := by
  cases fuel with
  | zero => rfl
  | succ f => simp [split_key_loop, Nat.not_lt.mpr h]

/-- The loop over one slot: the lead is met at `s.n`, the text passed over. -/
theorem split_key_loop_slot (pre h t rest : Bytes) (fuel : Nat) (s : SplitState)
    (hn : s.n = pre.length) (hl : isLead h) (ht : decodableText t = true)
    (hf : (pre ++ (h ++ (t ++ rest))).length - s.n ≤ fuel) :
    split_key_loop (pre ++ (h ++ (t ++ rest))) (pre ++ (h ++ (t ++ rest))).length fuel s =
      split_key_loop (pre ++ (h ++ (t ++ rest))) (pre ++ (h ++ (t ++ rest))).length fuel
        (open_slot (pre ++ (h ++ (t ++ rest))) s h.length t.length) := by
  obtain ⟨htne, htz⟩ := decodableText_spec t ht
  have htl : 0 < t.length := List.length_pos.mpr htne
  set key := pre ++ (h ++ (t ++ rest)) with hkey
  have hklen : key.length = pre.length + (h.length + (t.length + rest.length)) := by
    simp [hkey]
  have hget : ∀ i, key.getD (s.n + i) 0 = (h ++ (t ++ rest)).getD i 0 := by
    intro i; rw [hn, hkey, getD_append_offset]
  have htext : ∀ i, s.n + h.length ≤ i → i < s.n + h.length + t.length → key.getD i 0 ≠ 0 := by
    intro i h1 h2
    have e : i = s.n + (h.length + (i - s.n - h.length)) := by omega
    rw [e, hget]
    have e2 := getD_append_offset h (t ++ rest) (i - s.n - h.length)
    rw [e2]
    have hi : i - s.n - h.length < t.length := by omega
    rw [List.getD_eq_getElem?_getD, List.getElem?_append_left hi, ← List.getD_eq_getElem?_getD]
    exact getD_ne_zero_of_mem t htz _ hi
  rcases hl with hl | ⟨hl10, b, r, hb, hb12⟩
  · -- a string slot
    subst hl
    have hc0 : key.getD s.n 0 = 0 := by
      have := hget 0; simpa using this
    have hc1 : key.getD (s.n + 1) 0 = 3 := by
      have := hget 1; simpa using this
    cases fuel with
    | zero => simp only [List.length_cons, List.length_nil] at hklen; omega
    | succ f =>
      have hlt : s.n < key.length := by
        simp only [List.length_cons, List.length_nil] at hklen; omega
      have step : split_key_loop key key.length (f + 1) s =
          split_key_loop key key.length f
            { n := s.n + 2 + 1, nstart := s.n + 2, nend := s.n, keyn := s.keyn + 1,
              keys := setArg (close_slot s.keys s.keyn key s.nstart s.n) s.keyn
                { getArg (close_slot s.keys s.keyn key s.nstart s.n) s.keyn with
                  text := [], type := DBX_DTYPE_STR } } := by
        simp only [split_key_loop, hlt, if_true]
        rw [if_neg (by rw [hc1]; simp), if_pos ⟨hc0, hc1⟩]
      rw [step]
      rw [split_key_loop_fuel key key.length f (f + 1) _ (by simp only []; omega)
        (by simp only []; omega)]
      rw [split_key_loop_skip key key.length (f + 1) (t.length - 1) _
        (by simp only []; omega)
        (by simp only [List.length_cons, List.length_nil] at hklen ⊢; omega)
        (fun i h1 h2 => htext i (by simp only [List.length_cons, List.length_nil] at h1 ⊢; omega)
          (by simp only [List.length_cons, List.length_nil] at h2 ⊢; omega))]
      congr 1
      simp only [open_slot, List.length_cons, List.length_nil]
      have e : s.n + 2 + 1 + (t.length - 1) = s.n + (0 + 1 + 1) + t.length := by omega
      simp [e]
  · -- a numeric slot
    have hc0 : key.getD s.n 0 = 0 := by
      have := hget 0; rw [hb] at this; simpa using this
    have hc1 : key.getD (s.n + 1) 0 = b := by
      have := hget 1; rw [hb] at this; simpa using this
    cases fuel with
    | zero => omega
    | succ f =>
      have hlt : s.n < key.length := by omega
      have step : split_key_loop key key.length (f + 1) s =
          split_key_loop key key.length f
            { n := s.n + 10 + 1, nstart := s.n + 10, nend := s.n, keyn := s.keyn + 1,
              keys := setArg (close_slot s.keys s.keyn key s.nstart s.n) s.keyn
                { getArg (close_slot s.keys s.keyn key s.nstart s.n) s.keyn with
                  text := [], int32 := toInt32 (strtol (key.drop (s.n + 10))),
                  type := DBX_DTYPE_INT } } := by
        simp only [split_key_loop, hlt, if_true]
        rw [if_pos ⟨hc0, by rw [hc1]; exact hb12⟩]
      rw [step]
      rw [split_key_loop_fuel key key.length f (f + 1) _ (by simp only []; omega)
        (by simp only []; omega)]
      rw [split_key_loop_skip key key.length (f + 1) (t.length - 1) _
        (by simp only []; omega)
        (by simp only []; omega)
        (fun i h1 h2 => htext i (by simp only [] at h1; omega) (by simp only [] at h2; omega))]
      congr 1
      simp only [open_slot, hl10, if_true]
      have e : s.n + 10 + 1 + (t.length - 1) = s.n + 10 + t.length := by omega
      simp [e]

/-- The loop over a run of well-formed slots. -/
theorem split_key_loop_run (key : Bytes) :
    ∀ (slots : List (Bytes × Bytes)) (pre : Bytes) (s : SplitState) (fuel : Nat),
      (∀ ht ∈ slots, isLead ht.1 ∧ decodableText ht.2 = true) →
      key = pre ++ slotsBytes slots → s.n = pre.length → key.length - s.n ≤ fuel →
      split_key_loop key key.length fuel s = run_slots key s slots := by
  intro slots
  induction slots with
  | nil =>
    intro pre s fuel _ hk hn _
    have : key.length ≤ s.n := by rw [hk, hn]; simp [slotsBytes]
    rw [split_key_loop_done key key.length fuel s this]
    rfl
  | cons ht rest ih =>
    intro pre s fuel hw hk hn hf
    obtain ⟨hl, hd⟩ := hw ht (List.mem_cons_self _ _)
    have hk1 : key = pre ++ (ht.1 ++ (ht.2 ++ slotsBytes rest)) := by
      rw [hk]; simp [slotsBytes]
    have hstep := split_key_loop_slot pre ht.1 ht.2 (slotsBytes rest) fuel s hn hl hd
      (by rw [← hk1]; exact hf)
    rw [← hk1] at hstep
    rw [hstep]
    have hk2 : key = (pre ++ (ht.1 ++ ht.2)) ++ slotsBytes rest := by
      rw [hk1]; simp
    rw [ih (pre ++ (ht.1 ++ ht.2)) (open_slot key s ht.1.length ht.2.length) fuel
      (fun x hx => hw x (List.mem_cons_of_mem _ hx)) hk2
      (by simp [open_slot, hn]; omega)
      (by simp only [open_slot]; omega)]
    rfl

theorem split_key_types_text (keys : ArgArray) (keyn : Nat) :
    ∀ (n j : Nat), (getArg (split_key_types keys keyn n) j).text = (getArg keys j).text := by
  intro n
  induction n with
  | zero => intro j; rfl
  | succ n ih =>
    intro j
    simp only [split_key_types]
    split_ifs
    · by_cases hj : j = n
      · subst hj; rw [getArg_setArg_same]; exact ih j
      · rw [getArg_setArg_other _ _ _ _ hj]; exact ih j
    · exact ih j

theorem split_texts_eq (key : Bytes) :
    split_texts key = final_texts key (split_key_loop key key.length key.length {}) := by
  simp only [split_texts, dbx_split_key, final_texts, split_key_types_text]

theorem slice_middle (pre t rest : Bytes) :
    slice (pre ++ (t ++ rest)) pre.length (pre.length + t.length) = t := by
  simp [slice]

theorem closed_texts_open_slot (key : Bytes) (s : SplitState) (hlen tlen : Nat)
    (hk : 1 ≤ s.keyn) :
    closed_texts (open_slot key s hlen tlen) = closed_texts s ++ [slice key s.nstart s.n] := by
  have e : s.keyn + 1 - 1 = (s.keyn - 1) + 1 := by omega
  simp only [closed_texts, open_slot, e, List.range_succ, List.map_append, List.map_cons,
    List.map_nil]
  congr 1
  · apply List.map_congr_left
    intro j hj
    have hj1 : j < s.keyn - 1 := List.mem_range.mp hj
    split_ifs
    · rw [getArg_setArg_other _ _ _ _ (by omega)]
      simp only [close_slot, if_pos (show s.keyn > 0 by omega)]
      rw [getArg_setArg_other _ _ _ _ (by omega)]
    · rw [getArg_setArg_other _ _ _ _ (by omega)]
      simp only [close_slot, if_pos (show s.keyn > 0 by omega)]
      rw [getArg_setArg_other _ _ _ _ (by omega)]
  · split_ifs
    · rw [getArg_setArg_other _ _ _ _ (by omega)]
      simp only [close_slot, if_pos (show s.keyn > 0 by omega)]
      rw [getArg_setArg_same]
      rfl
    · rw [getArg_setArg_other _ _ _ _ (by omega)]
      simp only [close_slot, if_pos (show s.keyn > 0 by omega)]
      rw [getArg_setArg_same]
      rfl

theorem final_texts_closed (key : Bytes) (s : SplitState) (hk : 1 ≤ s.keyn) :
    final_texts key s = closed_texts s ++ [slice key s.nstart key.length] := by
  obtain ⟨k, hk1⟩ : ∃ k, s.keyn = k + 1 := ⟨s.keyn - 1, by omega⟩
  simp only [final_texts, closed_texts, hk1, List.range_succ, List.map_append, List.map_cons,
    List.map_nil, Nat.add_sub_cancel]
  congr 1
  · apply List.map_congr_left
    intro j hj
    have hj1 : j < k := List.mem_range.mp hj
    simp only [close_slot, if_pos (show k + 1 > 0 by omega), Nat.add_sub_cancel]
    rw [getArg_setArg_other _ _ _ _ (by omega)]
  · simp only [close_slot, if_pos (show k + 1 > 0 by omega), Nat.add_sub_cancel]
    rw [getArg_setArg_same]
    rfl

/-- The texts found after a run of slots: the texts closed before, the text that
was open, and the texts of the run. -/
theorem final_texts_run (key : Bytes) :
    ∀ (slots : List (Bytes × Bytes)) (pre : Bytes) (s : SplitState),
      key = pre ++ slotsBytes slots → s.n = pre.length → 1 ≤ s.keyn →
      final_texts key (run_slots key s slots) =
        closed_texts s ++ [slice key s.nstart s.n] ++ slots.map (fun ht => ht.2) := by
  intro slots
  induction slots with
  | nil =>
    intro pre s hk hn hkn
    have hl : key.length = s.n := by rw [hk, hn]; simp [slotsBytes]
    simp only [run_slots, List.map_nil, List.append_nil]
    rw [final_texts_closed key s hkn, hl]
  | cons ht rest ih =>
    intro pre s hk hn hkn
    have hk2 : key = (pre ++ (ht.1 ++ ht.2)) ++ slotsBytes rest := by
      rw [hk]; simp [slotsBytes]
    simp only [run_slots]
    rw [ih (pre ++ (ht.1 ++ ht.2)) (open_slot key s ht.1.length ht.2.length) hk2
      (by simp [open_slot, hn]; omega) (by simp [open_slot])]
    rw [closed_texts_open_slot key s _ _ hkn]
    have hs : slice key (open_slot key s ht.1.length ht.2.length).nstart
        (open_slot key s ht.1.length ht.2.length).n = ht.2 := by
      have hk3 : key = (pre ++ ht.1) ++ (ht.2 ++ slotsBytes rest) := by
        rw [hk]; simp [slotsBytes]
      have := slice_middle (pre ++ ht.1) ht.2 (slotsBytes rest)
      rw [← hk3] at this
      simp only [open_slot, hn]
      simpa [List.length_append] using this
    rw [hs]
    simp

/-- `dbx_split_key` reads a run of well-formed slots back as their texts. -/
theorem split_texts_slots (first : Bytes × Bytes) (rest : List (Bytes × Bytes))
    (hw : ∀ ht ∈ first :: rest, isLead ht.1 ∧ decodableText ht.2 = true) :
    split_texts (slotsBytes (first :: rest)) = (first :: rest).map (fun ht => ht.2) := by
  set key := slotsBytes (first :: rest) with hkey
  rw [split_texts_eq]
  rw [split_key_loop_run key (first :: rest) [] {} key.length hw (by simp [hkey]) rfl
    (by simp)]
  simp only [run_slots]
  have hk2 : key = (first.1 ++ first.2) ++ slotsBytes rest := by
    rw [hkey]; simp [slotsBytes]
  rw [final_texts_run key rest (first.1 ++ first.2) _ hk2 (by simp [open_slot]) (by simp [open_slot])]
  have hs : slice key (open_slot key {} first.1.length first.2.length).nstart
      (open_slot key {} first.1.length first.2.length).n = first.2 := by
    have hk3 : key = first.1 ++ (first.2 ++ slotsBytes rest) := by
      rw [hkey]; simp [slotsBytes]
    have := slice_middle first.1 first.2 (slotsBytes rest)
    rw [← hk3] at this
    simpa [open_slot] using this
  rw [hs]
  simp [closed_texts, open_slot]

theorem isLead_set_number_bytes (n d : Int) : isLead (set_number_bytes n d) := by
  obtain ⟨b, r, h, hb, _⟩ := set_number_bytes_head n d
  exact Or.inr ⟨set_number_bytes_length n d, b, r, h, hb⟩

theorem isLead_slotLead (a : JsValue) : isLead (slotLead a) := by
  cases a with
  | int32 n => exact isLead_set_number_bytes n 0
  | str s =>
    simp only [slotLead]
    split_ifs
    · exact isLead_set_number_bytes _ _
    · exact Or.inl rfl

theorem natTextAux_no_zero (fuel n : Nat) (acc : Bytes) (h : ∀ c ∈ acc, c ≠ 0) :
    ∀ c ∈ natTextAux fuel n acc, c ≠ 0 := by
  induction fuel generalizing n acc with
  | zero => simpa [natTextAux] using h
  | succ f ih =>
    simp only [natTextAux]
    split_ifs
    · intro c hc
      rcases List.mem_cons.mp hc with hc | hc
      · omega
      · exact h c hc
    · apply ih
      intro c hc
      rcases List.mem_cons.mp hc with hc | hc
      · omega
      · exact h c hc

theorem decodableText_intText (n : Int) : decodableText (intText n) = true := by
  have hne := intText_ne_nil n
  have hz : ∀ c ∈ intText n, c ≠ 0 := by
    unfold intText natText
    split_ifs
    · intro c hc
      rcases List.mem_cons.mp hc with hc | hc
      · omega
      · exact natTextAux_no_zero _ _ [] (by simp) c hc
    · exact natTextAux_no_zero _ _ [] (by simp)
  simp only [decodableText, Bool.and_eq_true, decide_eq_true_eq, List.all_eq_true]
  exact ⟨hne, hz⟩

/-- The slot of a decodable argument: its lead and then its text. -/
theorem arg_slot_bytes (a : JsValue) (h : decodableArg a = true) :
    slotBytes a = (argSlot a).1 ++ (argSlot a).2 ∧ decodableText (argSlot a).2 = true := by
  cases a with
  | int32 n => exact ⟨rfl, decodableText_intText n⟩
  | str s =>
    have hd : decodableText s = true := h
    obtain ⟨hne, _⟩ := decodableText_spec s hd
    refine ⟨?_, hd⟩
    simp only [slotBytes, argSlot, slotLead, JsValue.text]
    split_ifs <;> simp_all

theorem flags_head_ne_caret (name : Bytes) (hf : (is_number_flags name).1 = true) :
    name.head? ≠ some 94 := by
  cases name with
  | nil => simp
  | cons c t =>
    intro hc
    have hc94 : c = 94 := by simpa using hc
    subst hc94
    have h1 := flags_cons 94 t hf
    rw [h1] at hf
    simp [is_number_scan] at hf

/-- The key of a reference without subscripts: the lead of the name slot and the
name without its leading '^'. -/
theorem name_slot_bytes (name : Bytes) (h : decodableText (stripName name) = true) :
    (GlobalReference name []).ibuffer = (nameSlot name).1 ++ (nameSlot name).2 := by
  obtain ⟨hne, _⟩ := decodableText_spec _ h
  have hlen : (stripName name).length ≠ 0 := fun hc => hne (List.length_eq_zero.mp hc)
  simp only [GlobalReference, add_arguments, dbx_ibuffer_add, getArg_setArg_same, List.nil_append,
    nameSlot]
  by_cases hc : name.head? = some 94
  · have hs : stripName name = name.tail := by simp [stripName, hc]
    rw [hs] at hlen
    cases name with
    | nil => simp at hc
    | cons c t =>
      have e : t.length + 1 + 1 + 1 - (t.length + 1) = 2 := by omega
      have hlen2 : t.length ≠ 0 := by simpa using hlen
      simp [ibuffer_add_slot, hc, hs, hlen2, DBX_DTYPE_STR, DBX_DTYPE_INT, DBX_DTYPE_NONE, e]
  · have hs : stripName name = name := by simp [stripName, hc]
    rw [hs] at hlen
    simp [ibuffer_add_slot, hc, hs, hlen, DBX_DTYPE_STR, DBX_DTYPE_INT, DBX_DTYPE_NONE]

theorem reference_slots (name : Bytes) (subs : List JsValue)
    (hn : decodableText (stripName name) = true) (hs : ∀ a ∈ subs, decodableArg a = true) :
    (GlobalReference name subs).ibuffer = slotsBytes (nameSlot name :: subs.map argSlot) := by
  rw [GlobalReference_ibuffer, name_slot_bytes name hn]
  simp only [slotsBytes, List.map_cons, List.flatten_cons, List.map_map]
  congr 2
  apply List.map_congr_left
  intro a ha
  exact (arg_slot_bytes a (hs a ha)).1

/-! ## Point operations -/

theorem db_get_put_same (s : Store) (k v : Bytes) : db_get (db_put s k v) k = some v := by
  induction s with
  | nil => simp [db_put, db_get]
  | cons r rest ih =>
    simp only [db_put]
    split_ifs with h1 h2
    · simp [db_get]
    · simp [db_get]
    · have hne : ¬ r.1 = k := h2
      simp only [db_get, List.find?_cons, hne, decide_False] at ih ⊢
      exact ih

theorem ibuffer_add_slot_text (a0 : DBXVAL) (argn : Nat) (buffer : Bytes) (hn : argn ≠ 0) :
    (ibuffer_add_slot DBX_KEYTYPE_M a0 argn buffer).2.text = buffer := by
  simp only [ibuffer_add_slot, if_true, hn, false_and, if_false]
  split_ifs <;> simp [dbx_is_number_text]

theorem add_argument_args_same (pkey : DBXKEY) (nx : Nat) (a : JsValue) (hn : nx ≠ 0) :
    (getArg (add_argument DBX_KEYTYPE_M pkey nx a).args nx).text = a.text ∧
    (getArg (add_argument DBX_KEYTYPE_M pkey nx a).args nx).csize =
      (add_argument DBX_KEYTYPE_M pkey nx a).ibuffer.length := by
  cases a with
  | int32 n =>
    simp only [add_argument, dbx_ibuffer_add, getArg_setArg_same, JsValue.text]
    exact ⟨ibuffer_add_slot_text _ _ _ hn, trivial⟩
  | str s =>
    simp only [add_argument, dbx_ibuffer_add, getArg_setArg_same, JsValue.text]
    exact ⟨ibuffer_add_slot_text _ _ _ hn, trivial⟩

theorem add_argument_args_other (pkey : DBXKEY) (nx j : Nat) (a : JsValue) (hj : j ≠ nx) :
    getArg (add_argument DBX_KEYTYPE_M pkey nx a).args j = getArg pkey.args j := by
  cases a with
  | int32 n =>
    simp only [add_argument, dbx_ibuffer_add]
    rw [getArg_setArg_other _ _ _ _ hj, getArg_setArg_other _ _ _ _ hj]
  | str s =>
    simp only [add_argument, dbx_ibuffer_add]
    rw [getArg_setArg_other _ _ _ _ hj, getArg_setArg_other _ _ _ _ hj]

theorem add_arguments_args_below (k : DBXKEY) (nx : Nat) (xs : List JsValue) (j : Nat)
    (hj : j < nx) :
    getArg (add_arguments DBX_KEYTYPE_M k nx xs).args j = getArg k.args j := by
  induction xs generalizing k nx with
  | nil => rfl
  | cons x xs ih =>
    simp only [add_arguments]
    rw [ih _ _ (by omega), add_argument_args_other _ _ _ _ (by omega)]

/-- The descriptor of the last slot of a reference: its cumulative size is the
length of the key. -/
theorem GlobalReference_last_csize (name : Bytes) (subs : List JsValue) :
    (getArg (GlobalReference name subs).args ((GlobalReference name subs).argc - 1)).csize =
      (GlobalReference name subs).ibuffer.length := by
  rcases List.eq_nil_or_concat subs with h | ⟨init, a, h⟩
  · subst h
    simp only [GlobalReference, add_arguments, List.length_nil, Nat.add_zero, Nat.sub_self,
      dbx_ibuffer_add, getArg_setArg_same]
  · subst h
    have e : 1 + (init ++ [a]).length - 1 = 1 + init.length := by simp; omega
    simp only [GlobalReference, List.concat_eq_append, e]
    rw [add_arguments_append]
    simp only [add_arguments]
    exact (add_argument_args_same _ _ _ (by omega)).2

/-- The descriptors of a reference with one more argument: the last but one slot
ends where the key of the reference without that argument ends, and the text of the
last slot is the text of the argument. -/
theorem GlobalReference_snoc_args (name : Bytes) (subs : List JsValue) (v : JsValue) :
    (getArg (GlobalReference name (subs ++ [v])).args
        ((GlobalReference name (subs ++ [v])).argc - 2)).csize =
      (GlobalReference name subs).ibuffer.length ∧
    (getArg (GlobalReference name (subs ++ [v])).args
        ((GlobalReference name (subs ++ [v])).argc - 1)).text = v.text := by
  have e1 : 1 + (subs ++ [v]).length - 2 = 1 + subs.length - 1 := by simp; omega
  have e2 : 1 + (subs ++ [v]).length - 1 = 1 + subs.length := by simp; omega
  have hlast := GlobalReference_last_csize name subs
  simp only [GlobalReference, e1, e2] at hlast ⊢
  rw [add_arguments_append]
  simp only [add_arguments]
  constructor
  · rw [add_argument_args_other _ _ _ _ (by omega)]
    exact hlast
  · exact (add_argument_args_same _ _ _ (by omega)).1

/-! ### The byte order -/

theorem bytesLt_trans : ∀ (x y z : Bytes), bytesLt x y = true → bytesLt y z = true →
    bytesLt x z = true
  | [], [], _, h, _ => by simp [bytesLt] at h
  | [], _ :: _, [], _, h => by simp [bytesLt] at h
  | [], _ :: _, _ :: _, _, _ => by simp [bytesLt]
  | _ :: _, [], _, h, _ => by simp [bytesLt] at h
  | _ :: _, _ :: _, [], _, h => by simp [bytesLt] at h
  | a :: x, b :: y, c :: z, h1, h2 => by
    simp only [bytesLt, Bool.or_eq_true, decide_eq_true_eq, Bool.and_eq_true] at h1 h2 ⊢
    rcases h1 with h1 | ⟨h1, h1'⟩ <;> rcases h2 with h2 | ⟨h2, h2'⟩
    · left; omega
    · left; omega
    · left; omega
    · right; exact ⟨by omega, bytesLt_trans x y z h1' h2'⟩

theorem bytesLt_total : ∀ (x y : Bytes), x ≠ y → bytesLt x y = true ∨ bytesLt y x = true
  | [], [], h => absurd rfl h
  | [], _ :: _, _ => by simp [bytesLt]
  | _ :: _, [], _ => by simp [bytesLt]
  | a :: x, b :: y, h => by
    simp only [bytesLt, Bool.or_eq_true, decide_eq_true_eq, Bool.and_eq_true]
    rcases Nat.lt_trichotomy a b with hab | hab | hab
    · left; left; exact hab
    · subst hab
      have hxy : x ≠ y := fun hc => h (by rw [hc])
      rcases bytesLt_total x y hxy with h1 | h1
      · left; right; exact ⟨rfl, h1⟩
      · right; right; exact ⟨rfl, h1⟩
    · right; left; exact hab

theorem bytesLt_ne (x y : Bytes) (h : bytesLt x y = true) : x ≠ y := by
  intro hc; subst hc; rw [bytesLt_irrefl] at h; exact absurd h (by simp)

theorem bytesLe_iff (x y : Bytes) : bytesLe x y = true ↔ x = y ∨ bytesLt x y = true := by
  unfold bytesLe
  constructor
  · intro h
    by_cases hxy : x = y
    · exact Or.inl hxy
    · rcases bytesLt_total x y hxy with h1 | h1
      · exact Or.inr h1
      · rw [h1] at h; exact absurd h (by simp)
  · rintro (h | h)
    · subst h; simp [bytesLt_irrefl]
    · simp [bytesLt_asymm x y h]

theorem bytesLt_append_nonempty (k w : Bytes) (hw : w ≠ []) : bytesLt k (k ++ w) = true := by
  have := bytesLt_append_left k [] w
  rw [List.append_nil] at this
  rw [this]
  cases w with
  | nil => exact absurd rfl hw
  | cons c w => rfl

/-- A key strictly between `k` and `k` followed by a zero byte and more goes on
from `k` with a zero byte too. -/
theorem between_zero_extension : ∀ (k x z : Bytes), bytesLt k z = true →
    bytesLt (k ++ 0 :: x) z = false → ∃ y, z = k ++ 0 :: y
  | [], x, z, h1, h2 => by
    cases z with
    | nil => simp [bytesLt] at h1
    | cons c z =>
      simp only [List.nil_append, bytesLt, Bool.or_eq_false_iff, decide_eq_false_iff_not,
        Bool.and_eq_false_imp, decide_eq_true_eq] at h2
      have hc : c = 0 := by omega
      exact ⟨z, by simp [hc]⟩
  | a :: k, x, z, h1, h2 => by
    cases z with
    | nil => simp [bytesLt] at h1
    | cons c z =>
      simp only [bytesLt, Bool.or_eq_true, decide_eq_true_eq, Bool.and_eq_true] at h1
      simp only [List.cons_append, bytesLt, Bool.or_eq_false_iff, decide_eq_false_iff_not,
        Bool.and_eq_false_imp, decide_eq_true_eq] at h2
      have hac : a = c := by omega
      subst hac
      rcases h1 with h1 | ⟨_, h1⟩
      · omega
      · obtain ⟨y, hy⟩ := between_zero_extension k x z h1 (h2.2 rfl)
        exact ⟨y, by simp [hy]⟩

/-! ### The first record from a key on -/

theorem find_first_sorted (s : Store) (hs : storeSorted s) (p : Record → Bool) (r : Record)
    (h : s.find? p = some r) :
    r ∈ s ∧ p r = true ∧ ∀ r2 ∈ s, p r2 = true → r2 = r ∨ bytesLt r.1 r2.1 = true := by
  induction s with
  | nil => simp at h
  | cons a rest ih =>
    have hs2 := List.pairwise_cons.mp hs
    by_cases hp : p a = true
    · simp only [List.find?_cons, hp] at h
      have har : a = r := by simpa using h
      subst har
      refine ⟨List.mem_cons_self _ _, hp, ?_⟩
      intro r2 hr2 _
      rcases List.mem_cons.mp hr2 with h2 | h2
      · exact Or.inl h2
      · exact Or.inr (hs2.1 r2 h2)
    · have hp2 : p a = false := by simpa using hp
      simp only [List.find?_cons, hp2] at h
      obtain ⟨h1, h2, h3⟩ := ih hs2.2 h
      refine ⟨List.mem_cons_of_mem _ h1, h2, ?_⟩
      intro r2 hr2 hpr2
      rcases List.mem_cons.mp hr2 with h4 | h4
      · subst h4; rw [hp2] at hpr2; exact absurd hpr2 (by simp)
      · exact h3 r2 h4 hpr2

theorem db_get_some_iff (s : Store) (k : Bytes) :
    db_get s k ≠ none ↔ ∃ r ∈ s, r.1 = k := by
  unfold db_get
  rw [ne_eq, Option.map_eq_none', List.find?_eq_none]
  constructor
  · intro h
    by_contra hc
    apply h
    intro r hr
    simp only [decide_eq_true_eq]
    intro hrk
    exact hc ⟨r, hr, hrk⟩
  · rintro ⟨r, hr, hrk⟩ h
    have := h r hr
    simp [hrk] at this

theorem getD_at_length (k : Bytes) (c : Nat) (y : Bytes) :
    (k ++ c :: y).getD k.length 0 = c := by
  have := getD_append_offset k (c :: y) 0
  simpa using this

/-- The comparison made by `dbx_defined` and `dbx_delete` is 0 for the key itself
and for the keys that go on from it with a zero byte. -/
theorem key_compare_zero_iff (z k : Bytes) (hk : k ≠ []) :
    bdb_key_compare z k k.length = 0 ↔ z = k ∨ ∃ y, z = k ++ 0 :: y := by
  have hpos : k.length > 0 := List.length_pos.mpr hk
  unfold bdb_key_compare
  rw [if_pos hpos]
  constructor
  · intro h
    split_ifs at h with h1 h2 h3 h4
    have hzl : k.length ≤ z.length := by omega
    have htake : z.take k.length = k := by rw [h4, List.take_length]
    by_cases hlen : z.length = k.length
    · left
      rw [← htake, ← hlen, List.take_length]
    · right
      have hgt : z.length > k.length := by omega
      have hz0 : z.getD k.length 0 = 0 := by
        by_contra hc
        exact h2 ⟨hgt, hc⟩
      have hz : z = z.take k.length ++ z.drop k.length := (List.take_append_drop _ _).symm
      rw [htake] at hz
      have hd : z.drop k.length ≠ [] := by
        intro hc
        have := congrArg List.length hc
        simp at this
        omega
      obtain ⟨c, y, hcy⟩ := List.exists_cons_of_ne_nil hd
      have hc0 : c = 0 := by
        have e : z.getD k.length 0 = c := by
          rw [hz, hcy]
          exact getD_at_length k c y
        rw [← e]; exact hz0
      exact ⟨y, by rw [hz, hcy, hc0]⟩
  · rintro (h | ⟨y, h⟩)
    · subst h
      simp
    · subst h
      have e := getD_at_length k 0 y
      rw [if_neg (by simp), if_neg (by rw [e]; simp), if_neg (by simp), if_pos (by simp)]

theorem zeroExt_iff (k z : Bytes) (hk : k ≠ []) :
    zeroExt k z = true ↔ ∃ y, z = k ++ 0 :: y := by
  unfold zeroExt
  rw [decide_eq_true_eq, key_compare_zero_iff z k hk]
  constructor
  · rintro ⟨hl, h | h⟩
    · subst h; omega
    · exact h
  · rintro ⟨y, h⟩
    subst h
    exact ⟨by simp, Or.inr ⟨y, rfl⟩⟩

theorem c_next_none (s : Store) (k : Bytes) (h : c_next s k = none) :
    ∀ r ∈ s, bytesLt k r.1 = false := by
  intro r hr
  have := List.find?_eq_none.mp h r hr
  simpa using this

theorem c_set_range_none (s : Store) (k : Bytes) (h : c_set_range s k = none) :
    (∀ r ∈ s, r.1 ≠ k) ∧ c_next s k = none := by
  have h1 : ∀ r ∈ s, ¬ bytesLe k r.1 = true := List.find?_eq_none.mp h
  constructor
  · intro r hr hc
    exact h1 r hr ((bytesLe_iff k r.1).mpr (Or.inl hc.symm))
  · apply List.find?_eq_none.mpr
    intro r hr hc
    exact h1 r hr ((bytesLe_iff k r.1).mpr (Or.inr hc))

theorem find_congr (s : Store) (p q : Record → Bool) (h : ∀ r ∈ s, p r = q r) :
    s.find? p = s.find? q := by
  induction s with
  | nil => rfl
  | cons a rest ih =>
    simp only [List.find?_cons, h a (List.mem_cons_self _ _)]
    rw [ih (fun r hr => h r (List.mem_cons_of_mem _ hr))]

/-- When the first record from `k` on is not the record of `k`, there is no record
of `k`, and that record is the first one above `k`. -/
theorem c_set_range_above (s : Store) (hs : storeSorted s) (k : Bytes) (r1 : Record)
    (h : c_set_range s k = some r1) (hne : r1.1 ≠ k) :
    (∀ r ∈ s, r.1 ≠ k) ∧ c_next s k = some r1 := by
  obtain ⟨hmem, hp, hmin⟩ := find_first_sorted s hs _ r1 h
  have hlt : bytesLt k r1.1 = true := by
    rcases (bytesLe_iff k r1.1).mp hp with h1 | h1
    · exact absurd h1.symm hne
    · exact h1
  have hnone : ∀ r ∈ s, r.1 ≠ k := by
    intro r hr hc
    rcases hmin r hr ((bytesLe_iff k r.1).mpr (Or.inl hc.symm)) with h2 | h2
    · rw [h2] at hc; exact hne hc
    · rw [hc] at h2
      rw [bytesLt_asymm _ _ hlt] at h2
      exact absurd h2 (by simp)
  refine ⟨hnone, ?_⟩
  have hcongr : ∀ r ∈ s, bytesLt k r.1 = bytesLe k r.1 := by
    intro r hr
    by_cases h1 : bytesLt k r.1 = true
    · rw [h1, (bytesLe_iff k r.1).mpr (Or.inr h1)]
    · have h1f : bytesLt k r.1 = false := by simpa using h1
      rw [h1f]
      symm
      by_contra hc
      have hc2 : bytesLe k r.1 = true := by simpa using hc
      rcases (bytesLe_iff k r.1).mp hc2 with h2 | h2
      · exact hnone r hr h2.symm
      · rw [h2] at h1f; exact absurd h1f (by simp)
  unfold c_next
  rw [← h]
  unfold c_set_range
  exact find_congr s _ _ hcongr

/-- A read of a cursor hands back the record found when every record of the store
fits the memory of the caller. -/
theorem cursor_get_of_fit (dbtype ku du : Nat) (s : Store) (hf : fitStore s)
    (hk : OUTPUT_LEN_ALLOC ≤ ku) (hd : OUTPUT_LEN_ALLOC ≤ du) (o : Option Record)
    (ho : ∀ r, o = some r → r ∈ s) : cursor_get dbtype ku du o = o := by
  cases o with
  | none => rfl
  | some r =>
    obtain ⟨h1, h2⟩ := hf r (ho r rfl)
    unfold cursor_get
    dsimp only
    rw [if_neg (by omega)]

theorem cursor_get_set_range (dbtype ku du : Nat) (s : Store) (hf : fitStore s)
    (hk : OUTPUT_LEN_ALLOC ≤ ku) (hd : OUTPUT_LEN_ALLOC ≤ du) (k : Bytes) :
    cursor_get dbtype ku du (c_set_range s k) = c_set_range s k :=
  cursor_get_of_fit dbtype ku du s hf hk hd _ (fun _ h => List.mem_of_find?_eq_some h)

theorem cursor_get_next (dbtype ku du : Nat) (s : Store) (hf : fitStore s)
    (hk : OUTPUT_LEN_ALLOC ≤ ku) (hd : OUTPUT_LEN_ALLOC ≤ du) (k : Bytes) :
    cursor_get dbtype ku du (c_next s k) = c_next s k :=
  cursor_get_of_fit dbtype ku du s hf hk hd _ (fun _ h => List.mem_of_find?_eq_some h)

/-- `dbx_defined` adds 1 for the record of the key and 10 when the record after
the key goes on from it with a zero byte. -/
theorem dbx_defined_eq (dbtype : Nat) (s : Store) (hs : storeSorted s) (hf : fitStore s)
    (pkey : DBXKEY) (hsz : OUTPUT_LEN_ALLOC ≤ pkey.ibuffer_size)
    (hc : (getArg pkey.args (pkey.argc - 1)).csize = pkey.ibuffer.length)
    (hk : pkey.ibuffer ≠ []) :
    dbx_defined dbtype s pkey =
      (if db_get s pkey.ibuffer = none then 0 else 1) +
        (match c_next s pkey.ibuffer with
          | some r => if zeroExt pkey.ibuffer r.1 = true then 10 else 0
          | none => 0) := by
  unfold dbx_defined
  simp only [hc, List.take_length, cursor_get_set_range dbtype _ _ s hf hsz (le_refl _),
    cursor_get_next dbtype _ _ s hf hsz (le_refl _)]
  rcases hsr : c_set_range s pkey.ibuffer with _ | r1
  · obtain ⟨h1, h2⟩ := c_set_range_none s pkey.ibuffer hsr
    simp [h2]
  · by_cases hr1 : r1.1 = pkey.ibuffer
    · obtain ⟨hmem, _, _⟩ := find_first_sorted s hs _ r1 hsr
      have hn : db_get s pkey.ibuffer ≠ none := (db_get_some_iff s _).mpr ⟨r1, hmem, hr1⟩
      have hcmp : bdb_key_compare r1.1 pkey.ibuffer pkey.ibuffer.length = 0 :=
        (key_compare_zero_iff _ _ hk).mpr (Or.inl hr1)
      simp only [hn, if_false]
      rw [if_pos ⟨by simp, by rw [hr1], hcmp⟩, hr1]
      rcases c_next s pkey.ibuffer with _ | r2
      · rfl
      · simp only [zeroExt, decide_eq_true_eq]
        split_ifs <;> rfl
    · obtain ⟨h1, h2⟩ := c_set_range_above s hs pkey.ibuffer r1 hsr hr1
      have hn : db_get s pkey.ibuffer = none := by
        by_contra hcn
        obtain ⟨r, hr, hrk⟩ := (db_get_some_iff s _).mp hcn
        exact h1 r hr hrk
      simp only [hn, if_true, h2]
      rw [if_neg (by simp)]
      simp only [zeroExt, decide_eq_true_eq]
      split_ifs <;> rfl

/-- A record that goes on from `k` with a zero byte exists exactly when the first
record above `k` does so. -/
theorem zero_extension_next (s : Store) (hs : storeSorted s) (k : Bytes) :
    (∃ r ∈ s, ∃ y, r.1 = k ++ 0 :: y) ↔
      ∃ r2, c_next s k = some r2 ∧ ∃ y, r2.1 = k ++ 0 :: y := by
  constructor
  · rintro ⟨r, hr, y, hy⟩
    have hlt : bytesLt k r.1 = true := by rw [hy]; exact bytesLt_append_nonempty k _ (by simp)
    rcases hn : c_next s k with _ | r2
    · have := c_next_none s k hn r hr
      rw [hlt] at this; exact absurd this (by simp)
    · refine ⟨r2, rfl, ?_⟩
      obtain ⟨_, hp2, hmin⟩ := find_first_sorted s hs _ r2 hn
      rcases hmin r hr hlt with h1 | h1
      · exact ⟨y, by rw [← h1]; exact hy⟩
      · have h2 : bytesLt (k ++ 0 :: y) r2.1 = false := by
          rw [← hy]; exact bytesLt_asymm _ _ h1
        exact between_zero_extension k y r2.1 hp2 h2
  · rintro ⟨r2, hn, y, hy⟩
    obtain ⟨hmem, _, _⟩ := find_first_sorted s hs _ r2 hn
    exact ⟨r2, hmem, y, hy⟩

/-- `dbx_defined` on the bytes: 1 for a record of the key, 10 for a record whose
key goes on from the key with a zero byte. -/
theorem dbx_defined_bytes (dbtype : Nat) (s : Store) (hs : storeSorted s) (hf : fitStore s)
    (pkey : DBXKEY) (hsz : OUTPUT_LEN_ALLOC ≤ pkey.ibuffer_size)
    (hc : (getArg pkey.args (pkey.argc - 1)).csize = pkey.ibuffer.length)
    (hk : pkey.ibuffer ≠ []) :
    ∃ d c : Nat, dbx_defined dbtype s pkey = d + 10 * c ∧ (d = 0 ∨ d = 1) ∧ (c = 0 ∨ c = 1) ∧
      (d = 1 ↔ ∃ r ∈ s, r.1 = pkey.ibuffer) ∧
      (c = 1 ↔ ∃ r ∈ s, ∃ y, r.1 = pkey.ibuffer ++ 0 :: y) := by
  rw [dbx_defined_eq dbtype s hs hf pkey hsz hc hk]
  have hd := db_get_some_iff s pkey.ibuffer
  have hz := zero_extension_next s hs pkey.ibuffer
  refine ⟨if db_get s pkey.ibuffer = none then 0 else 1,
    match c_next s pkey.ibuffer with
      | some r => if zeroExt pkey.ibuffer r.1 = true then 1 else 0
      | none => 0, ?_, ?_, ?_, ?_, ?_⟩
  · rcases c_next s pkey.ibuffer with _ | r2
    · rfl
    · simp only []; split_ifs <;> rfl
  · split_ifs <;> simp
  · rcases c_next s pkey.ibuffer with _ | r2
    · simp
    · simp only []; split_ifs <;> simp
  · rw [← hd]
    split_ifs with h <;> simp [h]
  · rw [hz]
    rcases hn : c_next s pkey.ibuffer with _ | r2
    · simp
    · simp only [Option.some.injEq, exists_eq_left']
      rw [← zeroExt_iff _ _ hk]
      split_ifs with h <;> simp [h]

/-! ## Keys of references side by side -/

theorem text_run_unique : ∀ (t t2 x y : Bytes), (∀ c ∈ t, c ≠ 0) → (∀ c ∈ t2, c ≠ 0) →
    (∃ x1, x = 0 :: x1) → startsZero y → t ++ x = t2 ++ y → t = t2 ∧ x = y
  | [], [], _, _, _, _, _, _, h => ⟨rfl, by simpa using h⟩
  | [], c :: t2, x, y, _, h2, hx, _, h => by
    obtain ⟨x1, hx1⟩ := hx
    rw [hx1] at h
    simp only [List.nil_append, List.cons_append, List.cons.injEq] at h
    exact absurd h.1.symm (h2 c (List.mem_cons_self _ _))
  | c :: t, [], x, y, h1, _, _, hy, h => by
    rcases hy with hy | ⟨y1, hy⟩
    · rw [hy] at h; simp at h
    · rw [hy] at h
      simp only [List.nil_append, List.cons_append, List.cons.injEq] at h
      exact absurd h.1 (h1 c (List.mem_cons_self _ _))
  | c :: t, c2 :: t2, x, y, h1, h2, hx, hy, h => by
    simp only [List.cons_append, List.cons.injEq] at h
    obtain ⟨e1, e2⟩ := text_run_unique t t2 x y
      (fun d hd => h1 d (List.mem_cons_of_mem _ hd))
      (fun d hd => h2 d (List.mem_cons_of_mem _ hd)) hx hy h.2
    exact ⟨by rw [h.1, e1], e2⟩

theorem lead_unique (h h2 u v : Bytes) (hl : isLead h) (hl2 : isLead h2)
    (he : h ++ u = h2 ++ v) : h = h2 ∧ u = v := by
  have hlen : h.length = h2.length := by
    rcases hl with hl | ⟨hl10, b, r, hb, hb12⟩ <;> rcases hl2 with hl2 | ⟨hl210, b2, r2, hb2, hb212⟩
    · rw [hl, hl2]
    · rw [hl, hb2] at he
      simp only [List.cons_append, List.nil_append, List.cons.injEq] at he
      omega
    · rw [hl2, hb] at he
      simp only [List.cons_append, List.nil_append, List.cons.injEq] at he
      omega
    · rw [hl10, hl210]
  exact List.append_inj he hlen

theorem slotsBytes_cons (ht : Bytes × Bytes) (rest : List (Bytes × Bytes)) :
    slotsBytes (ht :: rest) = ht.1 ++ (ht.2 ++ slotsBytes rest) := by
  simp [slotsBytes]

theorem slotsBytes_append (a b : List (Bytes × Bytes)) :
    slotsBytes (a ++ b) = slotsBytes a ++ slotsBytes b := by
  simp [slotsBytes]

theorem isLead_head (h : Bytes) (hl : isLead h) : ∃ y, h = 0 :: y := by
  rcases hl with hl | ⟨_, b, r, hb, _⟩
  · exact ⟨[3], hl⟩
  · exact ⟨b :: r, hb⟩

theorem slotsBytes_startsZero (slots : List (Bytes × Bytes)) (hw : wfSlots slots) :
    startsZero (slotsBytes slots) := by
  cases slots with
  | nil => exact Or.inl rfl
  | cons ht rest =>
    obtain ⟨y, hy⟩ := isLead_head ht.1 (hw ht (List.mem_cons_self _ _)).1
    right
    rw [slotsBytes_cons, hy]
    exact ⟨_, rfl⟩

/-- A key that goes on from the key of a run of slots with a zero byte, and is
itself the key of a run of slots, is the key of the first run followed by further
slots. -/
theorem slots_align : ∀ (a b : List (Bytes × Bytes)) (rest : Bytes), wfSlots a → wfSlots b →
    slotsBytes a ++ 0 :: rest = slotsBytes b → ∃ c, c ≠ [] ∧ b = a ++ c
  | [], b, rest, _, _, h => by
    refine ⟨b, ?_, rfl⟩
    intro hb
    rw [hb] at h
    simp [slotsBytes] at h
  | ht :: a, [], rest, _, _, h => by
    have := congrArg List.length h
    simp [slotsBytes] at this
  | ht :: a, ht2 :: b, rest, ha, hb, h => by
    rw [slotsBytes_cons, slotsBytes_cons, List.append_assoc, List.append_assoc] at h
    obtain ⟨hl, hd⟩ := ha ht (List.mem_cons_self _ _)
    obtain ⟨hl2, hd2⟩ := hb ht2 (List.mem_cons_self _ _)
    obtain ⟨e1, h1⟩ := lead_unique _ _ _ _ hl hl2 h
    have ha2 : wfSlots a := fun x hx => ha x (List.mem_cons_of_mem _ hx)
    have hb2 : wfSlots b := fun x hx => hb x (List.mem_cons_of_mem _ hx)
    have hx : ∃ x1, slotsBytes a ++ 0 :: rest = 0 :: x1 := by
      rcases slotsBytes_startsZero a ha2 with hz | ⟨y, hz⟩
      · rw [hz]; exact ⟨rest, rfl⟩
      · rw [hz]; exact ⟨y ++ 0 :: rest, rfl⟩
    obtain ⟨e2, h2⟩ := text_run_unique ht.2 ht2.2 _ _ (decodableText_spec _ hd).2
      (decodableText_spec _ hd2).2 hx (slotsBytes_startsZero b hb2) h1
    obtain ⟨c, hc, hbc⟩ := slots_align a b rest ha2 hb2 h2
    refine ⟨c, hc, ?_⟩
    rw [hbc]
    have : ht = ht2 := Prod.ext e1 e2
    rw [this]
    rfl

theorem slotBytes_head (a : JsValue) : ∃ c y, slotBytes a = 0 :: c :: y ∧ c ≤ 3 := by
  cases a with
  | int32 n =>
    obtain ⟨b, r, h, hb, _⟩ := set_number_bytes_head n 0
    exact ⟨b, r ++ intText n, by simp [slotBytes, h], by omega⟩
  | str s =>
    simp only [slotBytes]
    split_ifs with h1 h2
    · obtain ⟨b, r, h, hb, _⟩ := set_number_bytes_head (strParts s).1 (strParts s).2
      exact ⟨b, r ++ s, by simp [h], by omega⟩
    · exact ⟨0, [], rfl, by omega⟩
    · exact ⟨3, s, rfl, by omega⟩

theorem wfSlots_reference (name : Bytes) (subs : List JsValue)
    (hn : decodableText (stripName name) = true) (hs : ∀ a ∈ subs, decodableArg a = true) :
    wfSlots (nameSlot name :: subs.map argSlot) := by
  intro ht hmem
  rcases List.mem_cons.mp hmem with h | h
  · subst h
    exact ⟨Or.inl rfl, hn⟩
  · obtain ⟨a, ha, rfl⟩ := List.mem_map.mp h
    exact ⟨isLead_slotLead a, (arg_slot_bytes a (hs a ha)).2⟩

theorem slotsBytes_args (subs : List JsValue) (hs : ∀ a ∈ subs, decodableArg a = true) :
    slotsBytes (subs.map argSlot) = (subs.map slotBytes).flatten := by
  simp only [slotsBytes, List.map_map]
  congr 1
  apply List.map_congr_left
  intro a ha
  exact ((arg_slot_bytes a (hs a ha)).1).symm

/-- A record of a store of codec keys that goes on from the key of a reference
with a zero byte is stored under the reference extended by further subscripts,
and the other way round. -/
theorem descendant_iff_zero_extension (s : Store) (hw : codecStore s) (name : Bytes)
    (subs : List JsValue) (hn : decodableText (stripName name) = true)
    (hs : ∀ a ∈ subs, decodableArg a = true) :
    hasDescendant s name subs ↔
      ∃ r ∈ s, ∃ y, r.1 = (GlobalReference name subs).ibuffer ++ 0 :: y := by
  constructor
  · rintro ⟨r, hr, more, hmore, hkey⟩
    refine ⟨r, hr, ?_⟩
    obtain ⟨m, ms, hm⟩ := List.exists_cons_of_ne_nil hmore
    obtain ⟨c, y, hc, _⟩ := slotBytes_head m
    rw [hkey, GlobalReference_ibuffer name (subs ++ more), GlobalReference_ibuffer name subs, hm]
    simp only [List.map_append, List.flatten_append, List.map_cons, List.flatten_cons, hc,
      List.append_assoc]
    rcases slotBytes_head m with ⟨c2, y2, hc2, _⟩
    exact ⟨c :: y ++ (ms.map slotBytes).flatten, by simp⟩
  · rintro ⟨r, hr, y, hy⟩
    obtain ⟨name2, subs2, hn2, hs2, hkey2⟩ := hw r hr
    have hk1 := reference_slots name subs hn hs
    have hk2 := reference_slots name2 subs2 hn2 hs2
    rw [hkey2, hk2, hk1] at hy
    obtain ⟨c, hc, hbc⟩ := slots_align _ _ y (wfSlots_reference name subs hn hs)
      (wfSlots_reference name2 subs2 hn2 hs2) hy.symm
    simp only [List.cons_append, List.cons.injEq] at hbc
    obtain ⟨hname, hsubs⟩ := hbc
    refine ⟨r, hr, subs2.drop subs.length, ?_, ?_⟩
    · intro hd
      have hl := congrArg List.length hsubs
      have hl2 : subs2.length ≤ subs.length := List.drop_eq_nil_iff.mp hd
      simp only [List.length_map, List.length_append] at hl
      have : c.length = 0 := by omega
      exact hc (List.length_eq_zero.mp this)
    · have hc2 : c = (subs2.drop subs.length).map argSlot := by
        have := congrArg (List.drop subs.length) hsubs
        rw [← List.map_drop] at this
        rw [this, List.drop_left' (by simp)]
      have hdrop : ∀ a ∈ subs2.drop subs.length, decodableArg a = true :=
        fun a ha => hs2 a (List.mem_of_mem_drop ha)
      rw [hkey2, hk2, hname, hsubs, hc2]
      rw [GlobalReference_ibuffer name (subs ++ subs2.drop subs.length), name_slot_bytes name hn]
      simp only [slotsBytes_cons, slotsBytes_append, List.map_append, List.flatten_append,
        List.append_assoc]
      rw [slotsBytes_args subs hs, slotsBytes_args _ hdrop]

theorem GlobalReference_ibuffer_ne_nil (name : Bytes) (subs : List JsValue)
    (hn : decodableText (stripName name) = true) (hs : ∀ a ∈ subs, decodableArg a = true) :
    (GlobalReference name subs).ibuffer ≠ [] := by
  rw [reference_slots name subs hn hs, slotsBytes_cons]
  simp [nameSlot]

/-! ## dbx_delete -/

theorem db_del_sorted (s : Store) (hs : storeSorted s) (k : Bytes) : storeSorted (db_del s k) :=
  List.Pairwise.filter _ hs

theorem mem_db_del (s : Store) (k : Bytes) (r : Record) :
    r ∈ db_del s k ↔ r ∈ s ∧ r.1 ≠ k := by
  simp [db_del, List.mem_filter]

theorem db_del_length_lt (s : Store) (k : Bytes) (h : ∃ r ∈ s, r.1 = k) :
    (db_del s k).length < s.length := by
  obtain ⟨r, hr, hk⟩ := h
  unfold db_del
  apply List.length_filter_lt_length_iff_exists.mpr
  exact ⟨r, hr, by simp [hk]⟩

theorem fitStore_db_del (s : Store) (hf : fitStore s) (k : Bytes) : fitStore (db_del s k) :=
  fun r hr => hf r ((mem_db_del s k r).mp hr).1

theorem filter_no_change (s : Store) (p : Record → Bool) (h : ∀ r ∈ s, p r = true) :
    s.filter p = s := List.filter_eq_self.mpr h

/-- Deleting a record that goes on from `k` with a zero byte does not change what
is left when all such records are taken out. -/
theorem filter_db_del (s : Store) (k key : Bytes) (hz : zeroExt k key = true) :
    (db_del s key).filter (fun r => !zeroExt k r.1) = s.filter (fun r => !zeroExt k r.1) := by
  unfold db_del
  rw [List.filter_filter]
  apply List.filter_congr
  intro r _
  by_cases h : r.1 = key
  · simp [h, hz]
  · simp [h]

/-- The loop of `dbx_delete`, started on the first record that goes on from `k`
with a zero byte, takes out all such records and nothing else. -/
theorem delete_loop_spec (dbtype ku : Nat) (hku : OUTPUT_LEN_ALLOC ≤ ku) (k : Bytes)
    (hk : k ≠ []) :
    ∀ (fuel : Nat) (s : Store) (key : Bytes), storeSorted s → fitStore s →
      (∃ r ∈ s, r.1 = key) →
      zeroExt k key = true → s.length ≤ fuel →
      (∀ r ∈ s, zeroExt k r.1 = true → bytesLt r.1 key = false) →
      delete_loop dbtype ku k k.length fuel s key = s.filter (fun r => !zeroExt k r.1) := by
  intro fuel
  induction fuel with
  | zero =>
    intro s key _ _ hmem _ hlen _
    obtain ⟨r, hr, _⟩ := hmem
    have : s = [] := List.length_eq_zero.mp (by omega)
    rw [this] at hr
    simp at hr
  | succ fuel ih =>
    intro s key hs hf hmem hz hlen hmin
    have hs1 := db_del_sorted s hs key
    have hf1 := fitStore_db_del s hf key
    have hkkey : bytesLt k key = true := by
      obtain ⟨y, hy⟩ := (zeroExt_iff k key hk).mp hz
      rw [hy]; exact bytesLt_append_nonempty k _ (by simp)
    -- no record that goes on from k is left once none follows, or the next one does not
    have hrest : ∀ r2 : Option Record, c_next (db_del s key) key = r2 →
        (∀ r, r2 = some r → zeroExt k r.1 = false) →
        ∀ z ∈ db_del s key, zeroExt k z.1 = false := by
      intro r2 hr2 hnz z hzmem
      by_contra hc
      have hzz : zeroExt k z.1 = true := by simpa using hc
      obtain ⟨hzs, hzne⟩ := (mem_db_del s key z).mp hzmem
      have hzkey : bytesLt key z.1 = true := by
        rcases bytesLt_total key z.1 (fun h => hzne h.symm) with h | h
        · exact h
        · rw [hmin z hzs hzz] at h; exact absurd h (by simp)
      rcases r2 with _ | r
      · have := c_next_none _ _ hr2 z hzmem
        rw [hzkey] at this; exact absurd this (by simp)
      · obtain ⟨_, hp, hfirst⟩ := find_first_sorted _ hs1 _ r hr2
        have hrz : zeroExt k r.1 = true := by
          rcases hfirst z hzmem hzkey with h | h
          · rw [← h]; exact hzz
          · obtain ⟨y, hy⟩ := (zeroExt_iff k z.1 hk).mp hzz
            have hkr : bytesLt k r.1 = true := bytesLt_trans _ _ _ hkkey hp
            have h2 : bytesLt (k ++ 0 :: y) r.1 = false := by
              rw [← hy]; exact bytesLt_asymm _ _ h
            exact (zeroExt_iff k r.1 hk).mpr (between_zero_extension k y r.1 hkr h2)
        rw [hnz r rfl] at hrz
        exact absurd hrz (by simp)
    simp only [delete_loop, cursor_get_next dbtype _ _ _ hf1 hku (le_refl _)]
    rcases hn : c_next (db_del s key) key with _ | r
    · simp only []
      rw [← filter_db_del s k key hz]
      symm
      apply filter_no_change
      intro z hzmem
      simp [hrest none hn (fun r h => by simp at h) z hzmem]
    · simp only []
      by_cases hcmp : bdb_key_compare r.1 k k.length = 0
      · rw [if_neg (by simp [hcmp])]
        obtain ⟨hrmem, hp, hfirst⟩ := find_first_sorted _ hs1 _ r hn
        have hrz : zeroExt k r.1 = true := by
          rcases (key_compare_zero_iff r.1 k hk).mp hcmp with h | h
          · have hkr : bytesLt k r.1 = true := bytesLt_trans _ _ _ hkkey hp
            rw [h, bytesLt_irrefl] at hkr
            exact absurd hkr (by simp)
          · exact (zeroExt_iff k r.1 hk).mpr h
        rw [ih (db_del s key) r.1 hs1 hf1 ⟨r, hrmem, rfl⟩ hrz
          (by have := db_del_length_lt s key hmem; omega)
          (by
            intro z hzmem hzz
            obtain ⟨hzs, hzne⟩ := (mem_db_del s key z).mp hzmem
            have hzkey : bytesLt key z.1 = true := by
              rcases bytesLt_total key z.1 (fun h => hzne h.symm) with h | h
              · exact h
              · rw [hmin z hzs hzz] at h; exact absurd h (by simp)
            rcases hfirst z hzmem hzkey with h | h
            · rw [h]; exact bytesLt_irrefl _
            · exact bytesLt_asymm _ _ h)]
        exact filter_db_del s k key hz
      · rw [if_pos hcmp]
        rw [← filter_db_del s k key hz]
        symm
        apply filter_no_change
        intro z hzmem
        have hrnz : zeroExt k r.1 = false := by
          by_contra hc
          have hc2 : zeroExt k r.1 = true := by simpa using hc
          exact hcmp ((key_compare_zero_iff r.1 k hk).mpr
            (Or.inr ((zeroExt_iff k r.1 hk).mp hc2)))
        simp [hrest (some r) hn (fun r0 h => by
          have : r = r0 := by simpa using h
          rw [← this]; exact hrnz) z hzmem]

/-- `dbx_delete` on the bytes: the record of the key and the records whose keys go
on from the key with a zero byte are taken out, every other record stays. -/
theorem dbx_delete_bytes (dbtype : Nat) (s : Store) (hs : storeSorted s) (hf : fitStore s)
    (pkey : DBXKEY) (hsz : OUTPUT_LEN_ALLOC ≤ pkey.ibuffer_size)
    (hc : (getArg pkey.args (pkey.argc - 1)).csize = pkey.ibuffer.length)
    (hk : pkey.ibuffer ≠ []) :
    dbx_delete dbtype s pkey =
      s.filter (fun r => decide (r.1 ≠ pkey.ibuffer) && !zeroExt pkey.ibuffer r.1) := by
  have hsplit : s.filter (fun r => decide (r.1 ≠ pkey.ibuffer) && !zeroExt pkey.ibuffer r.1) =
      (db_del s pkey.ibuffer).filter (fun r => !zeroExt pkey.ibuffer r.1) := by
    unfold db_del
    rw [List.filter_filter]
    apply List.filter_congr
    intro r _
    rw [Bool.and_comm]
  rw [hsplit]
  unfold dbx_delete
  have hs1 := db_del_sorted s hs pkey.ibuffer
  have hf1 := fitStore_db_del s hf pkey.ibuffer
  simp only [hc, List.take_length, cursor_get_set_range dbtype _ _ _ hf1 hsz (le_refl _)]
  have hnok : ∀ r ∈ db_del s pkey.ibuffer, r.1 ≠ pkey.ibuffer :=
    fun r hr => ((mem_db_del s _ r).mp hr).2
  rcases hsr : c_set_range (db_del s pkey.ibuffer) pkey.ibuffer with _ | r1
  · simp only []
    obtain ⟨_, hnext⟩ := c_set_range_none _ _ hsr
    symm
    apply filter_no_change
    intro z hzmem
    by_contra hcz
    have hzz : zeroExt pkey.ibuffer z.1 = true := by simpa using hcz
    obtain ⟨r2, hr2, _⟩ := (zero_extension_next _ hs1 pkey.ibuffer).mp
      ⟨z, hzmem, (zeroExt_iff _ _ hk).mp hzz⟩
    rw [hnext] at hr2
    simp at hr2
  · simp only []
    obtain ⟨hr1mem, hp1, hfirst1⟩ := find_first_sorted _ hs1 _ r1 hsr
    obtain ⟨_, hnext⟩ := c_set_range_above _ hs1 pkey.ibuffer r1 hsr (hnok r1 hr1mem)
    by_cases hcmp : bdb_key_compare r1.1 pkey.ibuffer pkey.ibuffer.length = 0
    · rw [if_pos hcmp]
      have hrz : zeroExt pkey.ibuffer r1.1 = true := by
        rcases (key_compare_zero_iff r1.1 _ hk).mp hcmp with h | h
        · exact absurd h (hnok r1 hr1mem)
        · exact (zeroExt_iff _ _ hk).mpr h
      apply delete_loop_spec dbtype _ hsz pkey.ibuffer hk _ _ _ hs1 hf1 ⟨r1, hr1mem, rfl⟩ hrz
        (le_refl _)
      intro z hzmem hzz
      have hkz : bytesLe pkey.ibuffer z.1 = true := by
        obtain ⟨y, hy⟩ := (zeroExt_iff _ _ hk).mp hzz
        rw [bytesLe_iff]; right; rw [hy]; exact bytesLt_append_nonempty _ _ (by simp)
      rcases hfirst1 z hzmem hkz with h | h
      · rw [h]; exact bytesLt_irrefl _
      · exact bytesLt_asymm _ _ h
    · rw [if_neg hcmp]
      symm
      apply filter_no_change
      intro z hzmem
      by_contra hcz
      have hzz : zeroExt pkey.ibuffer z.1 = true := by simpa using hcz
      obtain ⟨r2, hr2, hy2⟩ := (zero_extension_next _ hs1 pkey.ibuffer).mp
        ⟨z, hzmem, (zeroExt_iff _ _ hk).mp hzz⟩
      rw [hnext] at hr2
      have : r1 = r2 := by simpa using hr2
      rw [← this] at hy2
      exact hcmp ((key_compare_zero_iff r1.1 _ hk).mpr (Or.inr hy2))

/-! ### Stores built by `dbx_set` -/

theorem mem_db_put (s : Store) (k v : Bytes) (r : Record) (h : r ∈ db_put s k v) :
    r = (k, v) ∨ r ∈ s := by
  induction s with
  | nil => left; simpa [db_put] using h
  | cons a rest ih =>
    simp only [db_put] at h
    split_ifs at h with h1 h2
    · rcases List.mem_cons.mp h with h3 | h3
      · exact Or.inl h3
      · exact Or.inr h3
    · rcases List.mem_cons.mp h with h3 | h3
      · exact Or.inl h3
      · exact Or.inr (List.mem_cons_of_mem _ h3)
    · rcases List.mem_cons.mp h with h3 | h3
      · exact Or.inr (by rw [h3]; exact List.mem_cons_self _ _)
      · rcases ih h3 with h4 | h4
        · exact Or.inl h4
        · exact Or.inr (List.mem_cons_of_mem _ h4)

theorem db_put_sorted (s : Store) (hs : storeSorted s) (k v : Bytes) :
    storeSorted (db_put s k v) := by
  induction s with
  | nil => simp [db_put, storeSorted]
  | cons a rest ih =>
    have hs2 := List.pairwise_cons.mp hs
    simp only [db_put]
    split_ifs with h1 h2
    · apply List.pairwise_cons.mpr
      refine ⟨?_, hs⟩
      intro r hr
      rcases List.mem_cons.mp hr with h3 | h3
      · rw [h3]; exact h1
      · exact bytesLt_trans _ _ _ h1 (hs2.1 r h3)
    · apply List.pairwise_cons.mpr
      refine ⟨?_, hs2.2⟩
      intro r hr
      have := hs2.1 r hr
      rw [h2] at this
      exact this
    · apply List.pairwise_cons.mpr
      refine ⟨?_, ih hs2.2⟩
      intro r hr
      rcases mem_db_put rest k v r hr with h3 | h3
      · rw [h3]
        rcases bytesLt_total a.1 k h2 with h4 | h4
        · exact h4
        · exact absurd h4 h1
      · exact hs2.1 r h3

/-- `dbx_set` keeps the store in key order. -/
theorem dbx_set_sorted (s : Store) (hs : storeSorted s) (pkey : DBXKEY) :
    storeSorted (dbx_set s pkey) := db_put_sorted s hs _ _

/-- `dbx_set` of a reference that `dbx_split_key` reads back keeps the store a
store of codec keys. -/
theorem dbx_set_codec (s : Store) (hw : codecStore s) (name : Bytes) (subs : List JsValue)
    (value : JsValue) (hn : decodableText (stripName name) = true)
    (hs : ∀ a ∈ subs, decodableArg a = true) :
    codecStore (dbx_set s (GlobalReference name (subs ++ [value]))) := by
  intro r hr
  unfold dbx_set at hr
  rcases mem_db_put _ _ _ r hr with h | h
  · rw [h]
    refine ⟨name, subs, hn, hs, ?_⟩
    show List.take _ _ = _
    rw [(GlobalReference_snoc_args name subs value).1, GlobalReference_snoc, List.take_left]
  · exact hw r h

theorem storeSorted_nil : storeSorted [] := List.Pairwise.nil

theorem codecStore_nil : codecStore [] := by
  intro r hr; simp at hr

/-! ### The loops of the multilevel cursor -/

theorem storeKey_take (mem k : Bytes) : (storeKey mem k).take k.length = k := by
  simp [storeKey]

/-- Two keys that `bdb_key_compare` takes to agree over `compare_max` bytes have
the same first `compare_max` bytes. -/
theorem key_compare_ne_of_take_ne (key1 key2 : Bytes) (compare_max : Nat)
    (h : key1.take compare_max ≠ key2.take compare_max) :
    bdb_key_compare key1 key2 compare_max ≠ 0 := by
  intro h0
  apply h
  by_cases hz : compare_max = 0
  · rw [hz]; simp
  · unfold bdb_key_compare at h0
    rw [if_pos (by omega)] at h0
    split_ifs at h0

theorem clear_name_text (qr : DBXQR) : (getArg (clear_name qr).args 0).text = [] := by
  simp [clear_name, getArg_setArg_same]

/-- A call whose loop leaves the name slot with a length of 0 reports end-of-data,
yields no key and does not count. -/
theorem query_exit_cleared (counter : Nat) (s : QueryState)
    (h : (getArg s.qr.args 0).text = []) :
    query_exit counter s =
      { eod := 1, place := s.place, pqr_next := { s.qr with argc := 0 }, counter := counter } := by
  simp [query_exit, h]

/-- Forward, a read that returns a key which does not agree with `key0` ends the
loop with the length of the name slot set to 0. -/
theorem query_forward_diverge (dbtype : Nat) (store : Store) (key0 : Bytes)
    (fixed_key_len turns n : Nat) (s : QueryState) (r : Record)
    (hr : (if n = 0 then c_set_range store s.key else c_step_next store s.place) = some r)
    (hd : bdb_key_compare r.1 key0 fixed_key_len ≠ 0) :
    query_forward dbtype store key0 fixed_key_len (turns + 1) n s =
      { key_read dbtype s r.1 with qr := clear_name (key_read dbtype s r.1).qr } := by
  simp only [query_forward, hr, if_neg hd]

/-- Backward, a read that returns a key which does not agree with `key0` makes the
loop go on with the next turn. -/
theorem query_backward_diverge (dbtype : Nat) (store : Store) (key0 : Bytes)
    (fixed_key_len turns n : Nat) (s : QueryState) (r : Record)
    (hr : (if n = 0 then query_last store s
      else (s.qr.ibuffer, c_step_prev store s.place)).2 = some r)
    (hd : bdb_key_compare r.1 key0 fixed_key_len ≠ 0) :
    query_backward dbtype store key0 fixed_key_len (turns + 1) n s =
      query_backward dbtype store key0 fixed_key_len turns (n + 1)
        (key_read dbtype
          { s with qr := { s.qr with ibuffer := (if n = 0 then query_last store s
              else (s.qr.ibuffer, c_step_prev store s.place)).1 } } r.1) := by
  simp only [query_backward, hr, if_neg hd]

/-- Backward, a read that finds no record ends the loop with the length of the
name slot set to 0. -/
theorem query_backward_none (dbtype : Nat) (store : Store) (key0 : Bytes)
    (fixed_key_len turns n : Nat) (s : QueryState)
    (hr : (if n = 0 then query_last store s
      else (s.qr.ibuffer, c_step_prev store s.place)).2 = none) :
    (getArg (query_backward dbtype store key0 fixed_key_len (turns + 1) n s).qr.args 0).text
      = [] := by
  simp only [query_backward, hr, clear_name_text]

/-- The first call of `mcursor::Next` on a cursor whose first read returns a key
that does not agree with the anchor returns null and closes the cursor. -/
theorem next_first_read_diverges (store : Store) (cx : mcursor) (r : Record) (key0 : Bytes)
    (hp : cx.pcursor = true) (hc : cx.counter = 0)
    (hk : cx.pqr_prev.ibuffer.take cx.pqr_prev.ibuffer_used = key0)
    (hl : key0.length = cx.pqr_prev.ibuffer_used)
    (hr : c_set_range store key0 = some r)
    (hd : bdb_key_compare r.1 key0 cx.fixed_key_len ≠ 0) :
    (mcursor.Next store cx).2 = none ∧ (mcursor.Next store cx).1.pcursor = false := by
  have hs0 : (query_entry cx.place cx.pqr_next cx.pqr_prev).key = key0 := by
    simp only [query_entry, hk]
    rw [← hl]
    exact storeKey_take _ _
  have hread : (if cx.counter = 0 then
      c_set_range store (query_entry cx.place cx.pqr_next cx.pqr_prev).key
      else c_step_next store (query_entry cx.place cx.pqr_next cx.pqr_prev).place) = some r := by
    rw [if_pos hc, hs0, hr]
  have hq := query_forward_diverge cx.dbtype store key0 cx.fixed_key_len 4 cx.counter
    (query_entry cx.place cx.pqr_next cx.pqr_prev) r hread hd
  have he : (dbx_global_query cx.dbtype store cx.place cx.pqr_next cx.pqr_prev 1
      cx.fixed_key_len cx.counter).eod = 1 := by
    simp only [dbx_global_query, hk, if_true, hq]
    rw [query_exit_cleared _ _ (clear_name_text _)]
  simp only [mcursor.Next, mcursor_step, hp, he]
  simp [CACHE_SUCCESS]

/-! ### The text and the slot of a subscript -/

theorem natTextAux_acc (fuel n : Nat) (acc : Bytes) :
    natTextAux fuel n acc = natTextAux fuel n [] ++ acc := by
  induction fuel generalizing n acc with
  | zero => simp [natTextAux]
  | succ f ih =>
    simp only [natTextAux]
    split_ifs
    · simp
    · rw [ih (n / 10) ((n % 10 + 48) :: acc), ih (n / 10) [n % 10 + 48]]
      simp

theorem natTextAux_digits (fuel n : Nat) : allDigits (natTextAux fuel n []) := by
  induction fuel generalizing n with
  | zero => intro c hc; simp [natTextAux] at hc
  | succ f ih =>
    simp only [natTextAux]
    split_ifs
    · intro c hc
      simp only [List.mem_singleton] at hc
      omega
    · rw [natTextAux_acc]
      intro c hc
      rcases List.mem_append.mp hc with h | h
      · exact ih _ c h
      · simp only [List.mem_singleton] at h
        omega

theorem digitsValue_snoc (ds : Bytes) (h : allDigits ds) (d : Nat) (hd : 48 ≤ d ∧ d ≤ 57)
    (acc : Nat) : digitsValue acc (ds ++ [d]) = digitsValue acc ds * 10 + (d - 48) := by
  induction ds generalizing acc with
  | nil =>
    have : isdigit d = true := by simp [isdigit]; omega
    simp [digitsValue, this]
  | cons c cs ih =>
    obtain ⟨hc, hcs⟩ := allDigits_cons.mp h
    have : isdigit c = true := by simp [isdigit]; omega
    simp only [List.cons_append, digitsValue, this, if_true]
    exact ih hcs _

theorem natTextAux_value (fuel n : Nat) (h : n < 10 ^ fuel) :
    digitsValue 0 (natTextAux fuel n []) = n := by
  induction fuel generalizing n with
  | zero => simp at h; subst h; simp [natTextAux, digitsValue]
  | succ f ih =>
    simp only [natTextAux]
    split_ifs with h0
    · have : isdigit (n % 10 + 48) = true := by simp [isdigit]; omega
      simp only [digitsValue, this, if_true]
      omega
    · rw [natTextAux_acc, digitsValue_snoc _ (natTextAux_digits _ _) _ (by omega),
        ih (n / 10) (by rw [pow_succ] at h; omega)]
      omega

theorem natTextAux_length (fuel n k : Nat) (h : n < 10 ^ (k + 1)) :
    (natTextAux fuel n []).length ≤ k + 1 := by
  induction fuel generalizing n k with
  | zero => simp [natTextAux]
  | succ f ih =>
    simp only [natTextAux]
    split_ifs with h0
    · simp
    · rw [natTextAux_acc]
      simp only [List.length_append, List.length_singleton]
      cases k with
      | zero => omega
      | succ k =>
        have := ih (n / 10) k (by rw [pow_succ] at h; omega)
        omega

theorem natText_spec (n : Nat) :
    allDigits (natText n) ∧ digitsValue 0 (natText n) = n ∧ natText n ≠ [] := by
  refine ⟨natTextAux_digits _ _, natTextAux_value _ _ ?_, natTextAux_ne_nil _ _ _ (Or.inl (by omega))⟩
  exact Nat.lt_pow_self (by omega) _ |>.trans_le (Nat.pow_le_pow_right (by omega) (by omega))

theorem scan_digits (ds : Bytes) (h : allDigits ds) : is_number_scan false ds = (true, false) := by
  induction ds with
  | nil => rfl
  | cons c cs ih =>
    obtain ⟨hc, hcs⟩ := allDigits_cons.mp h
    simp only [is_number_scan]
    rw [if_neg (by omega), if_neg (by omega)]
    exact ih hcs

theorem intText_flags (n : Int) (h : -2 ^ 31 ≤ n ∧ n < 2 ^ 31) :
    is_number_flags (intText n) = (true, false) ∧ strParts (intText n) = (n, 0) := by
  obtain ⟨hd, hv, hne⟩ := natText_spec n.natAbs
  have hlen : (natText n.natAbs).length ≤ 10 :=
    natTextAux_length _ _ 9 (by omega)
  have hpos : 0 < (natText n.natAbs).length := List.length_pos.mpr hne
  have hflags : is_number_flags (intText n) = (true, false) := by
    unfold intText
    by_cases hneg : n < 0
    · rw [if_pos hneg]
      unfold is_number_flags
      rw [if_neg (by simp only [List.length_cons]; omega)]
      simp only [List.head?_cons, if_true, List.drop_succ_cons, List.drop_zero]
      exact scan_digits _ hd
    · rw [if_neg hneg]
      unfold is_number_flags
      rw [if_neg (by omega)]
      obtain ⟨c, cs, hcs⟩ := List.exists_cons_of_ne_nil hne
      have hc := (allDigits_cons.mp (hcs ▸ hd)).1
      have h45 : (natText n.natAbs).head? ≠ some 45 := by
        intro h45
        rw [hcs] at h45
        simp only [List.head?_cons, Option.some.injEq] at h45
        omega
      simp only [h45, if_false, List.drop_zero]
      exact scan_digits _ hd
  refine ⟨hflags, ?_⟩
  rw [strParts_int _ hflags]
  have hz : cstr (intText n) = intText n :=
    cstr_of_no_zero _ (decodableText_spec _ (decodableText_intText n)).2
  rw [hz]
  unfold intText
  split_ifs with hneg
  · rw [strtol_neg_digits _ (by omega), hv, toInt32_of_range _ (by omega)]
    simp only [Prod.mk.injEq, and_true]
    omega
  · rw [strtol_digits _ hd (by omega), hv, toInt32_of_range _ (by omega)]
    simp only [Prod.mk.injEq, and_true]
    omega

/-- The bytes that a subscript adds to the key depend on its text alone. -/
theorem slot_of_text (a : JsValue) (h : subscriptArg a = true) :
    slotBytes a = slotBytes (JsValue.str a.text) := by
  cases a with
  | str s => rfl
  | int32 n =>
    have hr : -2 ^ 31 ≤ n ∧ n < 2 ^ 31 := by
      simpa [subscriptArg, decodableArg, int32Value] using h
    obtain ⟨hf, hp⟩ := intText_flags n hr
    simp [slotBytes, JsValue.text, hf, hp]

theorem subscriptArg_decodable (a : JsValue) (h : subscriptArg a = true) :
    decodableArg a = true := by
  simp only [subscriptArg, Bool.and_eq_true] at h
  exact h.1

theorem slot_eq_of_text_eq (a b : JsValue) (ha : subscriptArg a = true)
    (hb : subscriptArg b = true) (h : a.text = b.text) : slotBytes a = slotBytes b := by
  rw [slot_of_text a ha, slot_of_text b hb, h]

/-- The slot of a subscript: a lead followed by the text, which is not empty and
holds no zero byte. -/
theorem slot_parts (a : JsValue) (h : subscriptArg a = true) :
    slotBytes a = slotLead a ++ a.text ∧ isLead (slotLead a) ∧ a.text ≠ [] ∧
      ∀ c ∈ a.text, c ≠ 0 := by
  obtain ⟨h1, h2⟩ := arg_slot_bytes a (subscriptArg_decodable a h)
  obtain ⟨h3, h4⟩ := decodableText_spec _ h2
  exact ⟨h1, isLead_slotLead a, h3, h4⟩

theorem text_eq_of_slot_eq (a b : JsValue) (ha : subscriptArg a = true)
    (hb : subscriptArg b = true) (h : slotBytes a = slotBytes b) : a.text = b.text := by
  obtain ⟨ea, la, _, _⟩ := slot_parts a ha
  obtain ⟨eb, lb, _, _⟩ := slot_parts b hb
  rw [ea, eb] at h
  exact (lead_unique _ _ _ _ la lb h).2

theorem slot_length (a : JsValue) (h : subscriptArg a = true) : 3 ≤ (slotBytes a).length := by
  obtain ⟨ea, la, hne, _⟩ := slot_parts a h
  have hpos : 0 < a.text.length := List.length_pos.mpr hne
  rw [ea, List.length_append]
  rcases la with hl | ⟨hl, _⟩
  · rw [hl]; simp; omega
  · omega

/-- The second byte of the slot of a subscript is 1, 2 or 3. -/
theorem slot_second (a : JsValue) (h : subscriptArg a = true) :
    ∃ c y, slotBytes a = 0 :: c :: y ∧ c ≠ 0 := by
  obtain ⟨ea, la, _, _⟩ := slot_parts a h
  rcases la with hl | ⟨_, b, r, hb, hb12⟩
  · exact ⟨3, a.text, by rw [ea, hl]; rfl, by omega⟩
  · exact ⟨b, r ++ a.text, by rw [ea, hb]; rfl, by omega⟩

/-! ### Key order of subscripts and of keys -/

/-- A buffer below another is an initial segment of it, or differs from it at some
byte where it is smaller, and then stays below whatever follows. -/
theorem bytesLt_cases : ∀ (u v : Bytes), bytesLt u v = true →
    (∃ c w, v = u ++ c :: w) ∨ (∀ x y : Bytes, bytesLt (u ++ x) (v ++ y) = true)
  | [], [], h => by simp [bytesLt] at h
  | [], c :: w, _ => Or.inl ⟨c, w, rfl⟩
  | _ :: _, [], h => by simp [bytesLt] at h
  | a :: u, b :: v, h => by
    simp only [bytesLt, Bool.or_eq_true, decide_eq_true_eq, Bool.and_eq_true] at h
    rcases h with h | ⟨h1, h2⟩
    · right
      intro x y
      simp only [List.cons_append, bytesLt, Bool.or_eq_true, decide_eq_true_eq]
      exact Or.inl h
    · subst h1
      rcases bytesLt_cases u v h2 with ⟨c, w, hw⟩ | hd
      · left
        exact ⟨c, w, by rw [hw]; rfl⟩
      · right
        intro x y
        simp only [List.cons_append, bytesLt, Bool.or_eq_true, decide_eq_true_eq,
          Bool.and_eq_true, true_and]
        exact Or.inr (hd x y)

theorem bytesLt_of_tail (p x y : Bytes) (c : Nat) (hc : c ≠ 0) (hx : startsZero x) :
    bytesLt (p ++ x) (p ++ c :: y) = true := by
  rw [bytesLt_append_left]
  rcases hx with hx | ⟨x1, hx⟩
  · rw [hx]; rfl
  · rw [hx]
    simp only [bytesLt, Bool.or_eq_true, decide_eq_true_eq]
    left; omega

/-- A subscript below another in key order: its slot is an initial segment of the
other, which goes on with a byte other than 0, or the slots differ at some byte. -/
theorem slot_below_cases (a b : JsValue) (ha : seedArg a) (hb : seedArg b)
    (h : keyBelow a b) :
    (∃ c w, c ≠ 0 ∧ slotBytes b = slotBytes a ++ c :: w) ∨
      (∀ x y : Bytes, bytesLt (slotBytes a ++ x) (slotBytes b ++ y) = true) := by
  rcases bytesLt_cases _ _ h with ⟨c, w, hw⟩ | hd
  · left
    refine ⟨c, w, ?_, hw⟩
    rcases ha with ha | ha
    · rcases hb with hb | hb
      · obtain ⟨ea, la, _, _⟩ := slot_parts a ha
        obtain ⟨eb, lb, _, hz⟩ := slot_parts b hb
        rw [ea, eb, List.append_assoc] at hw
        have := (lead_unique _ _ _ _ lb la hw).2
        exact hz c (by rw [this]; simp)
      · have := slot_length a ha
        have e0 : slotBytes (JsValue.str []) = [0, 0] := by decide
        rw [hb, e0] at hw
        have hl := congrArg List.length hw
        simp only [List.length_cons, List.length_nil, List.length_append] at hl
        omega
    · rcases hb with hb | hb
      · obtain ⟨c2, y, hy, hc2⟩ := slot_second b hb
        have e0 : slotBytes (JsValue.str []) = [0, 0] := by decide
        rw [ha, hy, e0] at hw
        simp only [List.cons_append, List.nil_append, List.cons.injEq, true_and] at hw
        exact absurd hw.1 hc2
      · rw [ha, hb] at hw
        have hl := congrArg List.length hw
        simp at hl
  · exact Or.inr hd

/-- A key whose subscript after `p` is below `b` in key order is below every key
that has `b` there. -/
theorem key_below_of_slot_below (p : Bytes) (a b : JsValue) (ha : seedArg a) (hb : seedArg b)
    (h : keyBelow a b) (x y : Bytes) (hx : startsZero x) :
    bytesLt (p ++ (slotBytes a ++ x)) (p ++ (slotBytes b ++ y)) = true := by
  rw [bytesLt_append_left]
  rcases slot_below_cases a b ha hb h with ⟨c, w, hc, hw⟩ | hd
  · rw [hw, List.append_assoc]
    exact bytesLt_of_tail _ _ _ c hc hx
  · exact hd x y

/-- The keys with a subscript above the seed are not below the seed key followed by
00 ff. -/
theorem advance_key_below (p : Bytes) (seed a : JsValue) (hs : seedArg seed) (ha : seedArg a)
    (h : keyBelow seed a) (y : Bytes) :
    bytesLt (p ++ (slotBytes seed ++ [0, 255])) (p ++ (slotBytes a ++ y)) = true := by
  rw [bytesLt_append_left]
  rcases slot_below_cases seed a hs ha h with ⟨c, w, hc, hw⟩ | hd
  · rw [hw, List.append_assoc, bytesLt_append_left]
    simp only [List.cons_append, bytesLt, Bool.or_eq_true, decide_eq_true_eq]
    left; omega
  · exact hd _ y

/-- The bytes that follow the slot of a subscript in a key: nothing, or a slot. -/
theorem slots_tail_cases (more : List JsValue) :
    (more.map slotBytes).flatten = [] ∨
      ∃ c y, (more.map slotBytes).flatten = 0 :: c :: y ∧ c ≤ 3 := by
  cases more with
  | nil => left; rfl
  | cons m ms =>
    right
    obtain ⟨c, y, hy, hc⟩ := slotBytes_head m
    exact ⟨c, y ++ (ms.map slotBytes).flatten, by simp [hy], hc⟩

theorem slots_tail_startsZero (more : List JsValue) :
    startsZero (more.map slotBytes).flatten := by
  rcases slots_tail_cases more with h | ⟨c, y, h, _⟩
  · exact Or.inl h
  · exact Or.inr ⟨c :: y, h⟩

/-- A key that goes on after the seed key with further slots is below the seed key
followed by 00 ff. -/
theorem tail_below_advance (s : Bytes) (more : List JsValue) :
    bytesLt (s ++ (more.map slotBytes).flatten) (s ++ [0, 255]) = true := by
  rw [bytesLt_append_left]
  rcases slots_tail_cases more with h | ⟨c, y, h, hc⟩
  · rw [h]; rfl
  · rw [h]
    simp only [bytesLt, Bool.or_eq_true, decide_eq_true_eq, Bool.and_eq_true]
    right
    exact ⟨trivial, Or.inl (by omega)⟩

/-! ### The key read by `next` -/

theorem run_slots_keyn (key : Bytes) : ∀ (slots : List (Bytes × Bytes)) (s : SplitState),
    (run_slots key s slots).keyn = s.keyn + slots.length
  | [], s => by simp [run_slots]
  | ht :: rest, s => by
    rw [run_slots, run_slots_keyn key rest]
    simp [open_slot]
    omega

/-- `dbx_split_key` on a run of slots, whatever the descriptor array held before:
the number of slots and their texts. -/
theorem split_key_slots (keys0 : ArgArray) (first : Bytes × Bytes) (rest : List (Bytes × Bytes))
    (hw : ∀ ht ∈ first :: rest, isLead ht.1 ∧ decodableText ht.2 = true) :
    (dbx_split_key keys0 (slotsBytes (first :: rest)) (slotsBytes (first :: rest)).length).2 =
      rest.length + 1 ∧
    (List.range (rest.length + 1)).map (fun j =>
      (getArg (dbx_split_key keys0 (slotsBytes (first :: rest))
        (slotsBytes (first :: rest)).length).1 j).text) = (first :: rest).map (fun ht => ht.2) := by
  set key := slotsBytes (first :: rest) with hkey
  have hrun := split_key_loop_run key (first :: rest) [] { keys := keys0 } key.length hw
    (by simp [hkey]) rfl (by simp)
  have hn : (dbx_split_key keys0 key key.length).2 = rest.length + 1 := by
    simp only [dbx_split_key, hrun, run_slots_keyn]
    simp
  refine ⟨hn, ?_⟩
  have hf : (List.range (rest.length + 1)).map (fun j =>
      (getArg (dbx_split_key keys0 key key.length).1 j).text) =
      final_texts key (split_key_loop key key.length key.length { keys := keys0 }) := by
    have hk : (split_key_loop key key.length key.length { keys := keys0 }).keyn =
        rest.length + 1 := by
      simpa [dbx_split_key] using hn
    simp only [dbx_split_key, final_texts, split_key_types_text, hk]
  rw [hf, hrun]
  simp only [run_slots]
  have hk2 : key = (first.1 ++ first.2) ++ slotsBytes rest := by
    rw [hkey]; simp [slotsBytes]
  rw [final_texts_run key rest (first.1 ++ first.2) _ hk2 (by simp [open_slot])
    (by simp [open_slot])]
  have hs : slice key (open_slot key { keys := keys0 } first.1.length first.2.length).nstart
      (open_slot key { keys := keys0 } first.1.length first.2.length).n = first.2 := by
    have hk3 : key = first.1 ++ (first.2 ++ slotsBytes rest) := by
      rw [hkey]; simp [slotsBytes]
    have := slice_middle first.1 first.2 (slotsBytes rest)
    rw [← hk3] at this
    simpa [open_slot] using this
  rw [hs]
  simp [closed_texts, open_slot]

/-- The text that `dbx_split_key` finds in slot `i` of a run of slots. -/
theorem split_key_slot_text (keys0 : ArgArray) (first : Bytes × Bytes)
    (rest : List (Bytes × Bytes))
    (hw : ∀ ht ∈ first :: rest, isLead ht.1 ∧ decodableText ht.2 = true)
    (i : Nat) (ht : Bytes × Bytes) (hi : (first :: rest)[i]? = some ht) :
    (getArg (dbx_split_key keys0 (slotsBytes (first :: rest))
      (slotsBytes (first :: rest)).length).1 i).text = ht.2 := by
  have h := (split_key_slots keys0 first rest hw).2
  have hlt : i < (first :: rest).length := by
    by_contra hc
    rw [List.getElem?_eq_none (by omega)] at hi
    exact absurd hi (by simp)
  have h2 := congrArg (fun l => l[i]?) h
  simp only [List.getElem?_map] at h2
  rw [hi, List.getElem?_range (by simpa using hlt)] at h2
  simpa using h2

theorem subscriptStore_codec (s : Store) (h : subscriptStore s) : codecStore s := by
  intro r hr
  obtain ⟨name, subs, hn, hs, hk⟩ := h r hr
  exact ⟨name, subs, hn, fun a ha => subscriptArg_decodable a (hs a ha), hk⟩

/-- A key of a store of subscript keys that goes on from the key of `(name, subs)`
with a zero byte is the key of `(name, subs, b, more)` for a subscript `b`, and
`dbx_split_key` finds the text of `b` in the slot after those of `subs`. -/
theorem found_key_shape (name : Bytes) (subs : List JsValue)
    (hn : decodableText (stripName name) = true) (hs : ∀ a ∈ subs, subscriptArg a = true)
    (z : Bytes) (hz : subscriptKey z) (y : Bytes)
    (hy : z = (GlobalReference name subs).ibuffer ++ 0 :: y) (keys0 : ArgArray) :
    ∃ (b : JsValue) (more : List JsValue), subscriptArg b = true ∧
      z = (GlobalReference name (subs ++ b :: more)).ibuffer ∧
      z = (GlobalReference name subs).ibuffer ++ (slotBytes b ++ (more.map slotBytes).flatten) ∧
      (dbx_split_key keys0 z z.length).2 = subs.length + 2 + more.length ∧
      (getArg (dbx_split_key keys0 z z.length).1 (subs.length + 1)).text = b.text := by
  obtain ⟨name2, subs2, hn2, hs2, hkey2⟩ := hz
  have hd1 : ∀ a ∈ subs, decodableArg a = true := fun a ha => subscriptArg_decodable a (hs a ha)
  have hd2 : ∀ a ∈ subs2, decodableArg a = true :=
    fun a ha => subscriptArg_decodable a (hs2 a ha)
  have hk1 := reference_slots name subs hn hd1
  have hk2 := reference_slots name2 subs2 hn2 hd2
  have hy2 := hy
  rw [hkey2, hk2, hk1] at hy2
  obtain ⟨c, hc, hbc⟩ := slots_align _ _ y (wfSlots_reference name subs hn hd1)
    (wfSlots_reference name2 subs2 hn2 hd2) hy2.symm
  simp only [List.cons_append, List.cons.injEq] at hbc
  obtain ⟨hname, hsubs⟩ := hbc
  have hc2 : c = (subs2.drop subs.length).map argSlot := by
    have := congrArg (List.drop subs.length) hsubs
    rw [← List.map_drop] at this
    rw [this, List.drop_left' (by simp)]
  have hdne : subs2.drop subs.length ≠ [] := by
    intro hd
    rw [hd] at hc2
    exact hc (by simpa using hc2)
  obtain ⟨b, more, hbm⟩ := List.exists_cons_of_ne_nil hdne
  have hmem : ∀ a ∈ b :: more, subscriptArg a = true := by
    intro a ha
    rw [← hbm] at ha
    exact hs2 a (List.mem_of_mem_drop ha)
  have hall : ∀ a ∈ subs ++ b :: more, decodableArg a = true := by
    intro a ha
    rcases List.mem_append.mp ha with h | h
    · exact hd1 a h
    · exact subscriptArg_decodable a (hmem a h)
  have hslots : z = slotsBytes (nameSlot name :: (subs ++ b :: more).map argSlot) := by
    rw [hkey2, hk2, hname, hsubs, hc2, hbm, List.map_append]
  have hz1 : z = (GlobalReference name (subs ++ b :: more)).ibuffer := by
    rw [hslots, reference_slots name (subs ++ b :: more) hn hall]
  refine ⟨b, more, hmem b (List.mem_cons_self _ _), hz1, ?_, ?_, ?_⟩
  · rw [hz1, GlobalReference_ibuffer name (subs ++ b :: more), GlobalReference_ibuffer name subs]
    simp
  · have hw := wfSlots_reference name (subs ++ b :: more) hn hall
    have := (split_key_slots keys0 (nameSlot name) ((subs ++ b :: more).map argSlot) hw).1
    rw [← hslots] at this
    rw [this]
    simp
    omega
  · have hw := wfSlots_reference name (subs ++ b :: more) hn hall
    have := split_key_slot_text keys0 (nameSlot name) ((subs ++ b :: more).map argSlot) hw
      (subs.length + 1) (argSlot b) (by
        rw [List.getElem?_cons_succ, List.map_append,
          List.getElem?_append_right (by simp)]
        simp)
    rw [← hslots] at this
    rw [this]
    rfl

/-- The comparison of a key with the seed key over the length of the key of the
level above. -/
theorem key_compare_level (z k w : Bytes) (hk : k ≠ []) :
    bdb_key_compare z (k ++ 0 :: w) k.length = 0 ↔ z = k ∨ ∃ y, z = k ++ 0 :: y := by
  rw [← key_compare_zero_iff z k hk]
  have hpos : k.length > 0 := List.length_pos.mpr hk
  have e := getD_at_length k 0 w
  unfold bdb_key_compare
  simp only [hpos, if_true, List.length_append, List.length_cons, e, ne_eq, not_true_eq_false,
    and_false, if_false, List.take_left', lt_self_iff_false, or_false, gt_iff_lt,
    List.take_length]
  have h1 : ¬ (k.length + (w.length + 1) < k.length) := by omega
  simp only [h1, or_false, false_and, if_false]

theorem strncmp_eq_iff (t1 t2 : Bytes) (h1 : ∀ c ∈ t1, c ≠ 0) (h2 : ∀ c ∈ t2, c ≠ 0) :
    (t1.length = t2.length ∧ strncmp_eq t1 t2 t1.length = true) ↔ t1 = t2 := by
  constructor
  · rintro ⟨hl, hs⟩
    simp only [strncmp_eq, decide_eq_true_eq] at hs
    rw [List.take_length, hl, List.take_length, cstr_of_no_zero _ h1, cstr_of_no_zero _ h2]
      at hs
    exact hs
  · intro h
    subst h
    simp [strncmp_eq]

theorem subscriptKey_head (z : Bytes) (hz : subscriptKey z) : ∃ y, z = 0 :: y := by
  obtain ⟨name, subs, hn, hs, hk⟩ := hz
  have hd : ∀ a ∈ subs, decodableArg a = true := fun a ha => subscriptArg_decodable a (hs a ha)
  have hne := GlobalReference_ibuffer_ne_nil name subs hn hd
  rw [← hk] at hne
  have hsz := slotsBytes_startsZero _ (wfSlots_reference name subs hn hd)
  rw [← reference_slots name subs hn hd, ← hk] at hsz
  rcases hsz with h | h
  · exact absurd h hne
  · exact h

/-- The key that `next` searches after the current key was returned: the seed key
followed by 00 ff. -/
theorem poke_advance (s x : Bytes) :
    (pokeByte (pokeByte (s ++ x) s.length 0x00) (s.length + 1) 0xff).take (s.length + 2) =
      s ++ [0, 255] := by
  cases x with
  | nil =>
    have e1 : pokeByte (s ++ []) s.length 0 = s ++ [0] := by
      simp [pokeByte]
    rw [e1]
    have e2 : pokeByte (s ++ [0]) (s.length + 1) 255 = s ++ [0, 255] := by
      simp [pokeByte]
    rw [e2]
    simp
  | cons a x =>
    have e1 : pokeByte (s ++ a :: x) s.length 0 = s ++ 0 :: x := by
      simp [pokeByte]
    rw [e1]
    cases x with
    | nil =>
      have e2 : pokeByte (s ++ [0]) (s.length + 1) 255 = s ++ [0, 255] := by
        simp [pokeByte]
      rw [e2]
      simp
    | cons b x =>
      have e2 : pokeByte (s ++ 0 :: b :: x) (s.length + 1) 255 = s ++ 0 :: 255 :: x := by
        simp [pokeByte, List.set_append]
      rw [e2]
      simp [List.take_append_eq_append_take]

/-! ### One turn of the loop of `next` -/

theorem bytesLe_refl (x : Bytes) : bytesLe x x = true := by
  rw [bytesLe_iff]; exact Or.inl rfl

theorem bytesLe_of_lt (x y : Bytes) (h : bytesLt x y = true) : bytesLe x y = true := by
  rw [bytesLe_iff]; exact Or.inr h

theorem bytesLe_lt_trans (x y z : Bytes) (h1 : bytesLe x y = true) (h2 : bytesLt y z = true) :
    bytesLt x z = true := by
  rcases (bytesLe_iff x y).mp h1 with h | h
  · rw [h]; exact h2
  · exact bytesLt_trans x y z h h2

theorem bytesLe_trans (x y z : Bytes) (h1 : bytesLe x y = true) (h2 : bytesLe y z = true) :
    bytesLe x z = true := by
  rcases (bytesLe_iff y z).mp h2 with h | h
  · rw [← h]; exact h1
  · exact bytesLe_of_lt _ _ (bytesLe_lt_trans x y z h1 h)

theorem bytesLe_not_lt (x y : Bytes) (h1 : bytesLe x y = true) (h2 : bytesLt y x = true) :
    False := by
  have := bytesLe_lt_trans x y x h1 h2
  rw [bytesLt_irrefl] at this
  exact absurd this (by simp)

/-- The key of a reference that goes on after `subs` with `a` and `more`. -/
theorem stored_key_form (name : Bytes) (subs more : List JsValue) (a : JsValue) :
    (GlobalReference name (subs ++ a :: more)).ibuffer =
      (GlobalReference name subs).ibuffer ++ (slotBytes a ++ (more.map slotBytes).flatten) := by
  rw [GlobalReference_ibuffer name (subs ++ a :: more), GlobalReference_ibuffer name subs]
  simp

theorem GlobalReference_argc (name : Bytes) (subs : List JsValue) :
    (GlobalReference name subs).argc = 1 + subs.length := rfl

/-- The first record at or above a search key: it is in the store, not below the
search key, and no record at or above the search key is below it. -/
theorem c_set_range_spec (s : Store) (hs : storeSorted s) (k : Bytes) (r : Record)
    (h : c_set_range s k = some r) :
    r ∈ s ∧ bytesLe k r.1 = true ∧ ∀ r2 ∈ s, bytesLe k r2.1 = true → bytesLe r.1 r2.1 = true := by
  obtain ⟨h1, h2, h3⟩ := find_first_sorted s hs _ r h
  refine ⟨h1, h2, ?_⟩
  intro r2 hr2 hk
  rcases h3 r2 hr2 hk with h4 | h4
  · rw [h4]; exact bytesLe_refl _
  · exact bytesLe_of_lt _ _ h4

theorem c_set_range_none_spec (s : Store) (k : Bytes) (h : c_set_range s k = none) :
    ∀ r ∈ s, bytesLe k r.1 = false := by
  intro r hr
  have := List.find?_eq_none.mp h r hr
  simpa using this

theorem turn_none (store : Store) (name : Bytes) (subs : List JsValue) (seed : JsValue)
    (K : Bytes)
    (habove : ∀ (a : JsValue) (more : List JsValue), subscriptArg a = true → keyBelow seed a →
      bytesLe K ((GlobalReference name subs).ibuffer ++
        (slotBytes a ++ (more.map slotBytes).flatten)) = true)
    (hc : c_set_range store K = none) :
    ∀ a, storedUnder store name subs a → ¬ keyBelow seed a := by
  rintro a ⟨ha, more, ra, hra, hka⟩ hlt
  have h1 := habove a more ha hlt
  rw [← stored_key_form, ← hka] at h1
  rw [c_set_range_none_spec store K hc ra hra] at h1
  exact absurd h1 (by simp)

theorem turn_diverge (store : Store) (hs : storeSorted store) (name : Bytes)
    (subs : List JsValue) (seed : JsValue) (K : Bytes)
    (hSK : bytesLe ((GlobalReference name subs).ibuffer ++ slotBytes seed) K = true)
    (habove : ∀ (a : JsValue) (more : List JsValue), subscriptArg a = true → keyBelow seed a →
      bytesLe K ((GlobalReference name subs).ibuffer ++
        (slotBytes a ++ (more.map slotBytes).flatten)) = true)
    (r : Record) (hc : c_set_range store K = some r)
    (hz : ¬ ∃ y, r.1 = (GlobalReference name subs).ibuffer ++ 0 :: y) :
    ∀ a, storedUnder store name subs a → ¬ keyBelow seed a := by
  rintro a ⟨ha, more, ra, hra, hka⟩ hlt
  apply hz
  obtain ⟨_, hr2, hr3⟩ := c_set_range_spec store hs K r hc
  have h1 := habove a more ha hlt
  rw [← stored_key_form, ← hka] at h1
  have h2 := hr3 ra hra h1
  obtain ⟨c, y, hy, _⟩ := slotBytes_head a
  obtain ⟨c0, y0, hy0, _⟩ := slotBytes_head seed
  have hP : bytesLt (GlobalReference name subs).ibuffer r.1 = true := by
    have h3 : bytesLt (GlobalReference name subs).ibuffer
        ((GlobalReference name subs).ibuffer ++ slotBytes seed) = true :=
      bytesLt_append_nonempty _ _ (by rw [hy0]; simp)
    rcases (bytesLe_iff _ _).mp (bytesLe_trans _ _ _ hSK hr2) with h4 | h4
    · rw [← h4]; exact h3
    · exact bytesLt_trans _ _ _ h3 h4
  have hra2 : ra.1 = (GlobalReference name subs).ibuffer ++
      0 :: (c :: y ++ (more.map slotBytes).flatten) := by
    rw [hka, stored_key_form, hy]; rfl
  have h5 : bytesLt ((GlobalReference name subs).ibuffer ++
      0 :: (c :: y ++ (more.map slotBytes).flatten)) r.1 = false := by
    rw [← hra2]
    simpa [bytesLe] using h2
  exact between_zero_extension _ _ _ hP h5

theorem turn_found (store : Store) (hs : storeSorted store) (name : Bytes)
    (subs : List JsValue) (seed : JsValue) (hseed : seedArg seed) (K : Bytes)
    (hSK : bytesLe ((GlobalReference name subs).ibuffer ++ slotBytes seed) K = true)
    (habove : ∀ (a : JsValue) (more : List JsValue), subscriptArg a = true → keyBelow seed a →
      bytesLe K ((GlobalReference name subs).ibuffer ++
        (slotBytes a ++ (more.map slotBytes).flatten)) = true)
    (r : Record) (hc : c_set_range store K = some r) (b : JsValue) (more : List JsValue)
    (hb : subscriptArg b = true)
    (hr : r.1 = (GlobalReference name subs).ibuffer ++
      (slotBytes b ++ (more.map slotBytes).flatten)) :
    ¬ keyBelow b seed ∧
      ∀ a, storedUnder store name subs a → keyBelow seed a → ¬ keyBelow a b := by
  obtain ⟨_, hr2, hr3⟩ := c_set_range_spec store hs K r hc
  constructor
  · intro hlt
    have h1 := key_below_of_slot_below (GlobalReference name subs).ibuffer b seed (Or.inl hb)
      hseed hlt (more.map slotBytes).flatten [] (slots_tail_startsZero more)
    rw [← hr, List.append_nil] at h1
    exact bytesLe_not_lt _ _ (bytesLe_trans _ _ _ hSK hr2) h1
  · rintro a ⟨ha, more2, ra, hra, hka⟩ hlt hab
    have h1 := habove a more2 ha hlt
    rw [← stored_key_form, ← hka] at h1
    have h2 := hr3 ra hra h1
    have h3 := key_below_of_slot_below (GlobalReference name subs).ibuffer a b (Or.inl ha)
      (Or.inl hb) hab (more2.map slotBytes).flatten (more.map slotBytes).flatten
      (slots_tail_startsZero more2)
    rw [← hr, ← stored_key_form, ← hka] at h3
    exact bytesLe_not_lt _ _ h2 h3

theorem next_turn (dbtype : Nat) (store : Store) (hs : storeSorted store)
    (hf : fitStore store) (hw : subscriptStore store) (name : Bytes) (subs : List JsValue) (seed : JsValue)
    (hn : decodableText (stripName name) = true) (hsubs : ∀ a ∈ subs, subscriptArg a = true)
    (hseed : seedArg seed) (pkey : DBXKEY)
    (hargc : pkey.argc = subs.length + 2)
    (hbuf : pkey.ibuffer = (GlobalReference name subs).ibuffer ++ slotBytes seed)
    (hcs2 : (getArg pkey.args (pkey.argc - 2)).csize = (GlobalReference name subs).ibuffer.length)
    (htext : (getArg pkey.args (pkey.argc - 1)).text = seed.text)
    (hcs1 : (getArg pkey.args (pkey.argc - 1)).csize =
      ((GlobalReference name subs).ibuffer ++ slotBytes seed).length)
    (fuel : Nat) (st : NextState) (K : Bytes) (hK : st.buf.take st.size = K)
    (hSK : bytesLe ((GlobalReference name subs).ibuffer ++ slotBytes seed) K = true)
    (habove : ∀ (a : JsValue) (more : List JsValue), subscriptArg a = true → keyBelow seed a →
      bytesLe K ((GlobalReference name subs).ibuffer ++
        (slotBytes a ++ (more.map slotBytes).flatten)) = true) :
    nextResult store name subs seed (next_exit (next_loop dbtype store pkey (fuel + 1) st)) ∨
    ∃ (r : Record) (more : List JsValue), c_set_range store K = some r ∧
      r.1 = ((GlobalReference name subs).ibuffer ++ slotBytes seed) ++
        (more.map slotBytes).flatten ∧
      next_loop dbtype store pkey (fuel + 1) st = next_loop dbtype store pkey fuel
        { buf := pokeByte (pokeByte (storeKey st.buf r.1)
            ((GlobalReference name subs).ibuffer ++ slotBytes seed).length 0x00)
            (((GlobalReference name subs).ibuffer ++ slotBytes seed).length + 1) 0xff,
          size := ((GlobalReference name subs).ibuffer ++ slotBytes seed).length + 2,
          mkeys := (dbx_split_key st.mkeys r.1 r.1.length).1,
          len_used := if dbtype = DBX_DBTYPE_LMDB then r.1.length else st.len_used } := by
  have hP : (GlobalReference name subs).ibuffer ≠ [] :=
    GlobalReference_ibuffer_ne_nil name subs hn (fun a ha => subscriptArg_decodable a (hsubs a ha))
  simp only [next_loop, cursor_get_set_range dbtype _ _ store hf (le_refl _) (le_refl _)]
  rw [hK]
  cases hc : c_set_range store K with
  | none =>
    left; left
    exact ⟨by simp [next_exit, YDB_NODE_END, CACHE_SUCCESS],
      turn_none store name subs seed K habove hc⟩
  | some r =>
    dsimp only
    obtain ⟨hrmem, hr2, hr3⟩ := c_set_range_spec store hs K r hc
    obtain ⟨y0, hy0⟩ := subscriptKey_head r.1 (hw r hrmem)
    have hhead : (storeKey st.buf r.1).getD 0 0 = 0 := by rw [hy0]; simp [storeKey]
    have hargc2 : ¬ pkey.argc < 2 := by omega
    obtain ⟨c0, w0, hw0, _⟩ := slotBytes_head seed
    rw [if_neg (not_not.mpr hhead), if_neg hargc2, hcs2, hbuf]
    by_cases hz : ∃ y, r.1 = (GlobalReference name subs).ibuffer ++ 0 :: y
    · have hcmp : bdb_key_compare r.1 ((GlobalReference name subs).ibuffer ++ slotBytes seed)
          (GlobalReference name subs).ibuffer.length = 0 := by
        rw [hw0]
        exact (key_compare_level _ _ _ hP).mpr (Or.inr hz)
      obtain ⟨y, hy⟩ := hz
      obtain ⟨b, more, hb, hz1, hz2, hcount, htextb⟩ :=
        found_key_shape name subs hn hsubs r.1 (hw r hrmem) y hy st.mkeys
      have e1 : pkey.argc - 1 = subs.length + 1 := by omega
      rw [e1] at htext hcs1
      rw [if_pos hcmp, if_pos (by rw [hcount, hargc]; omega), e1, htext, htextb, hcs1]
      obtain ⟨_, _, hbne, hbz⟩ := slot_parts b hb
      obtain ⟨hnb, hmin⟩ := turn_found store hs name subs seed hseed K hSK habove r hc b more
        hb hz2
      by_cases ht : seed.text = b.text
      · right
        have hsd : subscriptArg seed = true := by
          rcases hseed with h | h
          · exact h
          · rw [h] at ht
            exact absurd ht.symm hbne
        have hcond : seed.text.length = b.text.length ∧
            strncmp_eq seed.text b.text seed.text.length = true :=
          (strncmp_eq_iff _ _ (by rw [ht]; exact hbz) hbz).mpr ht
        rw [if_pos hcond]
        refine ⟨r, more, rfl, ?_, rfl⟩
        rw [hz2, slot_eq_of_text_eq b seed hb hsd ht.symm, List.append_assoc]
      · left; right
        have hcond : ¬ (seed.text.length = b.text.length ∧
            strncmp_eq seed.text b.text seed.text.length = true) := by
          intro hcond
          rcases hseed with h | h
          · exact ht ((strncmp_eq_iff _ _ (slot_parts seed h).2.2.2 hbz).mp hcond)
          · rw [h] at hcond
            have hl := hcond.1
            simp only [JsValue.text, List.length_nil] at hl
            exact hbne (List.length_eq_zero.mp hl.symm)
        rw [if_neg hcond]
        refine ⟨b, ⟨hb, more, r, hrmem, hz1⟩, ?_, ?_, hmin⟩
        · have hne : slotBytes seed ≠ slotBytes b := by
            intro he
            rcases hseed with h | h
            · exact ht (text_eq_of_slot_eq seed b h hb he)
            · obtain ⟨c2, y2, hy2, hc2⟩ := slot_second b hb
              have e0 : slotBytes (JsValue.str []) = [0, 0] := by decide
              rw [h, hy2, e0] at he
              simp only [List.cons.injEq, true_and] at he
              exact hc2 he.1.symm
          rcases bytesLt_total _ _ hne with h | h
          · exact h
          · exact absurd h hnb
        · have hlen : b.text.length ≠ 0 := fun h => hbne (List.length_eq_zero.mp h)
          simp [next_exit, CACHE_SUCCESS, hlen]
    · left; left
      have hcmp : bdb_key_compare r.1 ((GlobalReference name subs).ibuffer ++ slotBytes seed)
          (GlobalReference name subs).ibuffer.length ≠ 0 := by
        rw [hw0]
        intro h0
        rcases (key_compare_level _ _ _ hP).mp h0 with h | h
        · have h3 : bytesLt (GlobalReference name subs).ibuffer
              ((GlobalReference name subs).ibuffer ++ slotBytes seed) = true :=
            bytesLt_append_nonempty _ _ (by rw [hw0]; simp)
          have h4 : bytesLt r.1
              ((GlobalReference name subs).ibuffer ++ slotBytes seed) = true := by
            rw [h]; exact h3
          exact bytesLe_not_lt _ _ (bytesLe_trans _ _ _ hSK hr2) h4
        · exact hz h
      rw [if_neg hcmp]
      exact ⟨by simp [next_exit, YDB_NODE_END, CACHE_SUCCESS],
        turn_diverge store hs name subs seed K hSK habove r hc hz⟩

/-- The loop of `next` on either backend, for a store of subscript keys in key
order: the text of the smallest subscript stored after `subs` that is above the
seed in key order, or the empty result. -/
theorem next_loop_spec (dbtype : Nat) (store : Store) (hs : storeSorted store)
    (hf : fitStore store) (hw : subscriptStore store) (name : Bytes) (subs : List JsValue) (seed : JsValue)
    (hn : decodableText (stripName name) = true) (hsubs : ∀ a ∈ subs, subscriptArg a = true)
    (hseed : seedArg seed) (mkeys0 : ArgArray) :
    nextResult store name subs seed
      (next_exit (next_loop dbtype store (GlobalReference name (subs ++ [seed])) 10
        { buf := (GlobalReference name (subs ++ [seed])).ibuffer,
          size := (GlobalReference name (subs ++ [seed])).ibuffer_used,
          mkeys := mkeys0, len_used := 0 })) := by
  have hargc : (GlobalReference name (subs ++ [seed])).argc = subs.length + 2 := by
    rw [GlobalReference_argc]; simp; omega
  have hbuf := GlobalReference_snoc name subs seed
  obtain ⟨hcs2, htext⟩ := GlobalReference_snoc_args name subs seed
  have hcs1 := GlobalReference_last_csize name (subs ++ [seed])
  rw [hbuf] at hcs1
  have hused : (GlobalReference name (subs ++ [seed])).ibuffer_used =
      ((GlobalReference name subs).ibuffer ++ slotBytes seed).length := by
    rw [DBXKEY.ibuffer_used, hbuf]
  rw [hused, hbuf]
  have hturn1 := next_turn dbtype store hs hf hw name subs seed hn hsubs hseed
    (GlobalReference name (subs ++ [seed])) hargc hbuf hcs2 htext hcs1 9
    { buf := (GlobalReference name subs).ibuffer ++ slotBytes seed,
      size := ((GlobalReference name subs).ibuffer ++ slotBytes seed).length,
      mkeys := mkeys0, len_used := 0 }
    ((GlobalReference name subs).ibuffer ++ slotBytes seed) (List.take_length _)
    (bytesLe_refl _)
    (by
      intro a more ha hlt
      have := key_below_of_slot_below (GlobalReference name subs).ibuffer seed a hseed
        (Or.inl ha) hlt [] (more.map slotBytes).flatten (Or.inl rfl)
      rw [List.append_nil] at this
      exact bytesLe_of_lt _ _ this)
  rcases hturn1 with h | ⟨r, more, hc, hr, heq⟩
  · exact h
  · rw [heq]
    have hturn2 := next_turn dbtype store hs hf hw name subs seed hn hsubs hseed
      (GlobalReference name (subs ++ [seed])) hargc hbuf hcs2 htext hcs1 8
      { buf := pokeByte (pokeByte
            (storeKey ((GlobalReference name subs).ibuffer ++ slotBytes seed) r.1)
            ((GlobalReference name subs).ibuffer ++ slotBytes seed).length 0x00)
            (((GlobalReference name subs).ibuffer ++ slotBytes seed).length + 1) 0xff,
        size := ((GlobalReference name subs).ibuffer ++ slotBytes seed).length + 2,
        mkeys := (dbx_split_key mkeys0 r.1 r.1.length).1,
        len_used := if dbtype = DBX_DBTYPE_LMDB then r.1.length else 0 }
      (((GlobalReference name subs).ibuffer ++ slotBytes seed) ++ [0, 255])
      (by
        have e : storeKey ((GlobalReference name subs).ibuffer ++ slotBytes seed) r.1 =
            ((GlobalReference name subs).ibuffer ++ slotBytes seed) ++
              (more.map slotBytes).flatten := by
          rw [storeKey, hr, List.drop_eq_nil_of_le (by simp), List.append_nil]
        show (pokeByte (pokeByte _ _ _) _ _).take _ = _
        rw [e]
        exact poke_advance _ _)
      (bytesLe_of_lt _ _ (bytesLt_append_nonempty _ _ (by simp)))
      (by
        intro a more2 ha hlt
        have := advance_key_below (GlobalReference name subs).ibuffer seed a hseed
          (Or.inl ha) hlt (more2.map slotBytes).flatten
        rw [← List.append_assoc] at this
        exact bytesLe_of_lt _ _ this)
    rcases hturn2 with h | ⟨r2, more2, hc2, hr2, _⟩
    · exact h
    · exfalso
      obtain ⟨_, hle, _⟩ := c_set_range_spec store hs _ r2 hc2
      have hlt := tail_below_advance ((GlobalReference name subs).ibuffer ++ slotBytes seed) more2
      rw [← hr2] at hlt
      exact bytesLe_not_lt _ _ hle hlt

/-- `dbx_set` of a reference made of subscripts that JavaScript passes keeps the
store a store of subscript keys. -/
theorem dbx_set_subscript (s : Store) (hw : subscriptStore s) (name : Bytes)
    (subs : List JsValue) (value : JsValue) (hn : decodableText (stripName name) = true)
    (hs : ∀ a ∈ subs, subscriptArg a = true) :
    subscriptStore (dbx_set s (GlobalReference name (subs ++ [value]))) := by
  intro r hr
  unfold dbx_set at hr
  rcases mem_db_put _ _ _ r hr with h | h
  · rw [h]
    refine ⟨name, subs, hn, hs, ?_⟩
    show List.take _ _ = _
    rw [(GlobalReference_snoc_args name subs value).1, GlobalReference_snoc, List.take_left]
  · exact hw r h

theorem subscriptStore_nil : subscriptStore [] := by
  intro r hr; simp at hr

/-! ## The slot of a digit string, and the size of the key area -/

theorem setArg_setArg (args : ArgArray) (n : Nat) (u v : DBXVAL) :
    setArg (setArg args n u) n v = setArg args n v := by
  funext i
  simp only [setArg]
  split_ifs <;> rfl

/-- `dbx_ibuffer_add` leaves the same bytes and the same descriptor for the digits
of a 32-bit integer passed as a string and passed as an integer. -/
theorem ibuffer_add_slot_digits (a0 : DBXVAL) (argn : Nat) (n : Int)
    (h : -2 ^ 31 ≤ n ∧ n < 2 ^ 31) :
    ibuffer_add_slot DBX_KEYTYPE_M { a0 with type := DBX_DTYPE_STR } argn (intText n) =
      ibuffer_add_slot DBX_KEYTYPE_M { a0 with type := DBX_DTYPE_INT, int32 := n } argn
        (intText n) := by
  obtain ⟨hf, hp⟩ := intText_flags n h
  have hne := intText_ne_nil n
  have hlen : (intText n).length ≠ 0 := fun h => hne (List.length_eq_zero.mp h)
  have hc : (intText n).head? ≠ some 94 := flags_head_ne_caret _ (by rw [hf])
  have hz : cstr (intText n) = intText n :=
    cstr_of_no_zero _ (decodableText_spec _ (decodableText_intText n)).2
  have hs : toInt32 (strtol (intText n)) = n := by
    have := hp
    rw [strParts_int _ hf, hz] at this
    exact (Prod.mk.inj this).1
  simp [ibuffer_add_slot, dbx_is_number, hf, hlen, hc, hz, hs, DBX_DTYPE_INT, DBX_DTYPE_STR,
    dbx_set_number, set_number_parts]

theorem add_argument_digits (pkey : DBXKEY) (nx : Nat) (n : Int)
    (h : -2 ^ 31 ≤ n ∧ n < 2 ^ 31) :
    add_argument DBX_KEYTYPE_M pkey nx (JsValue.str (intText n)) =
      add_argument DBX_KEYTYPE_M pkey nx (JsValue.int32 n) := by
  simp only [add_argument, dbx_ibuffer_add, getArg_setArg_same]
  rw [ibuffer_add_slot_digits _ _ _ h]
  simp only [setArg_setArg, DBXKEY.ibuffer_used]

/-- The slot of a string that is not empty starts with 00 and a byte from 1 to 3. -/
theorem slotBytes_str_head (s : Bytes) (hs : s ≠ []) :
    ∃ c y, slotBytes (JsValue.str s) = 0 :: c :: y ∧ 1 ≤ c := by
  simp only [slotBytes]
  split_ifs with h1
  · obtain ⟨b, r, h, hb, _⟩ := set_number_bytes_head (strParts s).1 (strParts s).2
    exact ⟨b, r ++ s, by simp [h], by omega⟩
  · exact ⟨3, s, rfl, by omega⟩

/-- The bytes that `dbx_ibuffer_add` writes for one argument: at most ten more
than the argument holds. -/
theorem ibuffer_add_slot_length (a0 : DBXVAL) (argn : Nat) (buffer : Bytes) :
    (ibuffer_add_slot DBX_KEYTYPE_M a0 argn buffer).1.length ≤ buffer.length + 10 := by
  have h10 := dbx_set_number_length
  simp only [ibuffer_add_slot, if_true]
  split_ifs <;> simp [setByte, h10, dbx_is_number_text] <;> omega

/-- The key area after `dbx_ibuffer_add` holds the key. -/
theorem ibuffer_add_fits (pkey : DBXKEY) (argn : Nat) (buffer : Bytes) :
    (dbx_ibuffer_add DBX_KEYTYPE_M pkey argn buffer).1.ibuffer_used ≤
      (dbx_ibuffer_add DBX_KEYTYPE_M pkey argn buffer).1.ibuffer_size := by
  have hl := ibuffer_add_slot_length (getArg pkey.args argn) argn buffer
  simp only [dbx_ibuffer_add, DBXKEY.ibuffer_used, List.length_append, CACHE_MAXSTRLEN] at *
  split_ifs <;> omega

theorem add_argument_fits (pkey : DBXKEY) (nx : Nat) (a : JsValue) :
    (add_argument DBX_KEYTYPE_M pkey nx a).ibuffer_used ≤
      (add_argument DBX_KEYTYPE_M pkey nx a).ibuffer_size := by
  cases a with
  | int32 n => exact ibuffer_add_fits _ _ _
  | str s => exact ibuffer_add_fits _ _ _

theorem add_arguments_fits (xs : List JsValue) : ∀ (pkey : DBXKEY) (nx : Nat),
    pkey.ibuffer_used ≤ pkey.ibuffer_size →
    (add_arguments DBX_KEYTYPE_M pkey nx xs).ibuffer_used ≤
      (add_arguments DBX_KEYTYPE_M pkey nx xs).ibuffer_size := by
  induction xs with
  | nil => intro pkey nx h; exact h
  | cons x xs ih =>
    intro pkey nx h
    simp only [add_arguments]
    exact ih _ _ (add_argument_fits pkey nx x)

/-- The key area of a reference holds the key, however long the key is. -/
theorem GlobalReference_fits (name : Bytes) (args : List JsValue) :
    (GlobalReference name args).ibuffer_used ≤ (GlobalReference name args).ibuffer_size := by
  have h := add_arguments_fits args
    (dbx_ibuffer_add DBX_KEYTYPE_M
      { ibuffer := [], argc := 0, args := setArg (fun _ => default) 0 { type := DBX_DTYPE_NONE } }
      0 name).1 1
    (ibuffer_add_fits _ _ _)
  exact h

theorem add_argument_size (pkey : DBXKEY) (nx : Nat) (a : JsValue) :
    (add_argument DBX_KEYTYPE_M pkey nx a).ibuffer_size =
      if pkey.ibuffer_used + a.text.length + 32 > pkey.ibuffer_size then
        pkey.ibuffer_used + a.text.length + CACHE_MAXSTRLEN
      else pkey.ibuffer_size := by
  cases a <;> rfl

theorem GlobalReference_one_size (name : Bytes) (a : JsValue) :
    (GlobalReference name [a]).ibuffer_size =
      if (GlobalReference name []).ibuffer_used + a.text.length + 32 >
          (GlobalReference name []).ibuffer_size then
        (GlobalReference name []).ibuffer_used + a.text.length + CACHE_MAXSTRLEN
      else (GlobalReference name []).ibuffer_size :=
  add_argument_size _ 1 a

/-- The slot of a string of more than 32 bytes: the lead 00 03 and the bytes. -/
theorem long_text_slot (s : Bytes) (h : 32 < s.length) :
    slotBytes (JsValue.str s) = [0, 3] ++ s := by
  have hf : is_number_flags s = (false, false) := by
    unfold is_number_flags
    rw [if_pos (Or.inr h)]
  have hne : s ≠ [] := by
    intro h0
    rw [h0] at h
    exact absurd h (by decide)
  simp only [slotBytes]
  rw [hf, if_neg (by decide), if_neg hne]

/-! ## The cursor handle: release of the backend cursor -/

theorem release_cursor_closed (pcon : DBXCON) (h : CursorHandle) :
    (release_cursor pcon h).2.cx.pcursor = false := by
  unfold release_cursor
  cases hp : h.cx.pcursor
  · rw [if_neg (by decide)]; exact hp
  · rw [if_pos rfl]

theorem release_cursor_queued (pcon : DBXCON) (h : CursorHandle) :
    (release_cursor pcon h).1.queued = pcon.queued := by
  unfold release_cursor lmdb_commit_qro_transaction lmdb_commit_ro_transaction
  split_ifs <;> rfl

theorem release_cursor_of_closed (pcon : DBXCON) (h : CursorHandle) (hc : h.cx.pcursor = false) :
    release_cursor pcon h = (pcon, h) := by
  unfold release_cursor
  rw [if_neg (by rw [hc]; decide)]

/-- The depth of read transactions after the release of a cursor: one lower for an
open cursor on LMDB, unchanged otherwise. -/
theorem release_cursor_tlevelro (pcon : DBXCON) (h : CursorHandle) :
    (release_cursor pcon h).1.tlevelro =
      if h.cx.pcursor = true ∧ h.cx.dbtype = DBX_DBTYPE_LMDB then pcon.tlevelro - 1
      else pcon.tlevelro := by
  unfold release_cursor lmdb_commit_qro_transaction lmdb_commit_ro_transaction
  split_ifs <;> simp_all

theorem mcursor_step_none (store : Store) (dir : Int) (cx : mcursor)
    (h : (mcursor_step store dir cx).2 = none) : (mcursor_step store dir cx).1.pcursor = false := by
  unfold mcursor_step at h ⊢
  by_cases h1 : cx.pcursor = false
  · rw [if_pos h1]; exact h1
  · rw [if_neg h1] at h ⊢
    by_cases h2 : (dbx_global_query cx.dbtype store cx.place cx.pqr_next cx.pqr_prev dir
        cx.fixed_key_len cx.counter).eod = CACHE_SUCCESS
    · simp only [h2, if_true] at h
      exact absurd h (by simp)
    · simp only [h2, if_false]

/-- A call on a handle without a backend cursor hands back null and changes
nothing. -/
theorem call_on_closed (dir : Int) (store : Store) (mkeys0 : ArgArray) (pcon : DBXCON)
    (h : CursorHandle) (args : List JsArg) (hc : h.cx.pcursor = false) :
    mcursor_call dir store mkeys0 pcon h args = { pcon := pcon, h := h, ret := JsReturn.null } := by
  unfold mcursor_call cursor_eod
  rw [if_pos hc, release_cursor_of_closed pcon h hc]

theorem cursor_eod_queued (pcon : DBXCON) (h : CursorHandle) :
    (cursor_eod pcon h).pcon.queued = pcon.queued := release_cursor_queued pcon h

theorem call_mode_queued (dir : Int) (store : Store) (mkeys0 : ArgArray) (pcon : DBXCON)
    (h : CursorHandle) : (call_mode dir store mkeys0 pcon h).pcon.queued = pcon.queued := by
  unfold call_mode
  split_ifs
  · unfold call_order
    dsimp only
    split_ifs <;> first | exact cursor_eod_queued _ _ | rfl
  · unfold call_query
    split
    · rfl
    · exact release_cursor_queued _ _
  · unfold call_directory
    dsimp only
    split_ifs <;> first | exact cursor_eod_queued _ _ | rfl
  · unfold call_sql
    split_ifs <;> first | exact cursor_eod_queued _ _ | rfl
  · rfl

/-- No call of `next` or `previous` hands a task to the worker queue. -/
theorem call_queued (dir : Int) (store : Store) (mkeys0 : ArgArray) (pcon : DBXCON)
    (h : CursorHandle) (args : List JsArg) :
    (mcursor_call dir store mkeys0 pcon h args).pcon.queued = pcon.queued := by
  unfold mcursor_call
  split_ifs
  · exact cursor_eod_queued _ _
  · rfl
  · rfl
  · exact call_mode_queued _ _ _ _ _

theorem cursor_eod_closed (pcon : DBXCON) (h : CursorHandle) :
    (cursor_eod pcon h).h.cx.pcursor = false := release_cursor_closed pcon h

theorem cursor_eod_ret (pcon : DBXCON) (h : CursorHandle) :
    (cursor_eod pcon h).ret = JsReturn.null := rfl

/-- A branch that hands back null leaves the handle without a backend cursor,
unless it is the branch of `previous` in the order mode. -/
theorem call_mode_null_closed (dir : Int) (store : Store) (mkeys0 : ArgArray) (pcon : DBXCON)
    (h : CursorHandle)
    (hn : (call_mode dir store mkeys0 pcon h).ret = JsReturn.null)
    (hd : dir = 1 ∨ h.cx.context ≠ 1) :
    (call_mode dir store mkeys0 pcon h).h.cx.pcursor = false := by
  unfold call_mode at hn ⊢
  by_cases h1 : h.cx.context = 1
  · have hd1 : dir = 1 := by
      rcases hd with hd | hd
      · exact hd
      · exact absurd h1 hd
    rw [if_pos h1] at hn ⊢
    unfold call_order at hn ⊢
    dsimp only at hn ⊢
    by_cases h5 : h.cx.pqr_prev.argc < 1
    · rw [if_pos h5]; exact cursor_eod_closed _ _
    · rw [if_neg h5] at hn ⊢
      by_cases h6 : (dbx_global_order h.cx.dbtype store h.cx.pqr_prev dir mkeys0).1 ≠ 0
      · rw [if_pos h6, if_pos hd1]; exact cursor_eod_closed _ _
      · rw [if_neg h6] at hn
        exact absurd hn (by simp)
  · rw [if_neg h1] at hn ⊢
    by_cases h2 : h.cx.context = 2
    · rw [if_pos h2] at hn ⊢
      unfold call_query at hn ⊢
      cases hs : (mcursor_step store dir h.cx).2 with
      | some ks => rw [hs] at hn; exact absurd hn (by simp)
      | none => simp only [hs]; exact mcursor_step_none _ _ _ hs
    · rw [if_neg h2] at hn ⊢
      by_cases h3 : h.cx.context = 9
      · rw [if_pos h3] at hn ⊢
        unfold call_directory at hn ⊢
        dsimp only at hn ⊢
        by_cases h5 : (dbx_global_directory h.cx.dbtype store h.cx.pqr_prev h.global_name dir
            mkeys0).1 ≠ 0
        · rw [if_pos h5]; exact cursor_eod_closed _ _
        · rw [if_neg h5] at hn
          exact absurd hn (by simp)
      · rw [if_neg h3] at hn ⊢
        by_cases h4 : h.cx.context = 11
        · rw [if_pos h4] at hn ⊢
          unfold call_sql at hn ⊢
          by_cases h5 : h.psql = false
          · rw [if_pos h5]; exact cursor_eod_closed _ _
          · rw [if_neg h5, if_neg (by decide)] at hn
            exact absurd hn (by simp)
        · rw [if_neg h4] at hn
          exact absurd hn (by simp)

theorem call_null_closed (dir : Int) (store : Store) (mkeys0 : ArgArray) (pcon : DBXCON)
    (h : CursorHandle) (args : List JsArg)
    (hn : (mcursor_call dir store mkeys0 pcon h args).ret = JsReturn.null)
    (hd : dir = 1 ∨ h.cx.context ≠ 1) :
    (mcursor_call dir store mkeys0 pcon h args).h.cx.pcursor = false := by
  unfold mcursor_call at hn ⊢
  by_cases h1 : h.cx.pcursor = false
  · rw [if_pos h1]; exact cursor_eod_closed _ _
  · rw [if_neg h1] at hn ⊢
    by_cases h2 : (DBX_CALLBACK_FUN args).1 ≥ DBX_MAXARGS
    · rw [if_pos h2] at hn; exact absurd hn (by simp)
    · rw [if_neg h2] at hn ⊢
      by_cases h3 : (DBX_CALLBACK_FUN args).2 = true
      · rw [if_pos h3] at hn; exact absurd hn (by simp)
      · rw [if_neg h3] at hn ⊢
        exact call_mode_null_closed _ _ _ _ _ hn hd

/-- What the release of the backend cursor does to the connection depends on the
handle only through its cursor and its backend. -/
theorem release_cursor_congr (pcon : DBXCON) (h h1 : CursorHandle)
    (hp : h1.cx.pcursor = h.cx.pcursor) (hd : h1.cx.dbtype = h.cx.dbtype) :
    (release_cursor pcon h1).1 = (release_cursor pcon h).1 := by
  unfold release_cursor
  rw [hp, hd]
  split_ifs <;> rfl

/-- A branch that hands back null, other than that of `previous` in the order mode,
leaves the connection as the release of the backend cursor leaves it. -/
theorem call_mode_null_release (dir : Int) (store : Store) (mkeys0 : ArgArray) (pcon : DBXCON)
    (h : CursorHandle)
    (hn : (call_mode dir store mkeys0 pcon h).ret = JsReturn.null)
    (hd : dir = 1 ∨ h.cx.context ≠ 1) :
    (call_mode dir store mkeys0 pcon h).pcon = (release_cursor pcon h).1 := by
  unfold call_mode at hn ⊢
  by_cases h1 : h.cx.context = 1
  · have hd1 : dir = 1 := by
      rcases hd with hd | hd
      · exact hd
      · exact absurd h1 hd
    rw [if_pos h1] at hn ⊢
    unfold call_order at hn ⊢
    dsimp only at hn ⊢
    by_cases h5 : h.cx.pqr_prev.argc < 1
    · rw [if_pos h5]; rfl
    · rw [if_neg h5] at hn ⊢
      by_cases h6 : (dbx_global_order h.cx.dbtype store h.cx.pqr_prev dir mkeys0).1 ≠ 0
      · rw [if_pos h6, if_pos hd1]
        exact release_cursor_congr _ _ _ rfl rfl
      · rw [if_neg h6] at hn
        exact absurd hn (by simp)
  · rw [if_neg h1] at hn ⊢
    by_cases h2 : h.cx.context = 2
    · rw [if_pos h2] at hn ⊢
      unfold call_query at hn ⊢
      cases hs : (mcursor_step store dir h.cx).2 with
      | some ks => rw [hs] at hn; exact absurd hn (by simp)
      | none => simp only [hs]
    · rw [if_neg h2] at hn ⊢
      by_cases h3 : h.cx.context = 9
      · rw [if_pos h3] at hn ⊢
        unfold call_directory at hn ⊢
        dsimp only at hn ⊢
        by_cases h5 : (dbx_global_directory h.cx.dbtype store h.cx.pqr_prev h.global_name dir
            mkeys0).1 ≠ 0
        · rw [if_pos h5]
          exact release_cursor_congr _ _ _ rfl rfl
        · rw [if_neg h5] at hn
          exact absurd hn (by simp)
      · rw [if_neg h3] at hn ⊢
        by_cases h4 : h.cx.context = 11
        · rw [if_pos h4] at hn ⊢
          unfold call_sql at hn ⊢
          by_cases h5 : h.psql = false
          · rw [if_pos h5]; rfl
          · rw [if_neg h5, if_neg (by decide)] at hn
            exact absurd hn (by simp)
        · rw [if_neg h4] at hn
          exact absurd hn (by simp)

theorem call_null_release (dir : Int) (store : Store) (mkeys0 : ArgArray) (pcon : DBXCON)
    (h : CursorHandle) (args : List JsArg)
    (hn : (mcursor_call dir store mkeys0 pcon h args).ret = JsReturn.null)
    (hd : dir = 1 ∨ h.cx.context ≠ 1) :
    (mcursor_call dir store mkeys0 pcon h args).pcon = (release_cursor pcon h).1 := by
  unfold mcursor_call at hn ⊢
  by_cases h1 : h.cx.pcursor = false
  · rw [if_pos h1]; rfl
  · rw [if_neg h1] at hn ⊢
    by_cases h2 : (DBX_CALLBACK_FUN args).1 ≥ DBX_MAXARGS
    · rw [if_pos h2] at hn; exact absurd hn (by simp)
    · rw [if_neg h2] at hn ⊢
      by_cases h3 : (DBX_CALLBACK_FUN args).2 = true
      · rw [if_pos h3] at hn; exact absurd hn (by simp)
      · rw [if_neg h3] at hn ⊢
        exact call_mode_null_release _ _ _ _ _ hn hd

/-- The arguments of a call that ends with a function. -/
theorem callback_fun_snoc (args : List JsArg) :
    DBX_CALLBACK_FUN (args ++ [JsArg.function]) = (args.length, true) := by
  unfold DBX_CALLBACK_FUN
  rw [if_pos ⟨by simp, by simp⟩]
  simp

/-- The first step of `dbx_cursor_reset` on LMDB leaves the handle with a cursor and
the depth of read transactions one above the depth without the cursor of the
handle. -/
theorem reopen_cursor_lmdb (pcon : DBXCON) (h : CursorHandle)
    (hl : h.cx.dbtype = DBX_DBTYPE_LMDB) :
    (reopen_cursor pcon h).2.cx.pcursor = true ∧
    (reopen_cursor pcon h).2.cx.dbtype = DBX_DBTYPE_LMDB ∧
    (reopen_cursor pcon h).1.tlevelro =
      (if h.cx.pcursor = true then pcon.tlevelro - 1 else pcon.tlevelro) + 1 ∧
    (reopen_cursor pcon h).1.queued = pcon.queued := by
  unfold reopen_cursor
  rw [if_neg (by rw [hl]; decide), if_pos hl]
  refine ⟨rfl, hl, ?_, ?_⟩
  · unfold lmdb_start_qro_transaction lmdb_start_ro_transaction lmdb_commit_qro_transaction
      lmdb_commit_ro_transaction
    split_ifs <;> simp
  · unfold lmdb_start_qro_transaction lmdb_start_ro_transaction lmdb_commit_qro_transaction
      lmdb_commit_ro_transaction
    split_ifs <;> rfl

/-- `dbx_cursor_reset` changes the connection and the cursor of the handle in its
first step only. -/
theorem cursor_reset_cx_open (pcon : DBXCON) (h : CursorHandle) (q : QueryArgs)
    (pmeth_int32 : Nat → Int) (mem_prev mem_next : Bytes) :
    (dbx_cursor_reset_cx pcon h q pmeth_int32 mem_prev mem_next).1 = (reopen_cursor pcon h).1 ∧
    (dbx_cursor_reset_cx pcon h q pmeth_int32 mem_prev mem_next).2.1.cx.pcursor =
      (reopen_cursor pcon h).2.cx.pcursor ∧
    (dbx_cursor_reset_cx pcon h q pmeth_int32 mem_prev mem_next).2.1.cx.dbtype =
      (reopen_cursor pcon h).2.cx.dbtype := by
  unfold dbx_cursor_reset_cx
  dsimp only
  cases q.sql with
  | some s => exact ⟨rfl, rfl, rfl⟩
  | none =>
    cases q.global with
    | none => exact ⟨rfl, rfl, rfl⟩
    | some g => exact ⟨rfl, rfl, rfl⟩

/-- `close` without arguments: the connection is left as the release of the backend
cursor leaves it, and the handle has no cursor. -/
theorem close_release (p : DBXCON) (g : CursorHandle) :
    (mcursor_Close p g []).pcon = (release_cursor p g).1 ∧
    (mcursor_Close p g []).h.cx.pcursor = false := by
  unfold mcursor_Close
  rw [if_neg (by decide), if_neg (by decide)]
  exact ⟨rfl, release_cursor_closed p g⟩

/-- A second `close` changes nothing. -/
theorem close_twice (p : DBXCON) (g : CursorHandle) :
    mcursor_Close (mcursor_Close p g []).pcon (mcursor_Close p g []).h [] =
      mcursor_Close p g [] := by
  have hc := (close_release p g).2
  have hr := release_cursor_of_closed (mcursor_Close p g []).pcon (mcursor_Close p g []).h hc
  have e : mcursor_Close (mcursor_Close p g []).pcon (mcursor_Close p g []).h [] =
      { pcon := (release_cursor (mcursor_Close p g []).pcon (mcursor_Close p g []).h).1,
        h := { (release_cursor (mcursor_Close p g []).pcon (mcursor_Close p g []).h).2 with
               qr_set := false, psql := false },
        ret := JsReturn.undefined } := by
    unfold mcursor_Close
    rw [if_neg (by decide), if_neg (by decide)]
  rw [e, hr]
  unfold mcursor_Close
  rw [if_neg (by decide), if_neg (by decide)]

/-- On LMDB the read transaction is live after the first step of
`dbx_cursor_reset`, when it was live exactly while the depth was positive and an
open cursor counted in the depth. -/
theorem reopen_cursor_live (pcon : DBXCON) (h : CursorHandle)
    (hl : h.cx.dbtype = DBX_DBTYPE_LMDB)
    (hi : 0 ≤ pcon.tlevelro ∧ (pcon.ro_live = true ↔ 0 < pcon.tlevelro) ∧
      (h.cx.pcursor = true → 1 ≤ pcon.tlevelro)) :
    (reopen_cursor pcon h).1.ro_live = true := by
  obtain ⟨h0, h1, h2⟩ := hi
  unfold reopen_cursor
  rw [if_neg (by rw [hl]; decide), if_pos hl]
  unfold lmdb_start_qro_transaction lmdb_start_ro_transaction lmdb_commit_qro_transaction
    lmdb_commit_ro_transaction
  by_cases hp : h.cx.pcursor = true
  · have h3 := h2 hp
    rw [if_pos hp]
    by_cases h4 : pcon.tlevelro > 1
    · rw [if_pos h4]
      dsimp only
      rw [if_pos (by omega)]
      exact h1.mpr (by omega)
    · rw [if_neg h4]
      dsimp only
      rw [if_neg (by omega), if_pos rfl]
  · rw [if_neg hp]
    by_cases h4 : pcon.tlevelro ≠ 0
    · rw [if_pos h4]
      exact h1.mpr (by omega)
    · rw [if_neg h4]
      split_ifs <;> rfl

/-! ## The directory cursor -/

theorem split_key_types_csize (keys : ArgArray) (keyn : Nat) :
    ∀ (n j : Nat), (getArg (split_key_types keys keyn n) j).csize = (getArg keys j).csize := by
  intro n
  induction n with
  | zero => intro j; rfl
  | succ n ih =>
    intro j
    simp only [split_key_types]
    split_ifs
    · by_cases hj : j = n
      · subst hj; rw [getArg_setArg_same]; exact ih j
      · rw [getArg_setArg_other _ _ _ _ hj]; exact ih j
    · exact ih j

theorem open_slot_keep_first (key : Bytes) (s : SplitState) (hlen tlen : Nat) (hk : 2 ≤ s.keyn) :
    getArg (open_slot key s hlen tlen).keys 0 = getArg s.keys 0 := by
  simp only [open_slot]
  split_ifs
  · rw [getArg_setArg_other _ _ _ _ (by omega)]
    simp only [close_slot, if_pos (show s.keyn > 0 by omega)]
    rw [getArg_setArg_other _ _ _ _ (by omega)]
  · rw [getArg_setArg_other _ _ _ _ (by omega)]
    simp only [close_slot, if_pos (show s.keyn > 0 by omega)]
    rw [getArg_setArg_other _ _ _ _ (by omega)]

theorem run_slots_keep_first (key : Bytes) : ∀ (slots : List (Bytes × Bytes)) (s : SplitState),
    2 ≤ s.keyn → getArg (run_slots key s slots).keys 0 = getArg s.keys 0
  | [], s, _ => rfl
  | ht :: rest, s, hk => by
    rw [run_slots, run_slots_keep_first key rest _ (by simp [open_slot]; omega)]
    exact open_slot_keep_first key s _ _ hk

/-- The cumulative size that `dbx_split_key` records for the first slot of a run of
slots: the length of its lead and of its text. -/
theorem split_key_first_csize (keys0 : ArgArray) (first : Bytes × Bytes)
    (rest : List (Bytes × Bytes))
    (hw : ∀ ht ∈ first :: rest, isLead ht.1 ∧ decodableText ht.2 = true) :
    (getArg (dbx_split_key keys0 (slotsBytes (first :: rest))
      (slotsBytes (first :: rest)).length).1 0).csize = first.1.length + first.2.length := by
  set key := slotsBytes (first :: rest) with hkey
  have hrun := split_key_loop_run key (first :: rest) [] { keys := keys0 } key.length hw
    (by simp [hkey]) rfl (by simp)
  simp only [dbx_split_key, split_key_types_csize, hrun]
  simp only [run_slots]
  cases rest with
  | nil =>
    simp only [run_slots, open_slot, close_slot]
    have hl : key.length = first.1.length + first.2.length := by
      rw [hkey]; simp [slotsBytes]
    simp [getArg_setArg_same, hl]
  | cons ht rest2 =>
    simp only [run_slots]
    have h2 : 2 ≤ (open_slot key (open_slot key { keys := keys0 } first.1.length first.2.length)
        ht.1.length ht.2.length).keyn := by simp [open_slot]
    have hk : (run_slots key (open_slot key (open_slot key { keys := keys0 } first.1.length
        first.2.length) ht.1.length ht.2.length) rest2).keyn ≥ 2 := by
      rw [run_slots_keyn]; omega
    have e1 : ∀ (s : SplitState), 2 ≤ s.keyn →
        getArg (close_slot s.keys s.keyn key s.nstart key.length) 0 = getArg s.keys 0 := by
      intro s hs
      simp only [close_slot, if_pos (show s.keyn > 0 by omega)]
      rw [getArg_setArg_other _ _ _ _ (by omega)]
    rw [e1 _ hk, run_slots_keep_first key rest2 _ h2]
    simp only [open_slot]
    split_ifs <;>
    · rw [getArg_setArg_other _ _ _ _ (by simp)]
      simp [close_slot, getArg_setArg_same]
theorem plain_name_slot (name : Bytes) (h : plainName name = true) :
    decodableText (stripName name) = true ∧ nameSlot name = ([0, 3], stripName name) := by
  simp only [plainName, Bool.and_eq_true, decide_eq_true_eq] at h
  exact ⟨h.1, rfl⟩

/-- The key of a record of the global `t`: the lead 00 03, the name, and the slots
of the subscripts. -/
theorem namedBy_flat (key t : Bytes) (h : namedBy key t) :
    decodableText t = true ∧ ∃ subs : List JsValue, (∀ a ∈ subs, subscriptArg a = true) ∧
      key = [0, 3] ++ t ++ (subs.map slotBytes).flatten ∧
      key = slotsBytes (([0, 3], t) :: subs.map argSlot) ∧
      wfSlots (([0, 3], t) :: subs.map argSlot) := by
  obtain ⟨name, subs, hp, hs, ht, hk⟩ := h
  obtain ⟨hd, hn⟩ := plain_name_slot name hp
  have hsd : ∀ a ∈ subs, decodableArg a = true := fun a ha => subscriptArg_decodable a (hs a ha)
  have hw := wfSlots_reference name subs hd hsd
  have hr := reference_slots name subs hd hsd
  have h0 := name_slot_bytes name hd
  rw [hn] at hw hr h0
  subst ht
  refine ⟨hd, subs, hs, ?_, hk.trans hr, hw⟩
  rw [hk, GlobalReference_ibuffer, h0]

/-- What `dbx_split_key` finds in the key of a record of the global `t`: at least
one slot, the first with the text `t` and the cumulative size of the lead and the
name. -/
theorem namedBy_split (keys0 : ArgArray) (key t : Bytes) (h : namedBy key t) :
    1 ≤ (dbx_split_key keys0 key key.length).2 ∧
    (getArg (dbx_split_key keys0 key key.length).1 0).text = t ∧
    (getArg (dbx_split_key keys0 key key.length).1 0).csize = t.length + 2 := by
  obtain ⟨_, subs, _, _, hk, hw⟩ := namedBy_flat key t h
  rw [hk]
  refine ⟨?_, ?_, ?_⟩
  · rw [(split_key_slots keys0 _ _ hw).1]; omega
  · exact split_key_slot_text keys0 _ _ hw 0 ([0, 3], t) (List.getElem?_cons_zero ..)
  · rw [split_key_first_csize keys0 _ _ hw]
    simp only [List.length_cons, List.length_nil]
    omega

theorem cstr_append_zero (t x : Bytes) (ht : ∀ c ∈ t, c ≠ 0) (hx : startsZero x) :
    cstr (t ++ x) = t := by
  induction t with
  | nil =>
    rcases hx with hx | ⟨y, hx⟩
    · rw [hx]; rfl
    · rw [hx]; simp [cstr]
  | cons c t ih =>
    have hc : c ≠ 0 := ht c (List.mem_cons_self _ _)
    have := ih (fun d hd => ht d (List.mem_cons_of_mem _ hd))
    simp only [cstr] at this ⊢
    rw [List.cons_append, List.takeWhile_cons_of_pos (by simpa using hc), this]

theorem keyName_of (key t : Bytes) (h : namedBy key t) : keyName key = t := by
  obtain ⟨hd, subs, _, hk, _, _⟩ := namedBy_flat key t h
  rw [hk, keyName]
  have e : ([0, 3] ++ t ++ (subs.map slotBytes).flatten).drop 2 =
      t ++ (subs.map slotBytes).flatten := by simp
  rw [e]
  exact cstr_append_zero t _ (decodableText_spec t hd).2 (slots_tail_startsZero subs)

/-- Texts without a zero byte compare as the keys that hold them, whatever follows
them: what follows the lower text starts with a zero byte or is empty. -/
theorem text_lt_append : ∀ (t1 t2 x y : Bytes), (∀ c ∈ t1, c ≠ 0) → (∀ c ∈ t2, c ≠ 0) →
    startsZero x → bytesLt t1 t2 = true → bytesLt (t1 ++ x) (t2 ++ y) = true
  | [], [], _, _, _, _, _, h => by simp [bytesLt] at h
  | [], c :: t2, x, y, _, h2, hx, _ => by
    have hc : c ≠ 0 := h2 c (List.mem_cons_self _ _)
    rcases hx with hx | ⟨x1, hx⟩
    · rw [hx]; rfl
    · rw [hx]
      simp only [List.nil_append, List.cons_append, bytesLt, Bool.or_eq_true, decide_eq_true_eq]
      left; omega
  | _ :: _, [], _, _, _, _, _, h => by simp [bytesLt] at h
  | a :: t1, b :: t2, x, y, h1, h2, hx, h => by
    simp only [bytesLt, Bool.or_eq_true, decide_eq_true_eq, Bool.and_eq_true] at h
    simp only [List.cons_append, bytesLt, Bool.or_eq_true, decide_eq_true_eq, Bool.and_eq_true]
    rcases h with h | ⟨h3, h4⟩
    · exact Or.inl h
    · exact Or.inr ⟨h3, text_lt_append t1 t2 x y
        (fun d hd => h1 d (List.mem_cons_of_mem _ hd))
        (fun d hd => h2 d (List.mem_cons_of_mem _ hd)) hx h4⟩

/-- The keys of two globals stand in the order of the names. -/
theorem named_lt (k1 t1 k2 t2 : Bytes) (h1 : namedBy k1 t1) (h2 : namedBy k2 t2)
    (h : bytesLt t1 t2 = true) : bytesLt k1 k2 = true := by
  obtain ⟨hd1, s1, _, e1, _, _⟩ := namedBy_flat k1 t1 h1
  obtain ⟨hd2, s2, _, e2, _, _⟩ := namedBy_flat k2 t2 h2
  rw [e1, e2, List.append_assoc, List.append_assoc, bytesLt_append_left]
  exact text_lt_append t1 t2 _ _ (decodableText_spec t1 hd1).2 (decodableText_spec t2 hd2).2
    (slots_tail_startsZero s1) h

theorem named_le (k1 t1 k2 t2 : Bytes) (h1 : namedBy k1 t1) (h2 : namedBy k2 t2)
    (h : bytesLe k1 k2 = true) : bytesLt t2 t1 = false := by
  by_contra hc
  have hlt : bytesLt t2 t1 = true := by simpa using hc
  exact bytesLe_not_lt _ _ h (named_lt k2 t2 k1 t1 h2 h1 hlt)

/-- A key of a global above `t` is at or above the key from which the cursor goes
on after `t`. -/
theorem above_advance (k t t2 : Bytes) (ht : ∀ c ∈ t, c ≠ 0) (h2 : namedBy k t2)
    (h : bytesLt t t2 = true) : bytesLt ([0, 3] ++ t ++ [0, 255]) k = true := by
  obtain ⟨hd2, s2, _, e2, _, _⟩ := namedBy_flat k t2 h2
  rw [e2, List.append_assoc, List.append_assoc, bytesLt_append_left]
  exact text_lt_append t t2 _ _ ht (decodableText_spec t2 hd2).2 (Or.inr ⟨_, rfl⟩) h

theorem above_seed (k t t2 : Bytes) (ht : ∀ c ∈ t, c ≠ 0) (h2 : namedBy k t2)
    (h : bytesLt t t2 = true) : bytesLt ([0, 3] ++ t) k = true := by
  obtain ⟨hd2, s2, _, e2, _, _⟩ := namedBy_flat k t2 h2
  rw [e2, List.append_assoc, bytesLt_append_left]
  have := text_lt_append t t2 [] (s2.map slotBytes).flatten ht (decodableText_spec t2 hd2).2
    (Or.inl rfl) h
  simpa using this

/-- A key of the global `t` is at or above the key of `t` alone, and below the key
from which the cursor goes on after `t`. -/
theorem same_name_between (k t : Bytes) (h : namedBy k t) :
    bytesLe ([0, 3] ++ t) k = true ∧ bytesLt k ([0, 3] ++ t ++ [0, 255]) = true := by
  obtain ⟨_, s, _, e, _, _⟩ := namedBy_flat k t h
  rw [e]
  refine ⟨?_, tail_below_advance _ s⟩
  rw [bytesLe_iff]
  by_cases hs : (s.map slotBytes).flatten = []
  · left; rw [hs]; simp
  · right; exact bytesLt_append_nonempty _ _ hs

/-- A key of a global below `t` is below the key of `t` alone. -/
theorem below_seed (k t t2 : Bytes) (ht : ∀ c ∈ t, c ≠ 0) (h2 : namedBy k t2)
    (h : bytesLt t2 t = true) : bytesLt k ([0, 3] ++ t) = true := by
  obtain ⟨hd2, s2, _, e2, _, _⟩ := namedBy_flat k t2 h2
  rw [e2, List.append_assoc, bytesLt_append_left]
  have := text_lt_append t2 t _ [] (decodableText_spec t2 hd2).2 ht (slots_tail_startsZero s2) h
  simpa using this

/-- Every key of a global is above 00 00. -/
theorem above_start (k t : Bytes) (h : namedBy k t) : bytesLt [0, 0] k = true := by
  obtain ⟨_, s, _, e, _, _⟩ := namedBy_flat k t h
  rw [e]
  simp [bytesLt]
theorem named_head (key x : Bytes) (h : namedBy key x) (buf : Bytes) :
    (storeKey buf key).getD 0 0 = 0 := by
  obtain ⟨_, s, _, e, _, _⟩ := namedBy_flat key x h
  rw [e]
  simp [storeKey]

/-- One turn of the loop of `bdb_next` and `lmdb_next` for a key area with the one
slot of a name `t`, when the read returns a key of the global `x`: the key is
accepted when `x` is not `t`, and the loop goes on from the key of `t` followed by
00 ff when it is. -/
theorem scan_turn (dbtype : Nat) (store : Store) (hf : fitStore store) (pkey : DBXKEY)
    (fuel : Nat) (s : NextState) (r : Record) (x t : Bytes)
    (hr : c_set_range store (s.buf.take s.size) = some r) (hx : namedBy r.1 x)
    (ha : pkey.argc = 1) (ht : (getArg pkey.args 0).text = t) (hz : ∀ c ∈ t, c ≠ 0) :
    next_scan dbtype store pkey (fuel + 1) s =
      if x = t then next_scan dbtype store pkey fuel
          { buf := pokeByte (pokeByte (storeKey s.buf r.1) (getArg pkey.args 0).csize 0x00)
              ((getArg pkey.args 0).csize + 1) 0xff,
            size := (getArg pkey.args 0).csize + 2,
            mkeys := (dbx_split_key s.mkeys r.1 r.1.length).1,
            len_used := if dbtype = DBX_DBTYPE_LMDB then r.1.length else s.len_used }
      else NextEnd.hit r.1 (dbx_split_key s.mkeys r.1 r.1.length).1 := by
  obtain ⟨h1, h2, _⟩ := namedBy_split s.mkeys r.1 x hx
  have hxz := (decodableText_spec x (namedBy_flat r.1 x hx).1).2
  rw [next_scan, cursor_get_set_range dbtype _ _ store hf (le_refl _) (by decide), hr]
  dsimp only
  rw [if_neg (by rw [named_head r.1 x hx]; simp), ha]
  simp only [show (1 : Nat) < 2 from by decide, if_true, Nat.sub_self]
  rw [if_pos h1, ht, h2]
  by_cases hxt : x = t
  · rw [if_pos hxt, if_pos ((strncmp_eq_iff t x hz hxz).mpr hxt.symm)]
  · rw [if_neg hxt, if_neg (fun hc => hxt ((strncmp_eq_iff t x hz hxz).mp hc).symm)]

theorem scan_none (dbtype : Nat) (store : Store) (pkey : DBXKEY) (fuel : Nat) (s : NextState)
    (hr : c_set_range store (s.buf.take s.size) = none) :
    next_scan dbtype store pkey (fuel + 1) s = NextEnd.stop YDB_NODE_END (s.buf.take s.len_used) := by
  rw [next_scan, hr]
  rfl

theorem seedKey_length (t : Bytes) : (seedKey t).length = t.length + 2 := by
  unfold seedKey
  split_ifs with h
  · rw [h]; rfl
  · simp

/-- The key of the global `x` alone, as the first bytes of a key of `x`, and what
`dbx_split_key` finds in it. -/
theorem root_split (keys0 : ArgArray) (key x : Bytes) (h : namedBy key x) :
    key.take (x.length + 2) = [0, 3] ++ x ∧
    (dbx_split_key keys0 ([0, 3] ++ x) (x.length + 2)).2 = 1 ∧
    (getArg (dbx_split_key keys0 ([0, 3] ++ x) (x.length + 2)).1 0).text = x ∧
    (getArg (dbx_split_key keys0 ([0, 3] ++ x) (x.length + 2)).1 0).csize = x.length + 2 := by
  obtain ⟨hd, subs, _, hk, _, _⟩ := namedBy_flat key x h
  have hw : wfSlots [(([0, 3] : Bytes), x)] := by
    intro ht hm
    rw [List.mem_singleton] at hm
    rw [hm]
    exact ⟨by simp [isLead], hd⟩
  have e : slotsBytes [(([0, 3] : Bytes), x)] = [0, 3] ++ x := by simp [slotsBytes]
  have el : ([0, 3] ++ x : Bytes).length = x.length + 2 := by simp
  have h1 := (split_key_slots keys0 ([0, 3], x) [] hw).1
  have h2 := split_key_slot_text keys0 ([0, 3], x) [] hw 0 ([0, 3], x) (List.getElem?_cons_zero ..)
  have h3 := split_key_first_csize keys0 ([0, 3], x) [] hw
  rw [e, el] at h1 h2 h3
  refine ⟨?_, h1, h2, ?_⟩
  · rw [hk, ← el, List.take_left]
  · rw [h3]; simp; omega

/-- The branch "next key found" of a directory cursor on a key of the global `x`:
`x` is returned and the key area holds the key of `x` alone. -/
theorem accept_key_named (qr : DBXQR) (keys0 : ArgArray) (key x : Bytes) (h : namedBy key x)
    (ha : qr.argc = 1) :
    (accept_key qr key (dbx_split_key keys0 key key.length).1).1 = x ∧
    DirState (accept_key qr key (dbx_split_key keys0 key key.length).1).2 x := by
  obtain ⟨hd, _⟩ := namedBy_flat key x h
  obtain ⟨_, _, hc⟩ := namedBy_split keys0 key x h
  obtain ⟨r1, r2, r3, r4⟩ := root_split qr.args key x h
  have hne := (decodableText_spec x hd).1
  have el : ([0, 3] ++ x : Bytes).length = x.length + 2 := by simp
  unfold accept_key
  dsimp only
  rw [ha, Nat.sub_self, hc, r1, el, r2]
  refine ⟨r3, rfl, r3, r4, rfl, ?_, Or.inr hd⟩
  dsimp only
  rw [← el, storeKey_take]
  unfold seedKey
  rw [if_neg hne]
theorem zero_free_of_state (t : Bytes) (h : t = [] ∨ decodableText t = true) :
    ∀ c ∈ t, c ≠ 0 := by
  rcases h with h | h
  · rw [h]; simp
  · exact (decodableText_spec t h).2

theorem above_seedKey (k t y : Bytes) (ht : ∀ c ∈ t, c ≠ 0) (h2 : namedBy k y)
    (h : bytesLt t y = true) : bytesLe (seedKey t) k = true := by
  unfold seedKey
  split_ifs
  · exact bytesLe_of_lt _ _ (above_start k y h2)
  · exact bytesLe_of_lt _ _ (above_seed k t y ht h2 h)

theorem below_seedKey (k t y : Bytes) (ht : ∀ c ∈ t, c ≠ 0) (h2 : namedBy k y)
    (h : bytesLt y t = true) : bytesLt k (seedKey t) = true := by
  unfold seedKey
  split_ifs with h0
  · rw [h0] at h
    cases y <;> simp [bytesLt] at h
  · exact below_seed k t y ht h2 h

/-- When the search from the key `K` finds nothing, no global above `t` has a
record, provided the keys of the globals above `t` are at or above `K`. -/
theorem none_facts (store : Store) (K t : Bytes)
    (hA : ∀ k y, namedBy k y → bytesLt t y = true → bytesLe K k = true)
    (hr : c_set_range store K = none) :
    ∀ y, hasName store y → bytesLt t y = false := by
  intro y ⟨r, hm, hn⟩
  by_contra hc
  have hlt : bytesLt t y = true := by simpa using hc
  have := c_set_range_none_spec store K hr r hm
  rw [hA r.1 y hn hlt] at this
  exact absurd this (by simp)

/-- When the search from the key `K` finds a key of a global `x` other than `t`, `x`
is the least global above `t` that has a record, provided the keys of the globals
above `t` are at or above `K` and those of the globals below `t` are below `K`. -/
theorem hit_facts (store : Store) (hs : storeSorted store) (K t x : Bytes) (r : Record)
    (hA : ∀ k y, namedBy k y → bytesLt t y = true → bytesLe K k = true)
    (hB : ∀ k y, namedBy k y → bytesLt y t = true → bytesLt k K = true)
    (hr : c_set_range store K = some r) (hx : namedBy r.1 x) (hne : x ≠ t) :
    hasName store x ∧ bytesLt t x = true ∧
      ∀ y, hasName store y → bytesLt t y = true → bytesLt y x = false := by
  obtain ⟨hm, hle, hmin⟩ := c_set_range_spec store hs K r hr
  refine ⟨⟨r, hm, hx⟩, ?_, ?_⟩
  · rcases bytesLt_total x t hne with h | h
    · exact absurd (hB r.1 x hx h) (fun hc => bytesLe_not_lt _ _ hle hc)
    · exact h
  · intro y ⟨r2, hm2, hn2⟩ hty
    exact named_le r.1 x r2.1 y hx hn2 (hmin r2 hm2 (hA r2.1 y hn2 hty))

/-- The loop of `bdb_next` and `lmdb_next` for a directory cursor that has listed
`t` last: it ends without a key when no global above `t` has a record, and with a
key of the least such global otherwise. -/
theorem scan_directory (dbtype : Nat) (store : Store) (pkey : DBXKEY) (mkeys0 : ArgArray)
    (len0 : Nat) (t : Bytes) (hs : storeSorted store) (hf : fitStore store)
    (hd : directoryStore store) (ha : pkey.argc = 1) (ht : (getArg pkey.args 0).text = t)
    (hc : (getArg pkey.args 0).csize = t.length + 2) (hk : pkey.ibuffer = seedKey t)
    (hz : t = [] ∨ decodableText t = true) :
    ((∀ y, hasName store y → bytesLt t y = false) ∧
      ∃ out, next_scan dbtype store pkey 10
        { buf := pkey.ibuffer, size := pkey.ibuffer_used, mkeys := mkeys0, len_used := len0 } =
          NextEnd.stop YDB_NODE_END out) ∨
    ∃ (x key : Bytes) (keys0 : ArgArray), namedBy key x ∧ hasName store x ∧ bytesLt t x = true ∧
      (∀ y, hasName store y → bytesLt t y = true → bytesLt y x = false) ∧
      next_scan dbtype store pkey 10
        { buf := pkey.ibuffer, size := pkey.ibuffer_used, mkeys := mkeys0, len_used := len0 } =
          NextEnd.hit key (dbx_split_key keys0 key key.length).1 := by
  have tz := zero_free_of_state t hz
  have e0 : (pkey.ibuffer.take pkey.ibuffer_used) = seedKey t := by
    unfold DBXKEY.ibuffer_used
    rw [List.take_length, hk]
  cases hr : c_set_range store (seedKey t) with
  | none =>
    left
    exact ⟨none_facts store _ t (fun k y h1 h2 => above_seedKey k t y tz h1 h2) hr, _,
      scan_none dbtype store pkey 9 _ (by rw [e0]; exact hr)⟩
  | some r =>
    obtain ⟨hm, hle, _⟩ := c_set_range_spec store hs _ r hr
    obtain ⟨x, hx⟩ := hd r hm
    have st := scan_turn dbtype store hf pkey 9
      { buf := pkey.ibuffer, size := pkey.ibuffer_used, mkeys := mkeys0, len_used := len0 }
      r x t (by rw [e0]; exact hr) hx ha ht tz
    by_cases hxt : x = t
    · rw [if_pos hxt] at st
      subst hxt
      obtain ⟨hdx, subs, _, ek, _, _⟩ := namedBy_flat r.1 x hx
      have el : ([0, 3] ++ x : Bytes).length = x.length + 2 := by simp
      have e1 : (pokeByte (pokeByte (storeKey pkey.ibuffer r.1) (getArg pkey.args 0).csize 0x00)
          ((getArg pkey.args 0).csize + 1) 0xff).take ((getArg pkey.args 0).csize + 2) =
          [0, 3] ++ x ++ [0, 255] := by
        rw [hc, ← el]
        have : storeKey pkey.ibuffer r.1 =
            ([0, 3] ++ x) ++ ((subs.map slotBytes).flatten ++ pkey.ibuffer.drop r.1.length) := by
          unfold storeKey
          rw [ek, List.append_assoc]
        rw [this]
        exact poke_advance _ _
      have hA : ∀ k y, namedBy k y → bytesLt x y = true →
          bytesLe ([0, 3] ++ x ++ [0, 255]) k = true :=
        fun k y h1 h2 => bytesLe_of_lt _ _ (above_advance k x y tz h1 h2)
      have hB : ∀ k y, namedBy k y → bytesLt y x = true →
          bytesLt k ([0, 3] ++ x ++ [0, 255]) = true :=
        fun k y h1 h2 => bytesLt_trans _ _ _ (below_seed k x y tz h1 h2)
          (bytesLt_append_nonempty _ _ (by simp))
      cases hr2 : c_set_range store ([0, 3] ++ x ++ [0, 255]) with
      | none =>
        left
        rw [st]
        exact ⟨none_facts store _ x hA hr2, _,
          scan_none dbtype store pkey 8 _ (by rw [e1]; exact hr2)⟩
      | some r2 =>
        right
        obtain ⟨hm2, hle2, _⟩ := c_set_range_spec store hs _ r2 hr2
        obtain ⟨y, hy⟩ := hd r2 hm2
        have hne : y ≠ x := by
          intro hc2
          rw [hc2] at hy
          exact bytesLe_not_lt _ _ hle2 (same_name_between r2.1 x hy).2
        obtain ⟨f1, f2, f3⟩ := hit_facts store hs _ x y r2 hA hB hr2 hy hne
        refine ⟨y, r2.1, (dbx_split_key mkeys0 r.1 r.1.length).1, hy, f1, f2, f3, ?_⟩
        rw [st, scan_turn dbtype store hf pkey 8 _ r2 y x ?_ hy ha ht tz, if_neg hne]
        rw [e1]; exact hr2
    · right
      rw [if_neg hxt] at st
      obtain ⟨f1, f2, f3⟩ := hit_facts store hs _ t x r
        (fun k y h1 h2 => above_seedKey k t y tz h1 h2)
        (fun k y h1 h2 => below_seedKey k t y tz h1 h2) hr hx hxt
      exact ⟨x, r.1, _, hx, f1, f2, f3, st⟩
/-- `bdb_next` and `lmdb_next` on the key area of a directory cursor that has listed
`t` last: the end of the data when no global above `t` has a record, the least
such global otherwise, the key area then being that of a cursor that has listed
it. -/
theorem next_cx_directory (dbtype : Nat) (store : Store) (qr : DBXQR) (mkeys0 : ArgArray)
    (t : Bytes) (hs : storeSorted store) (hf : fitStore store) (hd : directoryStore store)
    (hq : DirState qr t) :
    ((∀ y, hasName store y → bytesLt t y = false) ∧
      (next_cx dbtype store qr mkeys0).1 = YDB_NODE_END) ∨
    ∃ x, hasName store x ∧ bytesLt t x = true ∧
      (∀ y, hasName store y → bytesLt t y = true → bytesLt y x = false) ∧
      (next_cx dbtype store qr mkeys0).1 = CACHE_SUCCESS ∧
      (next_cx dbtype store qr mkeys0).2.1 = x ∧
      DirState (next_cx dbtype store qr mkeys0).2.2 x := by
  obtain ⟨ha, ht, hc, hu, hk, hz⟩ := hq
  rcases scan_directory dbtype store (qr_key qr) mkeys0 0 t hs hf hd ha ht hc hk hz with
    ⟨h1, out, h2⟩ | ⟨x, key, keys0, hx, h1, h2, h3, h4⟩
  · left
    refine ⟨h1, ?_⟩
    unfold next_cx
    rw [h2]
    rfl
  · right
    obtain ⟨a1, a2⟩ := accept_key_named qr keys0 key x hx ha
    have hne : x.length ≠ 0 := by
      have := (decodableText_spec x (namedBy_flat key x hx).1).1
      intro hc2
      exact this (List.length_eq_zero.mp hc2)
    have e : next_exit (CACHE_SUCCESS, x) = (CACHE_SUCCESS, x) := by
      simp [next_exit, hne]
    refine ⟨x, h1, h2, h3, ?_, ?_, ?_⟩
    · unfold next_cx
      rw [h4]
      dsimp only
      rw [a1, e]
    · unfold next_cx
      rw [h4]
      dsimp only
      rw [a1, e]
    · unfold next_cx
      rw [h4]
      exact a2

theorem strncpy_zero_free (x : Bytes) (hz : ∀ c ∈ x, c ≠ 0) : strncpy x x.length = x := by
  unfold strncpy
  rw [List.take_length, cstr_of_no_zero x hz]
  simp

theorem global_directory_end (dbtype : Nat) (store : Store) (qr : DBXQR) (gn : Bytes)
    (mkeys0 : ArgArray) (h : (next_cx dbtype store qr mkeys0).1 = YDB_NODE_END) :
    (dbx_global_directory dbtype store qr gn 1 mkeys0).1 = 1 ∧
    (dbx_global_directory dbtype store qr gn 1 mkeys0).2.1 = (next_cx dbtype store qr mkeys0).2.2 := by
  unfold dbx_global_directory
  dsimp only
  rw [if_pos rfl, if_neg (by rw [h]; decide)]
  exact ⟨rfl, rfl⟩

theorem global_directory_hit (dbtype : Nat) (store : Store) (qr : DBXQR) (gn : Bytes)
    (mkeys0 : ArgArray) (h : (next_cx dbtype store qr mkeys0).1 = CACHE_SUCCESS) :
    dbx_global_directory dbtype store qr gn 1 mkeys0 =
      (0, (next_cx dbtype store qr mkeys0).2.2,
        strncpy (next_cx dbtype store qr mkeys0).2.1 (next_cx dbtype store qr mkeys0).2.1.length) := by
  unfold dbx_global_directory
  dsimp only
  rw [if_pos rfl, if_pos h]

/-- A call of `mcursor::Next` without arguments on a directory cursor that has
listed `t` last: null and a handle without backend cursor when no global above `t`
has a record, the least such global otherwise. -/
theorem call_directory_next (store : Store) (mkeys0 : ArgArray) (pcon : DBXCON)
    (h : CursorHandle) (t : Bytes) (hs : storeSorted store) (hf : fitStore store)
    (hd : directoryStore store)
    (hp : h.cx.pcursor = true) (hc : h.cx.context = 9) (hq : DirState h.cx.pqr_prev t) :
    ((∀ y, hasName store y → bytesLt t y = false) ∧
      (mcursor_call 1 store mkeys0 pcon h []).ret = JsReturn.null ∧
      (mcursor_call 1 store mkeys0 pcon h []).h.cx.pcursor = false) ∨
    ∃ x, hasName store x ∧ bytesLt t x = true ∧
      (∀ y, hasName store y → bytesLt t y = true → bytesLt y x = false) ∧
      (mcursor_call 1 store mkeys0 pcon h []).ret = JsReturn.text x ∧
      (mcursor_call 1 store mkeys0 pcon h []).h.cx.pcursor = true ∧
      (mcursor_call 1 store mkeys0 pcon h []).h.cx.context = 9 ∧
      DirState (mcursor_call 1 store mkeys0 pcon h []).h.cx.pqr_prev x := by
  have e : mcursor_call 1 store mkeys0 pcon h [] = call_directory 1 store mkeys0 pcon h := by
    unfold mcursor_call
    rw [if_neg (by rw [hp]; decide), if_neg (by decide), if_neg (by decide)]
    unfold call_mode
    rw [hc, if_neg (by decide), if_neg (by decide), if_pos rfl]
  rw [e]
  unfold call_directory
  dsimp only
  rcases next_cx_directory h.cx.dbtype store h.cx.pqr_prev mkeys0 t hs hf hd hq with
    ⟨h1, h2⟩ | ⟨x, h1, h2, h3, h4, h5, h6⟩
  · left
    rw [if_pos (by rw [(global_directory_end _ _ _ _ _ h2).1]; decide)]
    exact ⟨h1, rfl, cursor_eod_closed _ _⟩
  · right
    obtain ⟨kx, hm, hkx⟩ := h1
    have hz := (decodableText_spec x (namedBy_flat kx.1 x hkx).1).2
    have g := global_directory_hit h.cx.dbtype store h.cx.pqr_prev h.global_name mkeys0 h4
    rw [h5, strncpy_zero_free x hz] at g
    rw [g]
    dsimp only
    rw [if_neg (by decide)]
    exact ⟨x, ⟨kx, hm, hkx⟩, h2, h3, rfl, hp, hc, h6⟩

theorem run_closed (dir : Int) (store : Store) (mkeys0 : ArgArray) :
    ∀ (k : Nat) (pcon : DBXCON) (h : CursorHandle), h.cx.pcursor = false →
      handle_run dir store mkeys0 k pcon h = List.replicate k JsReturn.null
  | 0, _, _, _ => rfl
  | k + 1, pcon, h, hc => by
    rw [handle_run, call_on_closed dir store mkeys0 pcon h [] hc]
    dsimp only
    rw [run_closed dir store mkeys0 k pcon h hc]
    rfl

theorem countP_lt_of {α : Type} (p q : α → Bool) : ∀ (l : List α),
    (∀ a ∈ l, p a = true → q a = true) → (∃ a ∈ l, q a = true ∧ p a = false) →
    l.countP p < l.countP q
  | [], _, ⟨a, ha, _⟩ => by simp at ha
  | b :: l, hpq, ⟨a, ha, hqa, hpa⟩ => by
    have hmono : l.countP p ≤ l.countP q :=
      List.countP_mono_left (fun c hc => hpq c (List.mem_cons_of_mem _ hc))
    rw [List.countP_cons, List.countP_cons]
    rcases List.mem_cons.mp ha with hab | hal
    · subst hab
      rw [hqa, hpa]
      simp
      omega
    · have ih := countP_lt_of p q l (fun c hc => hpq c (List.mem_cons_of_mem _ hc))
        ⟨a, hal, hqa, hpa⟩
      have := hpq b (List.mem_cons_self _ _)
      cases hpb : p b
      · simp; omega
      · rw [this hpb]; simp; omega
/-- The records of the globals above `x` are fewer than those of the globals above
`t` when `x` is above `t` and has a record. -/
theorem above_count_lt (store : Store) (t x : Bytes)
    (hx : hasName store x) (htx : bytesLt t x = true) :
    store.countP (fun r => bytesLt x (keyName r.1)) <
      store.countP (fun r => bytesLt t (keyName r.1)) := by
  apply countP_lt_of
  · intro a _ h
    exact bytesLt_trans _ _ _ htx h
  · obtain ⟨r, hm, hn⟩ := hx
    refine ⟨r, hm, ?_, ?_⟩
    · rw [keyName_of r.1 x hn]; exact htx
    · rw [keyName_of r.1 x hn]; exact bytesLt_irrefl x

/-- Successive calls of `mcursor::Next` on a directory cursor that has listed `t`
last: the globals above `t` that have a record, each once and in ascending order,
then null for ever. -/
theorem directory_run (store : Store) (mkeys0 : ArgArray) (hs : storeSorted store)
    (hf : fitStore store) (hd : directoryStore store) :
    ∀ (n : Nat) (t : Bytes) (pcon : DBXCON) (h : CursorHandle),
      store.countP (fun r => bytesLt t (keyName r.1)) ≤ n →
      h.cx.pcursor = true → h.cx.context = 9 → DirState h.cx.pqr_prev t →
      ∃ names : List Bytes, names.Pairwise (fun a b => bytesLt a b = true) ∧
        (∀ x, x ∈ names ↔ hasName store x ∧ bytesLt t x = true) ∧
        ∀ extra, handle_run 1 store mkeys0 (names.length + (extra + 1)) pcon h =
          names.map JsReturn.text ++ List.replicate (extra + 1) JsReturn.null := by
  intro n
  induction n with
  | zero =>
    intro t pcon h hn hp hc hq
    rcases call_directory_next store mkeys0 pcon h t hs hf hd hp hc hq with
      ⟨h1, h2, h3⟩ | ⟨x, h1, h2, _⟩
    · refine ⟨[], List.Pairwise.nil, ?_, ?_⟩
      · intro x
        constructor
        · intro hx; simp at hx
        · rintro ⟨a, b⟩
          rw [h1 x a] at b
          exact absurd b (by simp)
      · intro extra
        rw [List.length_nil, Nat.zero_add, handle_run, h2, run_closed 1 store mkeys0 extra _ _ h3]
        rfl
    · have := above_count_lt store t x h1 h2
      omega
  | succ m ih =>
    intro t pcon h hn hp hc hq
    rcases call_directory_next store mkeys0 pcon h t hs hf hd hp hc hq with
      ⟨h1, h2, h3⟩ | ⟨x, h1, h2, h3, h4, h5, h6, h7⟩
    · refine ⟨[], List.Pairwise.nil, ?_, ?_⟩
      · intro x
        constructor
        · intro hx; simp at hx
        · rintro ⟨a, b⟩
          rw [h1 x a] at b
          exact absurd b (by simp)
      · intro extra
        rw [List.length_nil, Nat.zero_add, handle_run, h2, run_closed 1 store mkeys0 extra _ _ h3]
        rfl
    · have hlt := above_count_lt store t x h1 h2
      obtain ⟨names, p1, p2, p3⟩ := ih x (mcursor_call 1 store mkeys0 pcon h []).pcon
        (mcursor_call 1 store mkeys0 pcon h []).h (by omega) h5 h6 h7
      refine ⟨x :: names, ?_, ?_, ?_⟩
      · rw [List.pairwise_cons]
        exact ⟨fun y hy => ((p2 y).mp hy).2, p1⟩
      · intro y
        rw [List.mem_cons, p2 y]
        constructor
        · rintro (e | ⟨a, b⟩)
          · rw [e]; exact ⟨h1, h2⟩
          · exact ⟨a, bytesLt_trans _ _ _ h2 b⟩
        · rintro ⟨a, b⟩
          by_cases e : y = x
          · exact Or.inl e
          · right
            refine ⟨a, ?_⟩
            rcases bytesLt_total y x e with c | c
            · rw [h3 y a b] at c
              exact absurd c (by simp)
            · exact c
      · intro extra
        rw [List.length_cons, Nat.add_right_comm, handle_run, h4, p3 extra]
        rfl

/-- The key area, the mode and the cursor of a new handle after `dbx_cursor_reset`
for a directory cursor started from the empty name. -/
theorem directory_reset (dbtype : Nat) (pcon : DBXCON) (pmeth_int32 : Nat → Int)
    (mem_prev mem_next : Bytes)
    (hb : dbtype = DBX_DBTYPE_BDB ∨ dbtype = DBX_DBTYPE_LMDB) :
    (dbx_cursor_reset_cx pcon (dbx_cursor_init dbtype)
      { global := some [], globaldirectory := true } pmeth_int32 mem_prev mem_next).2.1.cx.pcursor
        = true ∧
    (dbx_cursor_reset_cx pcon (dbx_cursor_init dbtype)
      { global := some [], globaldirectory := true } pmeth_int32 mem_prev mem_next).2.1.cx.context
        = 9 ∧
    DirState (dbx_cursor_reset_cx pcon (dbx_cursor_init dbtype)
      { global := some [], globaldirectory := true } pmeth_int32 mem_prev mem_next).2.1.cx.pqr_prev
        [] ∧
    (dbx_cursor_reset_cx pcon (dbx_cursor_init dbtype)
      { global := some [], globaldirectory := true } pmeth_int32 mem_prev mem_next).2.2 = 0 := by
  have hp : (reopen_cursor pcon (dbx_cursor_init dbtype)).2.cx.pcursor = true := by
    unfold reopen_cursor dbx_cursor_init
    rcases hb with hb | hb
    · rw [if_pos hb]
    · rw [if_neg (by rw [hb]; decide), if_pos hb]
  refine ⟨?_, ?_, ?_, ?_⟩
  · rw [(cursor_reset_cx_open _ _ _ _ _ _).2.1]; exact hp
  · rfl
  · refine ⟨rfl, rfl, rfl, rfl, ?_, Or.inl rfl⟩
    exact storeKey_take _ [0, 0]
  · rfl

/-! ## The read transaction of a connection -/

theorem ro_step_level (op : RoOp) (pcon : DBXCON) :
    (ro_step op pcon).tlevelro =
      pcon.tlevelro + (match op with | RoOp.start => 1 | RoOp.commit => -1) := by
  cases op
  · unfold ro_step lmdb_start_ro_transaction
    dsimp only
    split_ifs <;> rfl
  · unfold ro_step lmdb_commit_ro_transaction
    dsimp only
    split_ifs <;> simp <;> omega

/-- A commit that takes the depth to 0 leaves `tstatusro` at 1. -/
theorem commit_status (pcon : DBXCON) (h : pcon.tlevelro = 1) :
    (ro_step RoOp.commit pcon).tstatusro = 1 := by
  unfold ro_step lmdb_commit_ro_transaction
  dsimp only
  rw [if_neg (by omega)]

/-- The depth of every call of a properly nested run, and what it calls. -/
theorem ro_run_events : ∀ (ops : List RoOp) (d : Nat) (pcon : DBXCON),
    nestedFrom d ops = true → pcon.tlevelro = d →
    (∀ e ∈ ro_run ops pcon, 0 ≤ e.before ∧ 0 ≤ e.after ∧
      ((e.call = some TxnCall.txn_begin ∨ e.call = some TxnCall.txn_renew) ↔
        (e.op = RoOp.start ∧ e.before = 0 ∧ e.after = 1)) ∧
      (e.call = some TxnCall.txn_reset ↔
        (e.op = RoOp.commit ∧ e.before = 1 ∧ e.after = 0))) ∧
    (ro_final ops pcon).tlevelro = 0
  | [], d, pcon, hn, hl => by
    simp only [nestedFrom, decide_eq_true_eq] at hn
    refine ⟨by simp [ro_run], ?_⟩
    rw [ro_final, hl, hn]; rfl
  | RoOp.start :: rest, d, pcon, hn, hl => by
    rw [nestedFrom] at hn
    have hs := ro_step_level RoOp.start pcon
    dsimp only at hs
    obtain ⟨ih1, ih2⟩ := ro_run_events rest (d + 1) (ro_step RoOp.start pcon) hn
      (by rw [hs, hl]; push_cast; ring)
    refine ⟨?_, by rw [ro_final]; exact ih2⟩
    intro e he
    rw [ro_run] at he
    rcases List.mem_cons.mp he with he | he
    · subst he
      simp only [ro_event, hs, start_ro_call]
      refine ⟨by omega, by omega, ?_, ?_⟩
      · by_cases h0 : pcon.tlevelro = 0
        · rw [if_neg (by simpa using h0)]
          split_ifs <;> simp [h0]
        · rw [if_pos h0]
          simp
          omega
      · split_ifs <;> simp
    · exact ih1 e he
  | RoOp.commit :: rest, 0, pcon, hn, hl => by simp [nestedFrom] at hn
  | RoOp.commit :: rest, d + 1, pcon, hn, hl => by
    rw [nestedFrom] at hn
    have hs := ro_step_level RoOp.commit pcon
    dsimp only at hs
    obtain ⟨ih1, ih2⟩ := ro_run_events rest d (ro_step RoOp.commit pcon) hn
      (by rw [hs, hl]; push_cast; ring)
    refine ⟨?_, by rw [ro_final]; exact ih2⟩
    intro e he
    rw [ro_run] at he
    rcases List.mem_cons.mp he with he | he
    · subst he
      simp only [ro_event, hs, commit_ro_call]
      refine ⟨by omega, by omega, ?_, ?_⟩
      · split_ifs <;> simp
      · by_cases h1 : pcon.tlevelro > 1
        · rw [if_pos h1]
          simp
          omega
        · rw [if_neg h1]
          simp
          omega
    · exact ih1 e he

theorem startCalls_cons (e : RoEvent) (tr : List RoEvent) :
    startCalls (e :: tr) =
      (match e.call with
        | some TxnCall.txn_begin => [TxnCall.txn_begin]
        | some TxnCall.txn_renew => [TxnCall.txn_renew]
        | _ => []) ++ startCalls tr := by
  unfold startCalls
  rcases h : e.call with _ | c
  · simp [List.filterMap_cons, h]
  · cases c <;> simp [List.filterMap_cons, h]

/-- Once the depth is above 0, or `tstatusro` is 1, every later call that starts
the transaction is a renewal. -/
theorem ro_run_renews : ∀ (ops : List RoOp) (d : Nat) (pcon : DBXCON),
    nestedFrom d ops = true → pcon.tlevelro = d → (0 < d ∨ pcon.tstatusro = 1) →
    ∀ c ∈ startCalls (ro_run ops pcon), c = TxnCall.txn_renew
  | [], d, pcon, _, _, _ => by simp [ro_run, startCalls]
  | RoOp.start :: rest, d, pcon, hn, hl, hg => by
    rw [nestedFrom] at hn
    have hs := ro_step_level RoOp.start pcon
    dsimp only at hs
    have ih := ro_run_renews rest (d + 1) (ro_step RoOp.start pcon) hn
      (by rw [hs, hl]; push_cast; ring) (Or.inl (by omega))
    intro c hc
    rw [ro_run, startCalls_cons] at hc
    rcases List.mem_append.mp hc with hc | hc
    · simp only [ro_event, start_ro_call] at hc
      rcases hg with hg | hg
      · rw [if_pos (by omega)] at hc
        simp at hc
      · by_cases h0 : pcon.tlevelro = 0
        · rw [if_neg (by simpa using h0), if_pos hg] at hc
          simpa using hc
        · rw [if_pos h0] at hc
          simp at hc
    · exact ih c hc
  | RoOp.commit :: rest, 0, pcon, hn, _, _ => by simp [nestedFrom] at hn
  | RoOp.commit :: rest, d + 1, pcon, hn, hl, _ => by
    rw [nestedFrom] at hn
    have hs := ro_step_level RoOp.commit pcon
    dsimp only at hs
    have hg2 : 0 < d ∨ (ro_step RoOp.commit pcon).tstatusro = 1 := by
      by_cases hd : d = 0
      · right
        exact commit_status pcon (by rw [hl, hd]; rfl)
      · left; omega
    have ih := ro_run_renews rest d (ro_step RoOp.commit pcon) hn
      (by rw [hs, hl]; push_cast; ring) hg2
    intro c hc
    rw [ro_run, startCalls_cons] at hc
    rcases List.mem_append.mp hc with hc | hc
    · simp only [ro_event, commit_ro_call] at hc
      split_ifs at hc <;> simp at hc
    · exact ih c hc

/-- From depth 0, the transaction is begun at most once, by the first call, and
renewed on every later start. -/
theorem ro_run_begin_once (ops : List RoOp) (pcon : DBXCON)
    (hn : nestedFrom 0 ops = true) (hl : pcon.tlevelro = 0) :
    ∃ k : Nat, startCalls (ro_run ops pcon) = List.replicate k TxnCall.txn_renew ∨
      (pcon.tstatusro ≠ 1 ∧
        startCalls (ro_run ops pcon) = TxnCall.txn_begin :: List.replicate k TxnCall.txn_renew) := by
  cases ops with
  | nil => exact ⟨0, Or.inl (by simp [ro_run, startCalls])⟩
  | cons op rest =>
    cases op with
    | commit => simp [nestedFrom] at hn
    | start =>
      rw [nestedFrom] at hn
      have hs := ro_step_level RoOp.start pcon
      dsimp only at hs
      have ih := ro_run_renews rest 1 (ro_step RoOp.start pcon) hn
        (by rw [hs, hl]; rfl) (Or.inl (by omega))
      have hrep := List.eq_replicate_of_mem ih
      rw [ro_run, startCalls_cons]
      simp only [ro_event, start_ro_call]
      rw [if_neg (by simpa using hl)]
      by_cases h1 : pcon.tstatusro = 1
      · rw [if_pos h1]
        refine ⟨(startCalls (ro_run rest (ro_step RoOp.start pcon))).length + 1, Or.inl ?_⟩
        rw [hrep]
        simp [List.replicate_succ]
      · rw [if_neg h1]
        refine ⟨(startCalls (ro_run rest (ro_step RoOp.start pcon))).length, Or.inr ⟨h1, ?_⟩⟩
        rw [hrep]
        simp

/-! ## The instance mutex -/

/-- A lock by the owner stacks, whatever the state of the mutex below. -/
theorem lock_owner (m : DBXMUTEX) (tid : Nat) (hc : m.created ≠ 0) (ho : m.thid = tid) :
    dbx_mutex_lock m tid = some ({ m with stack := m.stack + 1 }, 0) := by
  unfold dbx_mutex_lock
  rw [if_neg hc, if_pos ho]

theorem lock_run_owner : ∀ (n : Nat) (m : DBXMUTEX) (tid : Nat), m.created ≠ 0 → m.thid = tid →
    lock_run n m tid = some ({ m with stack := m.stack + n }, List.replicate n 0)
  | 0, m, tid, _, _ => by simp [lock_run]
  | n + 1, m, tid, hc, ho => by
    rw [lock_run, lock_owner m tid hc ho]
    dsimp only
    rw [lock_run_owner n { m with stack := m.stack + 1 } tid hc ho]
    simp only [List.replicate_succ]
    congr 3
    push_cast
    ring

theorem unlock_run_stacked : ∀ (k : Nat) (m : DBXMUTEX) (tid : Nat), m.created ≠ 0 →
    m.thid = tid → (k : Int) ≤ m.stack →
    unlock_run k m tid = ({ m with stack := m.stack - k }, List.replicate k 0)
  | 0, m, tid, _, _, _ => by simp [unlock_run]
  | k + 1, m, tid, hc, ho, hk => by
    have hs : m.stack ≠ 0 := by push_cast at hk; omega
    have e : dbx_mutex_unlock m tid = ({ m with stack := m.stack - 1 }, 0) := by
      unfold dbx_mutex_unlock
      rw [if_neg hc, if_pos ⟨ho, hs⟩]
    rw [unlock_run, e]
    dsimp only
    rw [unlock_run_stacked k { m with stack := m.stack - 1 } tid hc ho
      (by dsimp only; push_cast at hk; omega)]
    simp only [List.replicate_succ]
    congr 2
    push_cast
    ring

theorem unlock_last (m : DBXMUTEX) (tid : Nat) (hc : m.created ≠ 0) (hs : m.stack = 0)
    (_hh : m.h_mutex = some tid) :
    dbx_mutex_unlock m tid = ({ m with thid := 0, stack := 0, h_mutex := none }, 0) := by
  unfold dbx_mutex_unlock
  rw [if_neg hc, if_neg (by rw [hs]; simp)]

theorem unlock_run_add : ∀ (a b : Nat) (m : DBXMUTEX) (tid : Nat),
    unlock_run (a + b) m tid =
      ((unlock_run b (unlock_run a m tid).1 tid).1,
        (unlock_run a m tid).2 ++ (unlock_run b (unlock_run a m tid).1 tid).2)
  | 0, b, m, tid => by simp [unlock_run]
  | a + 1, b, m, tid => by
    rw [Nat.add_right_comm, unlock_run, unlock_run_add a b]
    simp [unlock_run]

/-- A point operation other than `dbx_merge` leaves the mutex as it found it. -/
theorem point_op_balanced (op : PointOp) (reference_ok use_mutex : Bool) (m : DBXMUTEX)
    (tid : Nat) (ho : op ≠ PointOp.dbx_merge) (hs : 0 ≤ m.stack)
    (hm : (m.h_mutex = none ∧ m.thid = 0 ∧ m.stack = 0 ∧ tid ≠ 0) ∨
      (m.h_mutex = some tid ∧ m.thid = tid)) :
    point_op_mutex op reference_ok use_mutex m tid = some m := by
  have key : ∀ m1, DBX_DB_LOCK use_mutex m tid = some m1 →
      DBX_DB_UNLOCK use_mutex m1 tid = m → point_op_mutex op reference_ok use_mutex m tid = some m := by
    intro m1 h1 h2
    unfold point_op_mutex
    rw [h1]
    dsimp only
    rw [ite_self]
    cases op <;> first | exact absurd rfl ho | (dsimp only; rw [h2])
  cases use_mutex with
  | false => exact key m rfl rfl
  | true =>
    by_cases hc : m.created = 0
    · refine key m ?_ ?_
      · simp [DBX_DB_LOCK, dbx_mutex_lock, hc]
      · simp [DBX_DB_UNLOCK, dbx_mutex_unlock, hc]
    · rcases hm with ⟨h1, h2, h3, h4⟩ | ⟨h1, h2⟩
      · refine key { m with h_mutex := some tid, thid := tid, stack := 0 } ?_ ?_
        · simp only [DBX_DB_LOCK, if_true, dbx_mutex_lock]
          rw [if_neg hc, if_neg (by rw [h2]; exact fun h => h4 h.symm), h1]
          rfl
        · simp only [DBX_DB_UNLOCK, if_true, dbx_mutex_unlock]
          rw [if_neg hc, if_neg (by simp)]
          simp only [if_true]
          cases m
          simp_all
      · refine key { m with stack := m.stack + 1 } ?_ ?_
        · simp only [DBX_DB_LOCK, if_true]
          rw [lock_owner m tid hc h2]
          rfl
        · simp only [DBX_DB_UNLOCK, if_true, dbx_mutex_unlock]
          rw [if_neg hc, if_pos ⟨h2, by omega⟩]
          cases m
          simp


/-! ## The task queue of the worker pool -/

theorem linked_congr (heap heap2 : Nat → dbx_pool_task) :
    ∀ (q : List (Nat × Nat)) (p : Nat), (∀ t ∈ q, heap2 t.1 = heap t.1) →
      linked heap p q → linked heap2 p q
  | [], _, _, h => h
  | t :: rest, p, hh, h => by
    obtain ⟨h1, h2, h3, h4⟩ := h
    have e := hh t (List.mem_cons_self _ _)
    refine ⟨h1, h2, by rw [e]; exact h3, ?_⟩
    rw [e]
    exact linked_congr heap heap2 rest _ (fun u hu => hh u (List.mem_cons_of_mem _ hu)) h4

theorem linked_ne_zero (heap : Nat → dbx_pool_task) (q : List (Nat × Nat)) (p : Nat)
    (h : linked heap p q) : ∀ t ∈ q, t.1 ≠ 0 := by
  induction q generalizing p with
  | nil => simp
  | cons t rest ih =>
    obtain ⟨_, h2, _, h4⟩ := h
    intro u hu
    rcases List.mem_cons.mp hu with hu | hu
    · rw [hu]; exact h2
    · exact ih _ h4 u hu

/-- The link of a task at the end of a list that is not empty. -/
theorem linked_snoc (heap : Nat → dbx_pool_task) (n pmeth : Nat) (hn : n ≠ 0) :
    ∀ (q : List (Nat × Nat)) (p b : Nat), q ≠ [] →
      (q.map (fun t => t.1)).getLast? = some b → (q.map (fun t => t.1)).Nodup →
      n ∉ q.map (fun t => t.1) → linked heap p q →
      linked
        (heap_write (heap_write heap n { pmeth := pmeth, next := 0 }) b
          { heap_write heap n { pmeth := pmeth, next := 0 } b with next := n })
        p (q ++ [(n, pmeth)])
  | [], _, _, hq, _, _, _, _ => absurd rfl hq
  | [t], p, b, _, hb, _, hf, h => by
    obtain ⟨h1, h2, h3, _⟩ := h
    have hbt : b = t.1 := by simpa using hb.symm
    have hnt : t.1 ≠ n := by
      intro e
      exact hf (by simp [e])
    subst hbt
    refine ⟨h1, h2, ?_, ?_, ?_, ?_, ?_⟩
    · simp [heap_write, hnt, h3]
    · simp [heap_write]
    · exact hn
    · simp [heap_write, hnt.symm]
    · simp [heap_write, hnt.symm, linked]
  | t :: u :: rest, p, b, _, hb, hd, hf, h => by
    obtain ⟨h1, h2, h3, h4⟩ := h
    have hnt : t.1 ≠ n := by
      intro e
      exact hf (by simp [e])
    have hb2 : ((u :: rest).map (fun t => t.1)).getLast? = some b := by
      simpa [List.getLast?_cons_cons] using hb
    have hd2 : ((u :: rest).map (fun t => t.1)).Nodup := by
      simp only [List.map_cons, List.nodup_cons] at hd ⊢
      exact hd.2
    have hbm : b ∈ (u :: rest).map (fun t => t.1) := List.mem_of_getLast?_eq_some hb2
    have htb : t.1 ≠ b := by
      intro e
      simp only [List.map_cons, List.nodup_cons] at hd
      rw [e] at hd
      exact hd.1 (by simpa using hbm)
    have ih := linked_snoc heap n pmeth hn (u :: rest) (heap t.1).next b (by simp) hb2 hd2
      (fun hm => hf (by
        simp only [List.map_cons, List.mem_cons] at hm ⊢
        exact Or.inr hm)) h4
    refine ⟨h1, h2, ?_, ?_⟩
    · simp [heap_write, hnt, htb, h3]
    · have e : (heap_write (heap_write heap n { pmeth := pmeth, next := 0 }) b
          { heap_write heap n { pmeth := pmeth, next := 0 } b with next := n } t.1).next =
          (heap t.1).next := by
        simp [heap_write, hnt, htb]
      rw [e]
      exact ih

/-- `dbx_pool_add_task` keeps the queue: the task is the last of the list. -/
theorem add_task_inv (s : PoolState) (q : List (Nat × Nat)) (pmeth p : Nat)
    (hi : PoolInv s q) (hf : p ∉ q.map (fun t => t.1)) :
    PoolInv (dbx_pool_add_task s pmeth p).1 (if p = 0 then q else q ++ [(p, pmeth)]) := by
  obtain ⟨h1, h2, h3, h4⟩ := hi
  unfold dbx_pool_add_task
  by_cases hp : p = 0
  · rw [if_pos hp, if_pos hp]
    exact ⟨h1, h2, h3, h4⟩
  · rw [if_neg hp, if_neg hp]
    dsimp only
    have hnd : ((q ++ [(p, pmeth)]).map (fun t => t.1)).Nodup := by
      rw [List.map_append, List.nodup_append]
      refine ⟨h4, by simp, ?_⟩
      intro a ha hb
      simp only [List.map_cons, List.map_nil, List.mem_singleton] at hb
      exact hf (hb ▸ ha)
    have hlast : ((q ++ [(p, pmeth)]).map (fun t => t.1)).getLast?.getD 0 = p := by
      simp
    by_cases hq : q = []
    · subst hq
      rw [if_pos (by rw [h2]; rfl)]
      refine ⟨?_, by dsimp only; rw [h2]; simp, by dsimp only; rw [hlast], hnd⟩
      exact ⟨rfl, hp, by simp [heap_write], by simp [heap_write, linked]⟩
    · have hlen : q.length ≠ 0 := fun h => hq (List.length_eq_zero.mp h)
      rw [if_neg (by rw [h2]; exact_mod_cast hlen)]
      obtain ⟨b, hb⟩ : ∃ b, (q.map (fun t => t.1)).getLast? = some b := by
        cases hl : (q.map (fun t => t.1)).getLast? with
        | none => simp at hl; exact absurd hl hq
        | some b => exact ⟨b, rfl⟩
      have hbt : s.bottom_task = b := by rw [h3, hb]; rfl
      refine ⟨?_, by dsimp only; rw [h2]; simp, by dsimp only; rw [hlast], hnd⟩
      dsimp only
      rw [hbt]
      exact linked_snoc s.heap p pmeth hp q s.tasks b hq hb h4 hf h1

/-- `dbx_pool_get_task` returns the first task of the list and keeps the queue. -/
theorem get_task_inv (s : PoolState) (q : List (Nat × Nat)) (hi : PoolInv s q) :
    PoolInv (dbx_pool_get_task s).1 q.tail ∧
    (if (dbx_pool_get_task s).2 = 0 then none
      else some ((dbx_pool_get_task s).2, (s.heap (dbx_pool_get_task s).2).pmeth)) = q.head? := by
  obtain ⟨h1, h2, h3, h4⟩ := hi
  unfold dbx_pool_get_task
  cases q with
  | nil =>
    rw [if_neg (by rw [h2]; simp)]
    exact ⟨⟨h1, h2, h3, h4⟩, by simp⟩
  | cons t rest =>
    rw [if_pos (by rw [h2]; simp)]
    obtain ⟨e1, e2, e3, e4⟩ := h1
    dsimp only
    rw [e1]
    refine ⟨⟨e4, by rw [h2]; simp, ?_, ?_⟩, ?_⟩
    · cases rest with
      | nil =>
        have : (s.heap t.1).next = 0 := e4
        simp [this]
      | cons u rest2 =>
        have hu : (s.heap t.1).next = u.1 := e4.1
        rw [hu, if_neg e4.2.1, h3]
        simp [List.getLast?_cons_cons]
    · simp only [List.map_cons, List.nodup_cons] at h4
      simpa using h4.2
    · rw [if_neg e2, e3]
      rfl

/-- The queue of the code follows the list of the specification over every run
whose allocations are sound. -/
theorem pool_refines : ∀ (ops : List PoolOp) (s : PoolState) (q : List (Nat × Nat)),
    PoolInv s q → freshOps ops q →
    pool_gets ops s = fifo_gets ops q ∧ PoolInv (pool_state ops s) (fifo_state ops q)
  | [], _, _, hi, _ => ⟨rfl, hi⟩
  | PoolOp.add pmeth p :: rest, s, q, hi, hf => by
    rw [pool_gets, fifo_gets, pool_state, fifo_state]
    exact pool_refines rest _ _ (add_task_inv s q pmeth p hi hf.1) hf.2
  | PoolOp.get :: rest, s, q, hi, hf => by
    obtain ⟨g1, g2⟩ := get_task_inv s q hi
    obtain ⟨r1, r2⟩ := pool_refines rest _ _ g1 hf
    rw [pool_gets, fifo_gets, pool_state, fifo_state, g2, r1]
    exact ⟨rfl, r2⟩
theorem freshOps_take : ∀ (ops : List PoolOp) (q : List (Nat × Nat)) (k : Nat),
    freshOps ops q → freshOps (ops.take k) q
  | _, _, 0, _ => by simp [freshOps]
  | [], _, _ + 1, _ => by simp [freshOps]
  | PoolOp.add pmeth p :: rest, q, k + 1, h => by
    rw [List.take_succ_cons]
    exact ⟨h.1, freshOps_take rest _ k h.2⟩
  | PoolOp.get :: rest, q, k + 1, h => by
    rw [List.take_succ_cons]
    exact freshOps_take rest _ k h

/-! ## The numeric slot -/

/-- The ten bytes of `dbx_set_number` for a pair within the range of the slot: the
lead 00 02 and the two numbers, or the lead 00 01 and `0xFFFFFFFF` minus each. -/
theorem set_number_bytes_format (n d : Int) (hn : -2 ^ 31 < n ∧ n < 2 ^ 31)
    (hd : 0 ≤ d ∧ d < 10 ^ 9) :
    set_number_bytes n d =
      if n < 0 then
        [0x00, 0x01] ++ dbx_set_size (0xffffffff - n.natAbs) ++
          dbx_set_size (0xffffffff - d.toNat)
      else [0x00, 0x02] ++ dbx_set_size n.toNat ++ dbx_set_size d.toNat := by
  unfold set_number_bytes
  by_cases h : n < 0
  · rw [if_pos h, if_pos h]
    have e1 : toInt32 (n * -1) = -n := by
      rw [toInt32_of_range _ (by constructor <;> omega)]; ring
    have e2 : (0xffffffff + 2 ^ 64 - toULong (toInt32 (n * -1))) % 2 ^ 64 =
        0xffffffff - n.natAbs := by
      rw [e1]; unfold toULong; omega
    have e3 : (0xffffffff + 2 ^ 64 - toULong d) % 2 ^ 64 = 0xffffffff - d.toNat := by
      unfold toULong; omega
    rw [e2, e3]
  · rw [if_neg h, if_neg h]
    have e2 : toULong n = n.toNat := by unfold toULong; omega
    have e3 : toULong d = d.toNat := by unfold toULong; omega
    rw [e2, e3]

/-- The fractional number that the code computes for an accepted text with a
decimal point of at most eight bytes: its fractional digits, left-justified to
nine places. -/
theorem strParts_frac (s : Bytes) (hf : is_number_flags s = (true, true)) (hl : s.length ≤ 8) :
    ∃ a d2, splitAtDot s = (a, some d2) ∧ allDigits d2 ∧ d2.length ≤ 9 ∧
      (strParts s).2 = (digitsValue 0 (d2 ++ List.replicate (9 - d2.length) 48) : Int) := by
  cases s with
  | nil => simp [is_number_flags] at hf
  | cons c t =>
    have hf1 : (is_number_flags (c :: t)).1 = true := by rw [hf]
    have hfl := flags_cons c t hf1
    rw [hf] at hfl
    by_cases hc : c = 45
    · subst hc
      rw [if_pos rfl] at hfl
      rcases scan_accepts t true hfl.symm with ⟨hdp, _⟩ | ⟨_, d1, d2, ht, hd1, hd2, hsp⟩
      · exact absurd hdp (by simp)
      · have hl2 : d2.length ≤ 9 := by
          have : (45 :: t).length = 1 + d1.length + 1 + d2.length := by
            rw [ht]; simp; omega
          omega
        have hz : cstr (45 :: t) = 45 :: t := cstr_of_no_zero _ (by
          intro c hc
          rcases List.mem_cons.mp hc with hc | hc
          · omega
          · rw [ht] at hc
            rcases List.mem_append.mp hc with hc | hc
            · exact allDigits_no_zero d1 hd1 c hc
            · rcases List.mem_cons.mp hc with hc | hc
              · omega
              · exact allDigits_no_zero d2 hd2 c hc)
        have hsp2 : splitAtDot (45 :: t) = (45 :: d1, some d2) := by
          simp [splitAtDot, hsp]
        refine ⟨45 :: d1, d2, hsp2, hd2, hl2, ?_⟩
        rw [strParts_dec _ hf hl,
          set_number_parts_str { type := DBX_DTYPE_STR, text := 45 :: t }
            (by simp [DBX_DTYPE_STR, DBX_DTYPE_INT]) hz _ _ hsp2]
        simp only []
        exact strtol_frac d2 hd2 hl2
    · rw [if_neg hc] at hfl
      rcases scan_accepts (c :: t) true hfl.symm with ⟨hdp, _⟩ | ⟨_, d1, d2, ht, hd1, hd2, hsp⟩
      · exact absurd hdp (by simp)
      · have hl2 : d2.length ≤ 9 := by
          have : (c :: t).length = d1.length + 1 + d2.length := by
            rw [ht]; simp; omega
          omega
        have hz : cstr (c :: t) = c :: t := cstr_of_no_zero _ (by
          intro x hx
          rw [ht] at hx
          rcases List.mem_append.mp hx with hx | hx
          · exact allDigits_no_zero d1 hd1 x hx
          · rcases List.mem_cons.mp hx with hx | hx
            · omega
            · exact allDigits_no_zero d2 hd2 x hx)
        refine ⟨d1, d2, hsp, hd2, hl2, ?_⟩
        rw [strParts_dec _ hf hl,
          set_number_parts_str { type := DBX_DTYPE_STR, text := c :: t }
            (by simp [DBX_DTYPE_STR, DBX_DTYPE_INT]) hz _ _ hsp]
        simp only []
        exact strtol_frac d2 hd2 hl2

/-! ## The reads of one call of next -/

/-- One turn of the loop of `next` on a store of subscript keys: the call ends with
this read, or the record read is the one of the seed or one below it in the tree
and the loop goes on from the key of the seed followed by 00 ff. -/
theorem count_turn (dbtype : Nat) (store : Store) (hs : storeSorted store)
    (hw : subscriptStore store) (name : Bytes) (subs : List JsValue) (seed : JsValue)
    (hn : decodableText (stripName name) = true) (hsubs : ∀ a ∈ subs, subscriptArg a = true)
    (hseed : seedArg seed) (pkey : DBXKEY)
    (hargc : pkey.argc = subs.length + 2)
    (hbuf : pkey.ibuffer = (GlobalReference name subs).ibuffer ++ slotBytes seed)
    (hcs2 : (getArg pkey.args (pkey.argc - 2)).csize = (GlobalReference name subs).ibuffer.length)
    (htext : (getArg pkey.args (pkey.argc - 1)).text = seed.text)
    (hcs1 : (getArg pkey.args (pkey.argc - 1)).csize =
      ((GlobalReference name subs).ibuffer ++ slotBytes seed).length)
    (fuel : Nat) (st : NextState) (K : Bytes) (hK : st.buf.take st.size = K)
    (hSK : bytesLe ((GlobalReference name subs).ibuffer ++ slotBytes seed) K = true) :
    next_counts dbtype store pkey (fuel + 1) st = (0, 1) ∨
    ∃ (r : Record) (more : List JsValue), c_set_range store K = some r ∧
      r.1 = ((GlobalReference name subs).ibuffer ++ slotBytes seed) ++
        (more.map slotBytes).flatten ∧
      next_counts dbtype store pkey (fuel + 1) st =
        ((next_counts dbtype store pkey fuel
          { buf := pokeByte (pokeByte (storeKey st.buf r.1)
              ((GlobalReference name subs).ibuffer ++ slotBytes seed).length 0x00)
              (((GlobalReference name subs).ibuffer ++ slotBytes seed).length + 1) 0xff,
            size := ((GlobalReference name subs).ibuffer ++ slotBytes seed).length + 2,
            mkeys := (dbx_split_key st.mkeys r.1 r.1.length).1,
            len_used := if dbtype = DBX_DBTYPE_LMDB then r.1.length else st.len_used }).1 + 1,
         (next_counts dbtype store pkey fuel
          { buf := pokeByte (pokeByte (storeKey st.buf r.1)
              ((GlobalReference name subs).ibuffer ++ slotBytes seed).length 0x00)
              (((GlobalReference name subs).ibuffer ++ slotBytes seed).length + 1) 0xff,
            size := ((GlobalReference name subs).ibuffer ++ slotBytes seed).length + 2,
            mkeys := (dbx_split_key st.mkeys r.1 r.1.length).1,
            len_used := if dbtype = DBX_DBTYPE_LMDB then r.1.length else st.len_used }).2 + 1) := by
  have hP : (GlobalReference name subs).ibuffer ≠ [] :=
    GlobalReference_ibuffer_ne_nil name subs hn (fun a ha => subscriptArg_decodable a (hsubs a ha))
  simp only [next_counts]
  rw [hK]
  cases hc : c_set_range store K with
  | none => left; rfl
  | some r =>
    by_cases hsmall : dbtype = DBX_DBTYPE_BDB ∧
        (r.1.length > OUTPUT_LEN_ALLOC ∨ r.2.length > OUTPUT_LEN_ALLOC)
    · left
      simp only [cursor_get, if_pos hsmall]
    simp only [cursor_get, if_neg hsmall]
    obtain ⟨hrmem, hr2, hr3⟩ := c_set_range_spec store hs K r hc
    obtain ⟨y0, hy0⟩ := subscriptKey_head r.1 (hw r hrmem)
    have hhead : (storeKey st.buf r.1).getD 0 0 = 0 := by rw [hy0]; simp [storeKey]
    have hargc2 : ¬ pkey.argc < 2 := by omega
    obtain ⟨c0, w0, hw0, _⟩ := slotBytes_head seed
    rw [if_neg (not_not.mpr hhead), if_neg hargc2, hcs2, hbuf]
    by_cases hz : ∃ y, r.1 = (GlobalReference name subs).ibuffer ++ 0 :: y
    · have hcmp : bdb_key_compare r.1 ((GlobalReference name subs).ibuffer ++ slotBytes seed)
          (GlobalReference name subs).ibuffer.length = 0 := by
        rw [hw0]
        exact (key_compare_level _ _ _ hP).mpr (Or.inr hz)
      rw [if_pos hcmp]
      obtain ⟨y, hy⟩ := hz
      obtain ⟨b, more, hb, hz1, hz2, hcount, htextb⟩ :=
        found_key_shape name subs hn hsubs r.1 (hw r hrmem) y hy st.mkeys
      have e1 : pkey.argc - 1 = subs.length + 1 := by omega
      rw [e1] at htext hcs1
      rw [if_pos (by rw [hcount, hargc]; omega), e1, htext, htextb, hcs1]
      obtain ⟨_, _, hbne, hbz⟩ := slot_parts b hb
      by_cases ht : seed.text = b.text
      · right
        have hsd : subscriptArg seed = true := by
          rcases hseed with h | h
          · exact h
          · rw [h] at ht
            exact absurd ht.symm hbne
        have hcond : seed.text.length = b.text.length ∧
            strncmp_eq seed.text b.text seed.text.length = true :=
          (strncmp_eq_iff _ _ (by rw [ht]; exact hbz) hbz).mpr ht
        rw [if_pos hcond]
        refine ⟨r, more, rfl, ?_, rfl⟩
        rw [hz2, slot_eq_of_text_eq b seed hb hsd ht.symm, List.append_assoc]
      · left
        have hcond : ¬ (seed.text.length = b.text.length ∧
            strncmp_eq seed.text b.text seed.text.length = true) := by
          intro hcond
          rcases hseed with h | h
          · exact ht ((strncmp_eq_iff _ _ (slot_parts seed h).2.2.2 hbz).mp hcond)
          · rw [h] at hcond
            have hl := hcond.1
            simp only [JsValue.text, List.length_nil] at hl
            exact hbne (List.length_eq_zero.mp hl.symm)
        rw [if_neg hcond]
    · left
      have hcmp : bdb_key_compare r.1 ((GlobalReference name subs).ibuffer ++ slotBytes seed)
          (GlobalReference name subs).ibuffer.length ≠ 0 := by
        rw [hw0]
        intro h0
        rcases (key_compare_level _ _ _ hP).mp h0 with h | h
        · have h3 : bytesLt (GlobalReference name subs).ibuffer
              ((GlobalReference name subs).ibuffer ++ slotBytes seed) = true :=
            bytesLt_append_nonempty _ _ (by rw [hw0]; simp)
          have h4 : bytesLt r.1
              ((GlobalReference name subs).ibuffer ++ slotBytes seed) = true := by
            rw [h]; exact h3
          exact bytesLe_not_lt _ _ (bytesLe_trans _ _ _ hSK hr2) h4
        · exact hz h
      rw [if_neg hcmp]

/-- One call of `next` on a store of subscript keys takes the branch "current key
returned - get next" at most once, and makes at most two reads. -/
theorem next_counts_le (dbtype : Nat) (store : Store) (hs : storeSorted store)
    (hw : subscriptStore store) (name : Bytes) (subs : List JsValue) (seed : JsValue)
    (hn : decodableText (stripName name) = true) (hsubs : ∀ a ∈ subs, subscriptArg a = true)
    (hseed : seedArg seed) (mkeys0 : ArgArray) :
    (next_call_counts dbtype store (GlobalReference name (subs ++ [seed])) mkeys0).1 ≤ 1 ∧
    (next_call_counts dbtype store (GlobalReference name (subs ++ [seed])) mkeys0).2 ≤ 2 := by
  have hargc : (GlobalReference name (subs ++ [seed])).argc = subs.length + 2 := by
    rw [GlobalReference_argc]; simp; omega
  have hbuf := GlobalReference_snoc name subs seed
  obtain ⟨hcs2, htext⟩ := GlobalReference_snoc_args name subs seed
  have hcs1 := GlobalReference_last_csize name (subs ++ [seed])
  rw [hbuf] at hcs1
  have hused : (GlobalReference name (subs ++ [seed])).ibuffer_used =
      ((GlobalReference name subs).ibuffer ++ slotBytes seed).length := by
    rw [DBXKEY.ibuffer_used, hbuf]
  unfold next_call_counts
  rw [hused, hbuf]
  have hturn1 := count_turn dbtype store hs hw name subs seed hn hsubs hseed
    (GlobalReference name (subs ++ [seed])) hargc hbuf hcs2 htext hcs1 9
    { buf := (GlobalReference name subs).ibuffer ++ slotBytes seed,
      size := ((GlobalReference name subs).ibuffer ++ slotBytes seed).length,
      mkeys := mkeys0, len_used := 0 }
    ((GlobalReference name subs).ibuffer ++ slotBytes seed) (List.take_length _)
    (bytesLe_refl _)
  rcases hturn1 with h | ⟨r, more, hc, hr, heq⟩
  · rw [h]; exact ⟨by decide, by decide⟩
  · rw [heq]
    have hturn2 := count_turn dbtype store hs hw name subs seed hn hsubs hseed
      (GlobalReference name (subs ++ [seed])) hargc hbuf hcs2 htext hcs1 8
      { buf := pokeByte (pokeByte
            (storeKey ((GlobalReference name subs).ibuffer ++ slotBytes seed) r.1)
            ((GlobalReference name subs).ibuffer ++ slotBytes seed).length 0x00)
            (((GlobalReference name subs).ibuffer ++ slotBytes seed).length + 1) 0xff,
        size := ((GlobalReference name subs).ibuffer ++ slotBytes seed).length + 2,
        mkeys := (dbx_split_key mkeys0 r.1 r.1.length).1,
        len_used := if dbtype = DBX_DBTYPE_LMDB then r.1.length else 0 }
      (((GlobalReference name subs).ibuffer ++ slotBytes seed) ++ [0, 255])
      (by
        have e : storeKey ((GlobalReference name subs).ibuffer ++ slotBytes seed) r.1 =
            ((GlobalReference name subs).ibuffer ++ slotBytes seed) ++
              (more.map slotBytes).flatten := by
          rw [storeKey, hr, List.drop_eq_nil_of_le (by simp), List.append_nil]
        show (pokeByte (pokeByte _ _ _) _ _).take _ = _
        rw [e]
        exact poke_advance _ _)
      (bytesLe_of_lt _ _ (bytesLt_append_nonempty _ _ (by simp)))
    rcases hturn2 with h | ⟨r2, more2, hc2, hr2, _⟩
    · rw [h]; exact ⟨by decide, by decide⟩
    · exfalso
      obtain ⟨_, hle, _⟩ := c_set_range_spec store hs _ r2 hc2
      have hlt := tail_below_advance ((GlobalReference name subs).ibuffer ++ slotBytes seed) more2
      rw [← hr2] at hlt
      exact bytesLe_not_lt _ _ hle hlt

/-! ## Lemmas: the writes of dbx_ibuffer_add -/

theorem mem_read_length (m : Mem) (i n : Nat) : (mem_read m i n).length = n := by
  simp [mem_read]

theorem mem_write_outside (m : Mem) (i : Nat) (bs : Bytes) (a : Nat)
    (h : a < i ∨ i + bs.length ≤ a) : mem_write m i bs a = m a := by
  unfold mem_write
  rw [if_neg (by omega)]

theorem mem_read_outside (m : Mem) (i : Nat) (bs : Bytes) (j n : Nat)
    (h : j + n ≤ i ∨ i + bs.length ≤ j) :
    mem_read (mem_write m i bs) j n = mem_read m j n := by
  unfold mem_read
  apply List.map_congr_left
  intro k hk
  have := List.mem_range.mp hk
  exact mem_write_outside m i bs (j + k) (by omega)

theorem mem_read_write_take (m : Mem) (i : Nat) (bs : Bytes) (k : Nat) (hk : k ≤ bs.length) :
    mem_read (mem_write m i bs) i k = bs.take k := by
  apply List.ext_getElem
  · simp [mem_read, hk]
  · intro j h1 h2
    simp only [mem_read, List.getElem_map, List.getElem_range, List.getElem_take]
    have hj : j < k := by simpa [mem_read] using h1
    unfold mem_write
    rw [if_pos (by omega)]
    simp only [Nat.add_sub_cancel_left]
    rw [List.getD_eq_getElem _ _ (by omega)]

theorem mem_read_add (m : Mem) (i a b : Nat) :
    mem_read m i (a + b) = mem_read m i a ++ mem_read m (i + a) b := by
  unfold mem_read
  rw [List.range_add, List.map_append, List.map_map]
  congr 1
  apply List.map_congr_left
  intro k _
  simp [Nat.add_assoc]

/-- The bytes that `dbx_set_number` reads at `p` once the text `buffer`, written at
`p`, has been moved eight bytes up. -/
theorem shift_read (m : Mem) (p : Nat) (buffer tail : Bytes) :
    mem_read (mem_write (mem_write m p (buffer ++ tail)) (p + 8)
        (mem_read (mem_write m p (buffer ++ tail)) p buffer.length)) p buffer.length =
      shifted_text buffer := by
  have hb : mem_read (mem_write m p (buffer ++ tail)) p buffer.length = buffer := by
    rw [mem_read_write_take _ _ _ _ (by simp), List.take_left']
    rfl
  rw [hb]
  unfold shifted_text
  by_cases h8 : buffer.length ≤ 8
  · rw [mem_read_outside _ _ _ _ _ (Or.inl (by omega)), hb, List.take_of_length_le h8,
      Nat.sub_eq_zero_of_le h8]
    simp
  · have e : buffer.length = 8 + (buffer.length - 8) := by omega
    have hl : 8 ≤ (buffer ++ tail).length := by simp; omega
    rw [e, mem_read_add, ← e, mem_read_outside _ _ _ _ _ (Or.inl (by omega)),
      mem_read_write_take _ _ _ _ hl, List.take_append_of_le_length (by omega)]
    congr 1
    exact mem_read_write_take _ _ _ _ (by omega)

theorem dbx_is_number_csize (v : DBXVAL) : (dbx_is_number v).2.csize = v.csize := by
  unfold dbx_is_number
  dsimp only
  split_ifs <;> rfl

theorem add_text_bounds (key_type : Nat) (mem0 : Mem) (used0 size0 : Nat) (a0 : DBXVAL)
    (buffer : Bytes) (nul : Bool) :
    (∀ a, a < used0 ∨ used0 + buffer.length + 11 ≤ a →
      (add_text key_type mem0 used0 size0 a0 buffer nul).mem a = mem0 a) ∧
    (key_type = DBX_KEYTYPE_M →
      used0 + 2 ≤ (add_text key_type mem0 used0 size0 a0 buffer nul).p) ∧
    used0 ≤ (add_text key_type mem0 used0 size0 a0 buffer nul).p ∧
    (add_text key_type mem0 used0 size0 a0 buffer nul).p ≤ used0 + 10 ∧
    (add_text key_type mem0 used0 size0 a0 buffer nul).ibuffer_used =
      (add_text key_type mem0 used0 size0 a0 buffer nul).p + buffer.length ∧
    (add_text key_type mem0 used0 size0 a0 buffer nul).arg.csize =
      (add_text key_type mem0 used0 size0 a0 buffer nul).ibuffer_used ∧
    (add_text key_type mem0 used0 size0 a0 buffer nul).ibuffer_size =
      (if used0 + buffer.length + 32 > size0 then used0 + buffer.length + 32767 else size0) := by
  have h10 := dbx_set_number_length a0
  refine ⟨?_, ?_, ?_, ?_, rfl, rfl, rfl⟩
  · intro a ha
    simp only [add_text]
    rw [mem_write_outside _ _ _ _
      (by split_ifs <;> first | omega | (simp only [List.length_append, List.length_singleton]; omega))]
    split_ifs
    · exact mem_write_outside _ _ _ _ (by omega)
    · exact mem_write_outside _ _ _ _ (by simp; omega)
    · rfl
  · intro hk
    simp only [add_text, hk, if_true]
    split_ifs <;> omega
  · simp only [add_text]
    split_ifs <;> omega
  · simp only [add_text]
    split_ifs <;> omega

theorem add_number_bounds (key_type len : Nat) (s : AddMem) :
    (∀ a, (2 ≤ s.p ∧ (a + 2 < s.p ∨ s.p + 8 + len ≤ a)) ∨ ¬ key_type = DBX_KEYTYPE_M →
      (add_number key_type len s).mem a = s.mem a) ∧
    s.p ≤ (add_number key_type len s).p ∧
    (add_number key_type len s).p ≤ s.p + 8 ∧
    (add_number key_type len s).ibuffer_used + s.p =
      s.ibuffer_used + (add_number key_type len s).p ∧
    (s.arg.csize = s.ibuffer_used →
      (add_number key_type len s).arg.csize = (add_number key_type len s).ibuffer_used) ∧
    (add_number key_type len s).len_used = s.len_used ∧
    (add_number key_type len s).ibuffer_size = s.ibuffer_size := by
  unfold add_number
  by_cases h : key_type = DBX_KEYTYPE_M ∧ s.arg.type = DBX_DTYPE_STR ∧
      (dbx_is_number (arg_seen s)).1 = true
  · rw [if_pos h]
    dsimp only
    refine ⟨?_, by omega, by omega, by omega, fun _ => rfl, rfl, rfl⟩
    intro a ha
    have ha2 : 2 ≤ s.p ∧ (a + 2 < s.p ∨ s.p + 8 + len ≤ a) :=
      ha.resolve_right (not_not.mpr h.1)
    rw [mem_write_outside _ _ _ _ (by rw [dbx_set_number_length]; omega),
      mem_write_outside _ _ _ _ (by rw [mem_read_length]; omega)]
  · rw [if_neg h]
    exact ⟨fun _ _ => rfl, le_refl _, by omega, rfl, id, rfl, rfl⟩

theorem add_caret_bounds (key_type argn len : Nat) (s : AddMem) :
    (∀ a, (a + 1 < s.p ∨ s.p + len + 1 ≤ a) ∨ ¬ key_type = DBX_KEYTYPE_M →
      (add_caret key_type argn len s).1.mem a = s.mem a) ∧
    (add_caret key_type argn len s).1.p = s.p ∧
    (add_caret key_type argn len s).1.ibuffer_used ≤ s.ibuffer_used ∧
    s.ibuffer_used ≤ (add_caret key_type argn len s).1.ibuffer_used + 1 ∧
    (s.arg.csize = s.ibuffer_used →
      (add_caret key_type argn len s).1.arg.csize =
        (add_caret key_type argn len s).1.ibuffer_used) ∧
    (add_caret key_type argn len s).1.ibuffer_size = s.ibuffer_size := by
  unfold add_caret
  by_cases h : key_type = DBX_KEYTYPE_M ∧ argn = 0 ∧ s.mem s.p = 94
  · rw [if_pos h]
    dsimp only
    refine ⟨?_, rfl, by omega, by omega, fun _ => rfl, rfl⟩
    intro a ha
    have ha2 : a + 1 < s.p ∨ s.p + len + 1 ≤ a := ha.resolve_right (not_not.mpr h.1)
    rw [mem_write_outside _ _ _ _ (by simp; omega),
      mem_write_outside _ _ _ _ (by rw [mem_read_length]; omega)]
  · rw [if_neg h]
    exact ⟨fun _ _ => rfl, rfl, le_refl _, Nat.le_succ _, id, rfl⟩

theorem add_empty_bounds (key_type : Nat) (s : AddMem) :
    (∀ a, (a + 1 < s.ibuffer_used ∨ s.ibuffer_used < a) ∨ ¬ key_type = DBX_KEYTYPE_M →
      (add_empty key_type s).mem a = s.mem a) ∧
    (add_empty key_type s).ibuffer_used = s.ibuffer_used ∧
    (add_empty key_type s).arg = s.arg ∧
    (add_empty key_type s).ibuffer_size = s.ibuffer_size := by
  unfold add_empty
  by_cases h : key_type = DBX_KEYTYPE_M ∧ s.len_used = 0
  · rw [if_pos h]
    refine ⟨?_, rfl, rfl, rfl⟩
    intro a ha
    have ha2 : a + 1 < s.ibuffer_used ∨ s.ibuffer_used < a :=
      ha.resolve_right (not_not.mpr h.1)
    exact mem_write_outside _ _ _ _ (by simp; omega)
  · rw [if_neg h]
    exact ⟨fun _ _ => rfl, rfl, rfl, rfl⟩

theorem add_other_bounds (key_type : Nat) (s : AddMem) :
    (add_other key_type s).mem = s.mem ∧
    (add_other key_type s).ibuffer_used = s.ibuffer_used ∧
    (add_other key_type s).arg.csize = s.arg.csize ∧
    (add_other key_type s).ibuffer_size = s.ibuffer_size := by
  unfold add_other
  split_ifs
  · exact ⟨rfl, rfl, dbx_is_number_csize _, rfl⟩
  · exact ⟨rfl, rfl, rfl, rfl⟩

/-- The text that `dbx_set_number` reads for a stringified number in
`dbx_ibuffer_add`, after the move of eight bytes: `shifted_text` of the bytes of
the argument. -/
theorem add_text_shift_read (key_type : Nat) (mem0 : Mem) (used0 size0 : Nat) (a0 : DBXVAL)
    (buffer : Bytes) (nul : Bool) :
    mem_read
      (mem_write (add_text key_type mem0 used0 size0 a0 buffer nul).mem
        ((add_text key_type mem0 used0 size0 a0 buffer nul).p + 8)
        (mem_read (add_text key_type mem0 used0 size0 a0 buffer nul).mem
          (add_text key_type mem0 used0 size0 a0 buffer nul).p buffer.length))
      (add_text key_type mem0 used0 size0 a0 buffer nul).buf_addr
      (add_text key_type mem0 used0 size0 a0 buffer nul).len_used = shifted_text buffer := by
  simp only [add_text]
  cases nul
  · have h := shift_read
      (if key_type = DBX_KEYTYPE_M then
        if a0.type = DBX_DTYPE_INT then mem_write mem0 used0 (dbx_set_number a0)
        else mem_write mem0 used0 [0, 3]
      else mem0)
      (if key_type = DBX_KEYTYPE_M then if a0.type = DBX_DTYPE_INT then used0 + 10 else used0 + 2
        else used0) buffer []
    rw [List.append_nil] at h
    exact h
  · exact shift_read _ _ buffer [0]

/-! ## Lemmas: the indices of args[] -/

theorem arg_indices_mem {α : Type} (l : List α) (nx i : Nat) :
    i ∈ arg_indices nx l ↔ nx ≤ i ∧ i < nx + l.length := by
  induction l generalizing nx with
  | nil => simp [arg_indices]
  | cons a rest ih =>
    simp only [arg_indices, List.mem_cons, ih, List.length_cons]
    omega

theorem callback_count_le (args : List JsArg) : (DBX_CALLBACK_FUN args).1 ≤ args.length := by
  unfold DBX_CALLBACK_FUN
  split_ifs
  · exact Nat.sub_le _ _
  · exact le_refl _

/-- The writes of a method of a Global Handle in M mode fall within `args[]` when,
and only when, fixed subscripts and arguments of the call are fewer than
`DBX_MAXARGS` together. -/
theorem mglobal_reference_within (gx : DBXGREF) (args : List JsArg) (l : List Nat)
    (h : mglobal_reference DBX_KEYTYPE_M gx args = Except.ok l) :
    (∀ i ∈ l, i < DBX_MAXARGS) ↔ gx.pkey.length + (DBX_CALLBACK_FUN args).1 < DBX_MAXARGS := by
  have hc := callback_count_le args
  unfold mglobal_reference at h
  dsimp only at h
  split_ifs at h with h1
  cases h
  simp only [GlobalReference_indices, if_true, List.mem_cons, List.mem_append, arg_indices_mem,
    List.length_take, Nat.min_eq_left hc]
  unfold DBX_MAXARGS at h1 ⊢
  constructor
  · intro hall
    by_contra hn
    have := hall (gx.pkey.length + (DBX_CALLBACK_FUN args).1) (by
      by_cases h0 : (DBX_CALLBACK_FUN args).1 = 0
      · by_cases hp : gx.pkey.length = 0
        · omega
        · right; left; omega
      · right; right; omega)
    omega
  · intro hlt i hi
    omega


/-! ## Lemmas: the shared handle of a backend -/

/-- Once the handle is marked not loaded, or once a second connection has been
counted, the calls of connections neither close the database nor change
`loaded`. -/
theorem conn_run_settled (ops : List ConnOp) (d : Nat) (so : DBXSO)
    (hb : balanced d ops = true) (hc : so.no_connections = d)
    (hs : so.loaded = 0 ∨ 1 ≤ so.multiple_connections) :
    ∃ so2, conn_run (some so) ops = some so2 ∧ so2.no_connections = 0 ∧
      so2.loaded = so.loaded ∧ so2.closed = so.closed := by
  induction ops generalizing d so with
  | nil =>
    simp only [balanced, decide_eq_true_eq] at hb
    exact ⟨so, rfl, by rw [hc, hb]; rfl, rfl, rfl⟩
  | cons op rest ih =>
    cases op with
    | op_open =>
      simp only [balanced] at hb
      simp only [conn_run, dbx_open]
      obtain ⟨so2, h1, h2, h3, h4⟩ := ih (d + 1)
        { so with no_connections := so.no_connections + 1,
                  multiple_connections := so.multiple_connections + 1 } hb
        (by simp only [hc]; push_cast; rfl)
        (by rcases hs with h | h
            · exact Or.inl h
            · right; show 1 ≤ so.multiple_connections + 1; omega)
      exact ⟨so2, h1, h2, h3, h4⟩
    | op_close =>
      cases d with
      | zero => simp [balanced] at hb
      | succ d =>
        simp only [balanced] at hb
        have hstep : ∃ so1, dbx_close (some so) = some so1 ∧ so1.no_connections = d ∧
            so1.loaded = so.loaded ∧ so1.closed = so.closed ∧
            so1.multiple_connections = so.multiple_connections := by
          unfold dbx_close
          dsimp only
          have hd : so.no_connections - 1 = d := by rw [hc]; push_cast; omega
          by_cases hz : so.no_connections - 1 = 0 ∧ so.multiple_connections = 0
          · rw [if_pos hz]
            rcases hs with h | h
            · rw [if_neg (by simp [h])]
              exact ⟨_, rfl, hd, rfl, rfl, rfl⟩
            · omega
          · rw [if_neg hz]
            exact ⟨_, rfl, hd, rfl, rfl, rfl⟩
        obtain ⟨so1, e1, e2, e3, e4, e5⟩ := hstep
        simp only [conn_run, e1]
        obtain ⟨so2, h1, h2, h3, h4⟩ := ih d so1 hb e2 (by rw [e3, e5]; exact hs)
        exact ⟨so2, h1, h2, h3.trans e3, h4.trans e4⟩


/-! ## Lemmas: the size of the key area and the records that a read sees -/

theorem ibuffer_add_size_ge (pkey : DBXKEY) (argn : Nat) (buffer : Bytes) :
    pkey.ibuffer_size ≤ (dbx_ibuffer_add DBX_KEYTYPE_M pkey argn buffer).1.ibuffer_size := by
  simp only [dbx_ibuffer_add, CACHE_MAXSTRLEN]
  split_ifs <;> omega

theorem add_argument_size_ge (pkey : DBXKEY) (nx : Nat) (a : JsValue) :
    pkey.ibuffer_size ≤ (add_argument DBX_KEYTYPE_M pkey nx a).ibuffer_size := by
  rw [add_argument_size]
  unfold CACHE_MAXSTRLEN
  split_ifs <;> omega

theorem add_arguments_size_ge (xs : List JsValue) : ∀ (pkey : DBXKEY) (nx : Nat),
    pkey.ibuffer_size ≤ (add_arguments DBX_KEYTYPE_M pkey nx xs).ibuffer_size := by
  induction xs with
  | nil => intro pkey nx; exact le_refl _
  | cons x xs ih =>
    intro pkey nx
    exact le_trans (add_argument_size_ge pkey nx x) (ih _ _)

/-- The key area of a reference is at least as large as an output buffer. -/
theorem GlobalReference_size_ge (name : Bytes) (args : List JsValue) :
    OUTPUT_LEN_ALLOC ≤ (GlobalReference name args).ibuffer_size := by
  have h1 := ibuffer_add_size_ge
    { ibuffer := [], argc := 0, args := setArg (fun _ => default) 0 { type := DBX_DTYPE_NONE } }
    0 name
  have h2 := add_arguments_size_ge args
    (dbx_ibuffer_add DBX_KEYTYPE_M
      { ibuffer := [], argc := 0, args := setArg (fun _ => default) 0 { type := DBX_DTYPE_NONE } }
      0 name).1 1
  have h0 : OUTPUT_LEN_ALLOC ≤ CACHE_MAXSTRLEN := by decide
  exact le_trans h0 (le_trans h1 h2)

/-- A read sees the database on Berkeley DB, and on LMDB when no read transaction
is open on the connection. -/
theorem read_store_database (dbtype : Nat) (tlevelro : Int) (seen store : Store)
    (h : dbtype = DBX_DBTYPE_LMDB → tlevelro = 0) :
    read_store dbtype tlevelro seen store = store := by
  unfold read_store
  rw [if_neg]
  rintro ⟨h1, h2⟩
  exact h2 (h h1)

theorem fitStore_nil : fitStore [] := by
  intro r hr
  simp at hr

/-- `dbx_set` of a value that fits an output buffer, under a key that fits one,
keeps a store whose records fit. -/
theorem fitStore_db_put (s : Store) (hf : fitStore s) (k v : Bytes)
    (hk : k.length ≤ OUTPUT_LEN_ALLOC) (hv : v.length ≤ OUTPUT_LEN_ALLOC) :
    fitStore (db_put s k v) := by
  intro r hr
  rcases mem_db_put s k v r hr with h | h
  · rw [h]; exact ⟨hk, hv⟩
  · exact hf r h

/-! ## Claims on the key codec -/

/-- C1, as stated, fails: the integer 5 precedes the empty string in M order (a
numeric subscript before a string subscript), yet the key of `^X(5)` is not below
the key of `^X("")`, whose slot is written 00 00. -/
theorem C1_empty_string_sorts_first :
    ¬ (bytesLt (GlobalReference [94, 88] [JsValue.int32 5]).ibuffer
          (GlobalReference [94, 88] [JsValue.str []]).ibuffer = true ↔
        mPrecedes (JsValue.int32 5) (JsValue.str [])) := by
  have h1 : mPrecedes (JsValue.int32 5) (JsValue.str []) := by
    simp [mPrecedes, numericValue, is_number_flags]
  have h2 : bytesLt (GlobalReference [94, 88] [JsValue.int32 5]).ibuffer
      (GlobalReference [94, 88] [JsValue.str []]).ibuffer = false := by decide
  intro h
  rw [h2] at h
  exact absurd (h.mpr h1) (by simp)

/-- C1, amended: for two regular subscripts `a` and `b` (a 32-bit integer other
than the minimum, a decimal text with an integer part below `2 ^ 31` that, when it
has a decimal point, is of at most eight bytes and not a negative number strictly
between -1 and 0, or a non-empty string that is not a number) written at the same position after the same
name and the same earlier subscripts, the key of `a` is byte-wise below the key of
`b` whenever `a` precedes `b` in M order, and when the key of `a` is below the key
of `b` then `a` precedes `b` in M order or both are texts of the same number. -/
theorem C1_key_order (name : Bytes) (pre : List JsValue) (a b : JsValue)
    (ha : regularSubscript a = true) (hb : regularSubscript b = true) :
    (mPrecedes a b →
      bytesLt (GlobalReference name (pre ++ [a])).ibuffer
        (GlobalReference name (pre ++ [b])).ibuffer = true) ∧
    (bytesLt (GlobalReference name (pre ++ [a])).ibuffer
        (GlobalReference name (pre ++ [b])).ibuffer = true →
      mPrecedes a b ∨ sameNumber a b) := by
  rw [GlobalReference_snoc, GlobalReference_snoc]
  exact slot_order a b ha hb _

/-- C1, amended, at `^X("a", "-1.5")` and `^X("a", 2)`. -/
theorem C1_key_order_witness :
    regularSubscript (JsValue.str [45, 49, 46, 53]) = true ∧
    regularSubscript (JsValue.int32 2) = true ∧
    ((mPrecedes (JsValue.str [45, 49, 46, 53]) (JsValue.int32 2) →
      bytesLt (GlobalReference [94, 88] ([JsValue.str [97]] ++ [JsValue.str [45, 49, 46, 53]])).ibuffer
        (GlobalReference [94, 88] ([JsValue.str [97]] ++ [JsValue.int32 2])).ibuffer = true) ∧
    (bytesLt (GlobalReference [94, 88] ([JsValue.str [97]] ++ [JsValue.str [45, 49, 46, 53]])).ibuffer
        (GlobalReference [94, 88] ([JsValue.str [97]] ++ [JsValue.int32 2])).ibuffer = true →
      mPrecedes (JsValue.str [45, 49, 46, 53]) (JsValue.int32 2) ∨
        sameNumber (JsValue.str [45, 49, 46, 53]) (JsValue.int32 2))) :=
  ⟨by decide, by decide,
    C1_key_order [94, 88] [JsValue.str [97]] (JsValue.str [45, 49, 46, 53]) (JsValue.int32 2)
      (by decide) (by decide)⟩

/-- C2, as stated, fails: the key of `X("", "a")` is read back by `dbx_split_key`
as the two slots `X\0\0` and `a`, not as the three slots `X`, the empty string and
`a`. -/
theorem C2_empty_subscript_not_read_back :
    split_texts (GlobalReference [88] [JsValue.str [], JsValue.str [97]]).ibuffer ≠
      stripName [88] :: [JsValue.str [], JsValue.str [97]].map JsValue.text := by
  decide

/-- C2, amended: for every composite key made of a name that is not empty once
its leading '^' is taken off and of up to 32 subscripts, each an integer or a
non-empty string, no text holding a zero byte, `dbx_split_key` applied to the bytes
written by `dbx_ibuffer_add` returns as many slots as were written, one for the
name and one for each subscript (at most 33, so that every entry it writes or
tests lies within the `DBX_MAXARGS` entries of the descriptor array), and, slot by
slot, the name without its leading '^' and the texts of the subscripts, whatever
the array held before the call. -/
theorem C2_split_key_round_trip (keys0 : ArgArray) (name : Bytes) (subs : List JsValue)
    (hn : decodableText (stripName name) = true) (hs : ∀ a ∈ subs, decodableArg a = true)
    (hl : subs.length ≤ 32) :
    (dbx_split_key keys0 (GlobalReference name subs).ibuffer
        (GlobalReference name subs).ibuffer.length).2 = subs.length + 1 ∧
    (dbx_split_key keys0 (GlobalReference name subs).ibuffer
        (GlobalReference name subs).ibuffer.length).2 < DBX_MAXARGS ∧
    (List.range (subs.length + 1)).map (fun j =>
      (getArg (dbx_split_key keys0 (GlobalReference name subs).ibuffer
        (GlobalReference name subs).ibuffer.length).1 j).text) =
      stripName name :: subs.map JsValue.text ∧
    split_texts (GlobalReference name subs).ibuffer =
      stripName name :: subs.map JsValue.text := by
  have hw : ∀ ht ∈ nameSlot name :: subs.map argSlot,
      isLead ht.1 ∧ decodableText ht.2 = true := by
    intro ht hmem
    rcases List.mem_cons.mp hmem with h | h
    · subst h
      exact ⟨Or.inl rfl, hn⟩
    · obtain ⟨a, ha, rfl⟩ := List.mem_map.mp h
      exact ⟨isLead_slotLead a, (arg_slot_bytes a (hs a ha)).2⟩
  obtain ⟨h1, h2⟩ := split_key_slots keys0 (nameSlot name) (subs.map argSlot) hw
  rw [List.length_map] at h1 h2
  rw [reference_slots name subs hn hs]
  refine ⟨h1, ?_, ?_, ?_⟩
  · rw [h1]
    unfold DBX_MAXARGS
    omega
  · rw [h2]
    simp [nameSlot, argSlot]
  · rw [split_texts_slots _ _ hw]
    simp [nameSlot, argSlot]

/-- C2, amended, at `^X("alpha", 1, "-1.5")`. -/
theorem C2_split_key_round_trip_witness :
    decodableText (stripName [94, 88]) = true ∧
    (∀ a ∈ [JsValue.str [97, 108, 112, 104, 97], JsValue.int32 1, JsValue.str [45, 49, 46, 53]],
      decodableArg a = true) ∧
    [JsValue.str [97, 108, 112, 104, 97], JsValue.int32 1,
      JsValue.str [45, 49, 46, 53]].length ≤ 32 ∧
    split_texts (GlobalReference [94, 88]
        [JsValue.str [97, 108, 112, 104, 97], JsValue.int32 1, JsValue.str [45, 49, 46, 53]]).ibuffer =
      stripName [94, 88] ::
        [JsValue.str [97, 108, 112, 104, 97], JsValue.int32 1, JsValue.str [45, 49, 46, 53]].map
          JsValue.text :=
  ⟨by decide, by decide, by decide,
    (C2_split_key_round_trip (fun _ => default) [94, 88]
      [JsValue.str [97, 108, 112, 104, 97], JsValue.int32 1, JsValue.str [45, 49, 46, 53]]
      (by decide) (by decide) (by decide)).2.2.2⟩

/-! ## Claims on the point operations -/

/-- C3, as stated, fails on LMDB while a cursor handle of the connection is open.
The handle holds the read transaction of the connection (`tlevelro` is 1 after
`dbx_cursor_reset`), so `lmdb_start_ro_transaction` neither begins nor renews it
for the `get`: with a database that was empty when the cursor was made,
`get(^X,"alpha",1)` right after `set(^X,"alpha",1,"v1")` reads the records of
before the `set` and returns the empty string. On Berkeley DB the same calls return
"v1". -/
theorem C3_open_cursor_hides_the_set :
    (dbx_cursor_reset_cx {} (dbx_cursor_init DBX_DBTYPE_LMDB) { global := some [94, 88] }
      (fun _ => 0) (List.replicate 64 0) (List.replicate 64 0)).1.tlevelro = 1 ∧
    dbx_get
      (read_store DBX_DBTYPE_LMDB 1 []
        (dbx_set [] (GlobalReference [94, 88]
          [JsValue.str [97, 108, 112, 104, 97], JsValue.int32 1, JsValue.str [118, 49]])))
      (GlobalReference [94, 88] [JsValue.str [97, 108, 112, 104, 97], JsValue.int32 1]) =
        Except.ok [] ∧
    dbx_get
      (read_store DBX_DBTYPE_BDB 1 []
        (dbx_set [] (GlobalReference [94, 88]
          [JsValue.str [97, 108, 112, 104, 97], JsValue.int32 1, JsValue.str [118, 49]])))
      (GlobalReference [94, 88] [JsValue.str [97, 108, 112, 104, 97], JsValue.int32 1]) =
        Except.ok [118, 49] := by
  refine ⟨by decide, by rfl, by rfl⟩

/-- C3, amended: on Berkeley DB, and on LMDB when no read transaction is open on
the connection (`tlevelro` is 0: no cursor handle is open), for every database,
every M-mode reference (a name and subscripts) and every value whose text fits the
output buffer of 32000 bytes, `dbx_get` of the reference right after `dbx_set` of
the reference with that value returns exactly the bytes of the value, be it empty,
the text of a number or a text that starts with '^'. -/
theorem C3_get_after_set (dbtype : Nat) (tlevelro : Int) (seen store : Store) (name : Bytes)
    (subs : List JsValue) (value : JsValue)
    (hv : value.text.length ≤ OUTPUT_LEN_ALLOC)
    (hb : dbtype = DBX_DBTYPE_LMDB → tlevelro = 0) :
    dbx_get
      (read_store dbtype tlevelro seen (dbx_set store (GlobalReference name (subs ++ [value]))))
      (GlobalReference name subs) = Except.ok value.text := by
  rw [read_store_database dbtype tlevelro seen _ hb]
  obtain ⟨h1, h2⟩ := GlobalReference_snoc_args name subs value
  unfold dbx_get dbx_set
  rw [h1, h2, GlobalReference_snoc, List.take_left, GlobalReference_last_csize, List.take_length,
    db_get_put_same]
  simp [hv]

/-- C3, amended, at the scenario of the specification on LMDB without an open
cursor: `set(^X,"alpha",1,"v1")` and then `get(^X,"alpha",1)`, which gives
`"v1"`. -/
theorem C3_get_after_set_witness :
    (JsValue.str [118, 49]).text.length ≤ OUTPUT_LEN_ALLOC ∧
    (DBX_DBTYPE_LMDB = DBX_DBTYPE_LMDB → (0 : Int) = 0) ∧
    dbx_get
      (read_store DBX_DBTYPE_LMDB 0 []
        (dbx_set [] (GlobalReference [94, 88]
          ([JsValue.str [97, 108, 112, 104, 97], JsValue.int32 1] ++ [JsValue.str [118, 49]]))))
      (GlobalReference [94, 88] [JsValue.str [97, 108, 112, 104, 97], JsValue.int32 1]) =
        Except.ok [118, 49] :=
  ⟨by decide, fun _ => rfl,
    C3_get_after_set DBX_DBTYPE_LMDB 0 [] [] [94, 88]
      [JsValue.str [97, 108, 112, 104, 97], JsValue.int32 1]
      (JsValue.str [118, 49]) (by decide) (fun _ => rfl)⟩

/-- C4, as stated, fails: with the one record `^X("a\0b")`, whose subscript holds a
zero byte, `defined(^X,"a")` is 10 on either backend although no record is stored
under `^X("a")` extended by a further subscript. -/
theorem C4_zero_byte_sibling_counts_as_child :
    dbx_defined DBX_DBTYPE_BDB
        (dbx_set [] (GlobalReference [94, 88] [JsValue.str [97, 0, 98], JsValue.str [118]]))
        (GlobalReference [94, 88] [JsValue.str [97]]) = 10 ∧
    dbx_defined DBX_DBTYPE_LMDB
        (dbx_set [] (GlobalReference [94, 88] [JsValue.str [97, 0, 98], JsValue.str [118]]))
        (GlobalReference [94, 88] [JsValue.str [97]]) = 10 ∧
    ¬ hasDescendant
        (dbx_set [] (GlobalReference [94, 88] [JsValue.str [97, 0, 98], JsValue.str [118]]))
        [94, 88] [JsValue.str [97]] := by
  refine ⟨by decide, by decide, ?_⟩
  rintro ⟨r, hr, more, hmore, hkey⟩
  have hstore : dbx_set [] (GlobalReference [94, 88] [JsValue.str [97, 0, 98], JsValue.str [118]]) =
      [([0, 3, 88, 0, 3, 97, 0, 98], [118])] := by decide
  rw [hstore] at hr
  have hr1 : r.1 = [0, 3, 88, 0, 3, 97, 0, 98] := by
    have : r = ([0, 3, 88, 0, 3, 97, 0, 98], [118]) := by simpa using hr
    rw [this]
  obtain ⟨m, ms, hm⟩ := List.exists_cons_of_ne_nil hmore
  obtain ⟨c, y, hc, hc3⟩ := slotBytes_head m
  have e0 : (GlobalReference [94, 88] []).ibuffer = [0, 3, 88] := by decide
  have e1 : slotBytes (JsValue.str [97]) = [0, 3, 97] := by decide
  rw [hr1, GlobalReference_ibuffer [94, 88] ([JsValue.str [97]] ++ more), e0, hm] at hkey
  simp only [List.map_append, List.map_cons, List.map_nil, List.flatten_append,
    List.flatten_cons, List.flatten_nil, e1, hc, List.cons_append, List.nil_append,
    List.append_nil, List.cons.injEq, true_and] at hkey
  omega

/-- C4, amended: on Berkeley DB, and on LMDB when no read transaction is open on
the connection (`tlevelro` is 0), for every database in key order whose keys the
codec wrote from non-empty texts without a zero byte and whose keys and data fit
the 32000 bytes of an output buffer, and every such reference `k` whose key fits
them too (the function copies it into an output buffer), `dbx_defined` returns
`d + 10 * c` with `d` and `c` each 0 or 1, `d = 1` exactly when a record of key `k`
exists and `c = 1` exactly when a record is stored under `k` extended by at least
one further subscript; so the result is one of 0, 1, 10 and 11. -/
theorem C4_defined_classification (dbtype : Nat) (tlevelro : Int) (seen store : Store)
    (hs : storeSorted store) (hf : fitStore store)
    (hw : codecStore store) (name : Bytes) (subs : List JsValue)
    (hn : decodableText (stripName name) = true) (hsubs : ∀ a ∈ subs, decodableArg a = true)
    (_hk : (GlobalReference name subs).ibuffer.length ≤ OUTPUT_LEN_ALLOC)
    (hb : dbtype = DBX_DBTYPE_LMDB → tlevelro = 0) :
    ∃ d c : Nat,
      dbx_defined dbtype (read_store dbtype tlevelro seen store) (GlobalReference name subs) =
        d + 10 * c ∧
      (d = 0 ∨ d = 1) ∧ (c = 0 ∨ c = 1) ∧
      (d = 1 ↔ hasRecord store name subs) ∧ (c = 1 ↔ hasDescendant store name subs) := by
  rw [read_store_database dbtype tlevelro seen store hb]
  obtain ⟨d, c, h1, h2, h3, h4, h5⟩ := dbx_defined_bytes dbtype store hs hf
    (GlobalReference name subs) (GlobalReference_size_ge name subs)
    (GlobalReference_last_csize name subs) (GlobalReference_ibuffer_ne_nil name subs hn hsubs)
  refine ⟨d, c, h1, h2, h3, h4, ?_⟩
  rw [h5, descendant_iff_zero_extension store hw name subs hn hsubs]

/-- C4, amended, at the scenario of the specification: after
`set(^X,"alpha",1,"v1")`, `defined(^X,"alpha")` is 10 and `defined(^X,"alpha",1)`
is 1. -/
theorem C4_defined_classification_witness :
    storeSorted (dbx_set [] (GlobalReference [94, 88]
      [JsValue.str [97, 108, 112, 104, 97], JsValue.int32 1, JsValue.str [118, 49]])) ∧
    fitStore (dbx_set [] (GlobalReference [94, 88]
      [JsValue.str [97, 108, 112, 104, 97], JsValue.int32 1, JsValue.str [118, 49]])) ∧
    (GlobalReference [94, 88] [JsValue.str [97, 108, 112, 104, 97]]).ibuffer.length ≤
      OUTPUT_LEN_ALLOC ∧
    dbx_defined DBX_DBTYPE_BDB (dbx_set [] (GlobalReference [94, 88]
      [JsValue.str [97, 108, 112, 104, 97], JsValue.int32 1, JsValue.str [118, 49]]))
      (GlobalReference [94, 88] [JsValue.str [97, 108, 112, 104, 97]]) = 10 ∧
    dbx_defined DBX_DBTYPE_BDB (dbx_set [] (GlobalReference [94, 88]
      [JsValue.str [97, 108, 112, 104, 97], JsValue.int32 1, JsValue.str [118, 49]]))
      (GlobalReference [94, 88] [JsValue.str [97, 108, 112, 104, 97], JsValue.int32 1]) = 1 ∧
    ∃ d c : Nat,
      dbx_defined DBX_DBTYPE_LMDB
        (read_store DBX_DBTYPE_LMDB 0 [] (dbx_set [] (GlobalReference [94, 88]
          [JsValue.str [97, 108, 112, 104, 97], JsValue.int32 1, JsValue.str [118, 49]])))
        (GlobalReference [94, 88] [JsValue.str [97, 108, 112, 104, 97]]) = d + 10 * c ∧
      (d = 0 ∨ d = 1) ∧ (c = 0 ∨ c = 1) ∧
      (d = 1 ↔ hasRecord (dbx_set [] (GlobalReference [94, 88]
        [JsValue.str [97, 108, 112, 104, 97], JsValue.int32 1, JsValue.str [118, 49]]))
        [94, 88] [JsValue.str [97, 108, 112, 104, 97]]) ∧
      (c = 1 ↔ hasDescendant (dbx_set [] (GlobalReference [94, 88]
        [JsValue.str [97, 108, 112, 104, 97], JsValue.int32 1, JsValue.str [118, 49]]))
        [94, 88] [JsValue.str [97, 108, 112, 104, 97]]) :=
  ⟨by unfold storeSorted; decide, by unfold fitStore; decide, by decide, by decide, by decide,
    C4_defined_classification DBX_DBTYPE_LMDB 0 [] _ (by unfold storeSorted; decide)
      (by unfold fitStore; decide)
      (by
        intro r hr
        have hstore : dbx_set [] (GlobalReference [94, 88]
            [JsValue.str [97, 108, 112, 104, 97], JsValue.int32 1, JsValue.str [118, 49]]) =
            [((GlobalReference [94, 88]
              [JsValue.str [97, 108, 112, 104, 97], JsValue.int32 1]).ibuffer, [118, 49])] := by
          decide
        rw [hstore] at hr
        have hr1 : r = ((GlobalReference [94, 88]
            [JsValue.str [97, 108, 112, 104, 97], JsValue.int32 1]).ibuffer, [118, 49]) := by
          simpa using hr
        rw [hr1]
        exact ⟨[94, 88], [JsValue.str [97, 108, 112, 104, 97], JsValue.int32 1], by decide,
          by decide, rfl⟩)
      [94, 88] [JsValue.str [97, 108, 112, 104, 97]] (by decide) (by decide) (by decide)
      (fun _ => rfl)⟩

/-- The key of `^X("a\0b")` is not the key of `^X("a")` extended by any
subscripts. -/
theorem zero_byte_sibling_key (more : List JsValue) :
    (GlobalReference [94, 88] ([JsValue.str [97]] ++ more)).ibuffer ≠
      [0, 3, 88, 0, 3, 97, 0, 98] := by
  intro hkey
  have e0 : (GlobalReference [94, 88] []).ibuffer = [0, 3, 88] := by decide
  have e1 : slotBytes (JsValue.str [97]) = [0, 3, 97] := by decide
  rw [GlobalReference_ibuffer [94, 88] ([JsValue.str [97]] ++ more), e0] at hkey
  cases more with
  | nil => simp [e1] at hkey
  | cons m ms =>
    obtain ⟨c, y, hc, hc3⟩ := slotBytes_head m
    simp only [List.map_append, List.map_cons, List.map_nil, List.flatten_append,
      List.flatten_cons, List.flatten_nil, e1, hc, List.cons_append, List.nil_append,
      List.append_nil, List.cons.injEq, true_and] at hkey
    omega

/-- C5, as stated, fails: with the one record `^X("a\0b")`, a sibling whose
subscript starts with the bytes of "a", `delete(^X,"a")` empties the store on
either backend, although the key of that record is neither the key of `^X("a")` nor the key of
`^X("a")` extended by further subscripts. -/
theorem C5_zero_byte_sibling_deleted :
    dbx_set [] (GlobalReference [94, 88] [JsValue.str [97, 0, 98], JsValue.str [118]]) =
      [([0, 3, 88, 0, 3, 97, 0, 98], [118])] ∧
    dbx_delete DBX_DBTYPE_BDB
      (dbx_set [] (GlobalReference [94, 88] [JsValue.str [97, 0, 98], JsValue.str [118]]))
      (GlobalReference [94, 88] [JsValue.str [97]]) = [] ∧
    dbx_delete DBX_DBTYPE_LMDB
      (dbx_set [] (GlobalReference [94, 88] [JsValue.str [97, 0, 98], JsValue.str [118]]))
      (GlobalReference [94, 88] [JsValue.str [97]]) = [] ∧
    ∀ more : List JsValue, (GlobalReference [94, 88] ([JsValue.str [97]] ++ more)).ibuffer ≠
      [0, 3, 88, 0, 3, 97, 0, 98] :=
  ⟨by decide, by decide, by decide, zero_byte_sibling_key⟩

theorem record_descendant_iff (r : Record) (hr : codecKey r.1) (name : Bytes)
    (subs : List JsValue) (hn : decodableText (stripName name) = true)
    (hs : ∀ a ∈ subs, decodableArg a = true) :
    (∃ more : List JsValue, more ≠ [] ∧ r.1 = (GlobalReference name (subs ++ more)).ibuffer) ↔
      zeroExt (GlobalReference name subs).ibuffer r.1 = true := by
  have hk := GlobalReference_ibuffer_ne_nil name subs hn hs
  have h := descendant_iff_zero_extension [r] (by intro x hx; simp at hx; rw [hx]; exact hr)
    name subs hn hs
  rw [zeroExt_iff _ _ hk]
  simpa [hasDescendant] using h

/-- C5, amended: on either backend, for every database in key order whose keys the
codec wrote from non-empty texts without a zero byte and whose keys and data fit
the 32000 bytes of an output buffer, and every such reference `k` whose key fits
them too (the function copies it into an output buffer), the database after
`delete(k)` holds exactly the records it held before whose keys are neither `k` nor
`k` extended by further subscripts, in their order and with their data; and
`defined` of every reference that extends `k` and whose key fits an output buffer
then returns 0, on LMDB when no read transaction is open on the connection
(`tlevelro` is 0). -/
theorem C5_delete_subtree (dbtype : Nat) (tlevelro : Int) (seen store : Store)
    (hs : storeSorted store) (hf : fitStore store) (hw : codecStore store)
    (name : Bytes) (subs : List JsValue) (hn : decodableText (stripName name) = true)
    (hsubs : ∀ a ∈ subs, decodableArg a = true)
    (_hk : (GlobalReference name subs).ibuffer.length ≤ OUTPUT_LEN_ALLOC)
    (hb : dbtype = DBX_DBTYPE_LMDB → tlevelro = 0) :
    (∀ r : Record, r ∈ dbx_delete dbtype store (GlobalReference name subs) ↔
      (r ∈ store ∧ r.1 ≠ (GlobalReference name subs).ibuffer ∧
        ¬ ∃ more : List JsValue, more ≠ [] ∧
          r.1 = (GlobalReference name (subs ++ more)).ibuffer)) ∧
    (dbx_delete dbtype store (GlobalReference name subs)).Sublist store ∧
    (∀ more : List JsValue, more ≠ [] →
      (GlobalReference name (subs ++ more)).ibuffer.length ≤ OUTPUT_LEN_ALLOC →
      dbx_defined dbtype
        (read_store dbtype tlevelro seen (dbx_delete dbtype store (GlobalReference name subs)))
        (GlobalReference name (subs ++ more)) = 0) := by
  simp only [read_store_database dbtype tlevelro seen _ hb]
  have hk := GlobalReference_ibuffer_ne_nil name subs hn hsubs
  have hdel := dbx_delete_bytes dbtype store hs hf (GlobalReference name subs)
    (GlobalReference_size_ge name subs) (GlobalReference_last_csize name subs) hk
  have hmem : ∀ r : Record, r ∈ dbx_delete dbtype store (GlobalReference name subs) ↔
      (r ∈ store ∧ r.1 ≠ (GlobalReference name subs).ibuffer ∧
        zeroExt (GlobalReference name subs).ibuffer r.1 = false) := by
    intro r
    rw [hdel, List.mem_filter]
    simp
  refine ⟨?_, ?_, ?_⟩
  · intro r
    rw [hmem r]
    constructor
    · rintro ⟨h1, h2, h3⟩
      refine ⟨h1, h2, ?_⟩
      rw [record_descendant_iff r (hw r h1) name subs hn hsubs, h3]
      simp
    · rintro ⟨h1, h2, h3⟩
      refine ⟨h1, h2, ?_⟩
      rw [record_descendant_iff r (hw r h1) name subs hn hsubs] at h3
      simpa using h3
  · rw [hdel]
    exact List.filter_sublist _
  · intro more hmore _
    have hsd : storeSorted (dbx_delete dbtype store (GlobalReference name subs)) := by
      rw [hdel]; exact List.Pairwise.filter _ hs
    have hfd : fitStore (dbx_delete dbtype store (GlobalReference name subs)) := by
      rw [hdel]; exact fun r hr => hf r (List.mem_filter.mp hr).1
    obtain ⟨m, ms, hm⟩ := List.exists_cons_of_ne_nil hmore
    obtain ⟨c, y, hc, _⟩ := slotBytes_head m
    have hk2 : (GlobalReference name (subs ++ more)).ibuffer =
        (GlobalReference name subs).ibuffer ++ 0 :: (c :: y ++ (ms.map slotBytes).flatten) := by
      rw [GlobalReference_ibuffer name (subs ++ more), GlobalReference_ibuffer name subs, hm]
      simp [hc]
    have hk2ne : (GlobalReference name (subs ++ more)).ibuffer ≠ [] := by
      rw [hk2]; simp
    obtain ⟨d, c2, h1, h2, h3, h4, h5⟩ := dbx_defined_bytes dbtype _ hsd hfd
      (GlobalReference name (subs ++ more)) (GlobalReference_size_ge name (subs ++ more))
      (GlobalReference_last_csize name (subs ++ more)) hk2ne
    have hd0 : d = 0 := by
      rcases h2 with h | h
      · exact h
      · obtain ⟨r, hr, hrk⟩ := h4.mp h
        have := ((hmem r).mp hr).2.2
        rw [hrk, hk2] at this
        have hz := (zeroExt_iff (GlobalReference name subs).ibuffer
          ((GlobalReference name subs).ibuffer ++ 0 :: (c :: y ++ (ms.map slotBytes).flatten))
          hk).mpr ⟨c :: y ++ (ms.map slotBytes).flatten, rfl⟩
        rw [hz] at this
        exact absurd this (by simp)
    have hc0 : c2 = 0 := by
      rcases h3 with h | h
      · exact h
      · obtain ⟨r, hr, y2, hrk⟩ := h5.mp h
        have := ((hmem r).mp hr).2.2
        rw [hrk, hk2, List.append_assoc] at this
        have hz := (zeroExt_iff (GlobalReference name subs).ibuffer
          ((GlobalReference name subs).ibuffer ++
            0 :: ((c :: y ++ (ms.map slotBytes).flatten) ++ 0 :: y2)) hk).mpr
          ⟨(c :: y ++ (ms.map slotBytes).flatten) ++ 0 :: y2, rfl⟩
        simp only [List.cons_append] at this hz
        rw [hz] at this
        exact absurd this (by simp)
    rw [h1, hd0, hc0]

/-- C5, amended, at the scenario of the specification on LMDB without an open
cursor: after `set(^X,"a","b",v)`, `delete(^X,"a")` leaves `defined(^X,"a","b")`
returning 0. -/
theorem C5_delete_subtree_witness :
    storeSorted (dbx_set [] (GlobalReference [94, 88]
      ([JsValue.str [97], JsValue.str [98]] ++ [JsValue.str [118]]))) ∧
    fitStore (dbx_set [] (GlobalReference [94, 88]
      ([JsValue.str [97], JsValue.str [98]] ++ [JsValue.str [118]]))) ∧
    codecStore (dbx_set [] (GlobalReference [94, 88]
      ([JsValue.str [97], JsValue.str [98]] ++ [JsValue.str [118]]))) ∧
    (GlobalReference [94, 88] [JsValue.str [97]]).ibuffer.length ≤ OUTPUT_LEN_ALLOC ∧
    (DBX_DBTYPE_LMDB = DBX_DBTYPE_LMDB → (0 : Int) = 0) ∧
    dbx_defined DBX_DBTYPE_LMDB
      (read_store DBX_DBTYPE_LMDB 0 []
        (dbx_delete DBX_DBTYPE_LMDB (dbx_set [] (GlobalReference [94, 88]
          ([JsValue.str [97], JsValue.str [98]] ++ [JsValue.str [118]])))
          (GlobalReference [94, 88] [JsValue.str [97]])))
      (GlobalReference [94, 88] ([JsValue.str [97]] ++ [JsValue.str [98]])) = 0 :=
  ⟨dbx_set_sorted [] storeSorted_nil _, by unfold fitStore; decide,
    dbx_set_codec [] codecStore_nil [94, 88] [JsValue.str [97], JsValue.str [98]]
      (JsValue.str [118]) (by decide) (by decide),
    by decide, fun _ => rfl,
    (C5_delete_subtree DBX_DBTYPE_LMDB 0 [] _ (dbx_set_sorted [] storeSorted_nil _)
      (by unfold fitStore; decide)
      (dbx_set_codec [] codecStore_nil [94, 88] [JsValue.str [97], JsValue.str [98]]
        (JsValue.str [118]) (by decide) (by decide))
      [94, 88] [JsValue.str [97]] (by decide) (by decide) (by decide) (fun _ => rfl)).2.2
      [JsValue.str [98]] (by decide) (by decide)⟩

/-! ### previous -/

/-- C7 fails on two inputs. With the records `^X("a")`, `^X("b")`, `^X("c")` and
nothing after them, `previous(^X,"")` returns "c" on Berkeley DB and the empty
result on LMDB, whose function has no read of the last record when
`MDB_SET_RANGE` finds nothing. With a value at the root, `^X` and `^X("a")`,
`previous(^X,"a")` returns on both backends the bytes designated by the entry
`mkeys[1]` of the local array, which was never assigned; so does
`previous(^X,"")` on Berkeley DB when the root record is the only one. -/
theorem C7_previous_last_global_and_root :
    (dbx_set (dbx_set (dbx_set [] (GlobalReference [94, 88] [JsValue.str [97], JsValue.str [118]]))
        (GlobalReference [94, 88] [JsValue.str [98], JsValue.str [118]]))
        (GlobalReference [94, 88] [JsValue.str [99], JsValue.str [118]]) =
      [([0, 3, 88, 0, 3, 97], [118]), ([0, 3, 88, 0, 3, 98], [118]),
        ([0, 3, 88, 0, 3, 99], [118])]) ∧
    (∀ mkeys0 : ArgArray,
      bdb_previous [([0, 3, 88, 0, 3, 97], [118]), ([0, 3, 88, 0, 3, 98], [118]),
          ([0, 3, 88, 0, 3, 99], [118])] (GlobalReference [94, 88] [JsValue.str []]) mkeys0 =
        (CACHE_SUCCESS, [99]) ∧
      lmdb_previous [([0, 3, 88, 0, 3, 97], [118]), ([0, 3, 88, 0, 3, 98], [118]),
          ([0, 3, 88, 0, 3, 99], [118])] (GlobalReference [94, 88] [JsValue.str []]) mkeys0 =
        (YDB_NODE_END, [])) ∧
    (dbx_set (dbx_set [] (GlobalReference [94, 88] [JsValue.str [118]]))
        (GlobalReference [94, 88] [JsValue.str [97], JsValue.str [118]]) =
      [([0, 3, 88], [118]), ([0, 3, 88, 0, 3, 97], [118])]) ∧
    (∀ mkeys0 : ArgArray,
      bdb_previous [([0, 3, 88], [118]), ([0, 3, 88, 0, 3, 97], [118])]
          (GlobalReference [94, 88] [JsValue.str [97]]) mkeys0 =
        (CACHE_SUCCESS, (getArg mkeys0 1).text) ∧
      lmdb_previous [([0, 3, 88], [118]), ([0, 3, 88, 0, 3, 97], [118])]
          (GlobalReference [94, 88] [JsValue.str [97]]) mkeys0 =
        (CACHE_SUCCESS, (getArg mkeys0 1).text)) ∧
    (∀ mkeys0 : ArgArray,
      bdb_previous [([0, 3, 88], [118])] (GlobalReference [94, 88] [JsValue.str []]) mkeys0 =
        (CACHE_SUCCESS, (getArg mkeys0 1).text)) := by
  refine ⟨by decide, ?_, by decide, ?_, ?_⟩
  · intro mkeys0
    constructor
    · have h : previous_read DBX_DBTYPE_BDB [([0, 3, 88, 0, 3, 97], [118]),
          ([0, 3, 88, 0, 3, 98], [118]), ([0, 3, 88, 0, 3, 99], [118])]
          (GlobalReference [94, 88] [JsValue.str []]) = (some [0, 3, 88, 0, 3, 99], 0) := by
        decide
      simp only [bdb_previous, previous_exit, h, if_true, dbx_split_key, split_key_types_text]
      rfl
    · rfl
  · intro mkeys0
    constructor
    · have h : previous_read DBX_DBTYPE_BDB [([0, 3, 88], [118]), ([0, 3, 88, 0, 3, 97], [118])]
          (GlobalReference [94, 88] [JsValue.str [97]]) = (some [0, 3, 88], 0) := by decide
      simp only [bdb_previous, previous_exit, h, if_true, dbx_split_key, split_key_types_text]
      rfl
    · have h : previous_read DBX_DBTYPE_LMDB [([0, 3, 88], [118]), ([0, 3, 88, 0, 3, 97], [118])]
          (GlobalReference [94, 88] [JsValue.str [97]]) = (some [0, 3, 88], 0) := by decide
      simp only [lmdb_previous, previous_exit, h, if_true, dbx_split_key, split_key_types_text]
      rfl
  · intro mkeys0
    have h : previous_read DBX_DBTYPE_BDB [([0, 3, 88], [118])]
        (GlobalReference [94, 88] [JsValue.str []]) = (some [0, 3, 88], 0) := by decide
    simp only [bdb_previous, previous_exit, h, if_true, dbx_split_key, split_key_types_text]
    rfl

/-! ### The multilevel cursor -/

/-- C9 fails: with exactly the records `^N(-1)`, `^N(0)`, `^N(1)`, the cursor that
`mglobalquery({global: "^N", key: [""]}, {multilevel: true})` makes returns null
on the first `next`, on either backend and whatever the memory of the key areas
holds: the anchor is the key 00 03 4e 00 00 of five bytes, and no key of the
global agrees with it over five bytes. -/
theorem C9_empty_key_query_yields_nothing (dbtype : Nat) (pmeth_int32 : Nat → Int)
    (mem_prev mem_next : Bytes) :
    dbx_set (dbx_set (dbx_set [] (GlobalReference [94, 78] [JsValue.int32 (-1), JsValue.str [110]]))
        (GlobalReference [94, 78] [JsValue.int32 0, JsValue.str [122]]))
        (GlobalReference [94, 78] [JsValue.int32 1, JsValue.str [112]]) =
      [([0, 3, 78, 0, 1, 255, 255, 255, 254, 255, 255, 255, 255, 45, 49], [110]),
        ([0, 3, 78, 0, 2, 0, 0, 0, 0, 0, 0, 0, 0, 48], [122]),
        ([0, 3, 78, 0, 2, 0, 0, 0, 1, 0, 0, 0, 0, 49], [112])] ∧
    ∃ cx : mcursor,
      dbx_cursor_reset dbtype [94, 78] [JsValue.str []] true pmeth_int32 mem_prev mem_next =
        some cx ∧
      cx.context = 2 ∧
      cx.pqr_prev.ibuffer.take cx.pqr_prev.ibuffer_used = [0, 3, 78, 0, 0] ∧
      cx.fixed_key_len = 5 ∧
      (mcursor.Next [([0, 3, 78, 0, 1, 255, 255, 255, 254, 255, 255, 255, 255, 45, 49], [110]),
        ([0, 3, 78, 0, 2, 0, 0, 0, 0, 0, 0, 0, 0, 48], [122]),
        ([0, 3, 78, 0, 2, 0, 0, 0, 1, 0, 0, 0, 0, 49], [112])] cx).2 = none := by
  refine ⟨by decide, _, rfl, rfl, storeKey_take _ _, rfl, ?_⟩
  apply And.left
  refine next_first_read_diverges _ _
    ([0, 3, 78, 0, 1, 255, 255, 255, 254, 255, 255, 255, 255, 45, 49], [110])
    [0, 3, 78, 0, 0] rfl rfl (storeKey_take _ _) rfl (by decide) ?_
  show bdb_key_compare [0, 3, 78, 0, 1, 255, 255, 255, 254, 255, 255, 255, 255, 45, 49]
    [0, 3, 78, 0, 0] 5 ≠ 0
  decide

/-- C8 fails in the backward direction. On Berkeley DB, with key areas that hold
zeros, the three records of the specification come out in order forward and in
reverse backward, each followed by null. With five records of `^A` stored before
them, the fourth `previous` does not return null: its five reads all return keys
of `^A`, the loop runs out with `rc` at `CACHE_SUCCESS` and the name length left by
an earlier call, and the call returns the descriptors of the second call read over
the key area, the key `["\0", "1"]`. -/
theorem C8_backward_yields_stale_key :
    ∃ cx : mcursor,
      dbx_cursor_reset DBX_DBTYPE_BDB [94, 88] [] true (fun _ => 0)
        (List.replicate 64 0) (List.replicate 64 0) = some cx ∧
      cx.context = 2 ∧
      cursor_run [([0, 3, 88, 0, 3, 97, 0, 2, 0, 0, 0, 1, 0, 0, 0, 0, 49], [49]),
        ([0, 3, 88, 0, 3, 97, 0, 2, 0, 0, 0, 2, 0, 0, 0, 0, 50], [50]),
        ([0, 3, 88, 0, 3, 98, 0, 2, 0, 0, 0, 1, 0, 0, 0, 0, 49], [51])] 1 4 cx =
      [some [[97], [49]], some [[97], [50]], some [[98], [49]], none] ∧
      cursor_run [([0, 3, 88, 0, 3, 97, 0, 2, 0, 0, 0, 1, 0, 0, 0, 0, 49], [49]),
        ([0, 3, 88, 0, 3, 97, 0, 2, 0, 0, 0, 2, 0, 0, 0, 0, 50], [50]),
        ([0, 3, 88, 0, 3, 98, 0, 2, 0, 0, 0, 1, 0, 0, 0, 0, 49], [51])] (-1) 4 cx =
      [some [[98], [49]], some [[97], [50]], some [[97], [49]], none] ∧
      cursor_run [([0, 3, 65, 0, 2, 0, 0, 0, 1, 0, 0, 0, 0, 49], [118]),
        ([0, 3, 65, 0, 2, 0, 0, 0, 2, 0, 0, 0, 0, 50], [118]),
        ([0, 3, 65, 0, 2, 0, 0, 0, 3, 0, 0, 0, 0, 51], [118]),
        ([0, 3, 65, 0, 2, 0, 0, 0, 4, 0, 0, 0, 0, 52], [118]),
        ([0, 3, 65, 0, 2, 0, 0, 0, 5, 0, 0, 0, 0, 53], [118]),
        ([0, 3, 88, 0, 3, 97, 0, 2, 0, 0, 0, 1, 0, 0, 0, 0, 49], [49]),
        ([0, 3, 88, 0, 3, 97, 0, 2, 0, 0, 0, 2, 0, 0, 0, 0, 50], [50]),
        ([0, 3, 88, 0, 3, 98, 0, 2, 0, 0, 0, 1, 0, 0, 0, 0, 49], [51])] (-1) 5 cx =
      [some [[98], [49]], some [[97], [50]], some [[97], [49]], some [[0], [49]], none] := by
  refine ⟨_, rfl, by decide, by decide, by decide, by decide⟩

/-- C10, as stated, fails in the backward direction: with the records `^X("b",1)`
and `^Y("a")`, the first read of the first `previous` on a cursor anchored on `^X`
returns the key of `^Y("a")`, whose first three bytes differ from the anchor, and
the call goes on to return the key `["b", "1"]`, on either backend. -/
theorem C10_backward_passes_diverging_key :
    (∃ cx : mcursor,
      dbx_cursor_reset DBX_DBTYPE_BDB [94, 88] [] true (fun _ => 0)
        (List.replicate 64 0) (List.replicate 64 0) = some cx ∧
      cx.context = 2 ∧ cx.fixed_key_len = 3 ∧
      cx.pqr_prev.ibuffer.take cx.pqr_prev.ibuffer_used = [0, 3, 88] ∧
      (query_last [([0, 3, 88, 0, 3, 98, 0, 2, 0, 0, 0, 1, 0, 0, 0, 0, 49], [51]),
          ([0, 3, 89, 0, 3, 97], [118])]
        (query_entry cx.place cx.pqr_next cx.pqr_prev)).2 = some ([0, 3, 89, 0, 3, 97], [118]) ∧
      List.take 3 [0, 3, 89, 0, 3, 97] ≠ [0, 3, 88] ∧
      (mcursor.Previous [([0, 3, 88, 0, 3, 98, 0, 2, 0, 0, 0, 1, 0, 0, 0, 0, 49], [51]),
          ([0, 3, 89, 0, 3, 97], [118])] cx).2 = some [[98], [49]]) ∧
    (∃ cx : mcursor,
      dbx_cursor_reset DBX_DBTYPE_LMDB [94, 88] [] true (fun _ => 0)
        (List.replicate 64 0) (List.replicate 64 0) = some cx ∧
      cx.context = 2 ∧ cx.fixed_key_len = 3 ∧
      cx.pqr_prev.ibuffer.take cx.pqr_prev.ibuffer_used = [0, 3, 88] ∧
      (query_last [([0, 3, 88, 0, 3, 98, 0, 2, 0, 0, 0, 1, 0, 0, 0, 0, 49], [51]),
          ([0, 3, 89, 0, 3, 97], [118])]
        (query_entry cx.place cx.pqr_next cx.pqr_prev)).2 = some ([0, 3, 89, 0, 3, 97], [118]) ∧
      List.take 3 [0, 3, 89, 0, 3, 97] ≠ [0, 3, 88] ∧
      (mcursor.Previous [([0, 3, 88, 0, 3, 98, 0, 2, 0, 0, 0, 1, 0, 0, 0, 0, 49], [51]),
          ([0, 3, 89, 0, 3, 97], [118])] cx).2 = some [[98], [49]]) :=
  ⟨⟨_, rfl, by decide, by decide, by decide, by decide, by decide, by decide⟩,
    ⟨_, rfl, by decide, by decide, by decide, by decide, by decide, by decide⟩⟩

/-- C10, amended: on either backend, at every turn of the loop of
`dbx_global_query`, a read that returns a key whose first `fixed_key_len` bytes
differ from those of `key0` (the key of `pqr_prev`: the anchor on the first call)
ends a forward call with end-of-data, no key and the counter as it was, and
makes a backward call pass on to its next turn, the read of the record before. -/
theorem C10_diverging_key (dbtype : Nat) (store : Store) (key0 : Bytes)
    (fixed_key_len counter turns n : Nat) (s : QueryState) (r : Record)
    (hdiv : r.1.take fixed_key_len ≠ key0.take fixed_key_len) :
    ((if n = 0 then c_set_range store s.key else c_step_next store s.place) = some r →
      (query_exit counter
        (query_forward dbtype store key0 fixed_key_len (turns + 1) n s)).eod = 1 ∧
      (query_exit counter
        (query_forward dbtype store key0 fixed_key_len (turns + 1) n s)).pqr_next.argc = 0 ∧
      (query_exit counter
        (query_forward dbtype store key0 fixed_key_len (turns + 1) n s)).counter = counter) ∧
    ((if n = 0 then query_last store s
        else (s.qr.ibuffer, c_step_prev store s.place)).2 = some r →
      query_backward dbtype store key0 fixed_key_len (turns + 1) n s =
        query_backward dbtype store key0 fixed_key_len turns (n + 1)
          (key_read dbtype
            { s with qr := { s.qr with ibuffer := (if n = 0 then query_last store s
                else (s.qr.ibuffer, c_step_prev store s.place)).1 } } r.1)) := by
  have hd := key_compare_ne_of_take_ne r.1 key0 fixed_key_len hdiv
  constructor
  · intro hr
    rw [query_forward_diverge dbtype store key0 fixed_key_len turns n s r hr hd,
      query_exit_cleared _ _ (clear_name_text _)]
    exact ⟨rfl, rfl, rfl⟩
  · intro hr
    exact query_backward_diverge dbtype store key0 fixed_key_len turns n s r hr hd

/-- C10, amended, at a first read that returns the key of `^Y("a")` to a cursor
anchored on `^X`: forward the call ends with end-of-data, backward the loop goes on
to its second turn. -/
theorem C10_diverging_key_witness :
    List.take 3 ([0, 3, 89, 0, 3, 97], [118]).1 ≠ List.take 3 [0, 3, 88] ∧
    (query_exit 0 (query_forward DBX_DBTYPE_BDB [([0, 3, 89, 0, 3, 97], [118])] [0, 3, 88] 3
      (4 + 1) 0 (query_entry none { ibuffer := List.replicate 64 0 }
        { ibuffer := [0, 3, 88] ++ List.replicate 61 0, ibuffer_used := 3 }))).eod = 1 ∧
    query_backward DBX_DBTYPE_BDB [([0, 3, 89, 0, 3, 97], [118])] [0, 3, 88] 3 (4 + 1) 0
        (query_entry none { ibuffer := List.replicate 64 0 }
          { ibuffer := [0, 3, 88] ++ List.replicate 61 0, ibuffer_used := 3 }) =
      query_backward DBX_DBTYPE_BDB [([0, 3, 89, 0, 3, 97], [118])] [0, 3, 88] 3 4 (0 + 1)
        (key_read DBX_DBTYPE_BDB
          { query_entry none { ibuffer := List.replicate 64 0 }
              { ibuffer := [0, 3, 88] ++ List.replicate 61 0, ibuffer_used := 3 } with
            qr := { (query_entry none { ibuffer := List.replicate 64 0 }
                { ibuffer := [0, 3, 88] ++ List.replicate 61 0, ibuffer_used := 3 }).qr with
              ibuffer := (if 0 = 0 then
                  query_last [([0, 3, 89, 0, 3, 97], [118])]
                    (query_entry none { ibuffer := List.replicate 64 0 }
                      { ibuffer := [0, 3, 88] ++ List.replicate 61 0, ibuffer_used := 3 })
                else ((query_entry none { ibuffer := List.replicate 64 0 }
                      { ibuffer := [0, 3, 88] ++ List.replicate 61 0, ibuffer_used := 3 }).qr.ibuffer,
                  c_step_prev [([0, 3, 89, 0, 3, 97], [118])]
                    (query_entry none { ibuffer := List.replicate 64 0 }
                      { ibuffer := [0, 3, 88] ++ List.replicate 61 0, ibuffer_used := 3 }).place)).1 } }
          ([0, 3, 89, 0, 3, 97], [118]).1) :=
  ⟨by decide,
    ((C10_diverging_key DBX_DBTYPE_BDB [([0, 3, 89, 0, 3, 97], [118])] [0, 3, 88] 3 0 4 0
      (query_entry none { ibuffer := List.replicate 64 0 }
        { ibuffer := [0, 3, 88] ++ List.replicate 61 0, ibuffer_used := 3 })
      ([0, 3, 89, 0, 3, 97], [118]) (by decide)).1 (by decide)).1,
    (C10_diverging_key DBX_DBTYPE_BDB [([0, 3, 89, 0, 3, 97], [118])] [0, 3, 88] 3 0 4 0
      (query_entry none { ibuffer := List.replicate 64 0 }
        { ibuffer := [0, 3, 88] ++ List.replicate 61 0, ibuffer_used := 3 })
      ([0, 3, 89, 0, 3, 97], [118]) (by decide)).2 (by decide)⟩

/-! ### next -/

/-- C6, as stated, fails on a store that holds a record with an empty subscript:
with the records `^X("")` and `^X("a")`, `next(^X,"")` returns the empty result on
Berkeley DB and the five bytes of the key of `^X("")` on LMDB, although the
subscript "a" is stored under `^X` and lies after the empty seed in key order. The
key read, 00 03 58 00 00, has one slot for `dbx_split_key`, so the loop reads it
ten times over. -/
theorem C6_empty_subscript_record_stops_next :
    dbx_set (dbx_set [] (GlobalReference [94, 88] [JsValue.str [], JsValue.str [118]]))
        (GlobalReference [94, 88] [JsValue.str [97], JsValue.str [118]]) =
      [([0, 3, 88, 0, 0], [118]), ([0, 3, 88, 0, 3, 97], [118])] ∧
    storedUnder [([0, 3, 88, 0, 0], [118]), ([0, 3, 88, 0, 3, 97], [118])] [94, 88] []
      (JsValue.str [97]) ∧
    keyBelow (JsValue.str []) (JsValue.str [97]) ∧
    ∀ mkeys0 : ArgArray,
      bdb_next [([0, 3, 88, 0, 0], [118]), ([0, 3, 88, 0, 3, 97], [118])]
          (GlobalReference [94, 88] [JsValue.str []]) mkeys0 = (YDB_NODE_END, []) ∧
      lmdb_next [([0, 3, 88, 0, 0], [118]), ([0, 3, 88, 0, 3, 97], [118])]
          (GlobalReference [94, 88] [JsValue.str []]) mkeys0 =
        (CACHE_SUCCESS, [0, 3, 88, 0, 0]) :=
  ⟨by decide,
    ⟨by decide, [], ([0, 3, 88, 0, 3, 97], [118]), by simp, by decide⟩,
    by unfold keyBelow; decide, fun _ => ⟨rfl, rfl⟩⟩

/-- C6, amended: for every database in key order whose keys the codec wrote from
32-bit integers and non-empty strings without a zero byte and whose keys and data
fit the 32000 bytes of an output buffer, and every reference `(name, subs, seed)`
made of such subscripts whose seed is such a subscript or the empty string and
whose key, with the two bytes 00 ff after it, fits them too (the function copies
it into an output buffer), `next` on Berkeley DB, and on LMDB when no read
transaction is open on the connection (`tlevelro` is 0), returns the text of the
smallest subscript, in key order, that is stored after `subs` and lies strictly
after the seed, and the empty result with `YDB_NODE_END` when there is none. -/
theorem C6_next (store : Store) (hs : storeSorted store) (hf : fitStore store)
    (hw : subscriptStore store)
    (name : Bytes) (subs : List JsValue) (seed : JsValue)
    (hn : decodableText (stripName name) = true) (hsubs : ∀ a ∈ subs, subscriptArg a = true)
    (hseed : seedArg seed)
    (_hk : (GlobalReference name (subs ++ [seed])).ibuffer.length + 2 ≤ OUTPUT_LEN_ALLOC)
    (mkeys0 : ArgArray) (tlevelro : Int) (seen : Store) (hb : tlevelro = 0) :
    nextResult store name subs seed
      (bdb_next store (GlobalReference name (subs ++ [seed])) mkeys0) ∧
    nextResult store name subs seed
      (lmdb_next (read_store DBX_DBTYPE_LMDB tlevelro seen store)
        (GlobalReference name (subs ++ [seed])) mkeys0) := by
  rw [read_store_database DBX_DBTYPE_LMDB tlevelro seen store (fun _ => hb)]
  exact ⟨next_loop_spec DBX_DBTYPE_BDB store hs hf hw name subs seed hn hsubs hseed mkeys0,
    next_loop_spec DBX_DBTYPE_LMDB store hs hf hw name subs seed hn hsubs hseed mkeys0⟩

/-- C6, amended, at the siblings "a", "b", "c" under `^X` and the seed "a": the
hypotheses hold, the result is as the theorem says, and it is "b". -/
theorem C6_next_witness :
    storeSorted (dbx_set (dbx_set (dbx_set []
      (GlobalReference [94, 88] ([JsValue.str [97]] ++ [JsValue.str [118]])))
      (GlobalReference [94, 88] ([JsValue.str [98]] ++ [JsValue.str [118]])))
      (GlobalReference [94, 88] ([JsValue.str [99]] ++ [JsValue.str [118]]))) ∧
    fitStore (dbx_set (dbx_set (dbx_set []
      (GlobalReference [94, 88] ([JsValue.str [97]] ++ [JsValue.str [118]])))
      (GlobalReference [94, 88] ([JsValue.str [98]] ++ [JsValue.str [118]])))
      (GlobalReference [94, 88] ([JsValue.str [99]] ++ [JsValue.str [118]]))) ∧
    subscriptStore (dbx_set (dbx_set (dbx_set []
      (GlobalReference [94, 88] ([JsValue.str [97]] ++ [JsValue.str [118]])))
      (GlobalReference [94, 88] ([JsValue.str [98]] ++ [JsValue.str [118]])))
      (GlobalReference [94, 88] ([JsValue.str [99]] ++ [JsValue.str [118]]))) ∧
    seedArg (JsValue.str [97]) ∧
    (GlobalReference [94, 88] ([] ++ [JsValue.str [97]])).ibuffer.length + 2 ≤
      OUTPUT_LEN_ALLOC ∧
    nextResult (dbx_set (dbx_set (dbx_set []
      (GlobalReference [94, 88] ([JsValue.str [97]] ++ [JsValue.str [118]])))
      (GlobalReference [94, 88] ([JsValue.str [98]] ++ [JsValue.str [118]])))
      (GlobalReference [94, 88] ([JsValue.str [99]] ++ [JsValue.str [118]])))
      [94, 88] [] (JsValue.str [97])
      (bdb_next (dbx_set (dbx_set (dbx_set []
        (GlobalReference [94, 88] ([JsValue.str [97]] ++ [JsValue.str [118]])))
        (GlobalReference [94, 88] ([JsValue.str [98]] ++ [JsValue.str [118]])))
        (GlobalReference [94, 88] ([JsValue.str [99]] ++ [JsValue.str [118]])))
        (GlobalReference [94, 88] ([] ++ [JsValue.str [97]])) (fun _ => default)) ∧
    bdb_next (dbx_set (dbx_set (dbx_set []
        (GlobalReference [94, 88] ([JsValue.str [97]] ++ [JsValue.str [118]])))
        (GlobalReference [94, 88] ([JsValue.str [98]] ++ [JsValue.str [118]])))
        (GlobalReference [94, 88] ([JsValue.str [99]] ++ [JsValue.str [118]])))
        (GlobalReference [94, 88] ([] ++ [JsValue.str [97]])) (fun _ => default) =
      (CACHE_SUCCESS, [98]) :=
  ⟨dbx_set_sorted _ (dbx_set_sorted _ (dbx_set_sorted _ storeSorted_nil _) _) _,
    by unfold fitStore; decide,
    dbx_set_subscript _ (dbx_set_subscript _ (dbx_set_subscript _ subscriptStore_nil
      [94, 88] [JsValue.str [97]] (JsValue.str [118]) (by decide) (by decide))
      [94, 88] [JsValue.str [98]] (JsValue.str [118]) (by decide) (by decide))
      [94, 88] [JsValue.str [99]] (JsValue.str [118]) (by decide) (by decide),
    Or.inl (by decide),
    by decide,
    (C6_next _ (dbx_set_sorted _ (dbx_set_sorted _ (dbx_set_sorted _ storeSorted_nil _) _) _)
      (by unfold fitStore; decide)
      (dbx_set_subscript _ (dbx_set_subscript _ (dbx_set_subscript _ subscriptStore_nil
        [94, 88] [JsValue.str [97]] (JsValue.str [118]) (by decide) (by decide))
        [94, 88] [JsValue.str [98]] (JsValue.str [118]) (by decide) (by decide))
        [94, 88] [JsValue.str [99]] (JsValue.str [118]) (by decide) (by decide))
      [94, 88] [] (JsValue.str [97]) (by decide) (by decide) (Or.inl (by decide)) (by decide)
      (fun _ => default) 0 [] rfl).1,
    by decide⟩

/-! ## Claims on numbers, the empty string and the length of a key -/

/-- C13: for every 32-bit integer `n` other than the minimum, `dbx_ibuffer_add` in
M mode leaves the same key area for the string that holds the decimal digits of
`n` as for the integer `n`: the same bytes, the same cumulative size and the same
descriptor, at any position and after any earlier content; so a reference that
holds the string in place of the integer has the same key. -/
theorem C13_digit_string_as_integer (pkey : DBXKEY) (nx : Nat) (n : Int)
    (h : -2 ^ 31 < n ∧ n < 2 ^ 31) :
    (add_argument DBX_KEYTYPE_M pkey nx (JsValue.str (intText n))).ibuffer =
      (add_argument DBX_KEYTYPE_M pkey nx (JsValue.int32 n)).ibuffer ∧
    (getArg (add_argument DBX_KEYTYPE_M pkey nx (JsValue.str (intText n))).args nx).csize =
      (getArg (add_argument DBX_KEYTYPE_M pkey nx (JsValue.int32 n)).args nx).csize ∧
    add_argument DBX_KEYTYPE_M pkey nx (JsValue.str (intText n)) =
      add_argument DBX_KEYTYPE_M pkey nx (JsValue.int32 n) ∧
    ∀ (name : Bytes) (pre post : List JsValue),
      (GlobalReference name (pre ++ JsValue.str (intText n) :: post)).ibuffer =
        (GlobalReference name (pre ++ JsValue.int32 n :: post)).ibuffer := by
  have e := add_argument_digits pkey nx n ⟨by omega, h.2⟩
  refine ⟨by rw [e], by rw [e], e, ?_⟩
  intro name pre post
  have hs : slotBytes (JsValue.int32 n) = slotBytes (JsValue.str (intText n)) :=
    slot_of_text (JsValue.int32 n)
      (by simp only [subscriptArg, decodableArg, int32Value, Bool.true_and, Bool.and_eq_true,
            decide_eq_true_eq]; omega)
  rw [stored_key_form, stored_key_form, hs]

/-- C13 at `n = -42`, as the second argument after the key of `^X("a")`. -/
theorem C13_digit_string_as_integer_witness :
    (-2 ^ 31 < (-42 : Int) ∧ (-42 : Int) < 2 ^ 31) ∧
    (add_argument DBX_KEYTYPE_M (GlobalReference [94, 88] [JsValue.str [97]]) 2
        (JsValue.str (intText (-42)))).ibuffer =
      (add_argument DBX_KEYTYPE_M (GlobalReference [94, 88] [JsValue.str [97]]) 2
        (JsValue.int32 (-42))).ibuffer ∧
    (getArg (add_argument DBX_KEYTYPE_M (GlobalReference [94, 88] [JsValue.str [97]]) 2
        (JsValue.str (intText (-42)))).args 2).csize =
      (getArg (add_argument DBX_KEYTYPE_M (GlobalReference [94, 88] [JsValue.str [97]]) 2
        (JsValue.int32 (-42))).args 2).csize ∧
    add_argument DBX_KEYTYPE_M (GlobalReference [94, 88] [JsValue.str [97]]) 2
        (JsValue.str (intText (-42))) =
      add_argument DBX_KEYTYPE_M (GlobalReference [94, 88] [JsValue.str [97]]) 2
        (JsValue.int32 (-42)) ∧
    ∀ (name : Bytes) (pre post : List JsValue),
      (GlobalReference name (pre ++ JsValue.str (intText (-42)) :: post)).ibuffer =
        (GlobalReference name (pre ++ JsValue.int32 (-42) :: post)).ibuffer :=
  ⟨by decide,
    C13_digit_string_as_integer (GlobalReference [94, 88] [JsValue.str [97]]) 2 (-42)
      (by decide)⟩

/-- C14: written at the same position after the same name and the same earlier
subscripts, the key of -1 is byte-wise below the key of 0, the key of 0 below the
key of 1, and the key of -1.5 (which JavaScript passes as the text "-1.5") below
the key of -1. -/
theorem C14_negative_numerics (name : Bytes) (pre : List JsValue) :
    bytesLt (GlobalReference name (pre ++ [JsValue.int32 (-1)])).ibuffer
      (GlobalReference name (pre ++ [JsValue.int32 0])).ibuffer = true ∧
    bytesLt (GlobalReference name (pre ++ [JsValue.int32 0])).ibuffer
      (GlobalReference name (pre ++ [JsValue.int32 1])).ibuffer = true ∧
    bytesLt (GlobalReference name (pre ++ [JsValue.str [45, 49, 46, 53]])).ibuffer
      (GlobalReference name (pre ++ [JsValue.int32 (-1)])).ibuffer = true := by
  simp only [GlobalReference_snoc, bytesLt_append_left]
  exact ⟨by decide, by decide, by decide⟩

/-- C15: for every name, every run of earlier subscripts, every string `s` that is
not empty and every further subscript `t`, the key that holds the empty string at
a position and `t` at the next one (and whatever subscripts after it) is byte-wise
below the key that holds `s` at that position (and whatever subscripts after
it). -/
theorem C15_empty_string_below (name : Bytes) (pre : List JsValue) (s : Bytes) (t : JsValue)
    (more after : List JsValue) (hs : s ≠ []) :
    bytesLt (GlobalReference name (pre ++ JsValue.str [] :: t :: more)).ibuffer
      (GlobalReference name (pre ++ JsValue.str s :: after)).ibuffer = true := by
  obtain ⟨c, y, hy, hc⟩ := slotBytes_str_head s hs
  have e0 : slotBytes (JsValue.str []) = [0, 0] := by decide
  rw [stored_key_form, stored_key_form, bytesLt_append_left, hy, e0]
  simp only [List.cons_append, List.nil_append, bytesLt]
  simp
  omega

/-- C15 at `^X("a", "", 7)` and `^X("a", "b")`. -/
theorem C15_empty_string_below_witness :
    ([98] : Bytes) ≠ [] ∧
    bytesLt (GlobalReference [94, 88]
        ([JsValue.str [97]] ++ JsValue.str [] :: JsValue.int32 7 :: [])).ibuffer
      (GlobalReference [94, 88] ([JsValue.str [97]] ++ JsValue.str [98] :: [])).ibuffer = true :=
  ⟨by decide,
    C15_empty_string_below [94, 88] [JsValue.str [97]] [98] (JsValue.int32 7) [] [] (by decide)⟩

/-- C16, as stated, fails: the reference `^X(s)` with `s` a string of 40000 bytes
"a" is assembled like any other: its key has 40005 bytes, the lead and the name,
the lead of the subscript and the 40000 bytes, in a key area enlarged to 72770
bytes, and `dbx_ibuffer_add` does not give up as long as memory is to be had. -/
theorem C16_long_key_is_assembled :
    CACHE_MAXSTRLEN = 32767 ∧
    (GlobalReference [94, 88] [JsValue.str (List.replicate 40000 97)]).ibuffer =
      [0, 3, 88, 0, 3] ++ List.replicate 40000 97 ∧
    (GlobalReference [94, 88] [JsValue.str (List.replicate 40000 97)]).ibuffer_used = 40005 ∧
    (GlobalReference [94, 88] [JsValue.str (List.replicate 40000 97)]).ibuffer_size = 72770 ∧
    dbx_ibuffer_add_alloc true DBX_KEYTYPE_M (GlobalReference [94, 88] []) 1
        (List.replicate 40000 97) =
      some (dbx_ibuffer_add DBX_KEYTYPE_M (GlobalReference [94, 88] []) 1
        (List.replicate 40000 97)) := by
  have hl : (List.replicate 40000 97 : Bytes).length = 40000 := List.length_replicate _ _
  have hs := long_text_slot (List.replicate 40000 97) (by rw [hl]; decide)
  have h0 : (GlobalReference [94, 88] []).ibuffer = [0, 3, 88] := by decide
  have hk : (GlobalReference [94, 88] [JsValue.str (List.replicate 40000 97)]).ibuffer =
      [0, 3, 88, 0, 3] ++ List.replicate 40000 97 := by
    rw [GlobalReference_ibuffer, h0, List.map_cons, List.map_nil, List.flatten_cons,
      List.flatten_nil, List.append_nil, hs]
    rfl
  have e : ∀ k : DBXKEY, k.ibuffer_used = k.ibuffer.length := fun _ => rfl
  have hu : (GlobalReference [94, 88] [JsValue.str (List.replicate 40000 97)]).ibuffer_used =
      40005 := by
    rw [e, hk, List.length_append, hl]
    rfl
  have hz : (GlobalReference [94, 88] [JsValue.str (List.replicate 40000 97)]).ibuffer_size =
      72770 := by
    rw [GlobalReference_one_size, e, h0]
    have ht : (JsValue.str (List.replicate 40000 97)).text.length = 40000 := hl
    rw [ht]
    decide
  have ha : dbx_ibuffer_add_alloc true DBX_KEYTYPE_M (GlobalReference [94, 88] []) 1
        (List.replicate 40000 97) =
      some (dbx_ibuffer_add DBX_KEYTYPE_M (GlobalReference [94, 88] []) 1
        (List.replicate 40000 97)) := by
    unfold dbx_ibuffer_add_alloc
    rw [if_neg (by simp only [Bool.true_eq_false, and_false, not_false_eq_true])]
  exact ⟨rfl, hk, hu, hz, ha⟩

/-- C16, amended: assembling a key fails for no length of the key. For every key
area, every position and every argument, `dbx_ibuffer_add` appends the slot of the
argument whenever memory is to be had, it gives up exactly when a larger area is
needed and cannot be had, and the area it leaves always holds the key; so the key
of every reference, of whatever length, is assembled in an area that holds it. -/
theorem C16_key_assembly (pkey : DBXKEY) (argn : Nat) (buffer : Bytes) :
    dbx_ibuffer_add_alloc true DBX_KEYTYPE_M pkey argn buffer =
      some (dbx_ibuffer_add DBX_KEYTYPE_M pkey argn buffer) ∧
    (dbx_ibuffer_add_alloc false DBX_KEYTYPE_M pkey argn buffer = none ↔
      pkey.ibuffer_used + buffer.length + 32 > pkey.ibuffer_size) ∧
    (dbx_ibuffer_add DBX_KEYTYPE_M pkey argn buffer).1.ibuffer =
      pkey.ibuffer ++ (ibuffer_add_slot DBX_KEYTYPE_M (getArg pkey.args argn) argn buffer).1 ∧
    (dbx_ibuffer_add DBX_KEYTYPE_M pkey argn buffer).1.ibuffer_used ≤
      (dbx_ibuffer_add DBX_KEYTYPE_M pkey argn buffer).1.ibuffer_size ∧
    ∀ (name : Bytes) (args : List JsValue),
      (GlobalReference name args).ibuffer =
        (GlobalReference name []).ibuffer ++ (args.map slotBytes).flatten ∧
      (GlobalReference name args).ibuffer_used ≤ (GlobalReference name args).ibuffer_size := by
  refine ⟨by simp [dbx_ibuffer_add_alloc], ?_, rfl, ibuffer_add_fits _ _ _, ?_⟩
  · simp [dbx_ibuffer_add_alloc]
  · intro name args
    exact ⟨GlobalReference_ibuffer name args, GlobalReference_fits name args⟩

/-! ## Claims on the cursor handle -/

/-- C17 fails for `previous` in the order mode. A call on a handle without a
backend cursor hands back null and changes nothing, in every mode and direction;
and a call that hands back null, if it is `next` or if the mode is not the order
mode, leaves the handle without a backend cursor, so that every later call hands
back null. But `previous` in the order mode hands back null and keeps the cursor:
on Berkeley DB, with the record `^X("b")` alone, `previous` on the cursor of
`mglobalquery({global: "^X", key: ["b"]})` hands back null, and once `^X("a")` has
been set the same call hands back "a"; `next` on the same cursor hands back null
both times. -/
theorem C17_previous_in_order_mode_leaves_the_end :
    (∀ (dir : Int) (store : Store) (mkeys0 : ArgArray) (pcon : DBXCON) (h : CursorHandle)
        (args : List JsArg), h.cx.pcursor = false →
      mcursor_call dir store mkeys0 pcon h args =
        { pcon := pcon, h := h, ret := JsReturn.null }) ∧
    (∀ (dir : Int) (store : Store) (mkeys0 : ArgArray) (pcon : DBXCON) (h : CursorHandle)
        (args : List JsArg), (dir = 1 ∨ h.cx.context ≠ 1) →
      (mcursor_call dir store mkeys0 pcon h args).ret = JsReturn.null →
      ∀ (dir2 : Int) (store2 : Store) (mkeys2 : ArgArray) (args2 : List JsArg),
        (mcursor_call dir2 store2 mkeys2 (mcursor_call dir store mkeys0 pcon h args).pcon
          (mcursor_call dir store mkeys0 pcon h args).h args2).ret = JsReturn.null) ∧
    (dbx_cursor_reset_cx {} (dbx_cursor_init DBX_DBTYPE_BDB)
        { global := some [94, 88], key := [JsValue.str [98]] } (fun _ => 0)
        (List.replicate 64 0) (List.replicate 64 0)).2.2 = 0 ∧
    (mcursor_Previous [([0, 3, 88, 0, 3, 98], [118])] (fun _ => default)
      (dbx_cursor_reset_cx {} (dbx_cursor_init DBX_DBTYPE_BDB)
        { global := some [94, 88], key := [JsValue.str [98]] } (fun _ => 0)
        (List.replicate 64 0) (List.replicate 64 0)).1
      (dbx_cursor_reset_cx {} (dbx_cursor_init DBX_DBTYPE_BDB)
        { global := some [94, 88], key := [JsValue.str [98]] } (fun _ => 0)
        (List.replicate 64 0) (List.replicate 64 0)).2.1 []).ret = JsReturn.null ∧
    (mcursor_Previous [([0, 3, 88, 0, 3, 97], [118]), ([0, 3, 88, 0, 3, 98], [118])]
      (fun _ => default)
      (mcursor_Previous [([0, 3, 88, 0, 3, 98], [118])] (fun _ => default)
        (dbx_cursor_reset_cx {} (dbx_cursor_init DBX_DBTYPE_BDB)
          { global := some [94, 88], key := [JsValue.str [98]] } (fun _ => 0)
          (List.replicate 64 0) (List.replicate 64 0)).1
        (dbx_cursor_reset_cx {} (dbx_cursor_init DBX_DBTYPE_BDB)
          { global := some [94, 88], key := [JsValue.str [98]] } (fun _ => 0)
          (List.replicate 64 0) (List.replicate 64 0)).2.1 []).pcon
      (mcursor_Previous [([0, 3, 88, 0, 3, 98], [118])] (fun _ => default)
        (dbx_cursor_reset_cx {} (dbx_cursor_init DBX_DBTYPE_BDB)
          { global := some [94, 88], key := [JsValue.str [98]] } (fun _ => 0)
          (List.replicate 64 0) (List.replicate 64 0)).1
        (dbx_cursor_reset_cx {} (dbx_cursor_init DBX_DBTYPE_BDB)
          { global := some [94, 88], key := [JsValue.str [98]] } (fun _ => 0)
          (List.replicate 64 0) (List.replicate 64 0)).2.1 []).h []).ret = JsReturn.text [97] ∧
    (mcursor_Next [([0, 3, 88, 0, 3, 97], [118]), ([0, 3, 88, 0, 3, 98], [118])]
      (fun _ => default)
      (mcursor_Next [([0, 3, 88, 0, 3, 98], [118])] (fun _ => default)
        (dbx_cursor_reset_cx {} (dbx_cursor_init DBX_DBTYPE_BDB)
          { global := some [94, 88], key := [JsValue.str [98]] } (fun _ => 0)
          (List.replicate 64 0) (List.replicate 64 0)).1
        (dbx_cursor_reset_cx {} (dbx_cursor_init DBX_DBTYPE_BDB)
          { global := some [94, 88], key := [JsValue.str [98]] } (fun _ => 0)
          (List.replicate 64 0) (List.replicate 64 0)).2.1 []).pcon
      (mcursor_Next [([0, 3, 88, 0, 3, 98], [118])] (fun _ => default)
        (dbx_cursor_reset_cx {} (dbx_cursor_init DBX_DBTYPE_BDB)
          { global := some [94, 88], key := [JsValue.str [98]] } (fun _ => 0)
          (List.replicate 64 0) (List.replicate 64 0)).1
        (dbx_cursor_reset_cx {} (dbx_cursor_init DBX_DBTYPE_BDB)
          { global := some [94, 88], key := [JsValue.str [98]] } (fun _ => 0)
          (List.replicate 64 0) (List.replicate 64 0)).2.1 []).h []).ret = JsReturn.null := by
  refine ⟨fun dir store mkeys0 pcon h args hc => call_on_closed dir store mkeys0 pcon h args hc,
    ?_, by decide, by decide, by decide, by decide⟩
  intro dir store mkeys0 pcon h args hd hn dir2 store2 mkeys2 args2
  rw [call_on_closed dir2 store2 mkeys2 _ _ args2 (call_null_closed _ _ _ _ _ _ hn hd)]

/-- C18: on LMDB, `dbx_cursor_reset` on any handle, with its cursor open or not,
leaves the handle with a backend cursor and the depth of read transactions of the
connection one above the depth without the cursor of the handle; `close` without
arguments then lowers the depth by one, to the depth without the handle, and
clears the cursor; a second `close` changes neither the connection nor the handle.
When the read transaction is live exactly while the depth is positive, and an open
cursor counts in the depth, it is live after the reset. -/
theorem C18_read_transaction_of_handle (pcon : DBXCON) (h : CursorHandle) (q : QueryArgs)
    (pmeth_int32 : Nat → Int) (mem_prev mem_next : Bytes)
    (hl : h.cx.dbtype = DBX_DBTYPE_LMDB) :
    (dbx_cursor_reset_cx pcon h q pmeth_int32 mem_prev mem_next).2.1.cx.pcursor = true ∧
    (dbx_cursor_reset_cx pcon h q pmeth_int32 mem_prev mem_next).1.tlevelro =
      (if h.cx.pcursor = true then pcon.tlevelro - 1 else pcon.tlevelro) + 1 ∧
    (mcursor_Close (dbx_cursor_reset_cx pcon h q pmeth_int32 mem_prev mem_next).1
        (dbx_cursor_reset_cx pcon h q pmeth_int32 mem_prev mem_next).2.1 []).pcon.tlevelro =
      (dbx_cursor_reset_cx pcon h q pmeth_int32 mem_prev mem_next).1.tlevelro - 1 ∧
    (mcursor_Close (dbx_cursor_reset_cx pcon h q pmeth_int32 mem_prev mem_next).1
        (dbx_cursor_reset_cx pcon h q pmeth_int32 mem_prev mem_next).2.1 []).h.cx.pcursor =
      false ∧
    mcursor_Close
        (mcursor_Close (dbx_cursor_reset_cx pcon h q pmeth_int32 mem_prev mem_next).1
          (dbx_cursor_reset_cx pcon h q pmeth_int32 mem_prev mem_next).2.1 []).pcon
        (mcursor_Close (dbx_cursor_reset_cx pcon h q pmeth_int32 mem_prev mem_next).1
          (dbx_cursor_reset_cx pcon h q pmeth_int32 mem_prev mem_next).2.1 []).h [] =
      mcursor_Close (dbx_cursor_reset_cx pcon h q pmeth_int32 mem_prev mem_next).1
        (dbx_cursor_reset_cx pcon h q pmeth_int32 mem_prev mem_next).2.1 [] ∧
    ((0 ≤ pcon.tlevelro ∧ (pcon.ro_live = true ↔ 0 < pcon.tlevelro) ∧
        (h.cx.pcursor = true → 1 ≤ pcon.tlevelro)) →
      (dbx_cursor_reset_cx pcon h q pmeth_int32 mem_prev mem_next).1.ro_live = true) := by
  obtain ⟨e1, e2, e3⟩ := cursor_reset_cx_open pcon h q pmeth_int32 mem_prev mem_next
  obtain ⟨o1, o2, o3, _⟩ := reopen_cursor_lmdb pcon h hl
  have hp : (dbx_cursor_reset_cx pcon h q pmeth_int32 mem_prev mem_next).2.1.cx.pcursor = true :=
    e2.trans o1
  have hd : (dbx_cursor_reset_cx pcon h q pmeth_int32 mem_prev mem_next).2.1.cx.dbtype =
      DBX_DBTYPE_LMDB := e3.trans o2
  refine ⟨hp, by rw [e1]; exact o3, ?_, (close_release _ _).2, close_twice _ _, ?_⟩
  · rw [(close_release _ _).1, release_cursor_tlevelro, if_pos ⟨hp, hd⟩]
  · intro hi
    rw [e1]
    exact reopen_cursor_live pcon h hl hi

/-- C18 at the handle of `mglobalquery({global: "^X", key: [""]})` on a connection
without read transaction. -/
theorem C18_read_transaction_of_handle_witness :
    (dbx_cursor_init DBX_DBTYPE_LMDB).cx.dbtype = DBX_DBTYPE_LMDB ∧
    (dbx_cursor_reset_cx {} (dbx_cursor_init DBX_DBTYPE_LMDB)
        { global := some [94, 88], key := [JsValue.str []] } (fun _ => 0) (List.replicate 64 0)
        (List.replicate 64 0)).2.1.cx.pcursor = true ∧
    (dbx_cursor_reset_cx {} (dbx_cursor_init DBX_DBTYPE_LMDB)
        { global := some [94, 88], key := [JsValue.str []] } (fun _ => 0) (List.replicate 64 0)
        (List.replicate 64 0)).1.tlevelro =
      (if (dbx_cursor_init DBX_DBTYPE_LMDB).cx.pcursor = true then ({} : DBXCON).tlevelro - 1 else ({} : DBXCON).tlevelro) + 1 ∧
    (mcursor_Close (dbx_cursor_reset_cx {} (dbx_cursor_init DBX_DBTYPE_LMDB)
        { global := some [94, 88], key := [JsValue.str []] } (fun _ => 0) (List.replicate 64 0)
        (List.replicate 64 0)).1
        (dbx_cursor_reset_cx {} (dbx_cursor_init DBX_DBTYPE_LMDB)
        { global := some [94, 88], key := [JsValue.str []] } (fun _ => 0) (List.replicate 64 0)
        (List.replicate 64 0)).2.1 []).pcon.tlevelro =
      (dbx_cursor_reset_cx {} (dbx_cursor_init DBX_DBTYPE_LMDB)
        { global := some [94, 88], key := [JsValue.str []] } (fun _ => 0) (List.replicate 64 0)
        (List.replicate 64 0)).1.tlevelro - 1 ∧
    (mcursor_Close (dbx_cursor_reset_cx {} (dbx_cursor_init DBX_DBTYPE_LMDB)
        { global := some [94, 88], key := [JsValue.str []] } (fun _ => 0) (List.replicate 64 0)
        (List.replicate 64 0)).1
        (dbx_cursor_reset_cx {} (dbx_cursor_init DBX_DBTYPE_LMDB)
        { global := some [94, 88], key := [JsValue.str []] } (fun _ => 0) (List.replicate 64 0)
        (List.replicate 64 0)).2.1 []).h.cx.pcursor =
      false ∧
    mcursor_Close
        (mcursor_Close (dbx_cursor_reset_cx {} (dbx_cursor_init DBX_DBTYPE_LMDB)
        { global := some [94, 88], key := [JsValue.str []] } (fun _ => 0) (List.replicate 64 0)
        (List.replicate 64 0)).1
          (dbx_cursor_reset_cx {} (dbx_cursor_init DBX_DBTYPE_LMDB)
        { global := some [94, 88], key := [JsValue.str []] } (fun _ => 0) (List.replicate 64 0)
        (List.replicate 64 0)).2.1 []).pcon
        (mcursor_Close (dbx_cursor_reset_cx {} (dbx_cursor_init DBX_DBTYPE_LMDB)
        { global := some [94, 88], key := [JsValue.str []] } (fun _ => 0) (List.replicate 64 0)
        (List.replicate 64 0)).1
          (dbx_cursor_reset_cx {} (dbx_cursor_init DBX_DBTYPE_LMDB)
        { global := some [94, 88], key := [JsValue.str []] } (fun _ => 0) (List.replicate 64 0)
        (List.replicate 64 0)).2.1 []).h [] =
      mcursor_Close (dbx_cursor_reset_cx {} (dbx_cursor_init DBX_DBTYPE_LMDB)
        { global := some [94, 88], key := [JsValue.str []] } (fun _ => 0) (List.replicate 64 0)
        (List.replicate 64 0)).1
        (dbx_cursor_reset_cx {} (dbx_cursor_init DBX_DBTYPE_LMDB)
        { global := some [94, 88], key := [JsValue.str []] } (fun _ => 0) (List.replicate 64 0)
        (List.replicate 64 0)).2.1 [] ∧
    ((0 ≤ ({} : DBXCON).tlevelro ∧ (({} : DBXCON).ro_live = true ↔ 0 < ({} : DBXCON).tlevelro) ∧
        ((dbx_cursor_init DBX_DBTYPE_LMDB).cx.pcursor = true → 1 ≤ ({} : DBXCON).tlevelro)) →
      (dbx_cursor_reset_cx {} (dbx_cursor_init DBX_DBTYPE_LMDB)
        { global := some [94, 88], key := [JsValue.str []] } (fun _ => 0) (List.replicate 64 0)
        (List.replicate 64 0)).1.ro_live = true) :=
  ⟨rfl,
    C18_read_transaction_of_handle {} (dbx_cursor_init DBX_DBTYPE_LMDB)
      { global := some [94, 88], key := [JsValue.str []] } (fun _ => 0) (List.replicate 64 0)
      (List.replicate 64 0) rfl⟩

/-- C19 fails for `previous` in the order mode. A call of `next` in any mode, or of
`previous` in the multilevel, directory or SQL mode, that hands back null leaves
the handle without a backend cursor and the connection as the release of the
cursor leaves it: on LMDB the depth of read transactions is one lower when the
handle had a cursor. But on LMDB, with the records `^X("a")`, `^X("b")` and
`^Y("c")`, the cursor of `mglobalquery({global: "^X", key: [""]})` hands back "b",
"a" and null on three calls of `previous` and is left with its backend cursor and
the depth 1 it had, while three calls of `next` hand back "a", "b" and null and
leave it without cursor at depth 0. -/
theorem C19_previous_in_order_mode_keeps_cursor :
    (∀ (dir : Int) (store : Store) (mkeys0 : ArgArray) (pcon : DBXCON) (h : CursorHandle)
        (args : List JsArg), (dir = 1 ∨ h.cx.context ≠ 1) →
      (mcursor_call dir store mkeys0 pcon h args).ret = JsReturn.null →
      (mcursor_call dir store mkeys0 pcon h args).h.cx.pcursor = false ∧
      (mcursor_call dir store mkeys0 pcon h args).pcon = (release_cursor pcon h).1 ∧
      (mcursor_call dir store mkeys0 pcon h args).pcon.tlevelro =
        if h.cx.pcursor = true ∧ h.cx.dbtype = DBX_DBTYPE_LMDB then pcon.tlevelro - 1
        else pcon.tlevelro) ∧
    (dbx_cursor_reset_cx {} (dbx_cursor_init DBX_DBTYPE_LMDB)
          { global := some [94, 88], key := [JsValue.str []] } (fun _ => 0)
          (List.replicate 64 0) (List.replicate 64 0)).2.1.cx.context = 1 ∧
    (dbx_cursor_reset_cx {} (dbx_cursor_init DBX_DBTYPE_LMDB)
          { global := some [94, 88], key := [JsValue.str []] } (fun _ => 0)
          (List.replicate 64 0) (List.replicate 64 0)).1.tlevelro = 1 ∧
    handle_run (-1) [([0, 3, 88, 0, 3, 97], [118]), ([0, 3, 88, 0, 3, 98], [118]),
        ([0, 3, 89, 0, 3, 99], [118])] (fun _ => default) 3 (dbx_cursor_reset_cx {} (dbx_cursor_init DBX_DBTYPE_LMDB)
          { global := some [94, 88], key := [JsValue.str []] } (fun _ => 0)
          (List.replicate 64 0) (List.replicate 64 0)).1 (dbx_cursor_reset_cx {} (dbx_cursor_init DBX_DBTYPE_LMDB)
          { global := some [94, 88], key := [JsValue.str []] } (fun _ => 0)
          (List.replicate 64 0) (List.replicate 64 0)).2.1 =
      [JsReturn.text [98], JsReturn.text [97], JsReturn.null] ∧
    (handle_after (-1) [([0, 3, 88, 0, 3, 97], [118]), ([0, 3, 88, 0, 3, 98], [118]),
        ([0, 3, 89, 0, 3, 99], [118])] (fun _ => default) 3 (dbx_cursor_reset_cx {} (dbx_cursor_init DBX_DBTYPE_LMDB)
          { global := some [94, 88], key := [JsValue.str []] } (fun _ => 0)
          (List.replicate 64 0) (List.replicate 64 0)).1 (dbx_cursor_reset_cx {} (dbx_cursor_init DBX_DBTYPE_LMDB)
          { global := some [94, 88], key := [JsValue.str []] } (fun _ => 0)
          (List.replicate 64 0) (List.replicate 64 0)).2.1).2.cx.pcursor = true ∧
    (handle_after (-1) [([0, 3, 88, 0, 3, 97], [118]), ([0, 3, 88, 0, 3, 98], [118]),
        ([0, 3, 89, 0, 3, 99], [118])] (fun _ => default) 3 (dbx_cursor_reset_cx {} (dbx_cursor_init DBX_DBTYPE_LMDB)
          { global := some [94, 88], key := [JsValue.str []] } (fun _ => 0)
          (List.replicate 64 0) (List.replicate 64 0)).1 (dbx_cursor_reset_cx {} (dbx_cursor_init DBX_DBTYPE_LMDB)
          { global := some [94, 88], key := [JsValue.str []] } (fun _ => 0)
          (List.replicate 64 0) (List.replicate 64 0)).2.1).1.tlevelro = 1 ∧
    handle_run 1 [([0, 3, 88, 0, 3, 97], [118]), ([0, 3, 88, 0, 3, 98], [118]),
        ([0, 3, 89, 0, 3, 99], [118])] (fun _ => default) 3 (dbx_cursor_reset_cx {} (dbx_cursor_init DBX_DBTYPE_LMDB)
          { global := some [94, 88], key := [JsValue.str []] } (fun _ => 0)
          (List.replicate 64 0) (List.replicate 64 0)).1 (dbx_cursor_reset_cx {} (dbx_cursor_init DBX_DBTYPE_LMDB)
          { global := some [94, 88], key := [JsValue.str []] } (fun _ => 0)
          (List.replicate 64 0) (List.replicate 64 0)).2.1 =
      [JsReturn.text [97], JsReturn.text [98], JsReturn.null] ∧
    (handle_after 1 [([0, 3, 88, 0, 3, 97], [118]), ([0, 3, 88, 0, 3, 98], [118]),
        ([0, 3, 89, 0, 3, 99], [118])] (fun _ => default) 3 (dbx_cursor_reset_cx {} (dbx_cursor_init DBX_DBTYPE_LMDB)
          { global := some [94, 88], key := [JsValue.str []] } (fun _ => 0)
          (List.replicate 64 0) (List.replicate 64 0)).1 (dbx_cursor_reset_cx {} (dbx_cursor_init DBX_DBTYPE_LMDB)
          { global := some [94, 88], key := [JsValue.str []] } (fun _ => 0)
          (List.replicate 64 0) (List.replicate 64 0)).2.1).2.cx.pcursor = false ∧
    (handle_after 1 [([0, 3, 88, 0, 3, 97], [118]), ([0, 3, 88, 0, 3, 98], [118]),
        ([0, 3, 89, 0, 3, 99], [118])] (fun _ => default) 3 (dbx_cursor_reset_cx {} (dbx_cursor_init DBX_DBTYPE_LMDB)
          { global := some [94, 88], key := [JsValue.str []] } (fun _ => 0)
          (List.replicate 64 0) (List.replicate 64 0)).1 (dbx_cursor_reset_cx {} (dbx_cursor_init DBX_DBTYPE_LMDB)
          { global := some [94, 88], key := [JsValue.str []] } (fun _ => 0)
          (List.replicate 64 0) (List.replicate 64 0)).2.1).1.tlevelro = 0 := by
  refine ⟨?_, by decide, by decide, by decide, by decide, by decide, by decide, by decide,
    by decide⟩
  intro dir store mkeys0 pcon h args hd hn
  have e := call_null_release dir store mkeys0 pcon h args hn hd
  exact ⟨call_null_closed dir store mkeys0 pcon h args hn hd, e,
    by rw [e]; exact release_cursor_tlevelro pcon h⟩

/-- C20, as stated, fails on a handle without a backend cursor: `next` called with
a function on the handle that `dbx_cursor_init` leaves, and on a handle that has
been reset and closed, hands back null and throws nothing. -/
theorem C20_callback_on_closed_handle_gives_null :
    (mcursor_Next [] (fun _ => default) {} (dbx_cursor_init DBX_DBTYPE_BDB)
      [JsArg.function]).ret = JsReturn.null ∧
    (mcursor_Next [] (fun _ => default)
      (mcursor_Close
        (dbx_cursor_reset_cx {} (dbx_cursor_init DBX_DBTYPE_LMDB)
          { global := some [94, 88] } (fun _ => 0) (List.replicate 64 0)
          (List.replicate 64 0)).1
        (dbx_cursor_reset_cx {} (dbx_cursor_init DBX_DBTYPE_LMDB)
          { global := some [94, 88] } (fun _ => 0) (List.replicate 64 0)
          (List.replicate 64 0)).2.1 []).pcon
      (mcursor_Close
        (dbx_cursor_reset_cx {} (dbx_cursor_init DBX_DBTYPE_LMDB)
          { global := some [94, 88] } (fun _ => 0) (List.replicate 64 0)
          (List.replicate 64 0)).1
        (dbx_cursor_reset_cx {} (dbx_cursor_init DBX_DBTYPE_LMDB)
          { global := some [94, 88] } (fun _ => 0) (List.replicate 64 0)
          (List.replicate 64 0)).2.1 []).h
      [JsArg.function]).ret = JsReturn.null := by
  exact ⟨by decide, by decide⟩

/-- C20, amended: `next` and `previous` called with a trailing function, in every
mode and on every data, hand no task to the worker queue and hand back no key.
On a handle with a backend cursor the call throws "Cursor based operations cannot
be invoked asynchronously" when fewer than `DBX_MAXARGS` arguments come before the
function, and "Too many arguments" otherwise, and changes neither the handle nor
the connection; on a handle without a backend cursor (never reset, closed, or
closed at the end of the data) it throws nothing and hands back null. `execute`
called with a trailing function does hand a task to the queue. -/
theorem C20_call_with_callback (dir : Int) (store : Store) (mkeys0 : ArgArray) (pcon : DBXCON)
    (h : CursorHandle) (args : List JsArg) :
    (mcursor_call dir store mkeys0 pcon h (args ++ [JsArg.function])).pcon.queued =
      pcon.queued ∧
    (∀ s, (mcursor_call dir store mkeys0 pcon h (args ++ [JsArg.function])).ret ≠
      JsReturn.text s) ∧
    (∀ ks, (mcursor_call dir store mkeys0 pcon h (args ++ [JsArg.function])).ret ≠
      JsReturn.keys ks) ∧
    (h.cx.pcursor = true → args.length < DBX_MAXARGS →
      mcursor_call dir store mkeys0 pcon h (args ++ [JsArg.function]) =
        { pcon := pcon, h := h, ret := JsReturn.exception DbxError.cursor_async }) ∧
    (h.cx.pcursor = true → DBX_MAXARGS ≤ args.length →
      mcursor_call dir store mkeys0 pcon h (args ++ [JsArg.function]) =
        { pcon := pcon, h := h, ret := JsReturn.exception DbxError.too_many_arguments }) ∧
    (h.cx.pcursor = false →
      mcursor_call dir store mkeys0 pcon h (args ++ [JsArg.function]) =
        { pcon := pcon, h := h, ret := JsReturn.null }) ∧
    (args.length < DBX_MAXARGS →
      (mcursor_Execute pcon h (args ++ [JsArg.function])).pcon.queued = pcon.queued + 1) := by
  have hopen1 : h.cx.pcursor = true → args.length < DBX_MAXARGS →
      mcursor_call dir store mkeys0 pcon h (args ++ [JsArg.function]) =
        { pcon := pcon, h := h, ret := JsReturn.exception DbxError.cursor_async } := by
    intro hp hl
    unfold mcursor_call
    rw [if_neg (by rw [hp]; decide), callback_fun_snoc, if_neg (by simpa using hl), if_pos rfl]
  have hopen2 : h.cx.pcursor = true → DBX_MAXARGS ≤ args.length →
      mcursor_call dir store mkeys0 pcon h (args ++ [JsArg.function]) =
        { pcon := pcon, h := h, ret := JsReturn.exception DbxError.too_many_arguments } := by
    intro hp hl
    unfold mcursor_call
    rw [if_neg (by rw [hp]; decide), callback_fun_snoc, if_pos (by simpa using hl)]
  have hclosed : h.cx.pcursor = false →
      mcursor_call dir store mkeys0 pcon h (args ++ [JsArg.function]) =
        { pcon := pcon, h := h, ret := JsReturn.null } :=
    fun hc => call_on_closed dir store mkeys0 pcon h _ hc
  have hret : (mcursor_call dir store mkeys0 pcon h (args ++ [JsArg.function])).ret =
        JsReturn.exception DbxError.cursor_async ∨
      (mcursor_call dir store mkeys0 pcon h (args ++ [JsArg.function])).ret =
        JsReturn.exception DbxError.too_many_arguments ∨
      (mcursor_call dir store mkeys0 pcon h (args ++ [JsArg.function])).ret = JsReturn.null := by
    cases hp : h.cx.pcursor with
    | false => rw [hclosed hp]; exact Or.inr (Or.inr rfl)
    | true =>
      by_cases hl : args.length < DBX_MAXARGS
      · rw [hopen1 hp hl]; exact Or.inl rfl
      · rw [hopen2 hp (by omega)]; exact Or.inr (Or.inl rfl)
  refine ⟨call_queued _ _ _ _ _ _, ?_, ?_, hopen1, hopen2, hclosed, ?_⟩
  · intro s hs
    rcases hret with e | e | e <;> rw [e] at hs <;> exact absurd hs (by simp)
  · intro ks hs
    rcases hret with e | e | e <;> rw [e] at hs <;> exact absurd hs (by simp)
  · intro hl
    unfold mcursor_Execute
    rw [callback_fun_snoc, if_neg (by simpa using hl), if_pos rfl]
    rfl

/-! ## Claim on increment -/

/-- C12 fails. The new value is written with `sprintf("%g")`, that is with six
significant digits: on either backend `increment` by 1 of a node that holds
"999999" stores and hands back "1e+06", not "1000000", and a further `increment`
by 1 leaves "1e+06", so the node no longer counts; "1234567" incremented by 1
becomes "1.23457e+06". The increment itself is read from a local buffer in which
no NUL is written after its text: `increment("X", 12345678, -0.5)` on a node that
holds "0" hands back "-0.55678", the digits "5678" being those left by the
subscript. On LMDB a node that is not defined counts as the number left in the
output buffer by the last request, here "41", where Berkeley DB counts it as 0.
With a buffer of zeros the scenario of the specification does give "1" and then
"0.5". -/
theorem C12_increment_prints_six_digits :
    Increment DBX_DBTYPE_BDB [([0, 3, 67], [57, 57, 57, 57, 57, 57])] [94, 67] []
        (JsValue.int32 1) (List.replicate 64 0) (List.replicate 64 0) =
      ([([0, 3, 67], [49, 101, 43, 48, 54])], [49, 101, 43, 48, 54]) ∧
    Increment DBX_DBTYPE_LMDB [([0, 3, 67], [57, 57, 57, 57, 57, 57])] [94, 67] []
        (JsValue.int32 1) (List.replicate 64 0) (List.replicate 64 0) =
      ([([0, 3, 67], [49, 101, 43, 48, 54])], [49, 101, 43, 48, 54]) ∧
    dbx_get [([0, 3, 67], [49, 101, 43, 48, 54])] (GlobalReference [94, 67] []) =
      Except.ok [49, 101, 43, 48, 54] ∧
    Increment DBX_DBTYPE_BDB [([0, 3, 67], [49, 101, 43, 48, 54])] [94, 67] []
        (JsValue.int32 1) (List.replicate 64 0) (List.replicate 64 0) =
      ([([0, 3, 67], [49, 101, 43, 48, 54])], [49, 101, 43, 48, 54]) ∧
    (Increment DBX_DBTYPE_BDB [([0, 3, 67], [49, 50, 51, 52, 53, 54, 55])] [94, 67] []
        (JsValue.int32 1) (List.replicate 64 0) (List.replicate 64 0)).2 =
      [49, 46, 50, 51, 52, 53, 55, 101, 43, 48, 54] ∧
    (GlobalReference [94, 88] [JsValue.int32 12345678]).ibuffer =
      [0, 3, 88, 0, 2, 0, 188, 97, 78, 0, 0, 0, 0, 49, 50, 51, 52, 53, 54, 55, 56] ∧
    (Increment DBX_DBTYPE_BDB
        [([0, 3, 88, 0, 2, 0, 188, 97, 78, 0, 0, 0, 0, 49, 50, 51, 52, 53, 54, 55, 56], [48])]
        [94, 88] [JsValue.int32 12345678] (JsValue.str [45, 48, 46, 53]) (List.replicate 64 0)
        (List.replicate 64 0)).2 = [45, 48, 46, 53, 53, 54, 55, 56] ∧
    (Increment DBX_DBTYPE_LMDB [] [94, 89] [] (JsValue.int32 1) (List.replicate 64 0)
        ([52, 49] ++ List.replicate 64 0)).2 = [52, 50] ∧
    (Increment DBX_DBTYPE_BDB [] [94, 89] [] (JsValue.int32 1) (List.replicate 64 0)
        ([52, 49] ++ List.replicate 64 0)).2 = [49] ∧
    Increment DBX_DBTYPE_BDB [([0, 3, 99], [48])] [99] [] (JsValue.int32 1)
        (List.replicate 64 0) (List.replicate 64 0) = ([([0, 3, 99], [49])], [49]) ∧
    Increment DBX_DBTYPE_BDB [([0, 3, 99], [49])] [99] [] (JsValue.str [45, 48, 46, 53])
        (List.replicate 64 0) (List.replicate 64 0) =
      ([([0, 3, 99], [48, 46, 53])], [48, 46, 53]) := by
  refine ⟨by decide, by decide, by rfl, by decide, by decide, by decide, by decide, by decide,
    by decide, by decide, by decide⟩

/-! ## Claim C11: the directory cursor -/

/-- C11 fails when a record is stored under the empty name. After `set("^A", "v")`
and `set("", "v")` the store holds the keys 00 00 and 00 03 'A'. The directory
cursor started from the empty name searches from 00 00 and reads the key 00 00, in
which `dbx_split_key` finds no slot, on each of the ten turns of the loop: on
Berkeley DB the first call of `next` hands back null, although `^A` has a record,
and on LMDB every call hands back the two bytes 00 00. -/
theorem C11_empty_name_record_blocks_listing :
    dbx_set (dbx_set [] (GlobalReference [94, 65] [JsValue.str [118]]))
        (GlobalReference [] [JsValue.str [118]]) = [([0, 0], [118]), ([0, 3, 65], [118])] ∧
    (dbx_split_key (fun _ => default) [0, 0] 2).2 = 0 ∧
    handle_run 1 [([0, 0], [118]), ([0, 3, 65], [118])] (fun _ => default) 2
        (dbx_cursor_reset_cx {} (dbx_cursor_init DBX_DBTYPE_BDB)
          { global := some [], globaldirectory := true } (fun _ => 0) (List.replicate 64 0) (List.replicate 64 0)).1
        (dbx_cursor_reset_cx {} (dbx_cursor_init DBX_DBTYPE_BDB)
          { global := some [], globaldirectory := true } (fun _ => 0) (List.replicate 64 0) (List.replicate 64 0)).2.1 =
      [JsReturn.null, JsReturn.null] ∧
    handle_run 1 [([0, 0], [118]), ([0, 3, 65], [118])] (fun _ => default) 2
        (dbx_cursor_reset_cx {} (dbx_cursor_init DBX_DBTYPE_LMDB)
          { global := some [], globaldirectory := true } (fun _ => 0) (List.replicate 64 0) (List.replicate 64 0)).1
        (dbx_cursor_reset_cx {} (dbx_cursor_init DBX_DBTYPE_LMDB)
          { global := some [], globaldirectory := true } (fun _ => 0) (List.replicate 64 0) (List.replicate 64 0)).2.1 =
      [JsReturn.text [0, 0], JsReturn.text [0, 0]] := by
  refine ⟨by decide, by decide, by decide, by decide⟩

/-- C11, amended. On Berkeley DB, and on LMDB when no read transaction is open on
the connection as the cursor is made (`tlevelro` is 0), for a database in key order
all of whose records are under names that are not empty once the leading '^' is
taken off, hold no zero byte and are of fewer than 128 bytes, with subscripts that
are 32-bit integers or non-empty strings without a zero byte, and whose keys and
data fit the 32000 bytes of an output buffer, and for a new handle made a directory
cursor from the empty name: successive calls of `next` hand back the names that
have at least one record, each once and in ascending byte order, and then null on
every further call. With the records `^A("a")`, `^B(1)`, `^B("x")` and `^C` the
calls hand back A, B, C and null; `delete("^B")` leaves the records of `^A` and
`^C`, and a new cursor hands back A, C and null. -/
theorem C11_directory_listing (dbtype : Nat) (store seen : Store) (mkeys0 : ArgArray)
    (pcon : DBXCON) (pmeth_int32 : Nat → Int) (mem_prev mem_next : Bytes)
    (hb : dbtype = DBX_DBTYPE_BDB ∨ dbtype = DBX_DBTYPE_LMDB)
    (hro : dbtype = DBX_DBTYPE_LMDB → pcon.tlevelro = 0)
    (hs : storeSorted store) (hf : fitStore store) (hd : directoryStore store) :
    (∃ names : List Bytes, names.Pairwise (fun a b => bytesLt a b = true) ∧
      (∀ t, t ∈ names ↔ hasName store t) ∧
      ∀ extra, handle_run 1 (read_store dbtype pcon.tlevelro seen store) mkeys0
        (names.length + (extra + 1))
        (dbx_cursor_reset_cx pcon (dbx_cursor_init dbtype)
          { global := some [], globaldirectory := true } pmeth_int32 mem_prev mem_next).1
        (dbx_cursor_reset_cx pcon (dbx_cursor_init dbtype)
          { global := some [], globaldirectory := true } pmeth_int32 mem_prev mem_next).2.1 =
          names.map JsReturn.text ++ List.replicate (extra + 1) JsReturn.null) ∧
    handle_run 1 [([0, 3, 65, 0, 3, 97], [118]), ([0, 3, 66, 0, 2, 0, 0, 0, 1, 0, 0, 0, 0, 49], [118]),
        ([0, 3, 66, 0, 3, 120], [118]), ([0, 3, 67], [118])] (fun _ => default) 4
        (dbx_cursor_reset_cx {} (dbx_cursor_init DBX_DBTYPE_BDB)
          { global := some [], globaldirectory := true } (fun _ => 0) (List.replicate 64 0) (List.replicate 64 0)).1
        (dbx_cursor_reset_cx {} (dbx_cursor_init DBX_DBTYPE_BDB)
          { global := some [], globaldirectory := true } (fun _ => 0) (List.replicate 64 0) (List.replicate 64 0)).2.1 =
      [JsReturn.text [65], JsReturn.text [66], JsReturn.text [67], JsReturn.null] ∧
    handle_run 1 [([0, 3, 65, 0, 3, 97], [118]), ([0, 3, 66, 0, 2, 0, 0, 0, 1, 0, 0, 0, 0, 49], [118]),
        ([0, 3, 66, 0, 3, 120], [118]), ([0, 3, 67], [118])] (fun _ => default) 4
        (dbx_cursor_reset_cx {} (dbx_cursor_init DBX_DBTYPE_LMDB)
          { global := some [], globaldirectory := true } (fun _ => 0) (List.replicate 64 0) (List.replicate 64 0)).1
        (dbx_cursor_reset_cx {} (dbx_cursor_init DBX_DBTYPE_LMDB)
          { global := some [], globaldirectory := true } (fun _ => 0) (List.replicate 64 0) (List.replicate 64 0)).2.1 =
      [JsReturn.text [65], JsReturn.text [66], JsReturn.text [67], JsReturn.null] ∧
    dbx_delete DBX_DBTYPE_BDB
        [([0, 3, 65, 0, 3, 97], [118]), ([0, 3, 66, 0, 2, 0, 0, 0, 1, 0, 0, 0, 0, 49], [118]),
        ([0, 3, 66, 0, 3, 120], [118]), ([0, 3, 67], [118])] (GlobalReference [94, 66] []) =
      [([0, 3, 65, 0, 3, 97], [118]), ([0, 3, 67], [118])] ∧
    dbx_delete DBX_DBTYPE_LMDB
        [([0, 3, 65, 0, 3, 97], [118]), ([0, 3, 66, 0, 2, 0, 0, 0, 1, 0, 0, 0, 0, 49], [118]),
        ([0, 3, 66, 0, 3, 120], [118]), ([0, 3, 67], [118])] (GlobalReference [94, 66] []) =
      [([0, 3, 65, 0, 3, 97], [118]), ([0, 3, 67], [118])] ∧
    handle_run 1 [([0, 3, 65, 0, 3, 97], [118]), ([0, 3, 67], [118])] (fun _ => default) 3
        (dbx_cursor_reset_cx {} (dbx_cursor_init DBX_DBTYPE_BDB)
          { global := some [], globaldirectory := true } (fun _ => 0) (List.replicate 64 0) (List.replicate 64 0)).1
        (dbx_cursor_reset_cx {} (dbx_cursor_init DBX_DBTYPE_BDB)
          { global := some [], globaldirectory := true } (fun _ => 0) (List.replicate 64 0) (List.replicate 64 0)).2.1 =
      [JsReturn.text [65], JsReturn.text [67], JsReturn.null] ∧
    handle_run 1 [([0, 3, 65, 0, 3, 97], [118]), ([0, 3, 67], [118])] (fun _ => default) 3
        (dbx_cursor_reset_cx {} (dbx_cursor_init DBX_DBTYPE_LMDB)
          { global := some [], globaldirectory := true } (fun _ => 0) (List.replicate 64 0) (List.replicate 64 0)).1
        (dbx_cursor_reset_cx {} (dbx_cursor_init DBX_DBTYPE_LMDB)
          { global := some [], globaldirectory := true } (fun _ => 0) (List.replicate 64 0) (List.replicate 64 0)).2.1 =
      [JsReturn.text [65], JsReturn.text [67], JsReturn.null] := by
  refine ⟨?_, by decide, by decide, by decide, by decide, by decide, by decide⟩
  rw [read_store_database dbtype pcon.tlevelro seen store hro]
  obtain ⟨hp, hc, hq, _⟩ := directory_reset dbtype pcon pmeth_int32 mem_prev mem_next hb
  obtain ⟨names, p1, p2, p3⟩ := directory_run store mkeys0 hs hf hd _ [] _ _ (le_refl _) hp hc hq
  refine ⟨names, p1, ?_, p3⟩
  intro t
  rw [p2 t]
  constructor
  · exact fun h => h.1
  · intro h
    refine ⟨h, ?_⟩
    obtain ⟨r, _, hn⟩ := h
    have hne := (decodableText_spec t (namedBy_flat r.1 t hn).1).1
    cases t with
    | nil => exact absurd rfl hne
    | cons c t => rfl

/-- C11, amended, on LMDB without an open cursor at the records `^A("a")`,
`^B(1)`, `^B("x")` and `^C`. -/
theorem C11_directory_listing_witness :
    (DBX_DBTYPE_LMDB = DBX_DBTYPE_BDB ∨ DBX_DBTYPE_LMDB = DBX_DBTYPE_LMDB) ∧
    (DBX_DBTYPE_LMDB = DBX_DBTYPE_LMDB → ({} : DBXCON).tlevelro = 0) ∧
    storeSorted [([0, 3, 65, 0, 3, 97], [118]), ([0, 3, 66, 0, 2, 0, 0, 0, 1, 0, 0, 0, 0, 49], [118]),
        ([0, 3, 66, 0, 3, 120], [118]), ([0, 3, 67], [118])] ∧
    fitStore [([0, 3, 65, 0, 3, 97], [118]), ([0, 3, 66, 0, 2, 0, 0, 0, 1, 0, 0, 0, 0, 49], [118]),
        ([0, 3, 66, 0, 3, 120], [118]), ([0, 3, 67], [118])] ∧
    directoryStore [([0, 3, 65, 0, 3, 97], [118]), ([0, 3, 66, 0, 2, 0, 0, 0, 1, 0, 0, 0, 0, 49], [118]),
        ([0, 3, 66, 0, 3, 120], [118]), ([0, 3, 67], [118])] ∧
    ∃ names : List Bytes, names.Pairwise (fun a b => bytesLt a b = true) ∧
      (∀ t, t ∈ names ↔ hasName [([0, 3, 65, 0, 3, 97], [118]), ([0, 3, 66, 0, 2, 0, 0, 0, 1, 0, 0, 0, 0, 49], [118]),
        ([0, 3, 66, 0, 3, 120], [118]), ([0, 3, 67], [118])] t) ∧
      ∀ extra, handle_run 1
        (read_store DBX_DBTYPE_LMDB ({} : DBXCON).tlevelro []
          [([0, 3, 65, 0, 3, 97], [118]), ([0, 3, 66, 0, 2, 0, 0, 0, 1, 0, 0, 0, 0, 49], [118]),
          ([0, 3, 66, 0, 3, 120], [118]), ([0, 3, 67], [118])])
        (fun _ => default) (names.length + (extra + 1))
        (dbx_cursor_reset_cx {} (dbx_cursor_init DBX_DBTYPE_LMDB)
          { global := some [], globaldirectory := true } (fun _ => 0) (List.replicate 64 0) (List.replicate 64 0)).1
        (dbx_cursor_reset_cx {} (dbx_cursor_init DBX_DBTYPE_LMDB)
          { global := some [], globaldirectory := true } (fun _ => 0) (List.replicate 64 0) (List.replicate 64 0)).2.1 =
          names.map JsReturn.text ++ List.replicate (extra + 1) JsReturn.null := by
  have hs : storeSorted [([0, 3, 65, 0, 3, 97], [118]), ([0, 3, 66, 0, 2, 0, 0, 0, 1, 0, 0, 0, 0, 49], [118]),
        ([0, 3, 66, 0, 3, 120], [118]), ([0, 3, 67], [118])] := by
    unfold storeSorted
    decide
  have hf : fitStore [([0, 3, 65, 0, 3, 97], [118]), ([0, 3, 66, 0, 2, 0, 0, 0, 1, 0, 0, 0, 0, 49], [118]),
        ([0, 3, 66, 0, 3, 120], [118]), ([0, 3, 67], [118])] := by
    unfold fitStore
    decide
  have hd : directoryStore [([0, 3, 65, 0, 3, 97], [118]), ([0, 3, 66, 0, 2, 0, 0, 0, 1, 0, 0, 0, 0, 49], [118]),
        ([0, 3, 66, 0, 3, 120], [118]), ([0, 3, 67], [118])] := by
    intro r hr
    simp only [List.mem_cons, List.mem_singleton, List.mem_nil_iff, or_false] at hr
    rcases hr with h | h | h | h
    · exact ⟨[65], [94, 65], [JsValue.str [97]], by decide, by decide, by decide, by rw [h]; decide⟩
    · exact ⟨[66], [94, 66], [JsValue.int32 1], by decide, by decide, by decide, by rw [h]; decide⟩
    · exact ⟨[66], [94, 66], [JsValue.str [120]], by decide, by decide, by decide,
        by rw [h]; decide⟩
    · exact ⟨[67], [94, 67], [], by decide, by decide, by decide, by rw [h]; decide⟩
  exact ⟨Or.inr rfl, fun _ => rfl, hs, hf, hd,
    (C11_directory_listing DBX_DBTYPE_LMDB _ [] (fun _ => default) {} (fun _ => 0)
      (List.replicate 64 0) (List.replicate 64 0) (Or.inr rfl) (fun _ => rfl) hs hf hd).1⟩

/-! ## Claim C21: the count of read transactions -/

/-- C21: for every properly nested run of `lmdb_start_ro_transaction` and
`lmdb_commit_ro_transaction` on a connection whose count `tlevelro` is 0, the count
is never negative before or after a call; a call begins or renews the read
transaction exactly when it is a start that takes the count from 0 to 1, and
resets it exactly when it is a commit that takes the count from 1 to 0; the
transaction is begun at most once, by the first start when `tstatusro` is not 1,
and renewed by every later start from 0; and the count is 0 at the end. -/
theorem C21_read_transaction_count (ops : List RoOp) (pcon : DBXCON)
    (hn : nestedFrom 0 ops = true) (hl : pcon.tlevelro = 0) :
    (∀ e ∈ ro_run ops pcon, 0 ≤ e.before ∧ 0 ≤ e.after ∧
      ((e.call = some TxnCall.txn_begin ∨ e.call = some TxnCall.txn_renew) ↔
        (e.op = RoOp.start ∧ e.before = 0 ∧ e.after = 1)) ∧
      (e.call = some TxnCall.txn_reset ↔
        (e.op = RoOp.commit ∧ e.before = 1 ∧ e.after = 0))) ∧
    (∃ k : Nat, startCalls (ro_run ops pcon) = List.replicate k TxnCall.txn_renew ∨
      (pcon.tstatusro ≠ 1 ∧
        startCalls (ro_run ops pcon) =
          TxnCall.txn_begin :: List.replicate k TxnCall.txn_renew)) ∧
    (ro_final ops pcon).tlevelro = 0 := by
  obtain ⟨h1, h2⟩ := ro_run_events ops 0 pcon hn (by rw [hl]; rfl)
  exact ⟨h1, ro_run_begin_once ops pcon hn hl, h2⟩

/-- C21 on a new connection, for two nested readers followed by a third: the
transaction is begun by the first start, reset by the second commit, renewed by
the third start and reset by the last commit. -/
theorem C21_read_transaction_count_witness :
    nestedFrom 0 [RoOp.start, RoOp.start, RoOp.commit, RoOp.commit, RoOp.start, RoOp.commit]
      = true ∧
    ({} : DBXCON).tlevelro = 0 ∧
    (ro_run [RoOp.start, RoOp.start, RoOp.commit, RoOp.commit, RoOp.start, RoOp.commit]
      {}).map (fun e => e.call) =
      [some TxnCall.txn_begin, none, none, some TxnCall.txn_reset, some TxnCall.txn_renew,
        some TxnCall.txn_reset] ∧
    (ro_final [RoOp.start, RoOp.start, RoOp.commit, RoOp.commit, RoOp.start, RoOp.commit]
      {}).tlevelro = 0 :=
  ⟨by decide, rfl, by decide,
    (C21_read_transaction_count
      [RoOp.start, RoOp.start, RoOp.commit, RoOp.commit, RoOp.start, RoOp.commit] {}
      (by decide) rfl).2.2⟩

/-! ## Claims C22 and C27: the instance mutex -/

/-- C22: for one thread `tid` and every `n ≥ 1`, on a created mutex that no thread
holds, `n` calls of `dbx_mutex_lock` all return 0 and leave the thread as owner
with the stack count `n - 1`; each of the first `n - 1` calls of `dbx_mutex_unlock`
that follow returns 0 and keeps the thread as owner and holder, with the count one
lower; the `n`-th releases the mutex and resets the owner and the stack count to
0. -/
theorem C22_mutex_reentrant (n : Nat) (m : DBXMUTEX) (tid : Nat) (hn : 1 ≤ n)
    (hc : m.created ≠ 0) (hf : m.h_mutex = none) (ht : m.thid ≠ tid) :
    lock_run n m tid =
      some ({ m with h_mutex := some tid, thid := tid, stack := (n : Int) - 1 },
        List.replicate n 0) ∧
    (∀ k, k < n →
      unlock_run k { m with h_mutex := some tid, thid := tid, stack := (n : Int) - 1 } tid =
        ({ m with h_mutex := some tid, thid := tid, stack := (n : Int) - 1 - k },
          List.replicate k 0)) ∧
    unlock_run n { m with h_mutex := some tid, thid := tid, stack := (n : Int) - 1 } tid =
      ({ m with h_mutex := none, thid := 0, stack := 0 }, List.replicate n 0) := by
  obtain ⟨j, rfl⟩ : ∃ j, n = j + 1 := ⟨n - 1, by omega⟩
  have hst : ∀ k, k ≤ j →
      unlock_run k { m with h_mutex := some tid, thid := tid, stack := ((j + 1 : Nat) : Int) - 1 }
          tid =
        ({ m with h_mutex := some tid, thid := tid, stack := ((j + 1 : Nat) : Int) - 1 - k },
          List.replicate k 0) := by
    intro k hk
    exact unlock_run_stacked k _ tid hc rfl (by dsimp only; push_cast; omega)
  refine ⟨?_, fun k hk => hst k (by omega), ?_⟩
  · rw [lock_run]
    have e : dbx_mutex_lock m tid =
        some ({ m with h_mutex := some tid, thid := tid, stack := 0 }, 0) := by
      unfold dbx_mutex_lock
      rw [if_neg hc, if_neg ht, hf]
    rw [e]
    dsimp only
    rw [lock_run_owner j { m with h_mutex := some tid, thid := tid, stack := 0 } tid hc rfl]
    dsimp only
    simp only [List.replicate_succ]
    congr 3
    push_cast
    ring
  · rw [unlock_run_add j 1, hst j (le_refl _)]
    dsimp only
    rw [unlock_run, unlock_run,
      unlock_last
        { m with h_mutex := some tid, thid := tid, stack := ((j + 1 : Nat) : Int) - 1 - j } tid hc
        (by dsimp only; push_cast; ring) rfl]
    dsimp only
    rw [List.replicate_succ']

/-- C22 for three locks and three unlocks by the thread 7 on a new mutex. -/
theorem C22_mutex_reentrant_witness :
    1 ≤ 3 ∧ (dbx_mutex_create {}).1.created ≠ 0 ∧ (dbx_mutex_create {}).1.h_mutex = none ∧
    (dbx_mutex_create {}).1.thid ≠ 7 ∧
    lock_run 3 (dbx_mutex_create {}).1 7 =
      some ({ created := 1, stack := 2, h_mutex := some 7, thid := 7 }, [0, 0, 0]) ∧
    unlock_run 2 { created := 1, stack := 2, h_mutex := some 7, thid := 7 } 7 =
      ({ created := 1, stack := 0, h_mutex := some 7, thid := 7 }, [0, 0]) ∧
    unlock_run 3 { created := 1, stack := 2, h_mutex := some 7, thid := 7 } 7 =
      ({ created := 1, stack := 0, h_mutex := none, thid := 0 }, [0, 0, 0]) :=
  ⟨by decide, by decide, by decide, by decide,
    (C22_mutex_reentrant 3 (dbx_mutex_create {}).1 7 (by decide) (by decide) (by decide)
      (by decide)).1,
    (C22_mutex_reentrant 3 (dbx_mutex_create {}).1 7 (by decide) (by decide) (by decide)
      (by decide)).2.1 2 (by decide),
    (C22_mutex_reentrant 3 (dbx_mutex_create {}).1 7 (by decide) (by decide) (by decide)
      (by decide)).2.2⟩

/-- C27 fails for `dbx_merge`. Every other point operation leaves the instance
mutex as it found it, on both exit paths, when the mutex is free or held by the
calling thread: it locks at its start and unlocks at its exit label. `dbx_merge`
locks at its start and its exit label is followed by `return 0`: run by the thread
7 on a free mutex it leaves the mutex held by that thread, whether or not
`dbx_global_reference` succeeds; run again by the same thread it raises the stack
count; and a point operation of another thread then waits for ever. -/
theorem C27_merge_keeps_the_mutex :
    (∀ (op : PointOp) (reference_ok use_mutex : Bool) (m : DBXMUTEX) (tid : Nat),
      op ≠ PointOp.dbx_merge → 0 ≤ m.stack →
      ((m.h_mutex = none ∧ m.thid = 0 ∧ m.stack = 0 ∧ tid ≠ 0) ∨
        (m.h_mutex = some tid ∧ m.thid = tid)) →
      point_op_mutex op reference_ok use_mutex m tid = some m) ∧
    (∀ (reference_ok : Bool) (m : DBXMUTEX) (tid : Nat), m.created ≠ 0 → m.h_mutex = none →
      m.thid ≠ tid →
      point_op_mutex PointOp.dbx_merge reference_ok true m tid =
        some { m with h_mutex := some tid, thid := tid, stack := 0 }) ∧
    point_op_mutex PointOp.dbx_merge true true { created := 1 } 7 =
      some { created := 1, stack := 0, h_mutex := some 7, thid := 7 } ∧
    point_op_mutex PointOp.dbx_merge false true { created := 1 } 7 =
      some { created := 1, stack := 0, h_mutex := some 7, thid := 7 } ∧
    point_op_mutex PointOp.dbx_merge true true
        { created := 1, stack := 0, h_mutex := some 7, thid := 7 } 7 =
      some { created := 1, stack := 1, h_mutex := some 7, thid := 7 } ∧
    point_op_mutex PointOp.dbx_get true true
        { created := 1, stack := 0, h_mutex := some 7, thid := 7 } 8 = none ∧
    point_op_mutex PointOp.dbx_get true true { created := 1 } 7 = some { created := 1 } := by
  refine ⟨fun op r u m tid ho hs hm => point_op_balanced op r u m tid ho hs hm, ?_,
    by decide, by decide, by decide, by decide, by decide⟩
  intro r m tid hc hf ht
  unfold point_op_mutex DBX_DB_LOCK dbx_mutex_lock
  rw [if_pos rfl, if_neg hc, if_neg ht, hf]
  dsimp only [Option.map]
  rw [ite_self]

/-! ## Claim C23: the task queue -/

/-- C23: from the empty queue, over every run of calls of `dbx_pool_add_task` and
`dbx_pool_get_task` in which no allocation returns the address of a task still
queued, the calls of `dbx_pool_get_task` return what the first-in first-out list
of the specification returns: the tasks in the order in which they were added,
each with its `pmeth`, and `NULL` exactly when the list is empty; and after every
call the tasks linked from `tasks` are those of the list, in order, with
`dbx_total_tasks` their number and `bottom_task` the last of them. -/
theorem C23_task_queue_fifo (ops : List PoolOp) (s : PoolState)
    (h1 : s.tasks = 0) (h2 : s.bottom_task = 0) (h3 : s.dbx_total_tasks = 0)
    (hf : freshOps ops []) :
    pool_gets ops s = fifo_gets ops [] ∧
    ∀ k, PoolInv (pool_state (ops.take k) s) (fifo_state (ops.take k) []) := by
  have hi : PoolInv s [] := ⟨h1, by rw [h3]; rfl, by rw [h2]; rfl, List.nodup_nil⟩
  exact ⟨(pool_refines ops s [] hi hf).1,
    fun k => (pool_refines (ops.take k) s [] hi (freshOps_take ops [] k hf)).2⟩

/-- C23 on a run in which the address 100 is used again once its task has left the
queue. -/
theorem C23_task_queue_fifo_witness :
    ({} : PoolState).tasks = 0 ∧ ({} : PoolState).bottom_task = 0 ∧
    ({} : PoolState).dbx_total_tasks = 0 ∧
    freshOps [PoolOp.add 11 100, PoolOp.add 12 200, PoolOp.get, PoolOp.add 13 100,
      PoolOp.add 14 0, PoolOp.get, PoolOp.get, PoolOp.get] [] ∧
    pool_gets [PoolOp.add 11 100, PoolOp.add 12 200, PoolOp.get, PoolOp.add 13 100,
      PoolOp.add 14 0, PoolOp.get, PoolOp.get, PoolOp.get] {} =
      [some (100, 11), some (200, 12), some (100, 13), none] ∧
    (pool_state [PoolOp.add 11 100, PoolOp.add 12 200, PoolOp.get, PoolOp.add 13 100,
      PoolOp.add 14 0, PoolOp.get, PoolOp.get, PoolOp.get] {}).dbx_total_tasks = 0 := by
  have hf : freshOps [PoolOp.add 11 100, PoolOp.add 12 200, PoolOp.get, PoolOp.add 13 100,
      PoolOp.add 14 0, PoolOp.get, PoolOp.get, PoolOp.get] [] := by
    simp [freshOps]
  have h := C23_task_queue_fifo [PoolOp.add 11 100, PoolOp.add 12 200, PoolOp.get,
    PoolOp.add 13 100, PoolOp.add 14 0, PoolOp.get, PoolOp.get, PoolOp.get] {} rfl rfl rfl hf
  refine ⟨rfl, rfl, rfl, hf, ?_, by decide⟩
  rw [h.1]
  decide

/-! ## Claims C24 and C25: the numeric slot -/

/-- C24 fails for the numbers strictly between -1 and 0, and for decimal texts of
more than eight bytes. For every regular numeric subscript (a 32-bit integer other
than the minimum, or a decimal text with an integer part below `2 ^ 31` that, with
a decimal point, is of at most eight bytes and not strictly between -1 and 0) the
slot is as the claim has it: the lead 00 02, the integer part and the fractional
part in nine digits, four bytes each, when the value is not negative; the lead 00
01 and `0xFFFFFFFF` minus each part when it is negative; then the text. But
`dbx_set_number` takes the sign from the integer part alone: "-0.5" is written with
the lead 00 02 and the parts 0 and 500000000, as "0.5" is, where the claim gives
00 01 FF FF FF FF E2 32 9A FF, and its key sorts above that of "0.25". And
"-12.3456789", read after the move of the text, is written with the fractional
part 3456, not 345678900. -/
theorem C24_sign_taken_from_integer_part :
    (∀ (a : JsValue) (v : ℚ), regularSubscript a = true → numericValue a = some v →
      ∃ ip fp : Nat, ip < 2 ^ 31 ∧ fp < 10 ^ 9 ∧ |v| = (ip : ℚ) + (fp : ℚ) / 10 ^ 9 ∧
        slotBytes a =
          (if 0 ≤ v then [0x00, 0x02] ++ dbx_set_size ip ++ dbx_set_size fp
            else [0x00, 0x01] ++ dbx_set_size (0xffffffff - ip) ++
              dbx_set_size (0xffffffff - fp)) ++ a.text) ∧
    slotBytes (JsValue.str [45, 48, 46, 53]) =
      [0, 2] ++ dbx_set_size 0 ++ dbx_set_size 500000000 ++ [45, 48, 46, 53] ∧
    slotBytes (JsValue.str [48, 46, 53]) =
      [0, 2] ++ dbx_set_size 0 ++ dbx_set_size 500000000 ++ [48, 46, 53] ∧
    [0, 1] ++ dbx_set_size (0xffffffff - 0) ++ dbx_set_size (0xffffffff - 500000000) =
      [0, 1, 255, 255, 255, 255, 226, 50, 154, 255] ∧
    (GlobalReference [94, 88] [JsValue.str [45, 48, 46, 53]]).ibuffer =
      [0, 3, 88, 0, 2, 0, 0, 0, 0, 29, 205, 101, 0, 45, 48, 46, 53] ∧
    bytesLt (GlobalReference [94, 88] [JsValue.str [48, 46, 50, 53]]).ibuffer
      (GlobalReference [94, 88] [JsValue.str [45, 48, 46, 53]]).ibuffer = true ∧
    slotBytes (JsValue.str [45, 49, 50, 46, 51, 52, 53, 54, 55, 56, 57]) =
      [0, 1] ++ dbx_set_size (0xffffffff - 12) ++ dbx_set_size (0xffffffff - 3456) ++
        [45, 49, 50, 46, 51, 52, 53, 54, 55, 56, 57] := by
  refine ⟨?_, by decide, by decide, by decide, by decide, by decide, by decide⟩
  intro a v hr hv
  obtain ⟨h1, hn, hd, hq⟩ := numeric_slot a v hr hv
  rw [h1, set_number_bytes_format _ _ hn hd]
  by_cases h0 : (codeParts a).1 < 0
  · rw [scaled_cast_neg _ _ h0] at hq
    have hipq : (((codeParts a).1.natAbs : Nat) : ℚ) = -(((codeParts a).1 : Int) : ℚ) := by
      rw [Nat.cast_natAbs, abs_of_neg h0]
      push_cast
      rfl
    have hfpq : (((codeParts a).2.toNat : Nat) : ℚ) = (((codeParts a).2 : Int) : ℚ) := by
      have : (((codeParts a).2.toNat : Nat) : Int) = (codeParts a).2 := by omega
      exact_mod_cast this
    have hn1 : (((codeParts a).1 : Int) : ℚ) ≤ -1 := by exact_mod_cast (by omega : (codeParts a).1 ≤ -1)
    have hd0 : (0 : ℚ) ≤ (((codeParts a).2 : Int) : ℚ) := by exact_mod_cast hd.1
    have hvneg : v < 0 := by
      rw [← hq]
      have : (0 : ℚ) ≤ (((codeParts a).2 : Int) : ℚ) / 10 ^ 9 := by positivity
      linarith
    refine ⟨(codeParts a).1.natAbs, (codeParts a).2.toNat, by omega, by omega, ?_, ?_⟩
    · rw [abs_of_neg hvneg, hipq, hfpq, ← hq]; ring
    · rw [if_pos h0, if_neg (not_le.mpr hvneg)]
  · rw [scaled_cast_nonneg _ _ (by omega)] at hq
    have hipq : (((codeParts a).1.toNat : Nat) : ℚ) = (((codeParts a).1 : Int) : ℚ) := by
      have : (((codeParts a).1.toNat : Nat) : Int) = (codeParts a).1 := by omega
      exact_mod_cast this
    have hfpq : (((codeParts a).2.toNat : Nat) : ℚ) = (((codeParts a).2 : Int) : ℚ) := by
      have : (((codeParts a).2.toNat : Nat) : Int) = (codeParts a).2 := by omega
      exact_mod_cast this
    have hn0 : (0 : ℚ) ≤ (((codeParts a).1 : Int) : ℚ) := by exact_mod_cast (by omega : 0 ≤ (codeParts a).1)
    have hd0 : (0 : ℚ) ≤ (((codeParts a).2 : Int) : ℚ) := by exact_mod_cast hd.1
    have hvnn : 0 ≤ v := by
      rw [← hq]
      positivity
    refine ⟨(codeParts a).1.toNat, (codeParts a).2.toNat, by omega, by omega, ?_, ?_⟩
    · rw [abs_of_nonneg hvnn, hipq, hfpq, ← hq]
    · rw [if_neg h0, if_pos hvnn]

/-- C25 fails for the texts of more than eight bytes. For an accepted text with a
decimal point of at most eight bytes, the fractional number that `dbx_set_number`
computes is the integer formed by the fractional digits left-justified to nine
places, and the slot is the ten bytes of `dbx_set_number` for it (the number
itself after the lead 00 02, `0xFFFFFFFF` minus it after the lead 00 01) followed
by the text. But the text is moved eight bytes up before `dbx_set_number` reads it
at its old place: for "1.2345678" the number is 234567100, that of "1.2345671",
not 234567800; for "1234567.5" it is 100000000; for "1.23456789" it is 2345671,
that of the nine bytes "2345671.0". -/
theorem C25_fraction_read_after_the_move :
    (∀ s : Bytes, is_number_flags s = (true, true) → s.length ≤ 8 →
      ∃ a d2, splitAtDot s = (a, some d2) ∧ d2.length ≤ 9 ∧
        (strParts s).2 = (digitsValue 0 (d2 ++ List.replicate (9 - d2.length) 48) : Int) ∧
        slotBytes (JsValue.str s) =
          set_number_bytes (strParts s).1
            (digitsValue 0 (d2 ++ List.replicate (9 - d2.length) 48) : Int) ++ s) ∧
    is_number_flags [49, 46, 50, 51, 52, 53, 54, 55, 56] = (true, true) ∧
    shifted_text [49, 46, 50, 51, 52, 53, 54, 55, 56] = [49, 46, 50, 51, 52, 53, 54, 55, 49] ∧
    strParts [49, 46, 50, 51, 52, 53, 54, 55, 56] = (1, 234567100) ∧
    slotBytes (JsValue.str [49, 46, 50, 51, 52, 53, 54, 55, 56]) =
      [0, 2] ++ dbx_set_size 1 ++ dbx_set_size 234567100 ++
        [49, 46, 50, 51, 52, 53, 54, 55, 56] ∧
    digitsValue 0 ([50, 51, 52, 53, 54, 55, 56] ++ List.replicate (9 - 7) 48) = 234567800 ∧
    strParts [49, 50, 51, 52, 53, 54, 55, 46, 53] = (1234567, 100000000) ∧
    strParts [49, 46, 50, 51, 52, 53, 54, 55, 56, 57] = (1, 2345671) ∧
    (GlobalReference [94, 88] [JsValue.str [49, 46, 50, 51, 52, 53, 54, 55, 56]]).ibuffer =
      [0, 3, 88, 0, 2, 0, 0, 0, 1, 13, 251, 53, 188, 49, 46, 50, 51, 52, 53, 54, 55, 56] := by
  refine ⟨?_, by decide, by decide, by decide, by decide, by decide, by decide, by decide,
    by decide⟩
  intro s hf hl
  obtain ⟨a, d2, h1, _, h3, h4⟩ := strParts_frac s hf hl
  refine ⟨a, d2, h1, h3, h4, ?_⟩
  rw [← h4]
  simp [slotBytes, hf]

/-! ## Claim C26: the reads of one call of next -/

/-- C26 fails for subscripts that hold a zero byte. With the records
`^X("a\0b")`, `^X("a\0c")`, `^X("a\0d")` and `^X("e")`, the call of `next` with
the seed "a\0b" takes the branch "current key returned - get next" three times and
makes four reads on either backend, and returns "e": the two texts of a record and
of the seed are compared with `strncmp`, which stops at the zero byte, so
"a\0c" and "a\0d" are taken for the seed. -/
theorem C26_zero_byte_subscripts_collide :
    dbx_set (dbx_set (dbx_set (dbx_set []
        (GlobalReference [94, 88] [JsValue.str [97, 0, 98], JsValue.str [118]]))
        (GlobalReference [94, 88] [JsValue.str [97, 0, 99], JsValue.str [118]]))
        (GlobalReference [94, 88] [JsValue.str [97, 0, 100], JsValue.str [118]]))
        (GlobalReference [94, 88] [JsValue.str [101], JsValue.str [118]]) =
      [([0, 3, 88, 0, 3, 97, 0, 98], [118]), ([0, 3, 88, 0, 3, 97, 0, 99], [118]),
      ([0, 3, 88, 0, 3, 97, 0, 100], [118]), ([0, 3, 88, 0, 3, 101], [118])] ∧
    next_call_counts DBX_DBTYPE_BDB
      [([0, 3, 88, 0, 3, 97, 0, 98], [118]), ([0, 3, 88, 0, 3, 97, 0, 99], [118]),
      ([0, 3, 88, 0, 3, 97, 0, 100], [118]), ([0, 3, 88, 0, 3, 101], [118])]
      (GlobalReference [94, 88] [JsValue.str [97, 0, 98]]) (fun _ => default) = (3, 4) ∧
    next_call_counts DBX_DBTYPE_LMDB
      [([0, 3, 88, 0, 3, 97, 0, 98], [118]), ([0, 3, 88, 0, 3, 97, 0, 99], [118]),
      ([0, 3, 88, 0, 3, 97, 0, 100], [118]), ([0, 3, 88, 0, 3, 101], [118])]
      (GlobalReference [94, 88] [JsValue.str [97, 0, 98]]) (fun _ => default) = (3, 4) ∧
    bdb_next
      [([0, 3, 88, 0, 3, 97, 0, 98], [118]), ([0, 3, 88, 0, 3, 97, 0, 99], [118]),
      ([0, 3, 88, 0, 3, 97, 0, 100], [118]), ([0, 3, 88, 0, 3, 101], [118])]
      (GlobalReference [94, 88] [JsValue.str [97, 0, 98]]) (fun _ => default) =
        (CACHE_SUCCESS, [101]) := by
  refine ⟨by decide, by decide, by decide, by decide⟩

/-- C26, amended: for every store in key order whose keys the codec wrote from
32-bit integers and non-empty strings without a zero byte, and every reference
`(name, subs, seed)` made of such subscripts whose seed is such a subscript or the
empty string, one call of `next` on either backend takes the branch "current key
returned - get next" (the write of 00 ff after the key of the seed and a second
read) at most once, and makes at most two reads in all. -/
theorem C26_next_reads_again_at_most_once (store : Store) (hs : storeSorted store)
    (hw : subscriptStore store) (name : Bytes) (subs : List JsValue) (seed : JsValue)
    (hn : decodableText (stripName name) = true) (hsubs : ∀ a ∈ subs, subscriptArg a = true)
    (hseed : seedArg seed) (mkeys0 : ArgArray) :
    ((next_call_counts DBX_DBTYPE_BDB store (GlobalReference name (subs ++ [seed])) mkeys0).1 ≤ 1 ∧
      (next_call_counts DBX_DBTYPE_BDB store (GlobalReference name (subs ++ [seed])) mkeys0).2
        ≤ 2) ∧
    ((next_call_counts DBX_DBTYPE_LMDB store (GlobalReference name (subs ++ [seed])) mkeys0).1
        ≤ 1 ∧
      (next_call_counts DBX_DBTYPE_LMDB store (GlobalReference name (subs ++ [seed])) mkeys0).2
        ≤ 2) :=
  ⟨next_counts_le DBX_DBTYPE_BDB store hs hw name subs seed hn hsubs hseed mkeys0,
    next_counts_le DBX_DBTYPE_LMDB store hs hw name subs seed hn hsubs hseed mkeys0⟩

/-- C26, amended, at the siblings "a", "b", "c" under `^X` and the seed "a": one
second read, two reads in all. -/
theorem C26_next_reads_again_at_most_once_witness :
    storeSorted (dbx_set (dbx_set (dbx_set []
      (GlobalReference [94, 88] ([JsValue.str [97]] ++ [JsValue.str [118]])))
      (GlobalReference [94, 88] ([JsValue.str [98]] ++ [JsValue.str [118]])))
      (GlobalReference [94, 88] ([JsValue.str [99]] ++ [JsValue.str [118]]))) ∧
    subscriptStore (dbx_set (dbx_set (dbx_set []
      (GlobalReference [94, 88] ([JsValue.str [97]] ++ [JsValue.str [118]])))
      (GlobalReference [94, 88] ([JsValue.str [98]] ++ [JsValue.str [118]])))
      (GlobalReference [94, 88] ([JsValue.str [99]] ++ [JsValue.str [118]]))) ∧
    seedArg (JsValue.str [97]) ∧
    (next_call_counts DBX_DBTYPE_BDB (dbx_set (dbx_set (dbx_set []
      (GlobalReference [94, 88] ([JsValue.str [97]] ++ [JsValue.str [118]])))
      (GlobalReference [94, 88] ([JsValue.str [98]] ++ [JsValue.str [118]])))
      (GlobalReference [94, 88] ([JsValue.str [99]] ++ [JsValue.str [118]])))
      (GlobalReference [94, 88] ([] ++ [JsValue.str [97]])) (fun _ => default)).1 ≤ 1 ∧
    next_call_counts DBX_DBTYPE_BDB (dbx_set (dbx_set (dbx_set []
      (GlobalReference [94, 88] ([JsValue.str [97]] ++ [JsValue.str [118]])))
      (GlobalReference [94, 88] ([JsValue.str [98]] ++ [JsValue.str [118]])))
      (GlobalReference [94, 88] ([JsValue.str [99]] ++ [JsValue.str [118]])))
      (GlobalReference [94, 88] ([] ++ [JsValue.str [97]])) (fun _ => default) = (1, 2) :=
  ⟨dbx_set_sorted _ (dbx_set_sorted _ (dbx_set_sorted _ storeSorted_nil _) _) _,
    dbx_set_subscript _ (dbx_set_subscript _ (dbx_set_subscript _ subscriptStore_nil
      [94, 88] [JsValue.str [97]] (JsValue.str [118]) (by decide) (by decide))
      [94, 88] [JsValue.str [98]] (JsValue.str [118]) (by decide) (by decide))
      [94, 88] [JsValue.str [99]] (JsValue.str [118]) (by decide) (by decide),
    Or.inl (by decide),
    (C26_next_reads_again_at_most_once _ (dbx_set_sorted _ (dbx_set_sorted _ (dbx_set_sorted _ storeSorted_nil _) _) _)
      (dbx_set_subscript _ (dbx_set_subscript _ (dbx_set_subscript _ subscriptStore_nil
      [94, 88] [JsValue.str [97]] (JsValue.str [118]) (by decide) (by decide))
      [94, 88] [JsValue.str [98]] (JsValue.str [118]) (by decide) (by decide))
      [94, 88] [JsValue.str [99]] (JsValue.str [118]) (by decide) (by decide))
      [94, 88] [] (JsValue.str [97]) (by decide) (by decide) (Or.inl (by decide))
      (fun _ => default)).1.1,
    by decide⟩

/-! ## Claim C29: the extent of the writes of dbx_ibuffer_add -/

/-- C29: a call of `dbx_ibuffer_add`, from whatever state of the key area and for an
argument of any length, the allocation of a larger area having succeeded when one
is made, changes no byte of the area at an index at or above `ibuffer_size` (nor
one below `ibuffer_used` on entry); `ibuffer_size` is not lowered; on exit
`ibuffer_used` is at most `ibuffer_size`, and the cumulative size recorded for the
argument is `ibuffer_used`. As this holds from every state, it holds after each call
of every sequence of calls. -/
theorem C29_writes_within_the_key_area (key_type : Nat) (mem0 : Mem) (used0 size0 : Nat) (a0 : DBXVAL)
    (argn : Nat) (buffer : Bytes) (nul : Bool) :
    (∀ a, (a < used0 ∨
        (dbx_ibuffer_add_mem key_type mem0 used0 size0 a0 argn buffer nul).1.ibuffer_size ≤ a) →
      (dbx_ibuffer_add_mem key_type mem0 used0 size0 a0 argn buffer nul).1.mem a = mem0 a) ∧
    size0 ≤ (dbx_ibuffer_add_mem key_type mem0 used0 size0 a0 argn buffer nul).1.ibuffer_size ∧
    (dbx_ibuffer_add_mem key_type mem0 used0 size0 a0 argn buffer nul).1.ibuffer_used ≤
      (dbx_ibuffer_add_mem key_type mem0 used0 size0 a0 argn buffer nul).1.ibuffer_size ∧
    (dbx_ibuffer_add_mem key_type mem0 used0 size0 a0 argn buffer nul).1.arg.csize =
      (dbx_ibuffer_add_mem key_type mem0 used0 size0 a0 argn buffer nul).1.ibuffer_used := by
  obtain ⟨t1, t2, t3, t4, t5, t6, t7⟩ := add_text_bounds key_type mem0 used0 size0 a0 buffer nul
  obtain ⟨n1, n2, n3, n4, n5, _, n7⟩ := add_number_bounds key_type buffer.length
    (add_text key_type mem0 used0 size0 a0 buffer nul)
  obtain ⟨c1, c2, c3, c4, c5, c6⟩ := add_caret_bounds key_type argn buffer.length
    (add_number key_type buffer.length (add_text key_type mem0 used0 size0 a0 buffer nul))
  obtain ⟨e1, e2, e3, e4⟩ := add_empty_bounds key_type
    (add_caret key_type argn buffer.length
      (add_number key_type buffer.length (add_text key_type mem0 used0 size0 a0 buffer nul))).1
  obtain ⟨o1, o2, o3, o4⟩ := add_other_bounds key_type (add_empty key_type
    (add_caret key_type argn buffer.length
      (add_number key_type buffer.length (add_text key_type mem0 used0 size0 a0 buffer nul))).1)
  have hsize : (dbx_ibuffer_add_mem key_type mem0 used0 size0 a0 argn buffer nul).1.ibuffer_size =
      (if used0 + buffer.length + 32 > size0 then used0 + buffer.length + 32767 else size0) := by
    show (add_other _ _).ibuffer_size = _
    rw [o4, e4, c6, n7, t7]
  have hused : (dbx_ibuffer_add_mem key_type mem0 used0 size0 a0 argn buffer nul).1.ibuffer_used =
      (add_caret key_type argn buffer.length (add_number key_type buffer.length
        (add_text key_type mem0 used0 size0 a0 buffer nul))).1.ibuffer_used := by
    show (add_other _ _).ibuffer_used = _
    rw [o2, e2]
  have hlow : used0 + buffer.length + 32 ≤
      (dbx_ibuffer_add_mem key_type mem0 used0 size0 a0 argn buffer nul).1.ibuffer_size := by
    rw [hsize]; split_ifs <;> omega
  refine ⟨?_, ?_, ?_, ?_⟩
  · intro a ha
    have hb : a < used0 ∨ used0 + buffer.length + 32 ≤ a := by omega
    show (add_other _ _).mem a = _
    rw [o1]
    by_cases hk : key_type = DBX_KEYTYPE_M
    · have t2k := t2 hk
      rw [e1 a (Or.inl (by omega)), c1 a (Or.inl (by omega)), n1 a (Or.inl ⟨by omega, by omega⟩),
        t1 a (by omega)]
    · rw [e1 a (Or.inr hk), c1 a (Or.inr hk), n1 a (Or.inr hk), t1 a (by omega)]
  · rw [hsize]; split_ifs <;> omega
  · rw [hused]; omega
  · show (add_other _ _).arg.csize = _
    rw [o3, e3, hused]
    exact c5 (n5 t6)

/-! ## Claim C28: the indices of args[] for a Global Handle -/

/-- C28: the methods of a Global Handle refuse a call of `DBX_MAXARGS` (64) arguments
or more, but the fixed subscripts of the handle are not counted: in M mode the
writes of `GlobalReference` stay below index 64 of `args[]` when, and only when,
fixed subscripts and arguments of the call are fewer than 64 together. For the
handle of `^X` with 64 fixed subscripts, which `dbx_global_reset` accepts, a call
without arguments passes the check and `GlobalReference` writes `args[64]`. -/
theorem C28_fixed_subscripts_are_not_counted :
    (∀ (gx : DBXGREF) (args : List JsArg) (l : List Nat),
      mglobal_reference DBX_KEYTYPE_M gx args = Except.ok l →
      ((∀ i ∈ l, i < DBX_MAXARGS) ↔
        gx.pkey.length + (DBX_CALLBACK_FUN args).1 < DBX_MAXARGS)) ∧
    dbx_global_reset DBX_KEYTYPE_M (JsValue.str [94, 88])
        (List.replicate 64 (JsValue.int32 1)) =
      some { global := [88], pkey := List.replicate 64 (JsValue.int32 1) } ∧
    (DBX_CALLBACK_FUN []).1 = 0 ∧
    (∃ l, mglobal_reference DBX_KEYTYPE_M
        { global := [88], pkey := List.replicate 64 (JsValue.int32 1) } [] = Except.ok l ∧
      64 ∈ l ∧ ¬ (64 < DBX_MAXARGS)) := by
  refine ⟨mglobal_reference_within, by decide, by decide, ?_⟩
  refine ⟨_, rfl, ?_, by decide⟩
  decide

/-! ## Claim C30: closing the shared handle of a backend -/

/-- C30, counterexample: two connections opened one after the other on the same
backend and then both closed: `no_connections` is back to 0, but
`multiple_connections` is 1, the database has not been closed and the handle is
still marked loaded. -/
theorem C30_open_twice_never_closed :
    conn_run none [ConnOp.op_open, ConnOp.op_open, ConnOp.op_close, ConnOp.op_close] =
      some { loaded := 1, no_connections := 0, multiple_connections := 1, pdb := true,
             closed := 0 } ∧
    balanced 0 [ConnOp.op_open, ConnOp.op_open, ConnOp.op_close, ConnOp.op_close] = true := by
  decide

/-- C30, amended: after the calls of one or more connections to the same backend,
each of them opened and later closed by `dbx_close`, `no_connections` is 0 and the
database has been closed at most once; it has been closed, exactly once and with
the handle marked not loaded, when the first connection was closed before a second
one was opened, and otherwise it has not been closed and the handle is still
marked loaded. -/
theorem C30_backend_closed_when_alone (ops : List ConnOp) (hb : balanced 0 ops = true)
    (hn : ops ≠ []) :
    ∃ so, conn_run none ops = some so ∧ so.no_connections = 0 ∧ so.closed ≤ 1 ∧
      (ops.take 2 = [ConnOp.op_open, ConnOp.op_close] → so.closed = 1 ∧ so.loaded = 0) ∧
      (ops.take 2 ≠ [ConnOp.op_open, ConnOp.op_close] → so.closed = 0 ∧ so.loaded = 1) := by
  match ops, hb, hn with
  | ConnOp.op_close :: _, hb, _ => simp [balanced] at hb
  | [ConnOp.op_open], hb, _ => simp [balanced] at hb
  | ConnOp.op_open :: ConnOp.op_close :: rest, hb, _ =>
    simp only [balanced] at hb
    obtain ⟨so2, h1, h2, h3, h4⟩ := conn_run_settled rest 0
      { loaded := 0, no_connections := 0, multiple_connections := 0, pdb := true, closed := 1 }
      hb rfl (Or.inl rfl)
    refine ⟨so2, h1, h2, by rw [h4], fun _ => ⟨h4, h3⟩, fun h => absurd rfl h⟩
  | ConnOp.op_open :: ConnOp.op_open :: rest, hb, _ =>
    simp only [balanced] at hb
    obtain ⟨so2, h1, h2, h3, h4⟩ := conn_run_settled rest 2
      { loaded := 1, no_connections := 2, multiple_connections := 1, pdb := true, closed := 0 }
      hb rfl (Or.inr (le_refl _))
    refine ⟨so2, h1, h2, by rw [h4]; exact Nat.zero_le _, fun h => ?_, fun _ => ⟨h4, h3⟩⟩
    simp at h

/-- C30, witness: one connection, opened and closed. -/
theorem C30_backend_closed_when_alone_witness :
    balanced 0 [ConnOp.op_open, ConnOp.op_close] = true ∧
    [ConnOp.op_open, ConnOp.op_close] ≠ [] ∧
    ∃ so, conn_run none [ConnOp.op_open, ConnOp.op_close] = some so ∧ so.no_connections = 0 ∧
      so.closed ≤ 1 ∧
      (List.take 2 [ConnOp.op_open, ConnOp.op_close] = [ConnOp.op_open, ConnOp.op_close] →
        so.closed = 1 ∧ so.loaded = 0) ∧
      (List.take 2 [ConnOp.op_open, ConnOp.op_close] ≠ [ConnOp.op_open, ConnOp.op_close] →
        so.closed = 0 ∧ so.loaded = 1) :=
  ⟨by decide, by decide,
    C30_backend_closed_when_alone [ConnOp.op_open, ConnOp.op_close] (by decide) (by decide)⟩

end MgDbx
